import Mathlib

/-!
RoutePlanner-AStar: a shallow embedding of the map model, the ring assembler,
the routing graph and the A* search.

The C++ sources `model.cpp`, `route_model.cpp` and `route_planner.cpp` are
translated function by function.

* `float`/`double` arithmetic is idealised as exact arithmetic in a linearly
  ordered field `K` (instantiate `K := ℝ` for the real-number reading, `K := ℚ`
  to evaluate).  Library calls the sources make but do not define (`std::sqrt`,
  `std::log`, `std::tan`, `std::sort`) are the fields of `Runtime`.
* A `Node*` is the position of the node in `SNodes()`; `nullptr` is `none`.
  A `const Road*` is the position of the road in `Roads()`.
* `int` values that index a vector are natural numbers; the list handed to
  `Track` holds `Int` because `Track` overwrites used entries with `-1`.
* Unbounded `while` loops and recursion take a `fuel` argument and return
  `none` when it runs out; `none` is also the result of dereferencing a null
  `parent` or of `front()`/`back()` on an empty vector.
-/

namespace RoutePlannerAStar

/-! ## model.h -/

/-- C++ `Model::Node`: a point with `x` (longitude) and `y` (latitude). -/
structure Model.Node (K : Type) where
  x : K
  y : K
deriving DecidableEq, Repr

/-- C++ `Model::Way`: an ordered list of node indices. -/
structure Model.Way where
  nodes : List Nat
deriving DecidableEq, Repr

/-- C++ `Model::Road::Type`, in declaration order (so `Invalid` is 0, `Footway` is 9). -/
inductive Model.Road.Type where
  | Invalid | Unclassified | Service | Residential | Tertiary
  | Secondary | Primary | Trunk | Motorway | Footway
deriving DecidableEq, Repr

/-- C++ `static_cast<int>(type)`. -/
def Model.Road.Type.toInt : Model.Road.Type → Nat
  | .Invalid => 0 | .Unclassified => 1 | .Service => 2 | .Residential => 3
  | .Tertiary => 4 | .Secondary => 5 | .Primary => 6 | .Trunk => 7
  | .Motorway => 8 | .Footway => 9

/-- C++ `Model::Road`. -/
structure Model.Road where
  way : Nat
  type : Model.Road.Type
deriving DecidableEq, Repr

/-- C++ `Model::Railway`. -/
structure Model.Railway where
  way : Nat
deriving DecidableEq, Repr

/-- C++ `Model::Multipolygon` (also `Building`, `Leisure`, `Water`). -/
structure Model.Multipolygon where
  outer : List Nat
  inner : List Nat
deriving DecidableEq, Repr

/-- C++ `Model::Landuse::Type`. -/
inductive Model.Landuse.Type where
  | Invalid | Commercial | Construction | Grass | Forest
  | Industrial | Railway | Residential
deriving DecidableEq, Repr

/-- C++ `Model::Landuse`: a multipolygon with a type. -/
structure Model.Landuse extends Model.Multipolygon where
  type : Model.Landuse.Type
deriving DecidableEq, Repr

/-- The data members of `class Model`. -/
structure Model (K : Type) where
  m_Nodes : List (Model.Node K)
  m_Ways : List Model.Way
  m_Roads : List Model.Road
  m_Railways : List Model.Railway
  m_Buildings : List Model.Multipolygon
  m_Leisures : List Model.Multipolygon
  m_Waters : List Model.Multipolygon
  m_Landuses : List Model.Landuse
  m_MinLat : K
  m_MaxLat : K
  m_MinLon : K
  m_MaxLon : K
  m_MetricScale : K

/-- The member initialisers of `class Model`: empty collections, zero bounds,
metric scale 1. -/
def Model.empty {K : Type} [LinearOrderedField K] : Model K :=
  { m_Nodes := [], m_Ways := [], m_Roads := [], m_Railways := [], m_Buildings := [],
    m_Leisures := [], m_Waters := [], m_Landuses := [],
    m_MinLat := 0, m_MaxLat := 0, m_MinLon := 0, m_MaxLon := 0, m_MetricScale := 1 }

/-! ## Runtime library -/

/-- What `std::sort` requires of its comparator, a strict weak ordering: no
element comes before itself, "comes before" is transitive, and so is "does not
come before". -/
def StrictWeakOrdering {α : Type} (cmp : α → α → Bool) : Prop :=
  (∀ a, cmp a a = false)
  ∧ (∀ a b c, cmp a b = true → cmp b c = true → cmp a c = true)
  ∧ (∀ a b c, cmp a b = false → cmp b c = false → cmp a c = false)

/-- Library operations used by the sources: `std::sqrt`, `std::log`, `std::tan`,
`std::stod` (`none` when it throws), and `std::sort`, once on the open list (a
vector of node pointers) and once on the road vector.  `std::sort` returns a
permutation of its input, in which, when the comparator is a strict weak
ordering, no element comes before an earlier one; it is not known to be
stable.  `reallocates n` tells whether `emplace_back` on a `std::vector` that
was filled by `n` calls of `emplace_back` moves the elements to new storage
(the vector is full); the C++ standard leaves the growth of the capacity to the
library. -/
structure Runtime (K : Type) where
  sqrt : K → K
  log : K → K
  tan : K → K
  stod : String → Option K
  reallocates : Nat → Bool
  sort : (Nat → Nat → Bool) → List Nat → List Nat
  sort_perm : ∀ (cmp : Nat → Nat → Bool) (l : List Nat), (sort cmp l).Perm l
  sort_sorted : ∀ (cmp : Nat → Nat → Bool) (l : List Nat), StrictWeakOrdering cmp →
    (sort cmp l).Pairwise (fun a b => cmp b a = false)
  sortRoads : (Model.Road → Model.Road → Bool) → List Model.Road → List Model.Road
  sortRoads_perm : ∀ (cmp : Model.Road → Model.Road → Bool) (l : List Model.Road),
    (sortRoads cmp l).Perm l
  sortRoads_sorted : ∀ (cmp : Model.Road → Model.Road → Bool) (l : List Model.Road),
    StrictWeakOrdering cmp → (sortRoads cmp l).Pairwise (fun a b => cmp b a = false)

/-- C++ `std::numeric_limits<float>::max()`, the number `(2^24 - 1) * 2^104`. -/
def FLT_MAX {K : Type} [LinearOrderedField K] : K := (2 ^ 24 - 1) * 2 ^ 104

/-! ## The element tree handed over by the XML parser -/

/-- An element of the parsed document: name, attributes, children in document
order.  The parser itself (pugixml) is outside the repository. -/
inductive XmlNode where
  | mk (name : String) (attrs : List (String × String)) (children : List XmlNode)

/-- C++ `xml_node::name()`. -/
def XmlNode.name : XmlNode → String
  | .mk n _ _ => n

/-- C++ `xml_node::children()`. -/
def XmlNode.children : XmlNode → List XmlNode
  | .mk _ _ c => c

/-- C++ `node.attribute(k).as_string()`: the empty string when the attribute is
missing. -/
def XmlNode.attribute : XmlNode → String → String
  | .mk _ attrs _, k => (attrs.lookup k).getD ""

/-- C++ `doc.select_nodes("/osm/<name>")`: the children called `name` of the
top-level `osm` elements, in document order. -/
def XmlNode.select_nodes (doc : XmlNode) (name : String) : List XmlNode :=
  ((doc.children.filter (fun e => e.name = "osm")).map
    (fun osm => osm.children.filter (fun e => e.name = name))).flatten

/-! ## model.cpp -/

/-- C++ `String2RoadType`. -/
def String2RoadType (type : String) : Model.Road.Type :=
  if type = "motorway" then .Motorway
  else if type = "trunk" then .Trunk
  else if type = "primary" then .Primary
  else if type = "secondary" then .Secondary
  else if type = "tertiary" then .Tertiary
  else if type = "residential" then .Residential
  else if type = "living_street" then .Residential
  else if type = "service" then .Service
  else if type = "unclassified" then .Unclassified
  else if type = "footway" then .Footway
  else if type = "bridleway" then .Footway
  else if type = "steps" then .Footway
  else if type = "path" then .Footway
  else if type = "pedestrian" then .Footway
  else .Invalid

/-- C++ `String2LanduseType`. -/
def String2LanduseType (type : String) : Model.Landuse.Type :=
  if type = "commercial" then .Commercial
  else if type = "construction" then .Construction
  else if type = "grass" then .Grass
  else if type = "forest" then .Forest
  else if type = "industrial" then .Industrial
  else if type = "railway" then .Railway
  else if type = "residential" then .Residential
  else .Invalid

/-- C++ `ways[w]` through the raw pointer `const Model::Way* ways`; `none` outside
the array. -/
def wayAt (ways : List Model.Way) (w : Int) : Option Model.Way :=
  if 0 ≤ w then ways[w.toNat]? else none

/-- C++ `nodes.resize(len)`: cut to `len` elements, or pad with zeros. -/
def resize (nodes : List Nat) (len : Nat) : List Nat :=
  nodes.take len ++ List.replicate (len - nodes.length) 0

/-- The result of a `TrackRec` call: the returned flag and the two vectors it
works on by reference, `used` and `nodes`. -/
abbrev TrackState := Bool × List Bool × List Nat

/-- The `for` loop of `TrackRec` in the branch `nodes.empty()`, over the
remaining indices `i`; `rec` is the recursive call. -/
def TrackRec.startLoop (rec : List Bool → List Nat → Option TrackState)
    (open_ways : List Int) (ways : List Model.Way) :
    List Nat → List Bool → List Nat → Option TrackState
  | [], used, nodes => some (false, used, nodes)
  | i :: rest, used, nodes =>
    if used.getD i false = false then
      let used1 := used.set i true
      match wayAt ways (open_ways.getD i 0) with
      | none => none
      | some way =>
        match rec used1 way.nodes with
        | none => none
        | some (true, used2, nodes2) => some (true, used2, nodes2)
        | some (false, used2, _) =>
          TrackRec.startLoop rec open_ways ways rest (used2.set i false) []
    else TrackRec.startLoop rec open_ways ways rest used nodes

/-- The `for` loop of `TrackRec` in the branch where `nodes` is not empty and
ends in `tail`, over the remaining indices `i`; `rec` is the recursive call. -/
def TrackRec.extendLoop (rec : List Bool → List Nat → Option TrackState)
    (open_ways : List Int) (ways : List Model.Way) (tail : Nat) :
    List Nat → List Bool → List Nat → Option TrackState
  | [], used, nodes => some (false, used, nodes)
  | i :: rest, used, nodes =>
    if used.getD i false = false then
      match wayAt ways (open_ways.getD i 0) with
      | none => none
      | some way =>
        match way.nodes.head?, way.nodes.getLast? with
        | some way_head, some way_tail =>
          if way_head = tail ∨ way_tail = tail then
            let used1 := used.set i true
            let len := nodes.length
            let nodes1 := if way_head = tail then nodes ++ way.nodes
              else nodes ++ way.nodes.reverse
            match rec used1 nodes1 with
            | none => none
            | some (true, used2, nodes2) => some (true, used2, nodes2)
            | some (false, used2, nodes2) =>
              TrackRec.extendLoop rec open_ways ways tail rest (used2.set i false)
                (resize nodes2 len)
          else TrackRec.extendLoop rec open_ways ways tail rest used nodes
        | _, _ => none
    else TrackRec.extendLoop rec open_ways ways tail rest used nodes

/-- C++ `TrackRec`: the backtracking search for a closing chain.  The recursion
depth is bounded by `fuel`. -/
def TrackRec (open_ways : List Int) (ways : List Model.Way) :
    Nat → List Bool → List Nat → Option TrackState
  | 0, _, _ => none
  | fuel + 1, used, nodes =>
    match nodes.head?, nodes.getLast? with
    | some head, some tail =>
      if head = tail ∧ nodes.length > 1 then some (true, used, nodes)
      else
        TrackRec.extendLoop (fun u n => TrackRec open_ways ways fuel u n) open_ways ways tail
          (List.range open_ways.length) used nodes
    | _, _ =>
      TrackRec.startLoop (fun u n => TrackRec open_ways ways fuel u n) open_ways ways
        (List.range open_ways.length) used nodes

/-- The loop of `Track` that overwrites the used entries of `open_ways` with
`-1`. -/
def Track.mark (used : List Bool) (open_ways : List Int) : List Int :=
  (List.range open_ways.length).foldl
    (fun ow i => if used.getD i false = true then ow.set i (-1) else ow) open_ways

/-- C++ `Track`: returns `nodes` and the updated `open_ways`.  The recursion of
`TrackRec` sets one more `used` flag per level, so it gets
`open_ways.size() + 1` levels. -/
def Track (open_ways : List Int) (ways : List Model.Way) : Option (List Nat × List Int) :=
  let used := List.replicate open_ways.length false
  match TrackRec open_ways ways (open_ways.length + 1) used [] with
  | none => none
  | some (true, used1, nodes) => some (nodes, Track.mark used1 open_ways)
  | some (false, _, nodes) => some (nodes, open_ways)

/-- The lambda `is_closed` of `BuildRings`. -/
def is_closed (way : Model.Way) : Bool :=
  decide (way.nodes.length > 1) && (way.nodes.head? == way.nodes.getLast?)

/-- The first loop of `process`: split `ways_nums` into `closed` and `open`. -/
def BuildRings.split (ways : List Model.Way) :
    List Nat → List Nat → List Int → Option (List Nat × List Int)
  | [], closed, opn => some (closed, opn)
  | way_num :: rest, closed, opn =>
    match ways[way_num]? with
    | none => none
    | some way =>
      if is_closed way then BuildRings.split ways rest (closed ++ [way_num]) opn
      else BuildRings.split ways rest closed (opn ++ [(way_num : Int)])

/-- Whether the pointer `ways = m_Ways.data()`, taken when the table held
`taken` segments, dangles when the table holds `size` segments: one of the
calls of `m_Ways.emplace_back` made since then has reallocated the table. -/
def BuildRings.dangling (reallocates : Nat → Bool) (taken size : Nat) : Bool :=
  (List.range' taken (size - taken)).any reallocates

/-- The `while (!open.empty())` loop of `process`.  `ways` is what the pointer
taken before the loop points at, the table at that time, and `m_Ways` the vector
that grows.  Once an `emplace_back` has reallocated the vector the pointer
dangles, and the next `Track(open, ways)`, which reads through it, has no
defined result (`none`). -/
def BuildRings.loop (reallocates : Nat → Bool) (ways : List Model.Way) :
    Nat → List Model.Way → List Nat → List Int → Option (List Model.Way × List Nat)
  | 0, _, _, _ => none
  | fuel + 1, m_Ways, closed, opn =>
    if opn.isEmpty then some (m_Ways, closed)
    else if BuildRings.dangling reallocates ways.length m_Ways.length then none
    else
      match Track opn ways with
      | none => none
      | some (new_nodes, opn1) =>
        if new_nodes.isEmpty then some (m_Ways, closed)
        else
          BuildRings.loop reallocates ways fuel (m_Ways ++ [⟨new_nodes⟩])
            (closed ++ [m_Ways.length]) (opn1.filter (fun v => ¬ v < 0))

/-- The lambda `process` of `BuildRings` on one list: returns the grown way
table and the list that replaces `ways_nums`.  Every successful `Track` removes
an entry of `open`, so the loop gets `open.size() + 1` rounds.  The pointer
`ways` is taken anew by every call of `process`. -/
def BuildRings.process (reallocates : Nat → Bool) (m_Ways : List Model.Way)
    (ways_nums : List Nat) : Option (List Model.Way × List Nat) :=
  let ways := m_Ways
  match BuildRings.split ways ways_nums [] [] with
  | none => none
  | some (closed, opn) => BuildRings.loop reallocates ways (opn.length + 1) m_Ways closed opn

/-- C++ `Model::BuildRings`: `process(mp.outer)` then `process(mp.inner)`. -/
def BuildRings (reallocates : Nat → Bool) (m_Ways : List Model.Way)
    (mp : Model.Multipolygon) : Option (List Model.Way × Model.Multipolygon) :=
  match BuildRings.process reallocates m_Ways mp.outer with
  | none => none
  | some (m_Ways1, outer) =>
    match BuildRings.process reallocates m_Ways1 mp.inner with
    | none => none
    | some (m_Ways2, inner) => some (m_Ways2, { outer := outer, inner := inner })

/-- The body of the loop over the children of a `way` element in `LoadData`:
an `nd` child appends the index of a known point to the new way, a `tag`
child may add the way to one collection. -/
def LoadData.wayChild {K : Type} (node_id_to_num : List (String × Nat)) (way_num : Nat)
    (m : Model K) (child : XmlNode) : Model K :=
  let name := child.name
  if name = "nd" then
    let ref := child.attribute "ref"
    match node_id_to_num.lookup ref with
    | some num => { m with m_Ways := m.m_Ways.modify (fun w => ⟨w.nodes ++ [num]⟩) way_num }
    | none => m
  else if name = "tag" then
    let category := child.attribute "k"
    let type := child.attribute "v"
    if category = "highway" then
      let road_type := String2RoadType type
      if road_type ≠ Model.Road.Type.Invalid then
        { m with m_Roads := m.m_Roads ++ [⟨way_num, road_type⟩] }
      else m
    else if category = "railway" then
      { m with m_Railways := m.m_Railways ++ [⟨way_num⟩] }
    else if category = "building" then
      { m with m_Buildings := m.m_Buildings ++ [⟨[way_num], []⟩] }
    else if category = "leisure"
        ∨ (category = "natural"
            ∧ (type = "wood" ∨ type = "tree_row" ∨ type = "scrub" ∨ type = "grassland"))
        ∨ (category = "landcover" ∧ type = "grass") then
      { m with m_Leisures := m.m_Leisures ++ [⟨[way_num], []⟩] }
    else if category = "natural" ∧ type = "water" then
      { m with m_Waters := m.m_Waters ++ [⟨[way_num], []⟩] }
    else if category = "landuse" then
      let landuse_type := String2LanduseType type
      if landuse_type ≠ Model.Landuse.Type.Invalid then
        { m with m_Landuses := m.m_Landuses ++ [⟨⟨[way_num], []⟩, landuse_type⟩] }
      else m
    else m
  else m

/-- One round of the loop over `/osm/way` in `LoadData`: register the
identifier, append an empty way, then walk the children. -/
def LoadData.way {K : Type} (node_id_to_num : List (String × Nat))
    (acc : List (String × Nat) × Model K) (node : XmlNode) : List (String × Nat) × Model K :=
  let way_num := acc.2.m_Ways.length
  let way_id_to_num := (node.attribute "id", way_num) :: acc.1
  let m := { acc.2 with m_Ways := acc.2.m_Ways ++ [⟨[]⟩] }
  (way_id_to_num, node.children.foldl (LoadData.wayChild node_id_to_num way_num) m)

/-- One round of the loop over `/osm/node` in `LoadData`; `none` when
`std::stod` throws. -/
def LoadData.node {K : Type} (rt : Runtime K)
    (acc : Option (List (String × Nat) × Model K)) (node : XmlNode) :
    Option (List (String × Nat) × Model K) :=
  match acc with
  | none => none
  | some (node_id_to_num, m) =>
    match rt.stod (node.attribute "lat"), rt.stod (node.attribute "lon") with
    | some lat, some lon =>
      some ((node.attribute "id", m.m_Nodes.length) :: node_id_to_num,
        { m with m_Nodes := m.m_Nodes ++ [⟨lon, lat⟩] })
    | _, _ => none

/-- The loop over the children of a `relation` element in `LoadData`, with the
vectors `outer` and `inner` collected so far.  `none` when `BuildRings` has no
defined result. -/
def LoadData.relationChildren {K : Type} (reallocates : Nat → Bool)
    (way_id_to_num : List (String × Nat)) :
    List XmlNode → List Nat → List Nat → Model K → Option (Model K)
  | [], _, _, m => some m
  | child :: rest, outer, inner, m =>
    let name := child.name
    if name = "member" then
      if child.attribute "type" = "way" then
        match way_id_to_num.lookup (child.attribute "ref") with
        | none => LoadData.relationChildren reallocates way_id_to_num rest outer inner m
        | some way_num =>
          if child.attribute "role" = "outer" then
            LoadData.relationChildren reallocates way_id_to_num rest (outer ++ [way_num]) inner m
          else
            LoadData.relationChildren reallocates way_id_to_num rest outer (inner ++ [way_num]) m
      else LoadData.relationChildren reallocates way_id_to_num rest outer inner m
    else if name = "tag" then
      let category := child.attribute "k"
      let type := child.attribute "v"
      if category = "building" then
        some { m with m_Buildings := m.m_Buildings ++ [⟨outer, inner⟩] }
      else if category = "natural" ∧ type = "water" then
        match BuildRings reallocates m.m_Ways ⟨outer, inner⟩ with
        | none => none
        | some (m_Ways, mp) => some { m with m_Ways := m_Ways, m_Waters := m.m_Waters ++ [mp] }
      else if category = "landuse" then
        let landuse_type := String2LanduseType type
        if landuse_type ≠ Model.Landuse.Type.Invalid then
          match BuildRings reallocates m.m_Ways ⟨outer, inner⟩ with
          | none => none
          | some (m_Ways, mp) =>
            some { m with m_Ways := m_Ways, m_Landuses := m.m_Landuses ++ [⟨mp, landuse_type⟩] }
        else some m
      else LoadData.relationChildren reallocates way_id_to_num rest outer inner m
    else LoadData.relationChildren reallocates way_id_to_num rest outer inner m

/-- C++ `Model::LoadData` on the parsed document, starting from the default
members.  The error strings are those of the `throw` statements; `stod` and an
undefined `BuildRings` are reported as errors of their own. -/
def LoadData {K : Type} [LinearOrderedField K] (rt : Runtime K) (doc : XmlNode) :
    Except String (Model K) :=
  match doc.select_nodes "bounds" with
  | [] => .error "Map bounds are not defined in the XML file."
  | node :: _ =>
    match rt.stod (node.attribute "minlat"), rt.stod (node.attribute "maxlat"),
        rt.stod (node.attribute "minlon"), rt.stod (node.attribute "maxlon") with
    | some minlat, some maxlat, some minlon, some maxlon =>
      let m0 : Model K := { (Model.empty : Model K) with
        m_MinLat := minlat, m_MaxLat := maxlat, m_MinLon := minlon, m_MaxLon := maxlon }
      match (doc.select_nodes "node").foldl (LoadData.node rt) (some ([], m0)) with
      | none => .error "stod"
      | some (node_id_to_num, m1) =>
        let (way_id_to_num, m2) :=
          (doc.select_nodes "way").foldl (LoadData.way node_id_to_num) ([], m1)
        (doc.select_nodes "relation").foldl
          (fun acc relation =>
            match acc with
            | .error e => .error e
            | .ok m =>
              match LoadData.relationChildren rt.reallocates way_id_to_num relation.children
                  [] [] m with
              | none => .error "BuildRings"
              | some m3 => .ok m3)
          (.ok m2)
    | _, _, _, _ => .error "stod"

/-- C++ `Model::AdjustCoordinates`. -/
def AdjustCoordinates {K : Type} [LinearOrderedField K] (rt : Runtime K) (m : Model K) :
    Model K :=
  let pi : K := 3.14159265358979323846264338327950288
  let deg_to_rad : K := 2 * pi / 360
  let earth_radius : K := 6378137
  let lat2ym := fun (lat : K) => rt.log (rt.tan (lat * deg_to_rad / 2 + pi / 4)) / 2 * earth_radius
  let lon2xm := fun (lon : K) => lon * deg_to_rad / 2 * earth_radius
  let dx := lon2xm m.m_MaxLon - lon2xm m.m_MinLon
  let dy := lat2ym m.m_MaxLat - lat2ym m.m_MinLat
  let min_y := lat2ym m.m_MinLat
  let min_x := lon2xm m.m_MinLon
  let m_MetricScale := min dx dy
  let adjust := fun (node : Model.Node K) =>
    let x := (lon2xm node.x - min_x) / m_MetricScale
    let y := (lat2ym node.y - min_y) / m_MetricScale
    ({ x := x, y := y } : Model.Node K)
  { m with m_MetricScale := m_MetricScale, m_Nodes := m.m_Nodes.map adjust }

/-- C++ `Model::Model`: `LoadData`, `AdjustCoordinates`, then `std::sort` of the
roads with the comparator `int(first.type) < int(second.type)`. -/
def Model.new {K : Type} [LinearOrderedField K] (rt : Runtime K) (doc : XmlNode) :
    Except String (Model K) :=
  match LoadData rt doc with
  | .error e => .error e
  | .ok m =>
    let m1 := AdjustCoordinates rt m
    let sorted := rt.sortRoads
      (fun first second => decide (first.type.toInt < second.type.toInt)) m1.m_Roads
    .ok { m1 with m_Roads := sorted }

/-! ## route_model.h -/

/-- C++ `RouteModel::Node`: a `Model::Node` with the search state.  The
`parent_model` back pointer is replaced by passing the model explicitly. -/
structure RouteModel.Node (K : Type) where
  x : K
  y : K
  parent : Option Nat
  h_value : K
  g_value : K
  visited : Bool
  neighbors : List Nat
  index : Nat
deriving DecidableEq, Repr

/-- C++ `Node() = default` over a default `Model::Node`; `index` is uninitialised
in the source and read as 0 here. -/
def RouteModel.Node.default {K : Type} [LinearOrderedField K] : RouteModel.Node K :=
  { x := 0, y := 0, parent := none, h_value := FLT_MAX, g_value := 0,
    visited := false, neighbors := [], index := 0 }

/-- C++ `Node(int idx, RouteModel* search_model, const Model::Node& node)`. -/
def RouteModel.Node.ofModelNode {K : Type} [LinearOrderedField K] (idx : Nat)
    (node : Model.Node K) : RouteModel.Node K :=
  { RouteModel.Node.default with x := node.x, y := node.y, index := idx }

/-- C++ `RouteModel::Node::distance`:
`std::sqrt(std::pow((x - other.x), 2) + std::pow((y - other.y), 2))`. -/
def RouteModel.Node.distance {K : Type} [LinearOrderedField K] (rt : Runtime K)
    (self other : RouteModel.Node K) : K :=
  rt.sqrt ((self.x - other.x) ^ 2 + (self.y - other.y) ^ 2)

/-- The data members of `class RouteModel : public Model`.  `node_to_road` is
the `unordered_map<int, vector<const Model::Road*>>` as an association list
from node index to road positions. -/
structure RouteModel (K : Type) extends Model K where
  SNodes : List (RouteModel.Node K)
  node_to_road : List (Nat × List Nat)
  path : List (RouteModel.Node K)

/-- C++ `SNodes()[i]`; an index outside the vector (undefined in the source, never
produced by `LoadData`) reads a default node. -/
def RouteModel.node {K : Type} [LinearOrderedField K] (m : RouteModel K) (i : Nat) :
    RouteModel.Node K :=
  m.SNodes.getD i RouteModel.Node.default

/-- Assignment through a `Node*`: replace the node at position `i`. -/
def RouteModel.setNode {K : Type} (m : RouteModel K) (i : Nat) (n : RouteModel.Node K) :
    RouteModel K :=
  { m with SNodes := m.SNodes.set i n }

/-- C++ `Ways()[w].nodes`; an index outside the vector reads an empty way. -/
def Model.wayNodes {K : Type} (m : Model K) (w : Nat) : List Nat :=
  (m.m_Ways.getD w ⟨[]⟩).nodes

/-- C++ `node_to_road[idx]` read access: a missing key reads as the empty vector
(`operator[]` default-constructs it). -/
def RouteModel.roadsOf {K : Type} (m : RouteModel K) (idx : Nat) : List Nat :=
  (m.node_to_road.lookup idx).getD []

/-! ## route_model.cpp -/

/-- C++ `node_to_road[node_idx].push_back(&road)` on the association list, creating
the entry when the key is new. -/
def pushRoad (tbl : List (Nat × List Nat)) (node_idx : Nat) (road : Nat) :
    List (Nat × List Nat) :=
  match tbl.lookup node_idx with
  | none => tbl ++ [(node_idx, [road])]
  | some _ => tbl.map (fun e => if e.1 = node_idx then (e.1, e.2 ++ [road]) else e)

/-- C++ `RouteModel::CreateNodeToRoadHashmap`: for every road that is not a footway
and every node index of its way, append the road to that node's entry. -/
def CreateNodeToRoadHashmap {K : Type} (m : RouteModel K) : RouteModel K :=
  let tbl := (List.range m.m_Roads.length).foldl
    (fun tbl r =>
      match m.m_Roads.get? r with
      | none => tbl
      | some road =>
        if road.type ≠ Model.Road.Type.Footway then
          (m.toModel.wayNodes road.way).foldl (fun t node_idx => pushRoad t node_idx r) tbl
        else tbl)
    m.node_to_road
  { m with node_to_road := tbl }

/-- C++ `RouteModel::RouteModel` after the `Model` base is built: one routing node
per model node, numbered by a counter, then the node-to-road index. -/
def RouteModel.ofModel {K : Type} [LinearOrderedField K] (m : Model K) : RouteModel K :=
  CreateNodeToRoadHashmap
    { toModel := m
      SNodes := (List.range m.m_Nodes.length).zipWith RouteModel.Node.ofModelNode m.m_Nodes
      node_to_road := []
      path := [] }

/-- C++ `RouteModel::Node::FindNeighbor` called on the node at position `self`:
scan `node_indices`, keep the closest node that has non-zero distance and is
not visited; a later node replaces the kept one only when strictly closer. -/
def FindNeighbor {K : Type} [LinearOrderedField K] (rt : Runtime K) (m : RouteModel K)
    (self : Nat) (node_indices : List Nat) : Option Nat :=
  node_indices.foldl
    (fun closest_node node_index =>
      let node := m.node node_index
      if (m.node self).distance rt node ≠ 0 ∧ node.visited = false then
        match closest_node with
        | none => some node_index
        | some c =>
          if (m.node self).distance rt node < (m.node self).distance rt (m.node c) then
            some node_index
          else some c
      else closest_node)
    none

/-- C++ `RouteModel::Node::FindNeighbors` called on the node at position `self`:
for every road of `node_to_road[this->index]`, append the neighbor found on
that road (if any) to `this->neighbors`. -/
def FindNeighbors {K : Type} [LinearOrderedField K] (rt : Runtime K) (m : RouteModel K)
    (self : Nat) : RouteModel K :=
  (m.roadsOf (m.node self).index).foldl
    (fun m road =>
      match FindNeighbor rt m self (m.toModel.wayNodes ((m.m_Roads.getD road ⟨0, .Invalid⟩).way)) with
      | some new_neighbor =>
        m.setNode self { m.node self with neighbors := (m.node self).neighbors ++ [new_neighbor] }
      | none => m)
    m

/-- C++ `RouteModel::FindClosestNode`: the running pair `(min_dist, closest_idx)`
starts at `(FLT_MAX, 0)` and is replaced by a road node only when that node is
strictly closer. -/
def FindClosestNode {K : Type} [LinearOrderedField K] (rt : Runtime K) (m : RouteModel K)
    (x y : K) : Nat :=
  let input : RouteModel.Node K := { RouteModel.Node.default with x := x, y := y }
  (m.m_Roads.foldl
    (fun acc road =>
      if road.type ≠ Model.Road.Type.Footway then
        (m.toModel.wayNodes road.way).foldl
          (fun (acc : K × Nat) node_idx =>
            let dist := input.distance rt (m.node node_idx)
            if dist < acc.1 then (dist, node_idx) else acc)
          acc
      else acc)
    ((FLT_MAX : K), 0)).2

/-! ## route_planner.h / route_planner.cpp -/

/-- The data members of `class RoutePlanner`; the reference `m_Model` is the
model value the planner works on. -/
structure RoutePlanner (K : Type) where
  open_list : List Nat
  start_node : Nat
  end_node : Nat
  distance : K
  m_Model : RouteModel K

/-- C++ `RoutePlanner::RoutePlanner`: scale the inputs by `0.01f` and snap both
points with `FindClosestNode`; `open_list` starts empty and `distance` 0. -/
def RoutePlanner.new {K : Type} [LinearOrderedField K] (rt : Runtime K) (model : RouteModel K)
    (start_x start_y end_x end_y : K) : RoutePlanner K :=
  let start_x := start_x * (1 / 100)
  let start_y := start_y * (1 / 100)
  let end_x := end_x * (1 / 100)
  let end_y := end_y * (1 / 100)
  { m_Model := model
    open_list := []
    distance := 0
    start_node := FindClosestNode rt model start_x start_y
    end_node := FindClosestNode rt model end_x end_y }

/-- Read a node through the planner's model reference. -/
def RoutePlanner.node {K : Type} [LinearOrderedField K] (p : RoutePlanner K) (i : Nat) :
    RouteModel.Node K :=
  p.m_Model.node i

/-- Write a node through the planner's model reference. -/
def RoutePlanner.setNode {K : Type} (p : RoutePlanner K) (i : Nat) (n : RouteModel.Node K) :
    RoutePlanner K :=
  { p with m_Model := p.m_Model.setNode i n }

/-- C++ `RoutePlanner::GetDistance`. -/
def RoutePlanner.GetDistance {K : Type} (p : RoutePlanner K) : K := p.distance

/-- C++ `RoutePlanner::CalculateHValue`: `node->distance(*this->end_node)`. -/
def CalculateHValue {K : Type} [LinearOrderedField K] (rt : Runtime K) (p : RoutePlanner K)
    (node : Nat) : K :=
  (p.node node).distance rt (p.node p.end_node)

/-- One pass of the body of the `for` loop in `AddNeighbors`: the four
assignments through `neighbor`, then `open_list.emplace_back(neighbor)`. -/
def AddNeighbors.visit {K : Type} [LinearOrderedField K] (rt : Runtime K) (current_node : Nat)
    (p : RoutePlanner K) (neighbor : Nat) : RoutePlanner K :=
  let p1 := p.setNode neighbor { p.node neighbor with parent := some current_node }
  let p2 := p1.setNode neighbor { p1.node neighbor with
    g_value := (p1.node current_node).g_value
      + (p1.node neighbor).distance rt (p1.node current_node) }
  let p3 := p2.setNode neighbor { p2.node neighbor with h_value := CalculateHValue rt p2 neighbor }
  let p4 := p3.setNode neighbor { p3.node neighbor with visited := true }
  { p4 with open_list := p4.open_list ++ [neighbor] }

/-- C++ `RoutePlanner::AddNeighbors`: run `FindNeighbors` on the current node, then
walk its whole `neighbors` vector. -/
def AddNeighbors {K : Type} [LinearOrderedField K] (rt : Runtime K) (p : RoutePlanner K)
    (current_node : Nat) : RoutePlanner K :=
  let p1 := { p with m_Model := FindNeighbors rt p.m_Model current_node }
  (p1.node current_node).neighbors.foldl (AddNeighbors.visit rt current_node) p1

/-- C++ `RoutePlanner::NextNode`: sort the open list with the comparator
`h1 + g1 > h2 + g2`, take `back()` and `pop_back()`; `none` stands for `back()`
on an empty vector. -/
def NextNode {K : Type} [LinearOrderedField K] (rt : Runtime K) (p : RoutePlanner K) :
    Option (Nat × RoutePlanner K) :=
  let sorted := rt.sort
    (fun v1 v2 => decide ((p.node v1).h_value + (p.node v1).g_value
        > (p.node v2).h_value + (p.node v2).g_value))
    p.open_list
  match sorted.getLast? with
  | none => none
  | some next_node => some (next_node, { p with open_list := sorted.dropLast })

/-- The `while (current_node != this->start_node)` loop of `ConstructFinalPath`;
`none` when a `parent` is null or the fuel runs out. -/
def ConstructFinalPath.loop {K : Type} [LinearOrderedField K] (rt : Runtime K)
    (p : RoutePlanner K) :
    Nat → Nat → List (RouteModel.Node K) → K → Option (List (RouteModel.Node K) × K)
  | 0, _, _, _ => none
  | fuel + 1, current_node, path_found, distance =>
    if current_node ≠ p.start_node then
      match (p.node current_node).parent with
      | none => none
      | some parent =>
        ConstructFinalPath.loop rt p fuel parent
          (path_found ++ [p.node current_node])
          (distance + (p.node current_node).distance rt (p.node parent))
    else some (path_found, distance)

/-- C++ `RoutePlanner::ConstructFinalPath`: returns the path and the planner with
its `distance` member updated. -/
def ConstructFinalPath {K : Type} [LinearOrderedField K] (rt : Runtime K) (fuel : Nat)
    (p : RoutePlanner K) (current_node : Nat) :
    Option (List (RouteModel.Node K) × RoutePlanner K) :=
  match ConstructFinalPath.loop rt p fuel current_node [] 0 with
  | none => none
  | some (path_found, distance) =>
    let path_found := path_found ++ [p.node p.start_node]
    let path_found := path_found.reverse
    some (path_found, { p with distance := distance * p.m_Model.m_MetricScale })

/-- The `while (!open_list.empty())` loop of `AStarSearch` up to the point where
it stops: `(p, none)` when the open list is empty, `(p, some n)` when `NextNode`
returned a node `n` with the coordinates of the end node (the `break` branch,
before `ConstructFinalPath` runs). -/
def AStarSearch.loop {K : Type} [LinearOrderedField K] (rt : Runtime K) :
    Nat → RoutePlanner K → Option (RoutePlanner K × Option Nat)
  | 0, _ => none
  | fuel + 1, p =>
    if p.open_list.isEmpty then some (p, none)
    else
      match NextNode rt p with
      | none => none
      | some (current_node, p1) =>
        if (p1.node current_node).x = (p1.node p1.end_node).x
            ∧ (p1.node current_node).y = (p1.node p1.end_node).y then
          some (p1, some current_node)
        else AStarSearch.loop rt fuel (AddNeighbors rt p1 current_node)

/-- The two statements before the loop of `AStarSearch`: mark the start node
visited and push it on the open list. -/
def AStarSearch.init {K : Type} [LinearOrderedField K] (p : RoutePlanner K) : RoutePlanner K :=
  let p1 := p.setNode p.start_node { p.node p.start_node with visited := true }
  { p1 with open_list := p1.open_list ++ [p1.start_node] }

/-- C++ `RoutePlanner::AStarSearch`: initialise, run the loop, and in the `break`
branch store the result of `ConstructFinalPath` in `m_Model.path`. -/
def AStarSearch {K : Type} [LinearOrderedField K] (rt : Runtime K) (fuel : Nat)
    (p : RoutePlanner K) : Option (RoutePlanner K) :=
  match AStarSearch.loop rt fuel (AStarSearch.init p) with
  | none => none
  | some (p1, none) => some p1
  | some (p1, some current_node) =>
    match ConstructFinalPath rt fuel p1 current_node with
    | none => none
    | some (path, p2) => some { p2 with m_Model := { p2.m_Model with path := path } }

/-- The nodes on which the loop of `AStarSearch` calls `AddNeighbors`, in order
(a trace of the same loop, used to speak about expanded nodes). -/
def AStarSearch.expanded {K : Type} [LinearOrderedField K] (rt : Runtime K) :
    Nat → RoutePlanner K → List Nat
  | 0, _ => []
  | fuel + 1, p =>
    if p.open_list.isEmpty then []
    else
      match NextNode rt p with
      | none => []
      | some (current_node, p1) =>
        if (p1.node current_node).x = (p1.node p1.end_node).x
            ∧ (p1.node current_node).y = (p1.node p1.end_node).y then
          []
        else current_node :: AStarSearch.expanded rt fuel (AddNeighbors rt p1 current_node)

/-! ## A concrete runtime over `ℚ` -/

/-- Insert `x` before the first element that does not compare before it. -/
def orderedInsert {α : Type} (cmp : α → α → Bool) (x : α) : List α → List α
  | [] => [x]
  | y :: ys => if cmp y x then y :: orderedInsert cmp x ys else x :: y :: ys

/-- Insertion sort with a `std::sort`-style comparator. -/
def insertionSort {α : Type} (cmp : α → α → Bool) : List α → List α
  | [] => []
  | x :: xs => orderedInsert cmp x (insertionSort cmp xs)

/-- Bitwise integer square root: with the bits `k, k-1, .., 0` still to try and
`r` fixed so far, the largest `r'` of that shape with `r' * r' ≤ n`. -/
def isqrtLoop (n : Nat) : Nat → Nat → Nat
  | 0, r => r
  | k + 1, r =>
    if (r + 2 ^ k) * (r + 2 ^ k) ≤ n then isqrtLoop n k (r + 2 ^ k) else isqrtLoop n k r

/-- A square root on `ℚ` that is exact on the squares of rationals whose
numerator and denominator are below `2 ^ 256`. -/
def qsqrt (q : ℚ) : ℚ := (isqrtLoop q.num.toNat 256 0 : ℚ) / (isqrtLoop q.den 256 0 : ℚ)

/-- Decimal parsing is outside the embedding; this `stod` accepts only the
strings "0" and "1". -/
def qstod (s : String) : Option ℚ :=
  if s = "0" then some 0 else if s = "1" then some 1 else none

theorem orderedInsert_perm {α : Type} (cmp : α → α → Bool) (x : α) (l : List α) :
    (orderedInsert cmp x l).Perm (x :: l) := by
  induction l with
  | nil => simp [orderedInsert]
  | cons y ys ih =>
    unfold orderedInsert
    split
    · exact (List.Perm.cons y ih).trans (List.Perm.swap x y ys)
    · exact List.Perm.refl _

theorem insertionSort_perm {α : Type} (cmp : α → α → Bool) (l : List α) :
    (insertionSort cmp l).Perm l := by
  induction l with
  | nil => simp [insertionSort]
  | cons x xs ih =>
    unfold insertionSort
    exact (orderedInsert_perm cmp x _).trans (List.Perm.cons x ih)

theorem orderedInsert_sorted {α : Type} (cmp : α → α → Bool) (hc : StrictWeakOrdering cmp)
    (x : α) (l : List α) (hl : l.Pairwise (fun a b => cmp b a = false)) :
    (orderedInsert cmp x l).Pairwise (fun a b => cmp b a = false) := by
  obtain ⟨hirr, htrans, hneg⟩ := hc
  induction l with
  | nil => simp [orderedInsert]
  | cons y ys ih =>
    rw [List.pairwise_cons] at hl
    unfold orderedInsert
    split
    · rename_i hyx
      rw [List.pairwise_cons]
      refine ⟨?_, ih hl.2⟩
      intro b hb
      rcases List.mem_cons.mp ((orderedInsert_perm cmp x ys).subset hb) with rfl | hb
      · cases hxy : cmp b y with
        | false => rfl
        | true =>
          have hbb := htrans _ _ _ hxy hyx
          rw [hirr b] at hbb
          cases hbb
      · exact hl.1 b hb
    · rename_i hyx
      have hyx' : cmp y x = false := by simpa using hyx
      rw [List.pairwise_cons, List.pairwise_cons]
      refine ⟨?_, hl⟩
      intro b hb
      rcases List.mem_cons.mp hb with rfl | hb
      · exact hyx'
      · exact hneg _ _ _ (hl.1 b hb) hyx'

theorem insertionSort_sorted {α : Type} (cmp : α → α → Bool) (l : List α)
    (hc : StrictWeakOrdering cmp) :
    (insertionSort cmp l).Pairwise (fun a b => cmp b a = false) := by
  induction l with
  | nil => simp [insertionSort]
  | cons x xs ih =>
    unfold insertionSort
    exact orderedInsert_sorted cmp hc x _ ih

/-- Capacity of a `std::vector` after `n` calls of `emplace_back` on an empty
vector, for a library that doubles the capacity of a full vector (libstdc++,
libc++): 0, 1, 2, 4, 4, 8, 8, 8, 8, 16, ... -/
def doublingCapacity : Nat → Nat
  | 0 => 0
  | n + 1 =>
    let c := doublingCapacity n
    if c < n + 1 then max 1 (2 * c) else c

/-- Whether `emplace_back` reallocates a vector of `n` elements under
`doublingCapacity`: the vector is full, which is so for `n` = 0, 1, 2, 4, 8,
16, ... -/
def doublingReallocates (n : Nat) : Bool :=
  doublingCapacity n == n

/-- An executable runtime over `ℚ`: exact square roots of rational squares,
insertion sort, vectors that double their capacity, and `log`, `tan` replaced by
the identity (they are only used by `AdjustCoordinates`). -/
def qRuntime : Runtime ℚ :=
  { sqrt := qsqrt, log := fun x => x, tan := fun x => x, stod := qstod,
    reallocates := doublingReallocates,
    sort := insertionSort, sort_perm := insertionSort_perm,
    sort_sorted := insertionSort_sorted,
    sortRoads := insertionSort, sortRoads_perm := insertionSort_perm,
    sortRoads_sorted := insertionSort_sorted }

/-! ## Specification-side definitions -/

/-- The use `main` makes of the planner: construct it on the model, then search. -/
def runQuery {K : Type} [LinearOrderedField K] (rt : Runtime K) (fuel : Nat)
    (model : RouteModel K) (start_x start_y end_x end_y : K) : Option (RoutePlanner K) :=
  AStarSearch rt fuel (RoutePlanner.new rt model start_x start_y end_x end_y)

/-- Two points are adjacent in the road graph when they are consecutive in the
way of a road that is not a footway. -/
def roadAdjacent {K : Type} (m : RouteModel K) (a b : Nat) : Bool :=
  m.m_Roads.any (fun road =>
    decide (road.type ≠ Model.Road.Type.Footway)
      && ((m.toModel.wayNodes road.way).zip (m.toModel.wayNodes road.way).tail).any
          (fun e => (e.1 == a && e.2 == b) || (e.1 == b && e.2 == a)))

/-- A route of the road graph: consecutive points are adjacent. -/
def isRoadRoute {K : Type} (m : RouteModel K) : List Nat → Bool
  | a :: b :: rest => roadAdjacent m a b && isRoadRoute m (b :: rest)
  | _ => true

/-- Sum of the distances between consecutive nodes of a path. -/
def pathLength {K : Type} [LinearOrderedField K] (rt : Runtime K) :
    List (RouteModel.Node K) → K
  | a :: b :: rest => a.distance rt b + pathLength rt (b :: rest)
  | _ => 0

/-- The relation `ReachesStart p n k`: following `parent` from node `n` arrives at the start
node after `k` steps, without meeting a null `parent`. -/
inductive ReachesStart {K : Type} [LinearOrderedField K] (p : RoutePlanner K) : Nat → Nat → Prop
  | start : ReachesStart p p.start_node 0
  | step {n parent k : Nat} : n ≠ p.start_node → (p.node n).parent = some parent →
      ReachesStart p parent k → ReachesStart p n (k + 1)

/-- The projection `lon2xm` of `AdjustCoordinates`. -/
def lon2xm {K : Type} [LinearOrderedField K] (lon : K) : K :=
  lon * (2 * 3.14159265358979323846264338327950288 / 360) / 2 * 6378137

/-- The projection `lat2ym` of `AdjustCoordinates`. -/
def lat2ym {K : Type} [LinearOrderedField K] (rt : Runtime K) (lat : K) : K :=
  rt.log (rt.tan (lat * (2 * 3.14159265358979323846264338327950288 / 360) / 2
    + 3.14159265358979323846264338327950288 / 4)) / 2 * 6378137

/-- Projected width of the bounds. -/
def projectedWidth {K : Type} [LinearOrderedField K] (m : Model K) : K :=
  lon2xm m.m_MaxLon - lon2xm m.m_MinLon

/-- Projected height of the bounds. -/
def projectedHeight {K : Type} [LinearOrderedField K] (rt : Runtime K) (m : Model K) : K :=
  lat2ym rt m.m_MaxLat - lat2ym rt m.m_MinLat

/-- The point list the claim describes for a line element: the indices of the
`nd` children whose `ref` is in the identifier table, in document order. -/
def knownPointRefs (node_id_to_num : List (String × Nat)) (children : List XmlNode) : List Nat :=
  (children.filter (fun c => c.name = "nd")).filterMap
    (fun c => node_id_to_num.lookup (c.attribute "ref"))

/-- The points `FindClosestNode` scans, in scan order: roads in collection
order, skipping footways, each road's way in point order. -/
def roadCandidates {K : Type} (m : RouteModel K) : List Nat :=
  ((m.m_Roads.filter (fun road => road.type ≠ Model.Road.Type.Footway)).map
    (fun road => m.toModel.wayNodes road.way)).flatten

/-- Distance from the query point `(x, y)` to the routing node `c`, as
`FindClosestNode` computes it. -/
def queryDistance {K : Type} [LinearOrderedField K] (rt : Runtime K) (m : RouteModel K)
    (x y : K) (c : Nat) : K :=
  ({ RouteModel.Node.default with x := x, y := y } : RouteModel.Node K).distance rt (m.node c)

/-- A point list is a closed ring: more than one point, first equals last. -/
def ClosedNodes (nodes : List Nat) : Prop :=
  1 < nodes.length ∧ nodes.head? = nodes.getLast?

/-- Every `used` flag set in `u` is still set in `v`, and the vectors have the
same size. -/
def FlagsKept (u v : List Bool) : Prop :=
  u.length = v.length ∧ ∀ i, u.getD i false = true → v.getD i false = true

/-- Every entry of `open_ways` refers to a way of the table that has at least
one point. -/
def ValidOpen (open_ways : List Int) (ways : List Model.Way) : Prop :=
  ∀ w ∈ open_ways, ∃ way, wayAt ways w = some way ∧ way.nodes ≠ []

/-- What the loops of `TrackRec` need from the recursive call at a level with
fuel `f`, for `used` vectors of size `N`. -/
def RecOK (rec : List Bool → List Nat → Option TrackState) (N f : Nat) : Prop :=
  ∀ used nodes, used.length = N → used.count false < f →
    ∃ b u n, rec used nodes = some (b, u, n) ∧ FlagsKept used u ∧ (b = true → ClosedNodes n)

/-- Entry `w` of a segment list refers to a closed segment of the table. -/
def RefersToClosed (m_Ways : List Model.Way) (w : Nat) : Prop :=
  ∃ way, m_Ways[w]? = some way ∧ ClosedNodes way.nodes

/-- Reset of the search state of one routing node to its initial values. -/
def RouteModel.Node.reset {K : Type} [LinearOrderedField K] (n : RouteModel.Node K) :
    RouteModel.Node K :=
  { n with parent := none, h_value := FLT_MAX, g_value := 0, visited := false, neighbors := [] }

/-- Reset of the per-node search state and of the stored path. -/
def RouteModel.resetSearchState {K : Type} [LinearOrderedField K] (m : RouteModel K) :
    RouteModel K :=
  { m with SNodes := m.SNodes.map RouteModel.Node.reset, path := [] }

/-- Fresh search state: no node visited, all neighbor lists empty. -/
def RouteModel.Fresh {K : Type} (m : RouteModel K) : Prop :=
  ∀ n ∈ m.SNodes, n.visited = false ∧ n.neighbors = []

/-- Every node index referenced by a way is the index of a routing node. -/
def RouteModel.WellFormed {K : Type} (m : RouteModel K) : Prop :=
  ∀ w, ∀ i ∈ m.toModel.wayNodes w, i < m.SNodes.length

/-- The relation `Linked m a b`: point `b` lies on a road of the node-to-road entry of node
`a`, so neighbor discovery at `a` scans it. -/
def RouteModel.Linked {K : Type} [LinearOrderedField K] (m : RouteModel K) (a b : Nat) : Prop :=
  ∃ road ∈ m.roadsOf (m.node a).index,
    b ∈ m.toModel.wayNodes ((m.m_Roads.getD road ⟨0, .Invalid⟩).way)

/-- The node `neighbor` as the body of the loop in `AddNeighbors` leaves it. -/
def visitedNode {K : Type} [LinearOrderedField K] (rt : Runtime K) (current_node : Nat)
    (p : RoutePlanner K) (neighbor : Nat) : RouteModel.Node K :=
  { p.node neighbor with
    parent := some current_node
    g_value := (p.node current_node).g_value
      + (p.node neighbor).distance rt (p.node current_node)
    h_value := (p.node neighbor).distance rt (p.node p.end_node)
    visited := true }

/-- What no step of the search changes: the planner's start and end node and
distance, the stored path, the number of nodes, and everything of the model
outside the per-node search state. -/
structure SameMap {K : Type} [LinearOrderedField K] (p p' : RoutePlanner K) : Prop where
  start_eq : p'.start_node = p.start_node
  end_eq : p'.end_node = p.end_node
  distance_eq : p'.distance = p.distance
  path_eq : p'.m_Model.path = p.m_Model.path
  length_eq : p'.m_Model.SNodes.length = p.m_Model.SNodes.length
  reset_eq : p'.m_Model.resetSearchState = p.m_Model.resetSearchState

/-- The node `self` with `found` appended to its `neighbors`. -/
def withNeighbors {K : Type} [LinearOrderedField K] (m : RouteModel K) (self : Nat)
    (found : List Nat) : RouteModel K :=
  m.setNode self { m.node self with neighbors := (m.node self).neighbors ++ found }

/-- The effect of `AddNeighbors` on the node `cur`: with `found` the neighbors
that `FindNeighbors` appends, the whole list `children` is pushed and marked. -/
structure Expands {K : Type} [LinearOrderedField K] (p : RoutePlanner K) (cur : Nat)
    (p' : RoutePlanner K) (found : List Nat) : Prop where
  open_eq : p'.open_list = p.open_list ++ ((p.node cur).neighbors ++ found)
  same : SameMap p p'
  neighbors_eq : ∀ Y, (p'.node Y).neighbors
    = if Y = cur then (p.node cur).neighbors ++ found else (p.node Y).neighbors
  visited_eq : ∀ Y, (p'.node Y).visited
    = ((p.node Y).visited
        || decide (Y ∈ (p.node cur).neighbors ++ found ∧ Y < p.m_Model.SNodes.length))
  parent_eq : ∀ Y, (p'.node Y).parent
    = if Y ∈ (p.node cur).neighbors ++ found ∧ Y < p.m_Model.SNodes.length then some cur
      else (p.node Y).parent
  found_le : found.length ≤ (p.m_Model.roadsOf (p.node cur).index).length
  found_new : ∀ b ∈ found, (p.node b).visited = false ∧ p.m_Model.Linked cur b

/-- Number of routing nodes that are not marked visited. -/
def unvisitedCount {K : Type} [LinearOrderedField K] (p : RoutePlanner K) : Nat :=
  ((List.range p.m_Model.SNodes.length).filter (fun i => !(p.node i).visited)).length

/-- A bound on the number of roads in any entry of the node-to-road index. -/
def roadBound {K : Type} (m : RouteModel K) : Nat :=
  (m.node_to_road.map (fun e => e.2.length)).sum

/-- The invariant of the loop of `AStarSearch` on a well-formed map that was
fresh when the search began.  `r` ranks the visited nodes: a node found by
`FindNeighbors` ranks below the node that found it. -/
structure SearchInv {K : Type} [LinearOrderedField K] (p : RoutePlanner K) (r : Nat → Nat) :
    Prop where
  wf : p.m_Model.WellFormed
  start_lt : p.start_node < p.m_Model.SNodes.length
  start_visited : (p.node p.start_node).visited = true
  open_ok : ∀ o ∈ p.open_list, o < p.m_Model.SNodes.length ∧ (p.node o).visited = true
  child_ok : ∀ N, ∀ X ∈ (p.node N).neighbors,
    X < p.m_Model.SNodes.length ∧ (p.node X).visited = true ∧ X ≠ p.start_node
      ∧ (p.node X).parent = some N ∧ (p.node N).visited = true ∧ r X < r N
  parent_ok : ∀ Y, Y < p.m_Model.SNodes.length → Y ≠ p.start_node → (p.node Y).visited = true →
    ∃ P, (p.node Y).parent = some P ∧ P < p.m_Model.SNodes.length ∧ (p.node P).visited = true
  chain_ok : ∀ Y, Y < p.m_Model.SNodes.length → (p.node Y).visited = true →
    ∃ k, ReachesStart p Y k
  reach_ok : ∀ Y, Y < p.m_Model.SNodes.length → (p.node Y).visited = true →
    Relation.ReflTransGen p.m_Model.Linked p.start_node Y
  rank_ok : ∀ Y, Y < p.m_Model.SNodes.length → (p.node Y).visited = true →
    unvisitedCount p ≤ r Y
  nbr_len : ∀ N, (p.node N).neighbors.length
    ≤ roadBound p.m_Model * (p.m_Model.SNodes.length - unvisitedCount p)

/-- Termination measure of the loop of `AStarSearch`: every entry of the open
list weighs `(D + 1) ^ rank` with `D` a bound on the length of a `neighbors`
vector. -/
def openWeight {K : Type} [LinearOrderedField K] (p : RoutePlanner K) (r : Nat → Nat) : Nat :=
  (p.open_list.map
    (fun o => (roadBound p.m_Model * p.m_Model.SNodes.length + 1) ^ r o)).sum

/-- The test of the loop of `AStarSearch`: the node has the coordinates of the
end node. -/
def atGoal {K : Type} [LinearOrderedField K] (p : RoutePlanner K) (n : Nat) : Prop :=
  (p.node n).x = (p.node p.end_node).x ∧ (p.node n).y = (p.node p.end_node).y

/-- Every point of `nodes` comes from `old` or from a way of the table. -/
def NodesFrom (ways : List Model.Way) (old nodes : List Nat) : Prop :=
  ∀ i ∈ nodes, i ∈ old ∨ ∃ way ∈ ways, i ∈ way.nodes

/-- What the loops of `TrackRec` need to know about a recursive call that
returned: a failed call hands back `nodes` as it got it, and every returned
point comes from the given `nodes` or from a way of the table. -/
def RecNodes (rec : List Bool → List Nat → Option TrackState) (ways : List Model.Way) : Prop :=
  ∀ used nodes b u n, rec used nodes = some (b, u, n) →
    (b = false → n = nodes) ∧ NodesFrom ways nodes n

/-- Every point index referenced by a way of the table is below `n`. -/
def WaysBelow (n : Nat) (ways : List Model.Way) : Prop :=
  ∀ way ∈ ways, ∀ i ∈ way.nodes, i < n

/-- Every index stored in the identifier table is below `n`. -/
def TableBelow (n : Nat) (tbl : List (String × Nat)) : Prop :=
  ∀ k v, tbl.lookup k = some v → v < n

/-- The identifier table after the loop over the point elements: every point
identifier paired with the position of its element, latest element first (so a
lookup finds the last element that carries the identifier). -/
def identifierTable (nodes : List XmlNode) : List (String × Nat) :=
  (nodes.foldl
    (fun (acc : List (String × Nat) × Nat) node =>
      ((node.attribute "id", acc.2) :: acc.1, acc.2 + 1))
    ([], 0)).1

/-- A child of a relation element at which the loop over the children of the
relation stops: a `tag` child whose key is `building` or `landuse`, or whose
key is `natural` with the value `water`. -/
def endsRelation (child : XmlNode) : Bool :=
  decide (child.name = "tag" ∧ (child.attribute "k" = "building"
    ∨ (child.attribute "k" = "natural" ∧ child.attribute "v" = "water")
    ∨ child.attribute "k" = "landuse"))

/-- The way members with the role "outer" whose referenced identifier is in the
table, in document order. -/
def outerMembers (way_id_to_num : List (String × Nat)) (children : List XmlNode) : List Nat :=
  (children.filter (fun c => decide (c.name = "member" ∧ c.attribute "type" = "way"
      ∧ c.attribute "role" = "outer"))).filterMap
    (fun c => way_id_to_num.lookup (c.attribute "ref"))

/-- The way members with another role than "outer" whose referenced identifier
is in the table, in document order. -/
def innerMembers (way_id_to_num : List (String × Nat)) (children : List XmlNode) : List Nat :=
  (children.filter (fun c => decide (c.name = "member" ∧ c.attribute "type" = "way"
      ∧ c.attribute "role" ≠ "outer"))).filterMap
    (fun c => way_id_to_num.lookup (c.attribute "ref"))

/-- The collections a line element can be added to, named in the order in which
the loop over its `tag` children checks the categories. -/
inductive WayCategory where
  | Road | Railway | Building | Leisure | Water | Landuse
deriving DecidableEq, Repr

/-- Whether a tag with key `k` and value `v` matches the category. -/
def WayCategory.matchesTag (k v : String) : WayCategory → Bool
  | .Road => decide (k = "highway" ∧ String2RoadType v ≠ Model.Road.Type.Invalid)
  | .Railway => decide (k = "railway")
  | .Building => decide (k = "building")
  | .Leisure => decide (k = "leisure"
      ∨ (k = "natural" ∧ (v = "wood" ∨ v = "tree_row" ∨ v = "scrub" ∨ v = "grassland"))
      ∨ (k = "landcover" ∧ v = "grass"))
  | .Water => decide (k = "natural" ∧ v = "water")
  | .Landuse => decide (k = "landuse" ∧ String2LanduseType v ≠ Model.Landuse.Type.Invalid)

/-- The first category in the checked order that the tag matches. -/
def firstCategory (k v : String) : Option WayCategory :=
  [WayCategory.Road, .Railway, .Building, .Leisure, .Water, .Landuse].find?
    (WayCategory.matchesTag k v)

/-- The model with one entry for the line element `way_num` appended to the
collection of the category. -/
def addToCollection {K : Type} (m : Model K) (way_num : Nat) (v : String) :
    WayCategory → Model K
  | .Road => { m with m_Roads := m.m_Roads ++ [⟨way_num, String2RoadType v⟩] }
  | .Railway => { m with m_Railways := m.m_Railways ++ [⟨way_num⟩] }
  | .Building => { m with m_Buildings := m.m_Buildings ++ [⟨[way_num], []⟩] }
  | .Leisure => { m with m_Leisures := m.m_Leisures ++ [⟨[way_num], []⟩] }
  | .Water => { m with m_Waters := m.m_Waters ++ [⟨[way_num], []⟩] }
  | .Landuse =>
    { m with m_Landuses := m.m_Landuses ++ [⟨⟨[way_num], []⟩, String2LanduseType v⟩] }

/-- The number of entries of the six collections taken together. -/
def entryCount {K : Type} (m : Model K) : Nat :=
  m.m_Roads.length + m.m_Railways.length + m.m_Buildings.length + m.m_Leisures.length
    + m.m_Waters.length + m.m_Landuses.length

/-- Whether a child of a line element is a `tag` child that matches a
category. -/
def classifies (child : XmlNode) : Bool :=
  decide (child.name = "tag")
    && (firstCategory (child.attribute "k") (child.attribute "v")).isSome

/-- The point list of the member at position `i` of `open_ways`; empty when the
entry is outside the table. -/
def memberNodes (open_ways : List Int) (ways : List Model.Way) (i : Nat) : List Nat :=
  match wayAt ways (open_ways.getD i 0) with
  | some way => way.nodes
  | none => []

/-- The point list of the member at position `s.1`, taken forward when `s.2` is
`true` and reversed otherwise. -/
def orientedNodes (open_ways : List Int) (ways : List Model.Way) (s : Nat × Bool) : List Nat :=
  if s.2 = true then memberNodes open_ways ways s.1
  else (memberNodes open_ways ways s.1).reverse

/-- The concatenation, in chain order, of the oriented point lists of a
sequence of members. -/
def chainNodes (open_ways : List Int) (ways : List Model.Way) (steps : List (Nat × Bool)) :
    List Nat :=
  (steps.map (orientedNodes open_ways ways)).flatten

/-- A chain: a sequence of pairwise distinct positions of `open_ways`, each
member taken forward or reversed, every member after the first beginning at the
point at which the member before it ends. -/
def IsChain (open_ways : List Int) (ways : List Model.Way) (steps : List (Nat × Bool)) : Prop :=
  (steps.map Prod.fst).Nodup ∧ (∀ s ∈ steps, s.1 < open_ways.length)
  ∧ List.Chain' (fun a b => a.getLast? = b.head?) (steps.map (orientedNodes open_ways ways))

/-- The steps `steps` continue a chain that ends in `tail` (that is still empty
when `tail` is `none`) with members whose `used` flag is not set, each used
once. -/
def Extends (open_ways : List Int) (ways : List Model.Way) :
    List Bool → Option Nat → List (Nat × Bool) → Prop
  | _, _, [] => True
  | used, tail, s :: rest =>
    s.1 < open_ways.length ∧ used.getD s.1 false = false
    ∧ (∀ t, tail = some t → (orientedNodes open_ways ways s).head? = some t)
    ∧ Extends open_ways ways (used.set s.1 true) (orientedNodes open_ways ways s).getLast? rest

/-- The `used` vector with the flags of the members of `steps` set. -/
def markSteps (used : List Bool) (steps : List (Nat × Bool)) : List Bool :=
  steps.foldl (fun u s => u.set s.1 true) used

/-- What the loops of `TrackRec` need from a recursive call on a non-empty
`nodes`, at a level with fuel `f`: a successful call returns `nodes` continued by
a chain of unused members that closes it, with exactly their flags set; a
failed call hands back `used` and `nodes` unchanged, and then no continuation
by unused members closes `nodes`. -/
def RecChain (rec : List Bool → List Nat → Option TrackState) (open_ways : List Int)
    (ways : List Model.Way) (f : Nat) : Prop :=
  ∀ used nodes, used.length = open_ways.length → used.count false < f → nodes ≠ [] →
    ∃ b u n, rec used nodes = some (b, u, n)
      ∧ (b = true → ∃ steps, Extends open_ways ways used nodes.getLast? steps
          ∧ n = nodes ++ chainNodes open_ways ways steps ∧ u = markSteps used steps
          ∧ ClosedNodes n)
      ∧ (b = false → u = used ∧ n = nodes
          ∧ ∀ steps, Extends open_ways ways used nodes.getLast? steps →
              ¬ ClosedNodes (nodes ++ chainNodes open_ways ways steps))

/-- Whether entry `w` of a member list refers to a closed segment of the
table. -/
def closedAt (ways : List Model.Way) (w : Nat) : Bool :=
  match ways[w]? with
  | some way => is_closed way
  | none => false

/-- The rings found by the repeated searches of `process` over the open list:
the search ends when the open list is empty or `Track` returns no nodes; every
successful search contributes its ring and goes on with the entries that were
not overwritten with `-1`. -/
inductive Rounds (ways : List Model.Way) : List Int → List (List Nat) → Prop
  | done : Rounds ways [] []
  | failed {opn ow : List Int} : opn ≠ [] → Track opn ways = some ([], ow) → Rounds ways opn []
  | found {opn ow : List Int} {nodes : List Nat} {rings : List (List Nat)} :
      opn ≠ [] → Track opn ways = some (nodes, ow) → nodes ≠ [] →
      Rounds ways (ow.filter (fun v => ¬ v < 0)) rings → Rounds ways opn (nodes :: rings)

/-- A candidate that `FindNeighbor` accepts for the node at position `self`: its
distance to that node is not zero and it is not marked visited. -/
def validNeighbor {K : Type} [LinearOrderedField K] (rt : Runtime K) (m : RouteModel K)
    (self c : Nat) : Prop :=
  (m.node self).distance rt (m.node c) ≠ 0 ∧ (m.node c).visited = false

/-- The neighbors `FindNeighbors` finds for the node at position `self`: for
every road of its index entry, in order, the result of `FindNeighbor` on the
way of that road, when there is one. -/
def foundNeighbors {K : Type} [LinearOrderedField K] (rt : Runtime K) (m : RouteModel K)
    (self : Nat) : List Nat :=
  (m.roadsOf (m.node self).index).filterMap
    (fun road => FindNeighbor rt m self
      (m.toModel.wayNodes ((m.m_Roads.getD road ⟨0, .Invalid⟩).way)))

/-- The entries the node-to-road index holds for point `i` according to the
construction: every road that is not a footway, in collection order, once for
every occurrence of `i` in the way of the road. -/
def roadEntry {K : Type} (m : Model K) (i : Nat) : List Nat :=
  ((List.range m.m_Roads.length).map (fun r =>
    if (m.m_Roads.getD r ⟨0, .Invalid⟩).type ≠ Model.Road.Type.Footway then
      List.replicate ((m.wayNodes (m.m_Roads.getD r ⟨0, .Invalid⟩).way).count i) r
    else [])).flatten

/-- The highway tag values for which `String2RoadType` has an entry. -/
def highwayValues : List String :=
  ["motorway", "trunk", "primary", "secondary", "tertiary", "residential", "living_street",
   "service", "unclassified", "footway", "bridleway", "steps", "path", "pedestrian"]

/-- No road of the collection has the type `Invalid`. -/
def Model.RoadsValid {K : Type} (m : Model K) : Prop :=
  ∀ r ∈ m.m_Roads, r.type ≠ Model.Road.Type.Invalid

/-- The parent links of the visited nodes: the start node has no parent, and the
parent of a visited node found it on one of the roads of its index entry. -/
structure LinkInv {K : Type} [LinearOrderedField K] (p : RoutePlanner K) : Prop where
  start_parent : (p.node p.start_node).parent = none
  link : ∀ Y P, Y < p.m_Model.SNodes.length → (p.node Y).visited = true →
    (p.node Y).parent = some P → p.m_Model.Linked P Y

/-! ## Sample inputs -/

/-- A straight residential road through the points `(0, 0)`, `(1/4, 0)`, `(1, 0)`
in this order, metric scale 1000. -/
def straightRoad : RouteModel ℚ :=
  RouteModel.ofModel
    { (Model.empty : Model ℚ) with
      m_Nodes := [⟨0, 0⟩, ⟨1 / 4, 0⟩, ⟨1, 0⟩]
      m_Ways := [⟨[0, 1, 2]⟩]
      m_Roads := [⟨0, .Residential⟩]
      m_MetricScale := 1000 }

/-- A map whose only road lies farther than `FLT_MAX` from the origin, while
node 0 belongs to no road. -/
def farRoad : RouteModel ℚ :=
  RouteModel.ofModel
    { (Model.empty : Model ℚ) with
      m_Nodes := [⟨0, 0⟩, ⟨2 ^ 129, 0⟩, ⟨2 ^ 130, 0⟩]
      m_Ways := [⟨[1, 2]⟩]
      m_Roads := [⟨0, .Residential⟩] }

/-- The planner for the query from `(1/4, 0)` to `(1, 0)` on `straightRoad`, in
the state the search leaves behind: node 0 was reached from node 1 and node 2
from node 0. -/
def straightRoadSearched : RoutePlanner ℚ :=
  let p := RoutePlanner.new qRuntime straightRoad 25 0 100 0
  let p1 := p.setNode 0 { p.node 0 with parent := some 1, visited := true }
  let p2 := p1.setNode 1 { p1.node 1 with visited := true }
  p2.setNode 2 { p2.node 2 with parent := some 0, visited := true }

/-- A model whose bounds are the unit square, with a point on each of the two
corners. -/
def unitSquare : Model ℚ :=
  { (Model.empty : Model ℚ) with
    m_Nodes := [⟨0, 0⟩, ⟨1, 1⟩]
    m_MinLat := 0, m_MaxLat := 1, m_MinLon := 0, m_MaxLon := 1 }

/-- A segment table with three open segments that chain into a ring, a closed
segment, two one-point segments on the same point, and a stray open segment. -/
def sampleWays : List Model.Way :=
  [⟨[1, 2, 3]⟩, ⟨[5, 4, 3]⟩, ⟨[5, 1]⟩, ⟨[7, 8, 7]⟩, ⟨[9]⟩, ⟨[9]⟩, ⟨[10, 11]⟩]

/-- Two residential roads that share no point: one through `(0, 0)`, `(1/4, 0)`,
the other through `(1/2, 0)`, `(1, 0)`. -/
def twoIslands : RouteModel ℚ :=
  RouteModel.ofModel
    { (Model.empty : Model ℚ) with
      m_Nodes := [⟨0, 0⟩, ⟨1 / 4, 0⟩, ⟨1 / 2, 0⟩, ⟨1, 0⟩]
      m_Ways := [⟨[0, 1]⟩, ⟨[2, 3]⟩]
      m_Roads := [⟨0, .Residential⟩, ⟨1, .Residential⟩]
      m_MetricScale := 1000 }

/-- A document with two points "a" and "b" and one line element that refers to
"a", to the unknown identifier "zz", and to "b". -/
def sampleDoc : XmlNode :=
  .mk "" [] [.mk "osm" []
    [ .mk "bounds" [("minlat", "0"), ("maxlat", "1"), ("minlon", "0"), ("maxlon", "1")] [],
      .mk "node" [("id", "a"), ("lat", "0"), ("lon", "0")] [],
      .mk "node" [("id", "b"), ("lat", "1"), ("lon", "1")] [],
      .mk "way" [("id", "w")]
        [ .mk "nd" [("ref", "a")] [], .mk "nd" [("ref", "zz")] [], .mk "nd" [("ref", "b")] [],
          .mk "tag" [("k", "highway"), ("v", "residential")] [] ] ]]

/-- A document with one line element "w" and one relation whose `building` tag
stands before its only member, the way "w" with the role "outer". -/
def tagFirstDoc : XmlNode :=
  .mk "" [] [.mk "osm" []
    [ .mk "bounds" [("minlat", "0"), ("maxlat", "1"), ("minlon", "0"), ("maxlon", "1")] [],
      .mk "node" [("id", "a"), ("lat", "0"), ("lon", "0")] [],
      .mk "node" [("id", "b"), ("lat", "1"), ("lon", "1")] [],
      .mk "way" [("id", "w")] [.mk "nd" [("ref", "a")] [], .mk "nd" [("ref", "b")] []],
      .mk "relation" []
        [ .mk "tag" [("k", "building"), ("v", "yes")] [],
          .mk "member" [("type", "way"), ("ref", "w"), ("role", "outer")] [] ] ]]

/-- The document `tagFirstDoc` with the `building` tag of the relation after the
member, and a second member with the role "inner". -/
def tagLastDoc : XmlNode :=
  .mk "" [] [.mk "osm" []
    [ .mk "bounds" [("minlat", "0"), ("maxlat", "1"), ("minlon", "0"), ("maxlon", "1")] [],
      .mk "node" [("id", "a"), ("lat", "0"), ("lon", "0")] [],
      .mk "node" [("id", "b"), ("lat", "1"), ("lon", "1")] [],
      .mk "way" [("id", "w")] [.mk "nd" [("ref", "a")] [], .mk "nd" [("ref", "b")] []],
      .mk "relation" []
        [ .mk "member" [("type", "way"), ("ref", "w"), ("role", "outer")] [],
          .mk "member" [("type", "way"), ("ref", "w"), ("role", "inner")] [],
          .mk "tag" [("k", "building"), ("v", "yes")] [] ] ]]

/-- A document without a `bounds` element. -/
def noBoundsDoc : XmlNode :=
  .mk "" [] [.mk "osm" [] [.mk "node" [("id", "a"), ("lat", "0"), ("lon", "0")] []]]

/-- A document whose only line element carries the tags `highway=residential`
and `building=yes`. -/
def twoTagsDoc : XmlNode :=
  .mk "" [] [.mk "osm" []
    [ .mk "bounds" [("minlat", "0"), ("maxlat", "1"), ("minlon", "0"), ("maxlon", "1")] [],
      .mk "node" [("id", "a"), ("lat", "0"), ("lon", "0")] [],
      .mk "node" [("id", "b"), ("lat", "1"), ("lon", "1")] [],
      .mk "way" [("id", "w")]
        [ .mk "nd" [("ref", "a")] [], .mk "nd" [("ref", "b")] [],
          .mk "tag" [("k", "highway"), ("v", "residential")] [],
          .mk "tag" [("k", "building"), ("v", "yes")] [] ] ]]

/-- A document with two line elements, the first a footway and the second a
residential road. -/
def twoRoadsDoc : XmlNode :=
  .mk "" [] [.mk "osm" []
    [ .mk "bounds" [("minlat", "0"), ("maxlat", "1"), ("minlon", "0"), ("maxlon", "1")] [],
      .mk "node" [("id", "a"), ("lat", "0"), ("lon", "0")] [],
      .mk "node" [("id", "b"), ("lat", "1"), ("lon", "1")] [],
      .mk "way" [("id", "v")]
        [ .mk "nd" [("ref", "a")] [], .mk "nd" [("ref", "b")] [],
          .mk "tag" [("k", "highway"), ("v", "footway")] [] ],
      .mk "way" [("id", "w")]
        [ .mk "nd" [("ref", "b")] [], .mk "nd" [("ref", "a")] [],
          .mk "tag" [("k", "highway"), ("v", "residential")] [] ] ]]

/-- A segment table whose first segment has no point; the other two chain into
a ring. -/
def emptyStartWays : List Model.Way :=
  [⟨[]⟩, ⟨[1, 2]⟩, ⟨[2, 1]⟩]

/-- A closed-loop residential road (a roundabout) through the points
0 = `(6, 0)`, 1 = `(0, 0)`, 2 = `(6, 8)`, 3 = `(12, 0)` and back to 0. -/
def roundabout : RouteModel ℚ :=
  RouteModel.ofModel
    { (Model.empty : Model ℚ) with
      m_Nodes := [⟨6, 0⟩, ⟨0, 0⟩, ⟨6, 8⟩, ⟨12, 0⟩]
      m_Ways := [⟨[0, 1, 2, 3, 0]⟩]
      m_Roads := [⟨0, .Residential⟩] }

/-- Two residential roads that share the segment from point 0 to point 1: a
short road 0, 1 and a road 0, 1, 2, 3. -/
def doubledSegment : RouteModel ℚ :=
  RouteModel.ofModel
    { (Model.empty : Model ℚ) with
      m_Nodes := [⟨6, 0⟩, ⟨0, 0⟩, ⟨6, 8⟩, ⟨12, 0⟩]
      m_Ways := [⟨[0, 1]⟩, ⟨[0, 1, 2, 3]⟩]
      m_Roads := [⟨0, .Residential⟩, ⟨1, .Residential⟩] }

/-- A footway straight from point 0 to point 2, and a residential road from
point 0 over point 1 to point 2. -/
def footpathShortcut : RouteModel ℚ :=
  RouteModel.ofModel
    { (Model.empty : Model ℚ) with
      m_Nodes := [⟨0, 0⟩, ⟨3, 4⟩, ⟨6, 0⟩]
      m_Ways := [⟨[0, 2]⟩, ⟨[0, 1, 2]⟩]
      m_Roads := [⟨0, .Footway⟩, ⟨1, .Residential⟩] }

/-- A document with a water relation of two line elements: "v" through the
points "a" and "b", and "w", whose only point reference "c" is unknown, so that
its segment has no point. -/
def emptyMemberDoc : XmlNode :=
  .mk "" [] [.mk "osm" []
    [ .mk "bounds" [("minlat", "0"), ("maxlat", "1"), ("minlon", "0"), ("maxlon", "1")] [],
      .mk "node" [("id", "a"), ("lat", "0"), ("lon", "0")] [],
      .mk "node" [("id", "b"), ("lat", "1"), ("lon", "1")] [],
      .mk "way" [("id", "v")] [.mk "nd" [("ref", "a")] [], .mk "nd" [("ref", "b")] []],
      .mk "way" [("id", "w")] [.mk "nd" [("ref", "c")] []],
      .mk "relation" []
        [ .mk "member" [("type", "way"), ("ref", "v"), ("role", "outer")] [],
          .mk "member" [("type", "way"), ("ref", "w"), ("role", "outer")] [],
          .mk "tag" [("k", "natural"), ("v", "water")] [] ] ]]

/-- A segment table of eight segments: the open segments 0, 1 chain into the ring
1, 2, 2, 1 and the open segments 2, 3 into the ring 3, 4, 4, 3; the segments 4
to 7 are other line elements of the map. -/
def twoRingsWays : List Model.Way :=
  [⟨[1, 2]⟩, ⟨[2, 1]⟩, ⟨[3, 4]⟩, ⟨[4, 3]⟩, ⟨[5, 6]⟩, ⟨[6, 7]⟩, ⟨[7, 8]⟩, ⟨[8, 5]⟩]

/-- A document with four points, eight line elements and a water relation whose
outer members are the first four line elements: "w0", "w1" along the points
"a", "b" and back, "w2", "w3" along "c", "d" and back. -/
def twoRingsDoc : XmlNode :=
  .mk "" [] [.mk "osm" []
    [ .mk "bounds" [("minlat", "0"), ("maxlat", "1"), ("minlon", "0"), ("maxlon", "1")] [],
      .mk "node" [("id", "a"), ("lat", "0"), ("lon", "0")] [],
      .mk "node" [("id", "b"), ("lat", "0"), ("lon", "1")] [],
      .mk "node" [("id", "c"), ("lat", "1"), ("lon", "0")] [],
      .mk "node" [("id", "d"), ("lat", "1"), ("lon", "1")] [],
      .mk "way" [("id", "w0")] [.mk "nd" [("ref", "a")] [], .mk "nd" [("ref", "b")] []],
      .mk "way" [("id", "w1")] [.mk "nd" [("ref", "b")] [], .mk "nd" [("ref", "a")] []],
      .mk "way" [("id", "w2")] [.mk "nd" [("ref", "c")] [], .mk "nd" [("ref", "d")] []],
      .mk "way" [("id", "w3")] [.mk "nd" [("ref", "d")] [], .mk "nd" [("ref", "c")] []],
      .mk "way" [("id", "w4")] [.mk "nd" [("ref", "a")] [], .mk "nd" [("ref", "c")] []],
      .mk "way" [("id", "w5")] [.mk "nd" [("ref", "b")] [], .mk "nd" [("ref", "d")] []],
      .mk "way" [("id", "w6")] [.mk "nd" [("ref", "a")] [], .mk "nd" [("ref", "d")] []],
      .mk "way" [("id", "w7")] [.mk "nd" [("ref", "b")] [], .mk "nd" [("ref", "c")] []],
      .mk "relation" []
        [ .mk "member" [("type", "way"), ("ref", "w0"), ("role", "outer")] [],
          .mk "member" [("type", "way"), ("ref", "w1"), ("role", "outer")] [],
          .mk "member" [("type", "way"), ("ref", "w2"), ("role", "outer")] [],
          .mk "member" [("type", "way"), ("ref", "w3"), ("role", "outer")] [],
          .mk "tag" [("k", "natural"), ("v", "water")] [] ] ]]

/-- The document `emptyMemberDoc` with the known point reference "b" in place of
the unknown reference "c" of the line element "w". -/
def knownMemberDoc : XmlNode :=
  .mk "" [] [.mk "osm" []
    [ .mk "bounds" [("minlat", "0"), ("maxlat", "1"), ("minlon", "0"), ("maxlon", "1")] [],
      .mk "node" [("id", "a"), ("lat", "0"), ("lon", "0")] [],
      .mk "node" [("id", "b"), ("lat", "1"), ("lon", "1")] [],
      .mk "way" [("id", "v")] [.mk "nd" [("ref", "a")] [], .mk "nd" [("ref", "b")] []],
      .mk "way" [("id", "w")] [.mk "nd" [("ref", "b")] []],
      .mk "relation" []
        [ .mk "member" [("type", "way"), ("ref", "v"), ("role", "outer")] [],
          .mk "member" [("type", "way"), ("ref", "w"), ("role", "outer")] [],
          .mk "tag" [("k", "natural"), ("v", "water")] [] ] ]]

/-- The planner after two rounds of the loop of `AStarSearch` (`NextNode`, then
`AddNeighbors`) in the search from node 0 to node 3 on `roundabout`. -/
def roundaboutAfterTwo : RoutePlanner ℚ :=
  let p0 := AStarSearch.init (RoutePlanner.new qRuntime roundabout 600 0 1200 0)
  match NextNode qRuntime p0 with
  | none => p0
  | some (c1, p1) =>
    match NextNode qRuntime (AddNeighbors qRuntime p1 c1) with
    | none => p1
    | some (c2, p2) => AddNeighbors qRuntime p2 c2

/-! ## Theorems -/

theorem distance_comm {K : Type} [LinearOrderedField K] (rt : Runtime K)
    (a b : RouteModel.Node K) : a.distance rt b = b.distance rt a := by
  unfold RouteModel.Node.distance
  congr 1
  ring

theorem pathLength_append_singleton {K : Type} [LinearOrderedField K] (rt : Runtime K)
    (l : List (RouteModel.Node K)) (a b : RouteModel.Node K) :
    pathLength rt (l ++ [a, b]) = pathLength rt (l ++ [a]) + a.distance rt b := by
  induction l with
  | nil => simp [pathLength]
  | cons x xs ih =>
    cases xs with
    | nil => simp [pathLength]; 
    | cons y ys =>
      have e1 : x :: y :: ys ++ [a, b] = x :: y :: (ys ++ [a, b]) := rfl
      have e2 : x :: y :: ys ++ [a] = x :: y :: (ys ++ [a]) := rfl
      have e3 : y :: ys ++ [a, b] = y :: (ys ++ [a, b]) := rfl
      have e4 : y :: ys ++ [a] = y :: (ys ++ [a]) := rfl
      rw [e3, e4] at ih
      rw [e1, e2, pathLength, pathLength, ih]; ring

theorem pathLength_reverse {K : Type} [LinearOrderedField K] (rt : Runtime K)
    (l : List (RouteModel.Node K)) : pathLength rt l.reverse = pathLength rt l := by
  induction l with
  | nil => rfl
  | cons a l ih =>
    cases l with
    | nil => rfl
    | cons b rest =>
      have h : (a :: b :: rest).reverse = rest.reverse ++ [b, a] := by simp
      rw [h, pathLength_append_singleton]
      have h2 : rest.reverse ++ [b] = (b :: rest).reverse := by simp
      rw [h2, ih, distance_comm rt b a]
      simp only [pathLength]; ring

theorem ConstructFinalPath.loop_chain {K : Type} [LinearOrderedField K] (rt : Runtime K)
    (p : RoutePlanner K) {n k : Nat} (h : ReachesStart p n k) :
    ∀ (fuel : Nat), k < fuel → ∀ (acc : List (RouteModel.Node K)) (d : K),
      ∃ chain : List (RouteModel.Node K),
        ConstructFinalPath.loop rt p fuel n acc d
          = some (acc ++ chain, d + pathLength rt (chain ++ [p.node p.start_node]))
        ∧ (chain ++ [p.node p.start_node]).head? = some (p.node n)
        ∧ chain.length = k := by
  induction h with
  | start =>
    intro fuel hf acc d
    refine ⟨[], ?_, by simp, rfl⟩
    obtain ⟨f, rfl⟩ : ∃ f, fuel = f + 1 := ⟨fuel - 1, by omega⟩
    simp [ConstructFinalPath.loop, pathLength]
  | @step n parent k hne hpar _ ih =>
    intro fuel hf acc d
    obtain ⟨f, rfl⟩ : ∃ f, fuel = f + 1 := ⟨fuel - 1, by omega⟩
    obtain ⟨chain, hloop, hhead, hlen⟩ := ih f (by omega) (acc ++ [p.node n])
      (d + (p.node n).distance rt (p.node parent))
    refine ⟨p.node n :: chain, ?_, by simp, by simp [hlen]⟩
    simp only [ConstructFinalPath.loop, hne, ne_eq, not_false_eq_true, if_true, hpar]
    rw [hloop]
    have : pathLength rt (p.node n :: chain ++ [p.node p.start_node])
        = (p.node n).distance rt (p.node parent)
          + pathLength rt (chain ++ [p.node p.start_node]) := by
      cases hc : chain ++ [p.node p.start_node] with
      | nil => simp at hc
      | cons c cs =>
        rw [hc] at hhead
        simp at hhead
        rw [List.cons_append, hc, hhead]
        simp [pathLength]
    rw [this]
    simp [add_assoc]

theorem NextNode_singleton {K : Type} [LinearOrderedField K] (rt : Runtime K)
    (p : RoutePlanner K) (n : Nat) (h : p.open_list = [n]) :
    NextNode rt p = some (n, { p with open_list := [] }) := by
  unfold NextNode
  have hp := rt.sort_perm
    (fun v1 v2 => decide ((p.node v1).h_value + (p.node v1).g_value
        > (p.node v2).h_value + (p.node v2).g_value)) p.open_list
  rw [h] at hp
  have hs := List.perm_singleton.mp hp
  simp only [h, hs]
  rfl

theorem AdjustCoordinates_scale {K : Type} [LinearOrderedField K] (rt : Runtime K)
    (m : Model K) :
    (AdjustCoordinates rt m).m_MetricScale = min (projectedWidth m) (projectedHeight rt m) := rfl

theorem AdjustCoordinates_nodes {K : Type} [LinearOrderedField K] (rt : Runtime K)
    (m : Model K) :
    (AdjustCoordinates rt m).m_Nodes = m.m_Nodes.map (fun node =>
      ⟨(lon2xm node.x - lon2xm m.m_MinLon) / min (projectedWidth m) (projectedHeight rt m),
       (lat2ym rt node.y - lat2ym rt m.m_MinLat) / min (projectedWidth m) (projectedHeight rt m)⟩) :=
  rfl

theorem wayChild_ways_length {K : Type} (tbl : List (String × Nat)) (way_num : Nat)
    (m : Model K) (child : XmlNode) :
    (LoadData.wayChild tbl way_num m child).m_Ways.length = m.m_Ways.length := by
  unfold LoadData.wayChild
  simp only
  repeat' split
  all_goals simp

theorem wayChild_ways {K : Type} (tbl : List (String × Nat)) (way_num : Nat)
    (m : Model K) (child : XmlNode) :
    (LoadData.wayChild tbl way_num m child).m_Ways
      = m.m_Ways.modify (fun w => ⟨w.nodes ++ knownPointRefs tbl [child]⟩) way_num := by
  have hid : ∀ l : List Model.Way, l = l.modify (fun w => ⟨w.nodes ++ []⟩) way_num := by
    intro l
    have : (fun w : Model.Way => (⟨w.nodes ++ []⟩ : Model.Way)) = id := by
      funext w; simp
    rw [this]
    induction l generalizing way_num with
    | nil => cases way_num <;> rfl
    | cons a l ih => 
      cases way_num with
      | zero => rfl
      | succ n => simp [List.modify, List.modifyTailIdx]
  unfold LoadData.wayChild knownPointRefs
  by_cases hnd : child.name = "nd"
  · simp only [hnd, if_true, decide_True, List.filter_cons_of_pos, List.filter_nil,
      List.filterMap_cons, List.filterMap_nil]
    cases hl : List.lookup (child.attribute "ref") tbl with
    | none => simpa using hid m.m_Ways
    | some num => simp
  · have hf : List.filter (fun c => decide (c.name = "nd")) [child] = [] := by
      simp [hnd]
    simp only [hnd, if_false, hf, List.filterMap_nil]
    repeat' split
    all_goals exact hid _


theorem wayChildren_ways {K : Type} (tbl : List (String × Nat)) (way_num : Nat)
    (children : List XmlNode) (m : Model K) :
    (children.foldl (LoadData.wayChild tbl way_num) m).m_Ways
      = m.m_Ways.modify (fun w => ⟨w.nodes ++ knownPointRefs tbl children⟩) way_num := by
  induction children generalizing m with
  | nil =>
    simp only [List.foldl_nil, knownPointRefs, List.filter_nil, List.filterMap_nil]
    have : (fun w : Model.Way => (⟨w.nodes ++ []⟩ : Model.Way)) = id := by
      funext w; simp
    rw [this]; simp
  | cons c cs ih =>
    rw [List.foldl_cons, ih, wayChild_ways]
    have hk : knownPointRefs tbl (c :: cs) = knownPointRefs tbl [c] ++ knownPointRefs tbl cs := by
      unfold knownPointRefs
      rw [← List.filterMap_append, ← List.filter_append]
      rfl
    rw [hk, List.modify_modify_eq]
    congr 1
    funext w
    simp [Function.comp]


theorem way_ways {K : Type} (tbl : List (String × Nat))
    (acc : List (String × Nat) × Model K) (node : XmlNode) :
    (LoadData.way tbl acc node).2.m_Ways
      = acc.2.m_Ways ++ [⟨knownPointRefs tbl node.children⟩] := by
  unfold LoadData.way
  simp only
  rw [wayChildren_ways]
  apply List.ext_getElem?
  intro j
  rw [List.getElem?_modify]
  by_cases hj : acc.2.m_Ways.length = j
  · subst hj
    simp
  · simp only [hj, if_false]
    rcases Nat.lt_or_gt_of_ne hj with h | h
    · rw [List.getElem?_eq_none (by simp; omega), List.getElem?_eq_none (by simp; omega)]
      rfl
    · rw [List.getElem?_append_left h, List.getElem?_append_left h]
      simp

theorem FindClosestNode_eq_fold {K : Type} [LinearOrderedField K] (rt : Runtime K)
    (m : RouteModel K) (x y : K) :
    FindClosestNode rt m x y
      = ((roadCandidates m).foldl
          (fun (acc : K × Nat) c =>
            if queryDistance rt m x y c < acc.1 then (queryDistance rt m x y c, c) else acc)
          ((FLT_MAX : K), 0)).2 := by
  unfold FindClosestNode roadCandidates
  simp only
  congr 1
  generalize ((FLT_MAX : K), 0) = init
  induction m.m_Roads generalizing init with
  | nil => rfl
  | cons r rs ih =>
    rw [List.foldl_cons, ih]
    by_cases hr : r.type = Model.Road.Type.Footway
    · simp [hr]
    · simp only [ne_eq, hr, not_false_eq_true, if_true, decide_True, List.filter_cons_of_pos,
        List.map_cons, List.flatten_cons, List.foldl_append]
      rfl

theorem argmin_fold {K : Type} [LinearOrderedField K] (d : Nat → K) (l : List Nat)
    (init : K × Nat) :
    ((∀ c ∈ l, ¬ d c < init.1) →
      l.foldl (fun (acc : K × Nat) c => if d c < acc.1 then (d c, c) else acc) init = init)
    ∧ ((∃ c ∈ l, d c < init.1) →
      ∃ pre post r, l.foldl (fun (acc : K × Nat) c => if d c < acc.1 then (d c, c) else acc) init
          = (d r, r)
        ∧ l = pre ++ r :: post ∧ d r < init.1
        ∧ (∀ c ∈ pre, d r < d c) ∧ (∀ c ∈ post, d r ≤ d c)) := by
  induction l generalizing init with
  | nil => simp
  | cons a l ih =>
    constructor
    · intro h
      have ha : ¬ d a < init.1 := h a (List.mem_cons_self _ _)
      rw [List.foldl_cons, if_neg ha]
      exact (ih init).1 (fun c hc => h c (List.mem_cons_of_mem _ hc))
    · rintro ⟨c, hc, hlt⟩
      rw [List.foldl_cons]
      by_cases ha : d a < init.1
      · rw [if_pos ha]
        by_cases hex : ∃ c ∈ l, d c < d a
        · obtain ⟨pre, post, r, hr, hl, hrlt, hpre, hpost⟩ := (ih (d a, a)).2 hex
          refine ⟨a :: pre, post, r, hr, by simp [hl], lt_trans hrlt ha, ?_, hpost⟩
          intro c hc
          rcases List.mem_cons.mp hc with rfl | hc
          · exact hrlt
          · exact hpre c hc
        · have hno : ∀ c ∈ l, ¬ d c < d a := fun c hc hlt => hex ⟨c, hc, hlt⟩
          refine ⟨[], l, a, (ih (d a, a)).1 hno, rfl, ha, by simp, ?_⟩
          intro c hc
          exact not_lt.mp (hno c hc)
      · rw [if_neg ha]
        have hex : ∃ c ∈ l, d c < init.1 := by
          rcases List.mem_cons.mp hc with rfl | hc
          · exact absurd hlt ha
          · exact ⟨c, hc, hlt⟩
        obtain ⟨pre, post, r, hr, hl, hrlt, hpre, hpost⟩ := (ih init).2 hex
        refine ⟨a :: pre, post, r, hr, by simp [hl], hrlt, ?_, hpost⟩
        intro c hc
        rcases List.mem_cons.mp hc with rfl | hc
        · exact lt_of_lt_of_le hrlt (not_lt.mp ha)
        · exact hpre c hc

theorem FlagsKept.kept_refl (u : List Bool) : FlagsKept u u := ⟨rfl, fun _ h => h⟩

theorem FlagsKept.kept_trans {u v w : List Bool} (h1 : FlagsKept u v) (h2 : FlagsKept v w) :
    FlagsKept u w := ⟨h1.1.trans h2.1, fun i h => h2.2 i (h1.2 i h)⟩

theorem getD_set_bool (u : List Bool) (i j : Nat) (b : Bool) :
    (u.set i b).getD j false = if i = j ∧ i < u.length then b else u.getD j false := by
  simp only [List.getD_eq_getElem?_getD, List.getElem?_set]
  by_cases hij : i = j
  · subst hij
    by_cases hi : i < u.length
    · simp [hi]
    · simp [hi, List.getElem?_eq_none (not_lt.mp hi)]
  · simp [hij]

theorem FlagsKept.set_true (u : List Bool) (i : Nat) : FlagsKept u (u.set i true) := by
  refine ⟨by simp, fun j h => ?_⟩
  rw [getD_set_bool]
  split
  · rfl
  · exact h

theorem FlagsKept.undo {u v : List Bool} {i : Nat} (hi : u.getD i false = false)
    (h : FlagsKept (u.set i true) v) : FlagsKept u (v.set i false) := by
  refine ⟨by simpa using h.1, fun j hj => ?_⟩
  have hne : i ≠ j := by
    rintro rfl
    rw [hi] at hj
    cases hj
  rw [getD_set_bool, if_neg (fun hc => hne hc.1)]
  apply h.2
  rw [getD_set_bool, if_neg (fun hc => hne hc.1)]
  exact hj

theorem FlagsKept.count_le {u v : List Bool} (h : FlagsKept u v) :
    v.count false ≤ u.count false := by
  induction u generalizing v with
  | nil =>
    cases v with
    | nil => simp
    | cons b v => simp [FlagsKept] at h
  | cons a u ih =>
    cases v with
    | nil => simp [FlagsKept] at h
    | cons b v =>
      have ht : FlagsKept u v := by
        refine ⟨by simpa using h.1, fun i hi => ?_⟩
        have := h.2 (i + 1)
        simpa using this (by simpa using hi)
      have h0 := h.2 0
      simp only [List.getD_cons_zero] at h0
      have hc := ih ht
      cases a
      · cases b
        · simpa [List.count_cons] using hc
        · simp only [List.count_cons, beq_self_eq_true, if_true]
          simp
          omega
      · cases b
        · simp at h0
        · simpa [List.count_cons] using hc

theorem count_false_set_true (u : List Bool) (i : Nat) (hi : i < u.length)
    (hf : u.getD i false = false) : (u.set i true).count false + 1 = u.count false := by
  induction u generalizing i with
  | nil => simp at hi
  | cons a u ih =>
    cases i with
    | zero =>
      simp only [List.getD_cons_zero] at hf
      subst hf
      simp [List.count_cons]
    | succ i =>
      have := ih i (by simpa using hi) (by simpa using hf)
      cases a <;> simp [List.count_cons] <;> omega

theorem ValidOpen.at {open_ways : List Int} {ways : List Model.Way}
    (hv : ValidOpen open_ways ways) {i : Nat} (hi : i < open_ways.length) :
    ∃ way, wayAt ways (open_ways.getD i 0) = some way ∧ way.nodes ≠ [] := by
  apply hv
  rw [List.getD_eq_getElem?_getD, List.getElem?_eq_getElem hi]
  exact List.getElem_mem _

theorem TrackRec.startLoop_spec (rec : List Bool → List Nat → Option TrackState)
    (open_ways : List Int) (ways : List Model.Way) (f : Nat)
    (hv : ValidOpen open_ways ways) (hrec : RecOK rec open_ways.length f) :
    ∀ (is : List Nat), (∀ i ∈ is, i < open_ways.length) → ∀ (used : List Bool) (nodes : List Nat),
      used.length = open_ways.length → used.count false < f + 1 →
      ∃ b u n, TrackRec.startLoop rec open_ways ways is used nodes = some (b, u, n)
        ∧ FlagsKept used u
        ∧ (b = true → ClosedNodes n ∧ ∃ i, i < open_ways.length ∧ u.getD i false = true)
        ∧ (b = false → nodes = [] → n = []) := by
  intro is
  induction is with
  | nil =>
    intro _ used nodes _ _
    exact ⟨false, used, nodes, rfl, FlagsKept.kept_refl _, by simp, fun _ h => h⟩
  | cons i rest ih =>
    intro his used nodes hlen hcount
    have hi : i < open_ways.length := his i (List.mem_cons_self _ _)
    have hrest : ∀ j ∈ rest, j < open_ways.length := fun j hj => his j (List.mem_cons_of_mem _ hj)
    unfold TrackRec.startLoop
    by_cases hu : used.getD i false = false
    · simp only [hu, if_true]
      obtain ⟨way, hway, -⟩ := hv.at hi
      simp only [hway]
      have hc1 : (used.set i true).count false < f := by
        have := count_false_set_true used i (hlen ▸ hi) hu
        omega
      obtain ⟨b, u2, n2, hr, hk, hclosed⟩ := hrec (used.set i true) way.nodes (by simpa using hlen) hc1
      rw [hr]
      cases b with
      | true =>
        refine ⟨true, u2, n2, rfl, (FlagsKept.set_true used i).kept_trans hk, ?_, by simp⟩
        intro _
        refine ⟨hclosed rfl, i, hi, ?_⟩
        apply hk.2
        rw [getD_set_bool, if_pos ⟨rfl, hlen ▸ hi⟩]
      | false =>
        have hk' : FlagsKept used (u2.set i false) := FlagsKept.undo hu hk
        obtain ⟨b, u, n, hr', hk2, hb, hn⟩ := ih hrest (u2.set i false) []
          (by rw [← hk'.1]; exact hlen) (lt_of_le_of_lt hk'.count_le hcount)
        exact ⟨b, u, n, hr', hk'.kept_trans hk2, hb, fun hb' _ => hn hb' rfl⟩
    · simp only [hu, if_false]
      exact ih hrest used nodes hlen hcount

theorem TrackRec.extendLoop_spec (rec : List Bool → List Nat → Option TrackState)
    (open_ways : List Int) (ways : List Model.Way) (tail f : Nat)
    (hv : ValidOpen open_ways ways) (hrec : RecOK rec open_ways.length f) :
    ∀ (is : List Nat), (∀ i ∈ is, i < open_ways.length) → ∀ (used : List Bool) (nodes : List Nat),
      used.length = open_ways.length → used.count false < f + 1 →
      ∃ b u n, TrackRec.extendLoop rec open_ways ways tail is used nodes = some (b, u, n)
        ∧ FlagsKept used u ∧ (b = true → ClosedNodes n) := by
  intro is
  induction is with
  | nil =>
    intro _ used nodes _ _
    exact ⟨false, used, nodes, rfl, FlagsKept.kept_refl _, by simp⟩
  | cons i rest ih =>
    intro his used nodes hlen hcount
    have hi : i < open_ways.length := his i (List.mem_cons_self _ _)
    have hrest : ∀ j ∈ rest, j < open_ways.length := fun j hj => his j (List.mem_cons_of_mem _ hj)
    unfold TrackRec.extendLoop
    by_cases hu : used.getD i false = false
    · simp only [hu, if_true]
      obtain ⟨way, hway, hne⟩ := hv.at hi
      simp only [hway]
      obtain ⟨wh, hwh⟩ : ∃ a, way.nodes.head? = some a := by
        cases hn : way.nodes with
        | nil => exact absurd hn hne
        | cons a l => exact ⟨a, rfl⟩
      obtain ⟨wt, hwt⟩ : ∃ a, way.nodes.getLast? = some a :=
        ⟨_, List.getLast?_eq_getLast _ hne⟩
      simp only [hwh, hwt]
      by_cases hmatch : wh = tail ∨ wt = tail
      · simp only [hmatch, if_true]
        have hc1 : (used.set i true).count false < f := by
          have := count_false_set_true used i (hlen ▸ hi) hu
          omega
        obtain ⟨b, u2, n2, hr, hk, hclosed⟩ := hrec (used.set i true)
          (if wh = tail then nodes ++ way.nodes else nodes ++ way.nodes.reverse)
          (by simpa using hlen) hc1
        rw [hr]
        cases b with
        | true => exact ⟨true, u2, n2, rfl, (FlagsKept.set_true used i).kept_trans hk, hclosed⟩
        | false =>
          have hk' : FlagsKept used (u2.set i false) := FlagsKept.undo hu hk
          obtain ⟨b, u, n, hr', hk2, hb⟩ := ih hrest (u2.set i false) (resize n2 nodes.length)
            (by rw [← hk'.1]; exact hlen) (lt_of_le_of_lt hk'.count_le hcount)
          exact ⟨b, u, n, hr', hk'.kept_trans hk2, hb⟩
      · simp only [hmatch, if_false]
        exact ih hrest used nodes hlen hcount
    · simp only [hu, if_false]
      exact ih hrest used nodes hlen hcount

theorem TrackRec_spec (open_ways : List Int) (ways : List Model.Way)
    (hv : ValidOpen open_ways ways) :
    ∀ fuel, RecOK (fun u n => TrackRec open_ways ways fuel u n) open_ways.length fuel := by
  intro fuel
  induction fuel with
  | zero => intro used nodes _ h; omega
  | succ f ih =>
    intro used nodes hlen hcount
    have hrange : ∀ i ∈ List.range open_ways.length, i < open_ways.length :=
      fun i hi => List.mem_range.mp hi
    simp only
    unfold TrackRec
    split
    · rename_i head tail hh ht
      split
      · rename_i hc
        exact ⟨true, used, nodes, rfl, FlagsKept.kept_refl _, fun _ => ⟨hc.2, by rw [hh, ht, hc.1]⟩⟩
      · exact TrackRec.extendLoop_spec _ open_ways ways tail f hv ih _ hrange used nodes hlen hcount
    · obtain ⟨b, u, n, hr, hk, hb, -⟩ :=
        TrackRec.startLoop_spec _ open_ways ways f hv ih _ hrange used nodes hlen hcount
      exact ⟨b, u, n, hr, hk, fun h => (hb h).1⟩

theorem Track.mark_fold (g : Nat → Bool) (is : List Nat) (ow : List Int) :
    (is.foldl (fun ow i => if g i = true then ow.set i (-1) else ow) ow).length
        = ow.length
    ∧ ∀ j, (is.foldl (fun ow i => if g i = true then ow.set i (-1) else ow) ow)[j]?
        = if j ∈ is ∧ g j = true ∧ j < ow.length then some (-1) else ow[j]? := by
  induction is generalizing ow with
  | nil => simp
  | cons i rest ih =>
    rw [List.foldl_cons]
    obtain ⟨hl, hg⟩ := ih (if g i = true then ow.set i (-1) else ow)
    have hlen : (if g i = true then ow.set i (-1) else ow).length = ow.length := by
      split <;> simp
    refine ⟨hl.trans hlen, fun j => ?_⟩
    rw [hg j, hlen]
    by_cases hu : g i = true
    · simp only [hu, if_true, List.getElem?_set, List.mem_cons]
      by_cases hij : i = j
      · subst hij
        by_cases hlt : i < ow.length
        · simp [hu, hlt]
        · simp [hlt, List.getElem?_eq_none (not_lt.mp hlt)]
      · have hji : ¬ j = i := fun h => hij h.symm
        simp [hij, hji]
    · simp only [hu, if_false, List.mem_cons]
      by_cases hij : j = i
      · subst hij
        simp [hu]
      · simp [hij]

theorem Track.mark_spec (used : List Bool) (ow : List Int) :
    (Track.mark used ow).length = ow.length
    ∧ ∀ j, (Track.mark used ow)[j]?
        = if used.getD j false = true ∧ j < ow.length then some (-1) else ow[j]? := by
  obtain ⟨hl, hg⟩ := Track.mark_fold (fun i => used.getD i false) (List.range ow.length) ow
  refine ⟨hl, fun j => ?_⟩
  unfold Track.mark
  rw [hg j]
  by_cases hj : j < ow.length
  · simp [hj]
  · simp [hj]

theorem Track.mark_filter (used : List Bool) (ow : List Int) (i : Nat) (hi : i < ow.length)
    (hu : used.getD i false = true) :
    ((Track.mark used ow).filter (fun v => ¬ v < 0)).length < ow.length
    ∧ ∀ w ∈ (Track.mark used ow).filter (fun v => ¬ v < 0), w ∈ ow := by
  obtain ⟨hl, hg⟩ := Track.mark_spec used ow
  constructor
  · rw [← hl]
    apply List.length_filter_lt_length_iff_exists.mpr
    refine ⟨-1, ?_, by simp⟩
    have := hg i
    rw [if_pos ⟨hu, hi⟩] at this
    exact List.mem_iff_getElem?.mpr ⟨i, this⟩
  · intro w hw
    rw [List.mem_filter] at hw
    obtain ⟨hmem, hnn⟩ := hw
    obtain ⟨j, hj⟩ := List.getElem?_of_mem hmem
    rw [hg j] at hj
    split at hj
    · simp only [Option.some.injEq] at hj
      subst hj
      simp at hnn
    · exact List.mem_iff_getElem?.mpr ⟨j, hj⟩

theorem Track_spec (open_ways : List Int) (ways : List Model.Way)
    (hv : ValidOpen open_ways ways) :
    ∃ nodes ow, Track open_ways ways = some (nodes, ow)
      ∧ (nodes ≠ [] → ClosedNodes nodes
          ∧ (ow.filter (fun v => ¬ v < 0)).length < open_ways.length
          ∧ ∀ w ∈ ow.filter (fun v => ¬ v < 0), w ∈ open_ways) := by
  unfold Track
  simp only
  have hrange : ∀ i ∈ List.range open_ways.length, i < open_ways.length :=
    fun i hi => List.mem_range.mp hi
  have hstart := TrackRec.startLoop_spec _ open_ways ways open_ways.length hv
    (TrackRec_spec open_ways ways hv open_ways.length) _ hrange
    (List.replicate open_ways.length false) [] (by simp) (by
      have := List.count_le_length false (List.replicate open_ways.length false)
      simp only [List.length_replicate] at this
      omega)
  obtain ⟨b, u, n, hr, -, hb, hn⟩ := hstart
  have hunf : TrackRec open_ways ways (open_ways.length + 1)
      (List.replicate open_ways.length false) [] = some (b, u, n) := by
    unfold TrackRec
    simpa using hr
  rw [hunf]
  cases b with
  | true =>
    obtain ⟨hclosed, i, hi, hu⟩ := hb rfl
    obtain ⟨h1, h2⟩ := Track.mark_filter u open_ways i hi hu
    exact ⟨n, _, rfl, fun _ => ⟨hclosed, h1, h2⟩⟩
  | false =>
    refine ⟨n, _, rfl, fun hne => ?_⟩
    exact absurd (hn rfl rfl) hne

theorem RefersToClosed.append {m_Ways : List Model.Way} {w : Nat}
    (h : RefersToClosed m_Ways w) (more : List Model.Way) : RefersToClosed (m_Ways ++ more) w := by
  obtain ⟨way, hw, hc⟩ := h
  refine ⟨way, ?_, hc⟩
  have hlt : w < m_Ways.length := by
    by_contra hge
    rw [List.getElem?_eq_none (not_lt.mp hge)] at hw
    cases hw
  rw [List.getElem?_append_left hlt]
  exact hw

theorem is_closed_iff (way : Model.Way) : is_closed way = true ↔ ClosedNodes way.nodes := by
  unfold is_closed ClosedNodes
  simp

theorem BuildRings.dangling_false (reallocates : Nat → Bool) (taken size : Nat)
    (h : ∀ n, taken ≤ n → n < size → reallocates n = false) :
    BuildRings.dangling reallocates taken size = false := by
  unfold BuildRings.dangling
  rw [List.any_eq_false]
  intro n hn
  rw [List.mem_range'_1] at hn
  rw [h n hn.1 (by omega)]
  simp

theorem BuildRings.loop_defined {reallocates : Nat → Bool} (ways : List Model.Way) :
    ∀ (fuel : Nat) (m_Ways : List Model.Way) (closed : List Nat) (opn : List Int),
      ValidOpen opn ways → (∀ w ∈ closed, RefersToClosed m_Ways w) → opn.length < fuel →
      (∀ n, ways.length ≤ n → n + 1 < m_Ways.length + opn.length → reallocates n = false) →
      ∃ m_Ways' closed',
        BuildRings.loop reallocates ways fuel m_Ways closed opn = some (m_Ways', closed')
        ∧ (∃ more, m_Ways' = m_Ways ++ more)
        ∧ m_Ways'.length ≤ m_Ways.length + opn.length
        ∧ ∀ w ∈ closed', RefersToClosed m_Ways' w := by
  intro fuel
  induction fuel with
  | zero => intro _ _ _ _ _ h; omega
  | succ f ih =>
    intro m_Ways closed opn hv hcl hf hno
    unfold BuildRings.loop
    by_cases he : opn.isEmpty = true
    · simp only [he, if_true]
      exact ⟨m_Ways, closed, rfl, ⟨[], by simp⟩, Nat.le_add_right _ _, hcl⟩
    · simp only [he]
      have hpos : 0 < opn.length := by
        cases opn with
        | nil => exact absurd rfl he
        | cons a l => simp
      have hd : BuildRings.dangling reallocates ways.length m_Ways.length = false :=
        BuildRings.dangling_false reallocates _ _ (fun n h1 h2 => hno n h1 (by omega))
      simp only [hd]
      obtain ⟨nodes, ow, ht, hn⟩ := Track_spec opn ways hv
      simp only [ht]
      by_cases hne : nodes.isEmpty = true
      · simp only [hne, if_true]
        exact ⟨m_Ways, closed, rfl, ⟨[], by simp⟩, Nat.le_add_right _ _, hcl⟩
      · simp only [hne]
        have hne' : nodes ≠ [] := by
          intro h
          apply hne
          simp [h]
        obtain ⟨hclosed, hlen, hsub⟩ := hn hne'
        have hv' : ValidOpen (ow.filter (fun v => ¬ v < 0)) ways :=
          fun w hw => hv w (hsub w hw)
        have hcl' : ∀ w ∈ closed ++ [m_Ways.length],
            RefersToClosed (m_Ways ++ [⟨nodes⟩]) w := by
          intro w hw
          rcases List.mem_append.mp hw with h | h
          · exact (hcl w h).append _
          · simp only [List.mem_singleton] at h
            subst h
            exact ⟨⟨nodes⟩, by simp, hclosed⟩
        obtain ⟨mw, cl, hr, ⟨more, hmore⟩, hbound, hall⟩ := ih (m_Ways ++ [⟨nodes⟩])
          (closed ++ [m_Ways.length]) (ow.filter (fun v => ¬ v < 0)) hv' hcl' (by omega)
          (fun n h1 h2 => hno n h1 (by
            simp only [List.length_append, List.length_singleton] at h2
            omega))
        refine ⟨mw, cl, ?_, ⟨[⟨nodes⟩] ++ more, by rw [hmore]; simp⟩, ?_, hall⟩
        · simpa using hr
        · simp only [List.length_append, List.length_singleton] at hbound
          omega

theorem BuildRings.loop_closed {reallocates : Nat → Bool} (ways : List Model.Way) :
    ∀ (fuel : Nat) (m_Ways : List Model.Way) (closed : List Nat) (opn : List Int)
      (mw : List Model.Way) (cl : List Nat),
      ValidOpen opn ways → (∀ w ∈ closed, RefersToClosed m_Ways w) →
      BuildRings.loop reallocates ways fuel m_Ways closed opn = some (mw, cl) →
      ∀ w ∈ cl, RefersToClosed mw w := by
  intro fuel
  induction fuel with
  | zero => intro _ _ _ _ _ _ _ h; simp [BuildRings.loop] at h
  | succ f ih =>
    intro m_Ways closed opn mw cl hv hcl h
    unfold BuildRings.loop at h
    by_cases he : opn.isEmpty = true
    · simp only [he, if_true, Option.some.injEq, Prod.mk.injEq] at h
      obtain ⟨rfl, rfl⟩ := h
      exact hcl
    · simp only [he] at h
      by_cases hd : BuildRings.dangling reallocates ways.length m_Ways.length = true
      · rw [if_pos hd] at h
        cases h
      rw [if_neg hd] at h
      obtain ⟨nodes, ow, ht, hn⟩ := Track_spec opn ways hv
      rw [ht] at h
      simp only at h
      by_cases hne : nodes.isEmpty = true
      · simp only [hne, if_true, Bool.false_eq_true, if_false, Option.some.injEq,
          Prod.mk.injEq] at h
        obtain ⟨rfl, rfl⟩ := h
        exact hcl
      · simp only [hne, Bool.false_eq_true, if_false] at h
        have hne' : nodes ≠ [] := by
          intro h'
          apply hne
          simp [h']
        obtain ⟨hclosed, -, hsub⟩ := hn hne'
        have hv' : ValidOpen (ow.filter (fun v => ¬ v < 0)) ways :=
          fun w hw => hv w (hsub w hw)
        have hcl' : ∀ w ∈ closed ++ [m_Ways.length],
            RefersToClosed (m_Ways ++ [⟨nodes⟩]) w := by
          intro w hw
          rcases List.mem_append.mp hw with h1 | h1
          · exact (hcl w h1).append _
          · simp only [List.mem_singleton] at h1
            subst h1
            exact ⟨⟨nodes⟩, by simp, hclosed⟩
        exact ih _ _ _ _ _ hv' hcl' h

theorem wayAt_natCast (ways : List Model.Way) (w : Nat) : wayAt ways (w : Int) = ways[w]? := by
  unfold wayAt
  simp

theorem BuildRings.split_spec (ways : List Model.Way) :
    ∀ (l closed : List Nat) (opn : List Int),
      (∀ w ∈ l, ∃ way, ways[w]? = some way ∧ way.nodes ≠ []) →
      (∀ w ∈ closed, RefersToClosed ways w) → ValidOpen opn ways →
      ∃ closed' opn', BuildRings.split ways l closed opn = some (closed', opn')
        ∧ (∀ w ∈ closed', RefersToClosed ways w) ∧ ValidOpen opn' ways := by
  intro l
  induction l with
  | nil =>
    intro closed opn _ hc ho
    exact ⟨closed, opn, rfl, hc, ho⟩
  | cons w rest ih =>
    intro closed opn hl hc ho
    obtain ⟨way, hw, hne⟩ := hl w (List.mem_cons_self _ _)
    have hrest : ∀ w ∈ rest, ∃ way, ways[w]? = some way ∧ way.nodes ≠ [] :=
      fun v hv => hl v (List.mem_cons_of_mem _ hv)
    unfold BuildRings.split
    simp only [hw]
    by_cases hcl : is_closed way = true
    · simp only [hcl, if_true]
      apply ih _ _ hrest _ ho
      intro v hv
      rcases List.mem_append.mp hv with h | h
      · exact hc v h
      · simp only [List.mem_singleton] at h
        subst h
        exact ⟨way, hw, (is_closed_iff way).mp hcl⟩
    · simp only [hcl]
      apply ih _ _ hrest hc
      intro v hv
      rcases List.mem_append.mp hv with h | h
      · exact ho v h
      · simp only [List.mem_singleton] at h
        subst h
        exact ⟨way, by rw [wayAt_natCast]; exact hw, hne⟩

theorem BuildRings.split_length (ways : List Model.Way) :
    ∀ (l closed : List Nat) (opn : List Int) (closed' : List Nat) (opn' : List Int),
      BuildRings.split ways l closed opn = some (closed', opn') →
      opn'.length ≤ opn.length + l.length := by
  intro l
  induction l with
  | nil =>
    intro closed opn closed' opn' h
    unfold BuildRings.split at h
    simp only [Option.some.injEq, Prod.mk.injEq] at h
    rw [← h.2]
    simp
  | cons w rest ih =>
    intro closed opn closed' opn' h
    unfold BuildRings.split at h
    cases hw : ways[w]? with
    | none => rw [hw] at h; cases h
    | some way =>
      rw [hw] at h
      simp only at h
      by_cases hcl : is_closed way = true
      · rw [if_pos hcl] at h
        have := ih _ _ _ _ h
        simp only [List.length_cons]
        omega
      · rw [if_neg hcl] at h
        have := ih _ _ _ _ h
        simp only [List.length_append, List.length_singleton, List.length_cons,
          List.length_nil] at this ⊢
        omega

theorem BuildRings.process_spec {reallocates : Nat → Bool} (m_Ways : List Model.Way)
    (ways_nums : List Nat)
    (h : ∀ w ∈ ways_nums, ∃ way, m_Ways[w]? = some way ∧ way.nodes ≠ [])
    (hno : ∀ n, m_Ways.length ≤ n → n + 1 < m_Ways.length + ways_nums.length →
      reallocates n = false) :
    ∃ m_Ways' closed, BuildRings.process reallocates m_Ways ways_nums = some (m_Ways', closed)
      ∧ (∃ more, m_Ways' = m_Ways ++ more)
      ∧ m_Ways'.length ≤ m_Ways.length + ways_nums.length
      ∧ ∀ w ∈ closed, RefersToClosed m_Ways' w := by
  unfold BuildRings.process
  simp only
  obtain ⟨closed, opn, hs, hc, ho⟩ := BuildRings.split_spec m_Ways ways_nums [] [] h
    (by simp) (by intro w hw; simp at hw)
  rw [hs]
  have hlen := BuildRings.split_length m_Ways ways_nums [] [] closed opn hs
  simp only [List.length_nil, Nat.zero_add] at hlen
  obtain ⟨mw, cl, h1, h2, h3, h4⟩ :=
    @BuildRings.loop_defined reallocates m_Ways (opn.length + 1) m_Ways closed opn ho hc
      (by omega) (fun n h1 h2 => hno n h1 (by omega))
  exact ⟨mw, cl, h1, h2, by omega, h4⟩

theorem BuildRings.process_closed {reallocates : Nat → Bool} (m_Ways : List Model.Way)
    (ways_nums : List Nat)
    (h : ∀ w ∈ ways_nums, ∃ way, m_Ways[w]? = some way ∧ way.nodes ≠ [])
    (mw : List Model.Way) (cl : List Nat)
    (hp : BuildRings.process reallocates m_Ways ways_nums = some (mw, cl)) :
    ∀ w ∈ cl, RefersToClosed mw w := by
  unfold BuildRings.process at hp
  simp only at hp
  obtain ⟨closed, opn, hs, hc, ho⟩ := BuildRings.split_spec m_Ways ways_nums [] [] h
    (by simp) (by intro w hw; simp at hw)
  rw [hs] at hp
  exact BuildRings.loop_closed m_Ways _ _ _ _ _ _ ho hc hp

theorem RouteModel.node_setNode {K : Type} [LinearOrderedField K] (m : RouteModel K)
    (i j : Nat) (nd : RouteModel.Node K) :
    (m.setNode i nd).node j = if i = j ∧ i < m.SNodes.length then nd else m.node j := by
  unfold RouteModel.node RouteModel.setNode
  simp only [List.getD_eq_getElem?_getD, List.getElem?_set]
  by_cases hij : i = j
  · subst hij
    by_cases hi : i < m.SNodes.length
    · simp [hi]
    · simp [hi, List.getElem?_eq_none (not_lt.mp hi)]
  · simp [hij]

theorem RouteModel.setNode_length {K : Type} (m : RouteModel K) (i : Nat)
    (nd : RouteModel.Node K) : (m.setNode i nd).SNodes.length = m.SNodes.length := by
  simp [RouteModel.setNode]

theorem RouteModel.setNode_setNode {K : Type} (m : RouteModel K) (i : Nat)
    (a b : RouteModel.Node K) : (m.setNode i a).setNode i b = m.setNode i b := by
  simp [RouteModel.setNode]

theorem RouteModel.setNode_reset {K : Type} [LinearOrderedField K] (m : RouteModel K) (i : Nat)
    (nd : RouteModel.Node K) (h : nd.reset = (m.node i).reset) :
    (m.setNode i nd).resetSearchState = m.resetSearchState := by
  unfold RouteModel.resetSearchState RouteModel.setNode
  simp only
  congr 1
  apply List.ext_getElem?
  intro j
  simp only [List.getElem?_map, List.getElem?_set]
  by_cases hij : i = j
  · subst hij
    by_cases hi : i < m.SNodes.length
    · simp only [hi, if_true, Option.map_some']
      rw [h]
      simp [RouteModel.node, List.getD_eq_getElem?_getD, List.getElem?_eq_getElem hi]
    · simp [hi, List.getElem?_eq_none (not_lt.mp hi)]
  · simp [hij]

theorem RouteModel.reset_static {K : Type} [LinearOrderedField K] {m1 m2 : RouteModel K}
    (h : m1.resetSearchState = m2.resetSearchState) :
    m1.toModel = m2.toModel ∧ m1.node_to_road = m2.node_to_road
      ∧ m1.SNodes.length = m2.SNodes.length
      ∧ ∀ i, (m1.node i).x = (m2.node i).x ∧ (m1.node i).y = (m2.node i).y
          ∧ (m1.node i).index = (m2.node i).index := by
  have h1 : m1.toModel = m2.toModel := by
    have := congrArg (fun m : RouteModel K => m.toModel) h
    exact this
  have h2 : m1.node_to_road = m2.node_to_road := by
    have := congrArg (fun m : RouteModel K => m.node_to_road) h
    exact this
  have h3 : m1.SNodes.map RouteModel.Node.reset = m2.SNodes.map RouteModel.Node.reset := by
    have := congrArg (fun m : RouteModel K => m.SNodes) h
    exact this
  have h4 : m1.SNodes.length = m2.SNodes.length := by
    simpa using congrArg List.length h3
  refine ⟨h1, h2, h4, fun i => ?_⟩
  have h5 := congrArg (fun l => l[i]?) h3
  simp only [List.getElem?_map] at h5
  unfold RouteModel.node
  simp only [List.getD_eq_getElem?_getD]
  cases h6 : m1.SNodes[i]? with
  | none =>
    cases h7 : m2.SNodes[i]? with
    | none => simp
    | some b => rw [h6, h7] at h5; simp at h5
  | some a =>
    cases h7 : m2.SNodes[i]? with
    | none => rw [h6, h7] at h5; simp at h5
    | some b =>
      rw [h6, h7] at h5
      simp only [Option.map_some', Option.some.injEq] at h5
      simp only [Option.getD_some]
      have hx := congrArg RouteModel.Node.x h5
      have hy := congrArg RouteModel.Node.y h5
      have hi := congrArg RouteModel.Node.index h5
      exact ⟨hx, hy, hi⟩

theorem RouteModel.setNode_self {K : Type} [LinearOrderedField K] (m : RouteModel K) (i : Nat) :
    m.setNode i (m.node i) = m := by
  unfold RouteModel.setNode RouteModel.node
  have : m.SNodes.set i (m.SNodes.getD i RouteModel.Node.default) = m.SNodes := by
    apply List.ext_getElem?
    intro j
    rw [List.getElem?_set]
    by_cases hij : i = j
    · subst hij
      by_cases hi : i < m.SNodes.length
      · simp [hi, List.getD_eq_getElem?_getD, List.getElem?_eq_getElem hi]
      · simp [hi, List.getElem?_eq_none (not_lt.mp hi)]
    · simp [hij]
  rw [this]

theorem RouteModel.setNode_of_le {K : Type} (m : RouteModel K) (i : Nat)
    (nd : RouteModel.Node K) (h : m.SNodes.length ≤ i) : m.setNode i nd = m := by
  unfold RouteModel.setNode
  have : m.SNodes.set i nd = m.SNodes := by
    apply List.ext_getElem?
    intro j
    rw [List.getElem?_set]
    by_cases hij : i = j
    · subst hij
      simp [not_lt.mpr h, List.getElem?_eq_none h]
    · simp [hij]
  rw [this]

theorem AddNeighbors.visit_eq {K : Type} [LinearOrderedField K] (rt : Runtime K)
    (current_node : Nat) (p : RoutePlanner K) (neighbor : Nat) :
    AddNeighbors.visit rt current_node p neighbor
      = { p.setNode neighbor (visitedNode rt current_node p neighbor) with
          open_list := p.open_list ++ [neighbor] } := by
  by_cases hn : neighbor < p.m_Model.SNodes.length
  · unfold AddNeighbors.visit visitedNode CalculateHValue
    simp only [RoutePlanner.setNode, RoutePlanner.node, RouteModel.setNode_setNode,
      RouteModel.node_setNode, RouteModel.setNode_length, hn, and_true, if_true]
    congr 2
    by_cases h1 : neighbor = current_node
    · subst h1
      by_cases h2 : neighbor = p.end_node
      · subst h2
        simp [RouteModel.Node.distance]
      · simp [h2, RouteModel.Node.distance]
    · have h1' : ¬ current_node = neighbor := fun h => h1 h.symm
      by_cases h2 : neighbor = p.end_node
      · subst h2
        simp [h1, h1', RouteModel.Node.distance]
      · simp [h1, h1', h2, RouteModel.Node.distance]
  · have hle := not_lt.mp hn
    unfold AddNeighbors.visit
    simp only [RoutePlanner.setNode, RouteModel.setNode_of_le _ _ _ hle]

theorem SameMap.same_refl {K : Type} [LinearOrderedField K] (p : RoutePlanner K) : SameMap p p :=
  ⟨rfl, rfl, rfl, rfl, rfl, rfl⟩

theorem SameMap.same_trans {K : Type} [LinearOrderedField K] {p q r : RoutePlanner K}
    (h1 : SameMap p q) (h2 : SameMap q r) : SameMap p r :=
  ⟨h2.start_eq.trans h1.start_eq, h2.end_eq.trans h1.end_eq,
    h2.distance_eq.trans h1.distance_eq, h2.path_eq.trans h1.path_eq,
    h2.length_eq.trans h1.length_eq, h2.reset_eq.trans h1.reset_eq⟩

theorem RoutePlanner.node_setNode_planner {K : Type} [LinearOrderedField K] (p : RoutePlanner K)
    (i j : Nat) (nd : RouteModel.Node K) :
    (p.setNode i nd).node j = if i = j ∧ i < p.m_Model.SNodes.length then nd else p.node j :=
  RouteModel.node_setNode p.m_Model i j nd

theorem visit_sameMap {K : Type} [LinearOrderedField K] (rt : Runtime K) (cur : Nat)
    (p : RoutePlanner K) (X : Nat) : SameMap p (AddNeighbors.visit rt cur p X) := by
  rw [AddNeighbors.visit_eq]
  refine ⟨rfl, rfl, rfl, rfl, by simp [RoutePlanner.setNode, RouteModel.setNode_length], ?_⟩
  exact RouteModel.setNode_reset p.m_Model X _ rfl

theorem visit_node {K : Type} [LinearOrderedField K] (rt : Runtime K) (cur : Nat)
    (p : RoutePlanner K) (X Y : Nat) :
    (AddNeighbors.visit rt cur p X).node Y
      = if X = Y ∧ X < p.m_Model.SNodes.length then visitedNode rt cur p X else p.node Y := by
  rw [AddNeighbors.visit_eq]
  exact RoutePlanner.node_setNode_planner p X Y _

theorem visit_fold_effect {K : Type} [LinearOrderedField K] (rt : Runtime K) (cur : Nat)
    (L : List Nat) (p : RoutePlanner K) :
    (L.foldl (AddNeighbors.visit rt cur) p).open_list = p.open_list ++ L
    ∧ SameMap p (L.foldl (AddNeighbors.visit rt cur) p)
    ∧ ∀ Y, ((L.foldl (AddNeighbors.visit rt cur) p).node Y).neighbors = (p.node Y).neighbors
        ∧ ((L.foldl (AddNeighbors.visit rt cur) p).node Y).visited
            = ((p.node Y).visited || decide (Y ∈ L ∧ Y < p.m_Model.SNodes.length))
        ∧ ((L.foldl (AddNeighbors.visit rt cur) p).node Y).parent
            = if Y ∈ L ∧ Y < p.m_Model.SNodes.length then some cur else (p.node Y).parent := by
  induction L generalizing p with
  | nil => simp [SameMap.same_refl]
  | cons X L ih =>
    rw [List.foldl_cons]
    obtain ⟨ho, hs, hn⟩ := ih (AddNeighbors.visit rt cur p X)
    have hs1 := visit_sameMap rt cur p X
    have hopen1 : (AddNeighbors.visit rt cur p X).open_list = p.open_list ++ [X] := by
      rw [AddNeighbors.visit_eq]
    refine ⟨by rw [ho, hopen1]; simp, hs1.same_trans hs, fun Y => ?_⟩
    obtain ⟨h1, h2, h3⟩ := hn Y
    rw [h1, h2, h3, visit_node, hs1.length_eq]
    by_cases hXY : X = Y
    · subst hXY
      by_cases hX : X < p.m_Model.SNodes.length
      · simp [hX, visitedNode]
      · simp [hX]
    · have hYX : ¬ Y = X := fun h => hXY h.symm
      simp [hXY, hYX]

theorem FindNeighbor_some {K : Type} [LinearOrderedField K] (rt : Runtime K)
    (m : RouteModel K) (self : Nat) (node_indices : List Nat) (b : Nat)
    (h : FindNeighbor rt m self node_indices = some b) :
    b ∈ node_indices ∧ (m.node b).visited = false
      ∧ (m.node self).distance rt (m.node b) ≠ 0 := by
  unfold FindNeighbor at h
  have key : ∀ (l : List Nat) (acc : Option Nat),
      (∀ c, acc = some c → (c ∈ node_indices ∧ (m.node c).visited = false
        ∧ (m.node self).distance rt (m.node c) ≠ 0)) →
      (∀ x ∈ l, x ∈ node_indices) →
      ∀ c, l.foldl
        (fun closest_node node_index =>
          let node := m.node node_index
          if (m.node self).distance rt node ≠ 0 ∧ node.visited = false then
            match closest_node with
            | none => some node_index
            | some c =>
              if (m.node self).distance rt node < (m.node self).distance rt (m.node c) then
                some node_index
              else some c
          else closest_node) acc = some c →
        (c ∈ node_indices ∧ (m.node c).visited = false
          ∧ (m.node self).distance rt (m.node c) ≠ 0) := by
    intro l
    induction l with
    | nil => intro acc hacc _ c hc; exact hacc c hc
    | cons x l ih =>
      intro acc hacc hl c hc
      rw [List.foldl_cons] at hc
      refine ih _ ?_ (fun y hy => hl y (List.mem_cons_of_mem _ hy)) c hc
      intro c' hc'
      have hx : x ∈ node_indices := hl x (List.mem_cons_self _ _)
      simp only at hc'
      split at hc'
      · rename_i hcond
        cases acc with
        | none =>
          simp only [Option.some.injEq] at hc'
          subst hc'
          exact ⟨hx, hcond.2, hcond.1⟩
        | some c0 =>
          simp only at hc'
          split at hc'
          · simp only [Option.some.injEq] at hc'
            subst hc'
            exact ⟨hx, hcond.2, hcond.1⟩
          · exact hacc c' hc'
      · exact hacc c' hc'
  exact key node_indices none (by simp) (fun x hx => hx) b h

theorem FindNeighbor_congr {K : Type} [LinearOrderedField K] (rt : Runtime K)
    (m1 m2 : RouteModel K) (self : Nat) (node_indices : List Nat)
    (h : ∀ i, (m1.node i).x = (m2.node i).x ∧ (m1.node i).y = (m2.node i).y
      ∧ (m1.node i).visited = (m2.node i).visited) :
    FindNeighbor rt m1 self node_indices = FindNeighbor rt m2 self node_indices := by
  have hd : ∀ i j, (m1.node i).distance rt (m1.node j) = (m2.node i).distance rt (m2.node j) := by
    intro i j
    unfold RouteModel.Node.distance
    rw [(h i).1, (h i).2.1, (h j).1, (h j).2.1]
  unfold FindNeighbor
  congr 1
  funext acc idx
  simp only [hd, (h idx).2.2]

theorem withNeighbors_node {K : Type} [LinearOrderedField K] (m : RouteModel K) (self : Nat)
    (found : List Nat) (i : Nat) :
    ((withNeighbors m self found).node i).x = (m.node i).x
    ∧ ((withNeighbors m self found).node i).y = (m.node i).y
    ∧ ((withNeighbors m self found).node i).visited = (m.node i).visited
    ∧ ((withNeighbors m self found).node i).parent = (m.node i).parent
    ∧ ((withNeighbors m self found).node i).index = (m.node i).index
    ∧ ((withNeighbors m self found).node i).neighbors
        = if self = i ∧ self < m.SNodes.length then (m.node i).neighbors ++ found
          else (m.node i).neighbors := by
  unfold withNeighbors
  rw [RouteModel.node_setNode]
  by_cases hs : self = i ∧ self < m.SNodes.length
  · obtain ⟨rfl, _⟩ := hs
    simp [*]
  · simp [hs]

theorem withNeighbors_append {K : Type} [LinearOrderedField K] (m : RouteModel K) (self : Nat)
    (found : List Nat) (nb : Nat) :
    (withNeighbors m self found).setNode self
        { (withNeighbors m self found).node self with
          neighbors := ((withNeighbors m self found).node self).neighbors ++ [nb] }
      = withNeighbors m self (found ++ [nb]) := by
  by_cases hs : self < m.SNodes.length
  · unfold withNeighbors
    rw [RouteModel.setNode_setNode, RouteModel.node_setNode]
    simp [hs]
  · have hle := not_lt.mp hs
    unfold withNeighbors
    rw [RouteModel.setNode_of_le _ _ _ hle, RouteModel.setNode_of_le _ _ _ hle,
      RouteModel.setNode_of_le _ _ _ hle]

theorem withNeighbors_static {K : Type} [LinearOrderedField K] (m : RouteModel K) (self : Nat)
    (found : List Nat) :
    (withNeighbors m self found).toModel = m.toModel
    ∧ (withNeighbors m self found).node_to_road = m.node_to_road
    ∧ (withNeighbors m self found).path = m.path
    ∧ (withNeighbors m self found).SNodes.length = m.SNodes.length
    ∧ (withNeighbors m self found).resetSearchState = m.resetSearchState := by
  refine ⟨rfl, rfl, rfl, by simp [withNeighbors, RouteModel.setNode], ?_⟩
  exact RouteModel.setNode_reset m self _ rfl

theorem FindNeighbors_fold {K : Type} [LinearOrderedField K] (rt : Runtime K)
    (m : RouteModel K) (self : Nat) (roads : List Nat) (found : List Nat) :
    ∃ more : List Nat,
      roads.foldl
        (fun m road =>
          match FindNeighbor rt m self
            (m.toModel.wayNodes ((m.m_Roads.getD road ⟨0, .Invalid⟩).way)) with
          | some new_neighbor =>
            m.setNode self { m.node self with neighbors := (m.node self).neighbors ++ [new_neighbor] }
          | none => m)
        (withNeighbors m self found) = withNeighbors m self (found ++ more)
      ∧ more.length ≤ roads.length
      ∧ ∀ b ∈ more, (m.node b).visited = false
          ∧ ∃ road ∈ roads, b ∈ m.toModel.wayNodes ((m.m_Roads.getD road ⟨0, .Invalid⟩).way) := by
  induction roads generalizing found with
  | nil => exact ⟨[], by simp, by simp, by simp⟩
  | cons r rs ih =>
    rw [List.foldl_cons]
    have hcongr : FindNeighbor rt (withNeighbors m self found) self
        ((withNeighbors m self found).toModel.wayNodes
          (((withNeighbors m self found).m_Roads.getD r ⟨0, .Invalid⟩).way))
        = FindNeighbor rt m self (m.toModel.wayNodes ((m.m_Roads.getD r ⟨0, .Invalid⟩).way)) := by
      rw [(withNeighbors_static m self found).1]
      apply FindNeighbor_congr
      intro i
      have := withNeighbors_node m self found i
      exact ⟨this.1, this.2.1, this.2.2.1⟩
    simp only [hcongr]
    cases hf : FindNeighbor rt m self (m.toModel.wayNodes ((m.m_Roads.getD r ⟨0, .Invalid⟩).way)) with
    | none =>
      simp only
      obtain ⟨more, h1, h2, h3⟩ := ih found
      refine ⟨more, h1, by simp; omega, fun b hb => ?_⟩
      obtain ⟨hv, road, hr, hbw⟩ := h3 b hb
      exact ⟨hv, road, List.mem_cons_of_mem _ hr, hbw⟩
    | some nb =>
      simp only
      rw [withNeighbors_append]
      obtain ⟨more, h1, h2, h3⟩ := ih (found ++ [nb])
      refine ⟨nb :: more, by rw [h1]; simp, by simp; omega, fun b hb => ?_⟩
      rcases List.mem_cons.mp hb with rfl | hb
      · obtain ⟨hmem, hvis, -⟩ := FindNeighbor_some rt m self _ _ hf
        exact ⟨hvis, r, List.mem_cons_self _ _, hmem⟩
      · obtain ⟨hv, road, hr, hbw⟩ := h3 b hb
        exact ⟨hv, road, List.mem_cons_of_mem _ hr, hbw⟩

theorem withNeighbors_nil {K : Type} [LinearOrderedField K] (m : RouteModel K) (self : Nat) :
    withNeighbors m self [] = m := by
  unfold withNeighbors
  simp only [List.append_nil]
  exact RouteModel.setNode_self m self

theorem FindNeighbors_spec {K : Type} [LinearOrderedField K] (rt : Runtime K)
    (m : RouteModel K) (self : Nat) :
    ∃ found : List Nat, FindNeighbors rt m self = withNeighbors m self found
      ∧ found.length ≤ (m.roadsOf (m.node self).index).length
      ∧ ∀ b ∈ found, (m.node b).visited = false ∧ m.Linked self b := by
  obtain ⟨more, h1, h2, h3⟩ := FindNeighbors_fold rt m self (m.roadsOf (m.node self).index) []
  refine ⟨more, ?_, h2, fun b hb => ⟨(h3 b hb).1, (h3 b hb).2⟩⟩
  unfold FindNeighbors
  rw [withNeighbors_nil] at h1
  simpa using h1

theorem AddNeighbors_effect {K : Type} [LinearOrderedField K] (rt : Runtime K)
    (p : RoutePlanner K) (cur : Nat) (hcur : cur < p.m_Model.SNodes.length) :
    ∃ found, Expands p cur (AddNeighbors rt p cur) found := by
  obtain ⟨found, hF, hlen, hnew⟩ := FindNeighbors_spec rt p.m_Model cur
  refine ⟨found, ?_⟩
  have hst := withNeighbors_static p.m_Model cur found
  have hnode := withNeighbors_node p.m_Model cur found
  set p1 : RoutePlanner K := { p with m_Model := FindNeighbors rt p.m_Model cur } with hp1
  have hp1m : p1.m_Model = withNeighbors p.m_Model cur found := hF
  have hp1node : ∀ i, p1.node i = (withNeighbors p.m_Model cur found).node i := by
    intro i; unfold RoutePlanner.node; rw [hp1m]
  have hchildren : (p1.node cur).neighbors = (p.node cur).neighbors ++ found := by
    rw [hp1node, (hnode cur).2.2.2.2.2]
    simp [hcur, RoutePlanner.node]
  have hp1len : p1.m_Model.SNodes.length = p.m_Model.SNodes.length := by
    rw [hp1m]; exact hst.2.2.2.1
  have hsame1 : SameMap p p1 :=
    ⟨rfl, rfl, rfl, by rw [hp1m]; exact hst.2.2.1, hp1len, by rw [hp1m]; exact hst.2.2.2.2⟩
  have hAdd : AddNeighbors rt p cur
      = ((p.node cur).neighbors ++ found).foldl (AddNeighbors.visit rt cur) p1 := by
    unfold AddNeighbors
    simp only
    rw [← hp1, hchildren]
  obtain ⟨ho, hs, hn⟩ := visit_fold_effect rt cur ((p.node cur).neighbors ++ found) p1
  rw [← hAdd] at ho hs hn
  refine ⟨ho, hsame1.same_trans hs, ?_, ?_, ?_, hlen, hnew⟩
  · intro Y
    rw [(hn Y).1, hp1node, (hnode Y).2.2.2.2.2]
    by_cases hY : Y = cur
    · subst hY
      simp [hcur, RoutePlanner.node]
    · have : ¬ cur = Y := fun h => hY h.symm
      simp [hY, this, RoutePlanner.node]
  · intro Y
    rw [(hn Y).2.1, hp1node, (hnode Y).2.2.1, hp1len]
    rfl
  · intro Y
    rw [(hn Y).2.2, hp1node, (hnode Y).2.2.2.1, hp1len]
    rfl

theorem NextNode_effect {K : Type} [LinearOrderedField K] (rt : Runtime K)
    (p : RoutePlanner K) (hne : p.open_list.isEmpty = false) :
    ∃ cur rest, NextNode rt p = some (cur, { p with open_list := rest })
      ∧ (rest ++ [cur]).Perm p.open_list := by
  unfold NextNode
  simp only
  set sorted := rt.sort
    (fun v1 v2 => decide ((p.node v1).h_value + (p.node v1).g_value
        > (p.node v2).h_value + (p.node v2).g_value)) p.open_list with hsorted
  have hperm : sorted.Perm p.open_list := rt.sort_perm _ _
  have hne' : sorted ≠ [] := by
    intro h
    rw [h] at hperm
    have := hperm.symm.eq_nil
    rw [this] at hne
    simp at hne
  refine ⟨sorted.getLast hne', sorted.dropLast, ?_, ?_⟩
  · rw [List.getLast?_eq_getLast _ hne']
  · rw [List.dropLast_append_getLast hne']
    exact hperm

theorem roadsOf_length_le {K : Type} (m : RouteModel K) (idx : Nat) :
    (m.roadsOf idx).length ≤ roadBound m := by
  unfold RouteModel.roadsOf roadBound
  induction m.node_to_road with
  | nil => simp
  | cons e l ih =>
    simp only [List.lookup, List.map_cons, List.sum_cons]
    split
    · simp
    · exact le_trans ih (Nat.le_add_left _ _)

theorem Linked_congr {K : Type} [LinearOrderedField K] {m1 m2 : RouteModel K}
    (h : m1.resetSearchState = m2.resetSearchState) (a b : Nat) :
    m1.Linked a b ↔ m2.Linked a b := by
  obtain ⟨h1, h2, -, h4⟩ := RouteModel.reset_static h
  unfold RouteModel.Linked RouteModel.roadsOf
  rw [h1, h2, (h4 a).2.2]

theorem Linked_eq {K : Type} [LinearOrderedField K] {m1 m2 : RouteModel K}
    (h : m1.resetSearchState = m2.resetSearchState) : m1.Linked = m2.Linked := by
  funext a b
  exact propext (Linked_congr h a b)

theorem WellFormed_congr {K : Type} [LinearOrderedField K] {m1 m2 : RouteModel K}
    (h : m1.resetSearchState = m2.resetSearchState) (hw : m1.WellFormed) : m2.WellFormed := by
  obtain ⟨h1, -, h3, -⟩ := RouteModel.reset_static h
  intro w i hi
  rw [← h3]
  apply hw w i
  rw [h1]
  exact hi

theorem roadBound_congr {K : Type} [LinearOrderedField K] {m1 m2 : RouteModel K}
    (h : m1.resetSearchState = m2.resetSearchState) : roadBound m1 = roadBound m2 := by
  obtain ⟨-, h2, -, -⟩ := RouteModel.reset_static h
  unfold roadBound
  rw [h2]

theorem unvisitedCount_le_length {K : Type} [LinearOrderedField K] (p : RoutePlanner K) :
    unvisitedCount p ≤ p.m_Model.SNodes.length := by
  unfold unvisitedCount
  exact le_trans (List.length_filter_le _ _) (by simp)

theorem unvisitedCount_mono {K : Type} [LinearOrderedField K] (p p' : RoutePlanner K)
    (hlen : p'.m_Model.SNodes.length = p.m_Model.SNodes.length)
    (h : ∀ i, (p.node i).visited = true → (p'.node i).visited = true) :
    unvisitedCount p' ≤ unvisitedCount p
    ∧ ((∃ i, i < p.m_Model.SNodes.length ∧ (p.node i).visited = false
          ∧ (p'.node i).visited = true) → unvisitedCount p' < unvisitedCount p) := by
  unfold unvisitedCount
  rw [hlen]
  have hfil : (List.range p.m_Model.SNodes.length).filter (fun i => !(p'.node i).visited)
      = ((List.range p.m_Model.SNodes.length).filter (fun i => !(p.node i).visited)).filter
          (fun i => !(p'.node i).visited) := by
    rw [List.filter_filter]
    apply List.filter_congr
    intro i _
    cases h1 : (p.node i).visited
    · simp
    · simp [h i h1]
  rw [hfil]
  refine ⟨List.length_filter_le _ _, ?_⟩
  rintro ⟨i, hi, h1, h2⟩
  apply List.length_filter_lt_length_iff_exists.mpr
  refine ⟨i, ?_, by simp [h2]⟩
  rw [List.mem_filter]
  exact ⟨List.mem_range.mpr hi, by simp [h1]⟩

theorem sum_pow_le (b e : Nat) (f : Nat → Nat) (L : List Nat) (hb : 1 ≤ b)
    (h : ∀ X ∈ L, f X < e) : (L.map (fun X => b ^ f X)).sum ≤ L.length * b ^ (e - 1) := by
  induction L with
  | nil => simp
  | cons X L ih =>
    have hX : f X < e := h X (List.mem_cons_self _ _)
    have h1 : b ^ f X ≤ b ^ (e - 1) := Nat.pow_le_pow_right hb (by omega)
    have h2 := ih (fun Y hY => h Y (List.mem_cons_of_mem _ hY))
    simp only [List.map_cons, List.sum_cons, List.length_cons]
    rw [Nat.add_mul, Nat.one_mul]
    omega

theorem sum_pow_lt (D e : Nat) (f : Nat → Nat) (L : List Nat) (hlen : L.length ≤ D)
    (h : ∀ X ∈ L, f X < e) : (L.map (fun X => (D + 1) ^ f X)).sum < (D + 1) ^ e := by
  cases L with
  | nil => simp
  | cons X L =>
    have hX : f X < e := h X (List.mem_cons_self _ _)
    have h1 := sum_pow_le (D + 1) e f (X :: L) (by omega) h
    have h2 : (X :: L).length * (D + 1) ^ (e - 1) ≤ D * (D + 1) ^ (e - 1) :=
      Nat.mul_le_mul_right _ hlen
    have h3 : (D + 1) ^ e = (D + 1) * (D + 1) ^ (e - 1) := by
      rw [← Nat.pow_succ']
      congr 1
      omega
    have h4 : 0 < (D + 1) ^ (e - 1) := Nat.pow_pos (by omega)
    rw [h3, Nat.add_mul, Nat.one_mul]
    omega

theorem ReachesStart_transfer {K : Type} [LinearOrderedField K] (p p2 : RoutePlanner K)
    (hstart : p2.start_node = p.start_node)
    (hpar : ∀ Y, Y < p.m_Model.SNodes.length → Y ≠ p.start_node → (p.node Y).visited = true →
      ∃ P, (p.node Y).parent = some P ∧ P < p.m_Model.SNodes.length ∧ (p.node P).visited = true)
    (hkeep : ∀ Y, (p.node Y).visited = true → (p2.node Y).parent = (p.node Y).parent)
    {Y k : Nat} (h : ReachesStart p Y k) :
    Y < p.m_Model.SNodes.length → (p.node Y).visited = true → ReachesStart p2 Y k := by
  induction h with
  | start =>
    intro _ _
    rw [← hstart]
    exact ReachesStart.start
  | @step n parent k hne hp _ ih =>
    intro hn hv
    obtain ⟨P, hP, hPlt, hPv⟩ := hpar n hn hne hv
    rw [hp] at hP
    cases hP
    exact ReachesStart.step (by rw [hstart]; exact hne) (by rw [hkeep n hv]; exact hp)
      (ih hPlt hPv)

theorem SearchInv.step {K : Type} [LinearOrderedField K] (p : RoutePlanner K) (r : Nat → Nat)
    (hI : SearchInv p r) (cur : Nat) (rest : List Nat)
    (hperm : (rest ++ [cur]).Perm p.open_list) (p2 : RoutePlanner K) (F : List Nat)
    (hE : Expands { p with open_list := rest } cur p2 F) :
    ∃ r', SearchInv p2 r' ∧ openWeight p2 r' < openWeight p r := by
  -- the facts of `hE`, stated on `p`
  have hopen2 : p2.open_list = rest ++ ((p.node cur).neighbors ++ F) := hE.open_eq
  have hstart2 : p2.start_node = p.start_node := hE.same.start_eq
  have hlen2 : p2.m_Model.SNodes.length = p.m_Model.SNodes.length := hE.same.length_eq
  have hreset2 : p2.m_Model.resetSearchState = p.m_Model.resetSearchState := hE.same.reset_eq
  have hnb2 : ∀ Y, (p2.node Y).neighbors
      = if Y = cur then (p.node cur).neighbors ++ F else (p.node Y).neighbors := hE.neighbors_eq
  have hvis2' : ∀ Y, (p2.node Y).visited = ((p.node Y).visited
      || decide (Y ∈ (p.node cur).neighbors ++ F ∧ Y < p.m_Model.SNodes.length)) :=
    hE.visited_eq
  have hpar2' : ∀ Y, (p2.node Y).parent
      = if Y ∈ (p.node cur).neighbors ++ F ∧ Y < p.m_Model.SNodes.length then some cur
        else (p.node Y).parent := hE.parent_eq
  have hFle : F.length ≤ roadBound p.m_Model :=
    le_trans hE.found_le (roadsOf_length_le _ _)
  have hF : ∀ b ∈ F, (p.node b).visited = false ∧ p.m_Model.Linked cur b := hE.found_new
  -- consequences
  have hcur_mem : cur ∈ p.open_list := hperm.subset (by simp)
  obtain ⟨hcur_lt, hcur_vis⟩ := hI.open_ok cur hcur_mem
  have hFlt : ∀ b ∈ F, b < p.m_Model.SNodes.length := by
    intro b hb
    obtain ⟨road, -, hbw⟩ := (hF b hb).2
    exact hI.wf _ b hbw
  have hold := hI.child_ok cur
  have hClt : ∀ X ∈ (p.node cur).neighbors ++ F, X < p.m_Model.SNodes.length := by
    intro X hX
    rcases List.mem_append.mp hX with h | h
    · exact (hold X h).1
    · exact hFlt X h
  have hvis2 : ∀ Y, (p2.node Y).visited = true
      ↔ ((p.node Y).visited = true ∨ Y ∈ (p.node cur).neighbors ++ F) := by
    intro Y
    rw [hvis2' Y]
    simp only [Bool.or_eq_true, decide_eq_true_eq]
    constructor
    · rintro (h | h)
      · exact Or.inl h
      · exact Or.inr h.1
    · rintro (h | h)
      · exact Or.inl h
      · exact Or.inr ⟨h, hClt Y h⟩
  have hpar2 : ∀ Y, (p2.node Y).parent
      = if Y ∈ (p.node cur).neighbors ++ F then some cur else (p.node Y).parent := by
    intro Y
    rw [hpar2' Y]
    by_cases hY : Y ∈ (p.node cur).neighbors ++ F
    · simp [hY, hClt Y hY]
    · simp [hY]
  have hvisF : ∀ Y, (p.node Y).visited = true → Y ∉ F := by
    intro Y hv hYF
    rw [(hF Y hYF).1] at hv
    cases hv
  have hkeep : ∀ Y, (p.node Y).visited = true → (p2.node Y).parent = (p.node Y).parent := by
    intro Y hv
    rw [hpar2 Y]
    split
    · rename_i hY
      rcases List.mem_append.mp hY with h | h
      · exact (hold Y h).2.2.2.1.symm
      · exact absurd h (hvisF Y hv)
    · rfl
  have hmono : ∀ i, (p.node i).visited = true → (p2.node i).visited = true :=
    fun i h => (hvis2 i).mpr (Or.inl h)
  have hU := unvisitedCount_mono p p2 hlen2 hmono
  have hUlt : F ≠ [] → unvisitedCount p2 < unvisitedCount p := by
    intro hne
    obtain ⟨b, hb⟩ := List.exists_mem_of_ne_nil F hne
    exact hU.2 ⟨b, hFlt b hb, (hF b hb).1,
      (hvis2 b).mpr (Or.inr (List.mem_append_right _ hb))⟩
  have hLinked : p2.m_Model.Linked = p.m_Model.Linked := Linked_eq hreset2
  have hR : roadBound p2.m_Model = roadBound p.m_Model := roadBound_congr hreset2
  have hreach_cur := hI.reach_ok cur hcur_lt hcur_vis
  obtain ⟨kcur, hchain_cur⟩ := hI.chain_ok cur hcur_lt hcur_vis
  have htransfer : ∀ Y k, ReachesStart p Y k → Y < p.m_Model.SNodes.length →
      (p.node Y).visited = true → ReachesStart p2 Y k :=
    fun Y k h => ReachesStart_transfer p p2 hstart2 hI.parent_ok hkeep h
  have hstart_notF : p.start_node ∉ F := hvisF _ hI.start_visited
  have hUn := unvisitedCount_le_length p
  have hClen : ((p.node cur).neighbors ++ F).length
      ≤ roadBound p.m_Model * (p.m_Model.SNodes.length - unvisitedCount p2) := by
    simp only [List.length_append]
    have h1 := hI.nbr_len cur
    by_cases hFe : F = []
    · subst hFe
      simp only [List.length_nil, Nat.add_zero]
      exact le_trans h1 (Nat.mul_le_mul_left _ (by omega))
    · have h2 := hUlt hFe
      have h3 : roadBound p.m_Model * (p.m_Model.SNodes.length - unvisitedCount p)
          + roadBound p.m_Model
          ≤ roadBound p.m_Model * (p.m_Model.SNodes.length - unvisitedCount p2) := by
        rw [← Nat.mul_succ]
        exact Nat.mul_le_mul_left _ (by omega)
      omega
  have hrankC : ∀ X ∈ (p.node cur).neighbors ++ F,
      (if X ∈ F then unvisitedCount p2 else r X) < r cur := by
    intro X hX
    by_cases hXF : X ∈ F
    · simp only [hXF, if_true]
      have h1 := hUlt (List.ne_nil_of_mem hXF)
      have h2 := hI.rank_ok cur hcur_lt hcur_vis
      omega
    · simp only [hXF, if_false]
      rcases List.mem_append.mp hX with h | h
      · exact (hold X h).2.2.2.2.2
      · exact absurd h hXF
  refine ⟨fun x => if x ∈ F then unvisitedCount p2 else r x, ?_, ?_⟩
  · constructor
    · exact WellFormed_congr hreset2.symm hI.wf
    · rw [hstart2, hlen2]; exact hI.start_lt
    · rw [hstart2]; exact hmono _ hI.start_visited
    · intro o ho
      rw [hopen2] at ho
      rw [hlen2]
      rcases List.mem_append.mp ho with h | h
      · have := hI.open_ok o (hperm.subset (List.mem_append_left _ h))
        exact ⟨this.1, hmono o this.2⟩
      · exact ⟨hClt o h, (hvis2 o).mpr (Or.inr h)⟩
    · intro N X hX
      rw [hlen2, hstart2]
      rw [hnb2 N] at hX
      by_cases hN : N = cur
      · subst hN
        simp only [if_true] at hX
        have hNF : N ∉ F := hvisF N hcur_vis
        refine ⟨hClt X hX, (hvis2 X).mpr (Or.inr hX), ?_, ?_, hmono N hcur_vis, ?_⟩
        · rcases List.mem_append.mp hX with h | h
          · exact (hold X h).2.2.1
          · intro hXs
            rw [hXs] at h
            exact hstart_notF h
        · rw [hpar2 X, if_pos hX]
        · simp only [hNF, if_false]
          exact hrankC X hX
      · simp only [hN, if_false] at hX
        obtain ⟨h1, h2, h3, h4, h5, h6⟩ := hI.child_ok N X hX
        refine ⟨h1, hmono X h2, h3, by rw [hkeep X h2]; exact h4, hmono N h5, ?_⟩
        simp only [hvisF X h2, hvisF N h5, if_false]
        exact h6
    · intro Y hY hYs hYv
      rw [hlen2] at hY ⊢
      rw [hstart2] at hYs
      by_cases hYC : Y ∈ (p.node cur).neighbors ++ F
      · exact ⟨cur, by rw [hpar2 Y, if_pos hYC], hcur_lt, hmono cur hcur_vis⟩
      · have hv : (p.node Y).visited = true := by
          rcases (hvis2 Y).mp hYv with h | h
          · exact h
          · exact absurd h hYC
        obtain ⟨P, hP, hPlt, hPv⟩ := hI.parent_ok Y hY hYs hv
        exact ⟨P, by rw [hkeep Y hv]; exact hP, hPlt, hmono P hPv⟩
    · intro Y hY hYv
      rw [hlen2] at hY
      by_cases hv : (p.node Y).visited = true
      · obtain ⟨k, hk⟩ := hI.chain_ok Y hY hv
        exact ⟨k, htransfer Y k hk hY hv⟩
      · have hYC : Y ∈ (p.node cur).neighbors ++ F := by
          rcases (hvis2 Y).mp hYv with h | h
          · exact absurd h hv
          · exact h
        have hYs : Y ≠ p2.start_node := by
          rw [hstart2]
          intro h
          rw [h] at hv
          exact hv hI.start_visited
        exact ⟨kcur + 1, ReachesStart.step hYs (by rw [hpar2 Y, if_pos hYC])
          (htransfer cur kcur hchain_cur hcur_lt hcur_vis)⟩
    · intro Y hY hYv
      rw [hlen2] at hY
      rw [hLinked, hstart2]
      by_cases hv : (p.node Y).visited = true
      · exact hI.reach_ok Y hY hv
      · have hYC : Y ∈ (p.node cur).neighbors ++ F := by
          rcases (hvis2 Y).mp hYv with h | h
          · exact absurd h hv
          · exact h
        rcases List.mem_append.mp hYC with h | h
        · exact absurd (hold Y h).2.1 hv
        · exact Relation.ReflTransGen.tail hreach_cur (hF Y h).2
    · intro Y hY hYv
      rw [hlen2] at hY
      by_cases hYF : Y ∈ F
      · simp [hYF]
      · simp only [hYF, if_false]
        have hv : (p.node Y).visited = true := by
          rcases (hvis2 Y).mp hYv with h | h
          · exact h
          · rcases List.mem_append.mp h with h' | h'
            · exact (hold Y h').2.1
            · exact absurd h' hYF
        exact le_trans hU.1 (hI.rank_ok Y hY hv)
    · intro N
      rw [hR, hlen2, hnb2 N]
      by_cases hN : N = cur
      · subst hN
        simp only [if_true]
        exact hClen
      · simp only [hN, if_false]
        exact le_trans (hI.nbr_len N) (Nat.mul_le_mul_left _ (by omega))
  · -- the measure decreases
    unfold openWeight
    rw [hR, hlen2, hopen2]
    have hsumP := (hperm.map
      (fun o => (roadBound p.m_Model * p.m_Model.SNodes.length + 1) ^ r o)).sum_eq
    rw [← hsumP]
    simp only [List.map_append, List.sum_append, List.map_cons, List.map_nil, List.sum_cons,
      List.sum_nil, Nat.add_zero]
    have hrest : rest.map (fun o => (roadBound p.m_Model * p.m_Model.SNodes.length + 1)
          ^ (if o ∈ F then unvisitedCount p2 else r o))
        = rest.map (fun o => (roadBound p.m_Model * p.m_Model.SNodes.length + 1) ^ r o) := by
      apply List.map_congr_left
      intro o ho
      have := hI.open_ok o (hperm.subset (List.mem_append_left _ ho))
      simp only [hvisF o this.2, if_false]
    rw [hrest]
    have hCD : ((p.node cur).neighbors ++ F).length
        ≤ roadBound p.m_Model * p.m_Model.SNodes.length :=
      le_trans hClen (Nat.mul_le_mul_left _ (by omega))
    have hlt := sum_pow_lt (roadBound p.m_Model * p.m_Model.SNodes.length) (r cur)
      (fun X => if X ∈ F then unvisitedCount p2 else r X) ((p.node cur).neighbors ++ F)
      hCD hrankC
    simp only [List.map_append, List.sum_append] at hlt
    omega

theorem SearchInv.pop {K : Type} [LinearOrderedField K] {p : RoutePlanner K} {r : Nat → Nat}
    (hI : SearchInv p r) (rest : List Nat) (h : ∀ o ∈ rest, o ∈ p.open_list) :
    SearchInv { p with open_list := rest } r :=
  { wf := hI.wf
    start_lt := hI.start_lt
    start_visited := hI.start_visited
    open_ok := fun o ho => hI.open_ok o (h o ho)
    child_ok := hI.child_ok
    parent_ok := hI.parent_ok
    chain_ok := fun Y hY hv => by
      obtain ⟨k, hk⟩ := hI.chain_ok Y hY hv
      refine ⟨k, ?_⟩
      clear hv hY
      induction hk with
      | start => exact ReachesStart.start (p := { p with open_list := rest })
      | step hne hp _ ih => exact ReachesStart.step hne hp ih
    reach_ok := hI.reach_ok
    rank_ok := hI.rank_ok
    nbr_len := hI.nbr_len }

theorem SearchInv.init {K : Type} [LinearOrderedField K] (p : RoutePlanner K)
    (hfresh : p.m_Model.Fresh) (hwf : p.m_Model.WellFormed)
    (hstart : p.start_node < p.m_Model.SNodes.length) (hopen : p.open_list = []) :
    SearchInv (AStarSearch.init p) (fun _ => p.m_Model.SNodes.length)
    ∧ SameMap p (AStarSearch.init p)
    ∧ (AStarSearch.init p).open_list = [p.start_node]
    ∧ ∀ Y, ((AStarSearch.init p).node Y).visited = true → Y = p.start_node := by
  have hnode : ∀ Y, (AStarSearch.init p).node Y
      = if p.start_node = Y ∧ p.start_node < p.m_Model.SNodes.length
        then { p.node p.start_node with visited := true } else p.node Y := by
    intro Y
    exact RoutePlanner.node_setNode_planner p p.start_node Y _
  have hfr : ∀ Y, (p.node Y).visited = false ∧ (p.node Y).neighbors = [] := by
    intro Y
    unfold RoutePlanner.node RouteModel.node
    rw [List.getD_eq_getElem?_getD]
    cases hY : p.m_Model.SNodes[Y]? with
    | none => simp [RouteModel.Node.default]
    | some nd =>
      simp only [Option.getD_some]
      exact hfresh nd (List.mem_iff_getElem?.mpr ⟨Y, hY⟩)
  have hlen : (AStarSearch.init p).m_Model.SNodes.length = p.m_Model.SNodes.length := by
    simp [AStarSearch.init, RoutePlanner.setNode, RouteModel.setNode]
  have hreset : (AStarSearch.init p).m_Model.resetSearchState = p.m_Model.resetSearchState :=
    RouteModel.setNode_reset p.m_Model p.start_node _ rfl
  have hopen' : (AStarSearch.init p).open_list = [p.start_node] := by
    simp [AStarSearch.init, RoutePlanner.setNode, hopen]
  have hvis : ∀ Y, ((AStarSearch.init p).node Y).visited = true → Y = p.start_node := by
    intro Y hv
    rw [hnode Y] at hv
    split at hv
    · rename_i h; exact h.1.symm
    · rw [(hfr Y).1] at hv; cases hv
  have hnb : ∀ Y, ((AStarSearch.init p).node Y).neighbors = [] := by
    intro Y
    rw [hnode Y]
    split
    · exact (hfr _).2
    · exact (hfr Y).2
  have hsv : ((AStarSearch.init p).node p.start_node).visited = true := by
    rw [hnode]; simp [hstart]
  refine ⟨?_, ⟨rfl, rfl, rfl, rfl, hlen, hreset⟩, hopen', hvis⟩
  constructor
  · exact WellFormed_congr hreset.symm hwf
  · rw [hlen]; exact hstart
  · exact hsv
  · intro o ho
    rw [hopen'] at ho
    simp only [List.mem_singleton] at ho
    subst ho
    exact ⟨by rw [hlen]; exact hstart, hsv⟩
  · intro N X hX
    rw [hnb N] at hX
    cases hX
  · intro Y _ hYs hv
    exact absurd (hvis Y hv) hYs
  · intro Y _ hv
    rw [hvis Y hv]
    exact ⟨0, ReachesStart.start (p := AStarSearch.init p)⟩
  · intro Y _ hv
    rw [hvis Y hv]
    exact Relation.ReflTransGen.refl
  · intro Y _ _
    rw [← hlen]
    exact unvisitedCount_le_length _
  · intro N
    rw [hnb N]
    simp

theorem AStarSearch.loop_unfold {K : Type} [LinearOrderedField K] (rt : Runtime K)
    (fuel : Nat) (p : RoutePlanner K) (cur : Nat) (rest : List Nat)
    (hne : p.open_list.isEmpty = false)
    (hN : NextNode rt p = some (cur, { p with open_list := rest })) :
    (atGoal { p with open_list := rest } cur →
      AStarSearch.loop rt (fuel + 1) p = some ({ p with open_list := rest }, some cur))
    ∧ (¬ atGoal { p with open_list := rest } cur →
      AStarSearch.loop rt (fuel + 1) p
        = AStarSearch.loop rt fuel (AddNeighbors rt { p with open_list := rest } cur)) := by
  constructor
  · intro hg
    unfold atGoal at hg
    rw [AStarSearch.loop]
    simp only [hne, hN]
    rw [if_pos hg]
    simp
  · intro hg
    unfold atGoal at hg
    rw [AStarSearch.loop]
    simp only [hne, hN]
    rw [if_neg hg]
    simp

theorem AStarSearch.expanded_unfold {K : Type} [LinearOrderedField K] (rt : Runtime K)
    (fuel : Nat) (p : RoutePlanner K) (cur : Nat) (rest : List Nat)
    (hne : p.open_list.isEmpty = false)
    (hN : NextNode rt p = some (cur, { p with open_list := rest }))
    (hg : ¬ atGoal { p with open_list := rest } cur) :
    AStarSearch.expanded rt (fuel + 1) p
      = cur :: AStarSearch.expanded rt fuel (AddNeighbors rt { p with open_list := rest } cur) := by
  unfold atGoal at hg
  rw [AStarSearch.expanded]
  simp only [hne, hN]
  rw [if_neg hg]
  simp

theorem AStarSearch.loop_inv {K : Type} [LinearOrderedField K] (rt : Runtime K) :
    ∀ (fuel : Nat) (p : RoutePlanner K) (r : Nat → Nat) (pf : RoutePlanner K)
      (res : Option Nat),
      SearchInv p r → AStarSearch.loop rt fuel p = some (pf, res) →
      (∃ r', SearchInv pf r') ∧ SameMap p pf
      ∧ (res = none → pf.open_list = [])
      ∧ (∀ g, res = some g →
          g < pf.m_Model.SNodes.length ∧ (pf.node g).visited = true ∧ atGoal pf g)
      ∧ (res = none → ∀ X, (pf.node X).visited = true →
          X ∈ AStarSearch.expanded rt fuel p
            ∨ ((p.node X).visited = true ∧ X ∉ p.open_list)) := by
  intro fuel
  induction fuel with
  | zero =>
    intro p r pf res _ h
    simp [AStarSearch.loop] at h
  | succ f ih =>
    intro p r pf res hI h
    by_cases hne : p.open_list.isEmpty = true
    · rw [AStarSearch.loop] at h
      simp only [hne, if_true, Option.some.injEq, Prod.mk.injEq] at h
      obtain ⟨rfl, rfl⟩ := h
      have hnil : p.open_list = [] := List.isEmpty_iff.mp hne
      refine ⟨⟨r, hI⟩, SameMap.same_refl _, fun _ => hnil, (fun g hg => by cases hg), ?_⟩
      intro _ X hX
      exact Or.inr ⟨hX, by rw [hnil]; simp⟩
    · have hne' : p.open_list.isEmpty = false := by simpa using hne
      obtain ⟨cur, rest, hN, hperm⟩ := NextNode_effect rt p hne'
      have hsub : ∀ o ∈ rest, o ∈ p.open_list :=
        fun o ho => hperm.subset (List.mem_append_left _ ho)
      have hIq := hI.pop rest hsub
      have hcur_mem : cur ∈ p.open_list := hperm.subset (by simp)
      obtain ⟨hcur_lt, hcur_vis⟩ := hI.open_ok cur hcur_mem
      obtain ⟨hgoal, hnot⟩ := AStarSearch.loop_unfold rt f p cur rest hne' hN
      by_cases hg : atGoal { p with open_list := rest } cur
      · rw [hgoal hg] at h
        simp only [Option.some.injEq, Prod.mk.injEq] at h
        obtain ⟨rfl, rfl⟩ := h
        refine ⟨⟨r, hIq⟩, ⟨rfl, rfl, rfl, rfl, rfl, rfl⟩, (fun h => by cases h), ?_,
          (fun h => by cases h)⟩
        intro g hgs
        simp only [Option.some.injEq] at hgs
        subst hgs
        exact ⟨hcur_lt, hcur_vis, hg⟩
      · rw [hnot hg] at h
        obtain ⟨F, hE⟩ := AddNeighbors_effect rt { p with open_list := rest } cur hcur_lt
        obtain ⟨r', hI2, -⟩ := SearchInv.step p r hI cur rest hperm _ F hE
        obtain ⟨hInv, hsame, hopen, hgoal', htrace⟩ := ih _ r' pf res hI2 h
        have hsame1 : SameMap p (AddNeighbors rt { p with open_list := rest } cur) :=
          ⟨hE.same.start_eq, hE.same.end_eq, hE.same.distance_eq, hE.same.path_eq,
            hE.same.length_eq, hE.same.reset_eq⟩
        refine ⟨hInv, hsame1.same_trans hsame, hopen, hgoal', ?_⟩
        intro hres X hX
        rw [AStarSearch.expanded_unfold rt f p cur rest hne' hN hg]
        rcases htrace hres X hX with h1 | ⟨h1, h2⟩
        · exact Or.inl (List.mem_cons_of_mem _ h1)
        · by_cases hXc : X = cur
          · exact Or.inl (by rw [hXc]; exact List.mem_cons_self _ _)
          · right
            rw [hE.open_eq] at h2
            have hXrest : X ∉ rest := fun hc => h2 (List.mem_append_left _ hc)
            have hXC : X ∉ (RoutePlanner.node { p with open_list := rest } cur).neighbors ++ F :=
              fun hc => h2 (List.mem_append_right _ hc)
            have hv := hE.visited_eq X
            rw [h1] at hv
            have hvp : (p.node X).visited = true := by
              have : decide (X ∈ (RoutePlanner.node { p with open_list := rest } cur).neighbors
                  ++ F ∧ X < p.m_Model.SNodes.length) = false := by
                simp only [decide_eq_false_iff_not]
                exact fun hc => hXC hc.1
              rw [this, Bool.or_false] at hv
              exact hv.symm
            refine ⟨hvp, fun hmem => ?_⟩
            have := hperm.symm.subset hmem
            rcases List.mem_append.mp this with h3 | h3
            · exact hXrest h3
            · simp only [List.mem_singleton] at h3
              exact hXc h3

theorem AStarSearch.loop_terminates {K : Type} [LinearOrderedField K] (rt : Runtime K) :
    ∀ (M : Nat) (p : RoutePlanner K) (r : Nat → Nat),
      SearchInv p r → openWeight p r ≤ M →
      ∃ fuel pf res, AStarSearch.loop rt fuel p = some (pf, res) := by
  intro M
  induction M with
  | zero =>
    intro p r hI hM
    by_cases hne : p.open_list.isEmpty = true
    · refine ⟨1, p, none, ?_⟩
      rw [AStarSearch.loop]
      simp [hne]
    · have hne' : p.open_list.isEmpty = false := by simpa using hne
      obtain ⟨cur, rest, hN, hperm⟩ := NextNode_effect rt p hne'
      obtain ⟨hcur_lt, -⟩ := hI.open_ok cur (hperm.subset (by simp))
      obtain ⟨hgoal, hnot⟩ := AStarSearch.loop_unfold rt 0 p cur rest hne' hN
      by_cases hg : atGoal { p with open_list := rest } cur
      · exact ⟨1, _, _, hgoal hg⟩
      · obtain ⟨F, hE⟩ := AddNeighbors_effect rt { p with open_list := rest } cur hcur_lt
        obtain ⟨r', -, hlt⟩ := SearchInv.step p r hI cur rest hperm _ F hE
        omega
  | succ M ih =>
    intro p r hI hM
    by_cases hne : p.open_list.isEmpty = true
    · refine ⟨1, p, none, ?_⟩
      rw [AStarSearch.loop]
      simp [hne]
    · have hne' : p.open_list.isEmpty = false := by simpa using hne
      obtain ⟨cur, rest, hN, hperm⟩ := NextNode_effect rt p hne'
      obtain ⟨hcur_lt, -⟩ := hI.open_ok cur (hperm.subset (by simp))
      by_cases hg : atGoal { p with open_list := rest } cur
      · exact ⟨1, _, _, (AStarSearch.loop_unfold rt 0 p cur rest hne' hN).1 hg⟩
      · obtain ⟨F, hE⟩ := AddNeighbors_effect rt { p with open_list := rest } cur hcur_lt
        obtain ⟨r', hI2, hlt⟩ := SearchInv.step p r hI cur rest hperm _ F hE
        obtain ⟨fuel, pf, res, hloop⟩ := ih _ r' hI2 (by omega)
        refine ⟨fuel + 1, pf, res, ?_⟩
        rw [(AStarSearch.loop_unfold rt fuel p cur rest hne' hN).2 hg]
        exact hloop

theorem AStarSearch.loop_fuel_mono {K : Type} [LinearOrderedField K] (rt : Runtime K) :
    ∀ (fuel : Nat) (p : RoutePlanner K) (x : RoutePlanner K × Option Nat),
      AStarSearch.loop rt fuel p = some x → ∀ d, AStarSearch.loop rt (fuel + d) p = some x := by
  intro fuel
  induction fuel with
  | zero => intro p x h; simp [AStarSearch.loop] at h
  | succ f ih =>
    intro p x h d
    have hfd : f + 1 + d = (f + d) + 1 := by omega
    rw [hfd]
    rw [AStarSearch.loop] at h ⊢
    by_cases hne : p.open_list.isEmpty = true
    · simp only [hne, if_true] at h ⊢
      exact h
    · simp only [hne] at h ⊢
      cases hN : NextNode rt p with
      | none => rw [hN] at h; simp at h
      | some c =>
        obtain ⟨cur, p1⟩ := c
        rw [hN] at h
        simp only at h ⊢
        by_cases hg : (p1.node cur).x = (p1.node p1.end_node).x
            ∧ (p1.node cur).y = (p1.node p1.end_node).y
        · rw [if_pos hg] at h ⊢
          exact h
        · rw [if_neg hg] at h ⊢
          exact ih _ x h d

theorem ConstructFinalPath.loop_ids {K : Type} [LinearOrderedField K] (rt : Runtime K)
    (p : RoutePlanner K) {n k : Nat} (h : ReachesStart p n k) :
    ∀ (fuel : Nat), k < fuel → ∀ (acc : List (RouteModel.Node K)) (d : K),
      ∃ (ids : List Nat) (d' : K),
        ConstructFinalPath.loop rt p fuel n acc d = some (acc ++ ids.map p.node, d')
        ∧ (ids ++ [p.start_node]).head? = some n
        ∧ List.Chain' (fun a b => (p.node a).parent = some b) (ids ++ [p.start_node]) := by
  induction h with
  | start =>
    intro fuel hf acc d
    obtain ⟨f, rfl⟩ : ∃ f, fuel = f + 1 := ⟨fuel - 1, by omega⟩
    exact ⟨[], d, by simp [ConstructFinalPath.loop], by simp, by simp⟩
  | @step n parent k hne hpar _ ih =>
    intro fuel hf acc d
    obtain ⟨f, rfl⟩ : ∃ f, fuel = f + 1 := ⟨fuel - 1, by omega⟩
    obtain ⟨ids, d', hloop, hhead, hchain⟩ := ih f (by omega) (acc ++ [p.node n])
      (d + (p.node n).distance rt (p.node parent))
    refine ⟨n :: ids, d', ?_, by simp, ?_⟩
    · simp only [ConstructFinalPath.loop, hne, ne_eq, not_false_eq_true, if_true, hpar]
      rw [hloop]
      simp
    · rw [List.cons_append, List.chain'_cons']
      refine ⟨fun y hy => ?_, hchain⟩
      rw [hhead] at hy
      simp only [Option.mem_def, Option.some.injEq] at hy
      rw [← hy]
      exact hpar

theorem mem_roadCandidates {K : Type} (m : RouteModel K) (c : Nat)
    (h : c ∈ roadCandidates m) : ∃ w, c ∈ m.toModel.wayNodes w := by
  unfold roadCandidates at h
  simp only [List.mem_flatten, List.mem_map, List.mem_filter] at h
  obtain ⟨l, ⟨road, -, rfl⟩, hc⟩ := h
  exact ⟨road.way, hc⟩

theorem FindClosestNode_lt {K : Type} [LinearOrderedField K] (rt : Runtime K)
    (m : RouteModel K) (x y : K) (hwf : m.WellFormed) (hne : m.SNodes ≠ []) :
    FindClosestNode rt m x y < m.SNodes.length := by
  rw [FindClosestNode_eq_fold]
  by_cases h : ∃ c ∈ roadCandidates m, queryDistance rt m x y c < FLT_MAX
  · obtain ⟨pre, post, r, hr, hl, -⟩ :=
      (argmin_fold (queryDistance rt m x y) (roadCandidates m) ((FLT_MAX : K), 0)).2 h
    rw [hr]
    have hmem : r ∈ roadCandidates m := by rw [hl]; simp
    obtain ⟨w, hw⟩ := mem_roadCandidates m r hmem
    exact hwf w r hw
  · have hno : ∀ c ∈ roadCandidates m, ¬ queryDistance rt m x y c < FLT_MAX :=
      fun c hc hlt => h ⟨c, hc, hlt⟩
    rw [(argmin_fold (queryDistance rt m x y) (roadCandidates m) ((FLT_MAX : K), 0)).1 hno]
    exact List.length_pos.mpr hne

theorem AStarSearch.goal_path {K : Type} [LinearOrderedField K] (rt : Runtime K)
    (p : RoutePlanner K) (hfresh : p.m_Model.Fresh) (hwf : p.m_Model.WellFormed)
    (hstart : p.start_node < p.m_Model.SNodes.length) (hopen : p.open_list = [])
    (fuel : Nat) (p1 : RoutePlanner K) (goal : Nat)
    (hreach : AStarSearch.loop rt fuel (AStarSearch.init p) = some (p1, some goal)) :
    ∃ (fuel' : Nat) (p' : RoutePlanner K) (ids : List Nat),
      AStarSearch rt fuel' p = some p'
      ∧ p'.m_Model.path = ids.map p'.node
      ∧ ids.head? = some p.start_node
      ∧ ids.getLast? = some goal
      ∧ atGoal p' goal
      ∧ List.Chain' (fun a b => (p'.node b).parent = some a) ids := by
  obtain ⟨hI0, hsame0, -, -⟩ := SearchInv.init p hfresh hwf hstart hopen
  obtain ⟨⟨r', hI1⟩, hsame1, -, hgoal, -⟩ :=
    AStarSearch.loop_inv rt fuel _ _ p1 (some goal) hI0 hreach
  obtain ⟨hglt, hgvis, hgat⟩ := hgoal goal rfl
  obtain ⟨k, hk⟩ := hI1.chain_ok goal hglt hgvis
  have hst : p1.start_node = p.start_node := hsame1.start_eq.trans hsame0.start_eq
  obtain ⟨ids, d', hloop, hhead, hchain⟩ :=
    ConstructFinalPath.loop_ids rt p1 hk (fuel + (k + 1)) (by omega) [] 0
  have hloop' := AStarSearch.loop_fuel_mono rt fuel _ _ hreach (k + 1)
  refine ⟨fuel + (k + 1),
    { p1 with distance := d' * p1.m_Model.m_MetricScale,
              m_Model := { p1.m_Model with
                path := ([] ++ ids.map p1.node ++ [p1.node p1.start_node]).reverse } },
    (ids ++ [p1.start_node]).reverse, ?_, ?_, ?_, ?_, hgat, ?_⟩
  · unfold AStarSearch
    rw [hloop']
    simp only [ConstructFinalPath, hloop]
  · simp only [List.nil_append, List.map_reverse, List.map_append, List.map_cons, List.map_nil]
    rfl
  · rw [← hst]
    simp
  · rw [List.getLast?_reverse]
    exact hhead
  · rw [List.chain'_reverse]
    exact hchain

theorem WellFormed_of_ways {K : Type} (m : RouteModel K)
    (h : ∀ way ∈ m.m_Ways, ∀ i ∈ way.nodes, i < m.SNodes.length) : m.WellFormed := by
  intro w i hi
  unfold Model.wayNodes at hi
  rw [List.getD_eq_getElem?_getD] at hi
  cases hw : m.m_Ways[w]? with
  | none => rw [hw] at hi; simp at hi
  | some way =>
    rw [hw] at hi
    exact h way (List.mem_iff_getElem?.mpr ⟨w, hw⟩) i hi

theorem AddNeighbors_sameMap {K : Type} [LinearOrderedField K] (rt : Runtime K)
    (p : RoutePlanner K) (cur : Nat) : SameMap p (AddNeighbors rt p cur) := by
  obtain ⟨found, hF, -, -⟩ := FindNeighbors_spec rt p.m_Model cur
  have hst := withNeighbors_static p.m_Model cur found
  have h1 : SameMap p { p with m_Model := FindNeighbors rt p.m_Model cur } :=
    ⟨rfl, rfl, rfl, by rw [hF]; exact hst.2.2.1, by rw [hF]; exact hst.2.2.2.1,
      by rw [hF]; exact hst.2.2.2.2⟩
  unfold AddNeighbors
  exact h1.same_trans (visit_fold_effect rt cur _ _).2.1

theorem AStarSearch.init_sameMap {K : Type} [LinearOrderedField K] (p : RoutePlanner K) :
    SameMap p (AStarSearch.init p) :=
  ⟨rfl, rfl, rfl, rfl, by simp [AStarSearch.init, RoutePlanner.setNode, RouteModel.setNode],
    RouteModel.setNode_reset p.m_Model p.start_node _ rfl⟩

theorem NextNode_sameMap {K : Type} [LinearOrderedField K] (rt : Runtime K)
    (p p1 : RoutePlanner K) (cur : Nat) (h : NextNode rt p = some (cur, p1)) : SameMap p p1 := by
  unfold NextNode at h
  simp only at h
  split at h
  · cases h
  · simp only [Option.some.injEq, Prod.mk.injEq] at h
    obtain ⟨-, rfl⟩ := h
    exact ⟨rfl, rfl, rfl, rfl, rfl, rfl⟩

theorem AStarSearch.loop_sameMap {K : Type} [LinearOrderedField K] (rt : Runtime K) :
    ∀ (fuel : Nat) (p pf : RoutePlanner K) (res : Option Nat),
      AStarSearch.loop rt fuel p = some (pf, res) → SameMap p pf := by
  intro fuel
  induction fuel with
  | zero => intro p pf res h; simp [AStarSearch.loop] at h
  | succ f ih =>
    intro p pf res h
    rw [AStarSearch.loop] at h
    by_cases hne : p.open_list.isEmpty = true
    · simp only [hne, if_true, Option.some.injEq, Prod.mk.injEq] at h
      obtain ⟨rfl, -⟩ := h
      exact SameMap.same_refl _
    · simp only [hne] at h
      cases hN : NextNode rt p with
      | none => rw [hN] at h; simp at h
      | some c =>
        obtain ⟨cur, p1⟩ := c
        rw [hN] at h
        simp only at h
        have h1 := NextNode_sameMap rt p p1 cur hN
        by_cases hg : (p1.node cur).x = (p1.node p1.end_node).x
            ∧ (p1.node cur).y = (p1.node p1.end_node).y
        · rw [if_pos hg] at h
          simp only [Bool.false_eq_true, if_false, Option.some.injEq, Prod.mk.injEq] at h
          obtain ⟨rfl, -⟩ := h
          exact h1
        · rw [if_neg hg] at h
          simp only [Bool.false_eq_true, if_false] at h
          exact h1.same_trans ((AddNeighbors_sameMap rt p1 cur).same_trans (ih _ _ _ h))

theorem AStarSearch_reset_eq {K : Type} [LinearOrderedField K] (rt : Runtime K) (fuel : Nat)
    (p p' : RoutePlanner K) (h : AStarSearch rt fuel p = some p') :
    p'.m_Model.resetSearchState = p.m_Model.resetSearchState := by
  unfold AStarSearch at h
  cases hl : AStarSearch.loop rt fuel (AStarSearch.init p) with
  | none => rw [hl] at h; simp at h
  | some x =>
    obtain ⟨p1, res⟩ := x
    rw [hl] at h
    have hs := (AStarSearch.init_sameMap p).same_trans (AStarSearch.loop_sameMap rt fuel _ _ _ hl)
    cases res with
    | none =>
      simp only [Option.some.injEq] at h
      subst h
      exact hs.reset_eq
    | some cur =>
      simp only at h
      unfold ConstructFinalPath at h
      cases hc : ConstructFinalPath.loop rt p1 fuel cur [] 0 with
      | none => rw [hc] at h; simp at h
      | some y =>
        obtain ⟨path, d⟩ := y
        rw [hc] at h
        simp only [Option.some.injEq] at h
        subst h
        exact hs.reset_eq

theorem CreateNodeToRoadHashmap_static {K : Type} (m : RouteModel K) :
    (CreateNodeToRoadHashmap m).toModel = m.toModel
    ∧ (CreateNodeToRoadHashmap m).SNodes = m.SNodes
    ∧ (CreateNodeToRoadHashmap m).path = m.path := ⟨rfl, rfl, rfl⟩

theorem ofModel_SNodes {K : Type} [LinearOrderedField K] (m : Model K) :
    (RouteModel.ofModel m).SNodes
      = (List.range m.m_Nodes.length).zipWith RouteModel.Node.ofModelNode m.m_Nodes := rfl

theorem ofModel_fresh {K : Type} [LinearOrderedField K] (m : Model K) :
    (RouteModel.ofModel m).Fresh ∧ (RouteModel.ofModel m).path = []
      ∧ (RouteModel.ofModel m).SNodes.length = m.m_Nodes.length
      ∧ (RouteModel.ofModel m).toModel = m := by
  refine ⟨?_, rfl, by rw [ofModel_SNodes]; simp, rfl⟩
  intro n hn
  rw [ofModel_SNodes] at hn
  obtain ⟨i, hi⟩ := List.getElem?_of_mem hn
  rw [List.getElem?_zipWith] at hi
  cases h1 : (List.range m.m_Nodes.length)[i]? with
  | none => rw [h1] at hi; simp at hi
  | some a =>
    cases h2 : m.m_Nodes[i]? with
    | none => rw [h1, h2] at hi; simp at hi
    | some b =>
      rw [h1, h2] at hi
      simp only [Option.some.injEq] at hi
      subst hi
      exact ⟨rfl, rfl⟩

theorem ofModel_wellFormed {K : Type} [LinearOrderedField K] (m : Model K)
    (h : ∀ way ∈ m.m_Ways, ∀ i ∈ way.nodes, i < m.m_Nodes.length) :
    (RouteModel.ofModel m).WellFormed := by
  apply WellFormed_of_ways
  rw [(ofModel_fresh m).2.2.1]
  exact h

theorem wayAt_mem {ways : List Model.Way} {w : Int} {way : Model.Way}
    (h : wayAt ways w = some way) : way ∈ ways := by
  unfold wayAt at h
  split at h
  · exact List.mem_iff_getElem?.mpr ⟨_, h⟩
  · cases h

theorem resize_append (nodes more : List Nat) : resize (nodes ++ more) nodes.length = nodes := by
  unfold resize
  simp

theorem TrackRec.startLoop_nodes (rec : List Bool → List Nat → Option TrackState)
    (open_ways : List Int) (ways : List Model.Way) (hrec : RecNodes rec ways) :
    ∀ (is : List Nat) (used : List Bool) (nodes : List Nat) (b : Bool) (u : List Bool)
      (n : List Nat),
      TrackRec.startLoop rec open_ways ways is used nodes = some (b, u, n) →
      (b = false → n = nodes ∨ n = []) ∧ NodesFrom ways nodes n := by
  intro is
  induction is with
  | nil =>
    intro used nodes b u n h
    simp only [TrackRec.startLoop, Option.some.injEq, Prod.mk.injEq] at h
    obtain ⟨rfl, rfl, rfl⟩ := h
    exact ⟨fun _ => Or.inl rfl, fun i hi => Or.inl hi⟩
  | cons i rest ih =>
    intro used nodes b u n h
    unfold TrackRec.startLoop at h
    by_cases hu : used.getD i false = false
    · simp only [hu, if_true] at h
      cases hw : wayAt ways (open_ways.getD i 0) with
      | none => rw [hw] at h; simp at h
      | some way =>
        rw [hw] at h
        simp only at h
        cases hr : rec (used.set i true) way.nodes with
        | none => rw [hr] at h; simp at h
        | some x =>
          obtain ⟨b2, u2, n2⟩ := x
          rw [hr] at h
          obtain ⟨-, hfrom⟩ := hrec _ _ _ _ _ hr
          cases b2 with
          | true =>
            simp only [Option.some.injEq, Prod.mk.injEq] at h
            obtain ⟨rfl, rfl, rfl⟩ := h
            refine ⟨(fun hb => by cases hb), fun j hj => ?_⟩
            rcases hfrom j hj with h1 | h1
            · exact Or.inr ⟨way, wayAt_mem hw, h1⟩
            · exact Or.inr h1
          | false =>
            simp only at h
            obtain ⟨h1, h2⟩ := ih _ _ _ _ _ h
            refine ⟨fun hb => Or.inr ?_, fun j hj => ?_⟩
            · rcases h1 hb with h3 | h3 <;> exact h3
            · rcases h2 j hj with h3 | h3
              · cases h3
              · exact Or.inr h3
    · simp only [hu, if_false] at h
      exact ih _ _ _ _ _ h

theorem TrackRec.extendLoop_nodes (rec : List Bool → List Nat → Option TrackState)
    (open_ways : List Int) (ways : List Model.Way) (tail : Nat) (hrec : RecNodes rec ways) :
    ∀ (is : List Nat) (used : List Bool) (nodes : List Nat) (b : Bool) (u : List Bool)
      (n : List Nat),
      TrackRec.extendLoop rec open_ways ways tail is used nodes = some (b, u, n) →
      (b = false → n = nodes) ∧ NodesFrom ways nodes n := by
  intro is
  induction is with
  | nil =>
    intro used nodes b u n h
    simp only [TrackRec.extendLoop, Option.some.injEq, Prod.mk.injEq] at h
    obtain ⟨rfl, rfl, rfl⟩ := h
    exact ⟨fun _ => rfl, fun i hi => Or.inl hi⟩
  | cons i rest ih =>
    intro used nodes b u n h
    unfold TrackRec.extendLoop at h
    by_cases hu : used.getD i false = false
    · simp only [hu, if_true] at h
      cases hw : wayAt ways (open_ways.getD i 0) with
      | none => rw [hw] at h; simp at h
      | some way =>
        rw [hw] at h
        simp only at h
        cases hh : way.nodes.head? with
        | none => rw [hh] at h; simp at h
        | some wh =>
          cases ht : way.nodes.getLast? with
          | none => rw [hh, ht] at h; simp at h
          | some wt =>
            rw [hh, ht] at h
            simp only at h
            by_cases hm : wh = tail ∨ wt = tail
            · rw [if_pos hm] at h
              cases hr : rec (used.set i true)
                  (if wh = tail then nodes ++ way.nodes else nodes ++ way.nodes.reverse) with
              | none => rw [hr] at h; simp at h
              | some x =>
                obtain ⟨b2, u2, n2⟩ := x
                rw [hr] at h
                obtain ⟨hfail, hfrom⟩ := hrec _ _ _ _ _ hr
                have hnodes1 : ∀ j ∈ (if wh = tail then nodes ++ way.nodes
                    else nodes ++ way.nodes.reverse), j ∈ nodes ∨ ∃ w ∈ ways, j ∈ w.nodes := by
                  intro j hj
                  split at hj
                  · rcases List.mem_append.mp hj with h1 | h1
                    · exact Or.inl h1
                    · exact Or.inr ⟨way, wayAt_mem hw, h1⟩
                  · rcases List.mem_append.mp hj with h1 | h1
                    · exact Or.inl h1
                    · exact Or.inr ⟨way, wayAt_mem hw, List.mem_reverse.mp h1⟩
                cases b2 with
                | true =>
                  simp only [Option.some.injEq, Prod.mk.injEq] at h
                  obtain ⟨rfl, rfl, rfl⟩ := h
                  refine ⟨(fun hb => by cases hb), fun j hj => ?_⟩
                  rcases hfrom j hj with h1 | h1
                  · exact hnodes1 j h1
                  · exact Or.inr h1
                | false =>
                  simp only at h
                  have hn2 := hfail rfl
                  have hres : resize n2 nodes.length = nodes := by
                    rw [hn2]
                    split
                    · exact resize_append _ _
                    · exact resize_append _ _
                  rw [hres] at h
                  exact ih _ _ _ _ _ h
            · rw [if_neg hm] at h
              exact ih _ _ _ _ _ h
    · simp only [hu, if_false] at h
      exact ih _ _ _ _ _ h

theorem TrackRec_nodes (open_ways : List Int) (ways : List Model.Way) :
    ∀ fuel, RecNodes (fun u n => TrackRec open_ways ways fuel u n) ways := by
  intro fuel
  induction fuel with
  | zero =>
    intro used nodes b u n h
    simp [TrackRec] at h
  | succ f ih =>
    intro used nodes b u n h
    simp only at h
    unfold TrackRec at h
    split at h
    · split at h
      · simp only [Option.some.injEq, Prod.mk.injEq] at h
        obtain ⟨rfl, rfl, rfl⟩ := h
        exact ⟨(fun hb => by cases hb), fun i hi => Or.inl hi⟩
      · exact TrackRec.extendLoop_nodes _ open_ways ways _ ih _ _ _ _ _ _ h
    · rename_i hnone
      have hnil : nodes = [] := by
        cases nodes with
        | nil => rfl
        | cons a l =>
          exfalso
          exact hnone a ((a :: l).getLast (by simp)) rfl
            (List.getLast?_eq_getLast _ (by simp))
      obtain ⟨h1, h2⟩ := TrackRec.startLoop_nodes _ open_ways ways ih _ _ _ _ _ _ h
      refine ⟨fun hb => ?_, h2⟩
      rcases h1 hb with h3 | h3
      · exact h3
      · rw [h3, hnil]

theorem Track_nodes (open_ways : List Int) (ways : List Model.Way) (nodes : List Nat)
    (ow : List Int) (h : Track open_ways ways = some (nodes, ow)) :
    ∀ i ∈ nodes, ∃ way ∈ ways, i ∈ way.nodes := by
  unfold Track at h
  simp only at h
  cases hr : TrackRec open_ways ways (open_ways.length + 1)
      (List.replicate open_ways.length false) [] with
  | none => rw [hr] at h; simp at h
  | some x =>
    obtain ⟨b, u, n⟩ := x
    rw [hr] at h
    obtain ⟨-, hfrom⟩ := TrackRec_nodes open_ways ways _ _ _ _ _ _ hr
    have hn : n = nodes := by
      cases b <;> simp only [Option.some.injEq, Prod.mk.injEq] at h <;> exact h.1
    subst hn
    intro i hi
    rcases hfrom i hi with h1 | h1
    · cases h1
    · exact h1

theorem BuildRings.loop_nodes {reallocates : Nat → Bool} (ways : List Model.Way) :
    ∀ (fuel : Nat) (m_Ways : List Model.Way) (closed : List Nat) (opn : List Int)
      (mw : List Model.Way) (cl : List Nat),
      BuildRings.loop reallocates ways fuel m_Ways closed opn = some (mw, cl) →
      ∀ way ∈ mw, way ∈ m_Ways ∨ ∀ i ∈ way.nodes, ∃ w ∈ ways, i ∈ w.nodes := by
  intro fuel
  induction fuel with
  | zero => intro _ _ _ _ _ h; simp [BuildRings.loop] at h
  | succ f ih =>
    intro m_Ways closed opn mw cl h
    unfold BuildRings.loop at h
    by_cases he : opn.isEmpty = true
    · simp only [he, if_true, Option.some.injEq, Prod.mk.injEq] at h
      obtain ⟨rfl, -⟩ := h
      exact fun way hw => Or.inl hw
    · simp only [he] at h
      by_cases hd : BuildRings.dangling reallocates ways.length m_Ways.length = true
      · rw [if_pos hd] at h
        cases h
      rw [if_neg hd] at h
      cases ht : Track opn ways with
      | none => rw [ht] at h; simp at h
      | some x =>
        obtain ⟨nodes, ow⟩ := x
        rw [ht] at h
        simp only at h
        by_cases hn : nodes.isEmpty = true
        · simp only [hn, if_true, Bool.false_eq_true, if_false, Option.some.injEq,
            Prod.mk.injEq] at h
          obtain ⟨rfl, -⟩ := h
          exact fun way hw => Or.inl hw
        · simp only [hn, Bool.false_eq_true, if_false] at h
          intro way hw
          rcases ih _ _ _ _ _ h way hw with h1 | h1
          · rcases List.mem_append.mp h1 with h2 | h2
            · exact Or.inl h2
            · simp only [List.mem_singleton] at h2
              subst h2
              exact Or.inr (Track_nodes opn ways nodes ow ht)
          · exact Or.inr h1

theorem BuildRings.process_below {reallocates : Nat → Bool}
    (n : Nat) (m_Ways : List Model.Way) (ways_nums : List Nat)
    (mw : List Model.Way) (cl : List Nat)
    (h : BuildRings.process reallocates m_Ways ways_nums = some (mw, cl)) (hb : WaysBelow n m_Ways) :
    WaysBelow n mw := by
  unfold BuildRings.process at h
  simp only at h
  cases hs : BuildRings.split m_Ways ways_nums [] [] with
  | none => rw [hs] at h; simp at h
  | some x =>
    obtain ⟨closed, opn⟩ := x
    rw [hs] at h
    simp only at h
    intro way hw i hi
    rcases BuildRings.loop_nodes m_Ways _ _ _ _ _ _ h way hw with h1 | h1
    · exact hb way h1 i hi
    · obtain ⟨w, hwm, hiw⟩ := h1 i hi
      exact hb w hwm i hiw

theorem BuildRings_below {reallocates : Nat → Bool}
    (n : Nat) (m_Ways : List Model.Way) (mp : Model.Multipolygon)
    (mw : List Model.Way) (mp' : Model.Multipolygon)
    (h : BuildRings reallocates m_Ways mp = some (mw, mp')) (hb : WaysBelow n m_Ways) :
    WaysBelow n mw := by
  unfold BuildRings at h
  cases h1 : BuildRings.process reallocates m_Ways mp.outer with
  | none => rw [h1] at h; simp at h
  | some x =>
    obtain ⟨mw1, outer⟩ := x
    rw [h1] at h
    simp only at h
    cases h2 : BuildRings.process reallocates mw1 mp.inner with
    | none => rw [h2] at h; simp at h
    | some y =>
      obtain ⟨mw2, inner⟩ := y
      rw [h2] at h
      simp only [Option.some.injEq, Prod.mk.injEq] at h
      obtain ⟨rfl, -⟩ := h
      exact BuildRings.process_below n mw1 _ _ _ h2
        (BuildRings.process_below n m_Ways _ _ _ h1 hb)

theorem LoadData.relationChildren_below {reallocates : Nat → Bool}
    {K : Type} (tbl : List (String × Nat)) :
    ∀ (children : List XmlNode) (outer inner : List Nat) (m m' : Model K),
      LoadData.relationChildren reallocates tbl children outer inner m = some m' →
      m'.m_Nodes = m.m_Nodes
        ∧ (WaysBelow m.m_Nodes.length m.m_Ways → WaysBelow m.m_Nodes.length m'.m_Ways) := by
  intro children
  induction children with
  | nil =>
    intro outer inner m m' h
    simp only [LoadData.relationChildren, Option.some.injEq] at h
    subst h
    exact ⟨rfl, fun h => h⟩
  | cons c cs ih =>
    intro outer inner m m' h
    unfold LoadData.relationChildren at h
    simp only at h
    split at h
    · split at h
      · split at h
        · exact ih _ _ _ _ h
        · split at h
          · exact ih _ _ _ _ h
          · exact ih _ _ _ _ h
      · exact ih _ _ _ _ h
    · split at h
      · split at h
        · simp only [Option.some.injEq] at h
          subst h
          exact ⟨rfl, fun h => h⟩
        · split at h
          · split at h
            · cases h
            · rename_i mw mp hB
              simp only [Option.some.injEq] at h
              subst h
              exact ⟨rfl, fun hb => BuildRings_below _ _ _ _ _ hB hb⟩
          · split at h
            · split at h
              · split at h
                · cases h
                · rename_i mw mp hB
                  simp only [Option.some.injEq] at h
                  subst h
                  exact ⟨rfl, fun hb => BuildRings_below _ _ _ _ _ hB hb⟩
              · simp only [Option.some.injEq] at h
                subst h
                exact ⟨rfl, fun h => h⟩
            · exact ih _ _ _ _ h
      · exact ih _ _ _ _ h

theorem knownPointRefs_below (n : Nat) (tbl : List (String × Nat)) (children : List XmlNode)
    (h : TableBelow n tbl) : ∀ i ∈ knownPointRefs tbl children, i < n := by
  intro i hi
  unfold knownPointRefs at hi
  rw [List.mem_filterMap] at hi
  obtain ⟨c, -, hc⟩ := hi
  exact h _ _ hc

theorem wayChild_nodes {K : Type} (tbl : List (String × Nat)) (way_num : Nat)
    (m : Model K) (child : XmlNode) :
    (LoadData.wayChild tbl way_num m child).m_Nodes = m.m_Nodes := by
  unfold LoadData.wayChild
  simp only
  repeat' split
  all_goals rfl

theorem wayChildren_nodes {K : Type} (tbl : List (String × Nat)) (way_num : Nat) :
    ∀ (cs : List XmlNode) (m : Model K),
      (cs.foldl (LoadData.wayChild tbl way_num) m).m_Nodes = m.m_Nodes := by
  intro cs
  induction cs with
  | nil => intro m; rfl
  | cons c cs ih => intro m; rw [List.foldl_cons, ih, wayChild_nodes]

theorem way_nodes {K : Type} (tbl : List (String × Nat))
    (acc : List (String × Nat) × Model K) (node : XmlNode) :
    (LoadData.way tbl acc node).2.m_Nodes = acc.2.m_Nodes := by
  unfold LoadData.way
  simp only
  rw [wayChildren_nodes]

theorem way_loop_below {K : Type} (tbl : List (String × Nat)) :
    ∀ (elems : List XmlNode) (ids : List (String × Nat)) (m : Model K),
      TableBelow m.m_Nodes.length tbl → WaysBelow m.m_Nodes.length m.m_Ways →
      (elems.foldl (LoadData.way tbl) (ids, m)).2.m_Nodes = m.m_Nodes
      ∧ WaysBelow m.m_Nodes.length (elems.foldl (LoadData.way tbl) (ids, m)).2.m_Ways := by
  intro elems
  induction elems with
  | nil => intro ids m _ hw; exact ⟨rfl, hw⟩
  | cons e es ih =>
    intro ids m ht hw
    rw [List.foldl_cons]
    have hn : (LoadData.way tbl (ids, m) e).2.m_Nodes = m.m_Nodes := way_nodes tbl (ids, m) e
    have hways : (LoadData.way tbl (ids, m) e).2.m_Ways
        = m.m_Ways ++ [⟨knownPointRefs tbl e.children⟩] := way_ways tbl (ids, m) e
    have hw' : WaysBelow (LoadData.way tbl (ids, m) e).2.m_Nodes.length
        (LoadData.way tbl (ids, m) e).2.m_Ways := by
      rw [hn, hways]
      intro way hway i hi
      rcases List.mem_append.mp hway with h | h
      · exact hw way h i hi
      · simp only [List.mem_singleton] at h
        subst h
        exact knownPointRefs_below _ tbl _ ht i hi
    have := ih (LoadData.way tbl (ids, m) e).1 (LoadData.way tbl (ids, m) e).2
      (by rw [hn]; exact ht) hw'
    rw [hn] at this
    exact this

theorem node_fold_none {K : Type} (rt : Runtime K) (nodes : List XmlNode) :
    nodes.foldl (LoadData.node rt) none = none := by
  induction nodes with
  | nil => rfl
  | cons x xs ih => rw [List.foldl_cons]; exact ih

theorem node_loop_below {K : Type} (rt : Runtime K) :
    ∀ (nodes : List XmlNode) (tbl0 : List (String × Nat)) (m0 : Model K)
      (tbl : List (String × Nat)) (m1 : Model K),
      nodes.foldl (LoadData.node rt) (some (tbl0, m0)) = some (tbl, m1) →
      TableBelow m0.m_Nodes.length tbl0 →
      TableBelow m1.m_Nodes.length tbl ∧ m1.m_Ways = m0.m_Ways := by
  intro nodes
  induction nodes with
  | nil =>
    intro tbl0 m0 tbl m1 h ht
    simp only [List.foldl_nil, Option.some.injEq, Prod.mk.injEq] at h
    obtain ⟨rfl, rfl⟩ := h
    exact ⟨ht, rfl⟩
  | cons x xs ih =>
    intro tbl0 m0 tbl m1 h ht
    rw [List.foldl_cons] at h
    cases hlat : rt.stod (x.attribute "lat") with
    | none =>
      have : LoadData.node rt (some (tbl0, m0)) x = none := by
        simp [LoadData.node, hlat]
      rw [this, node_fold_none] at h
      cases h
    | some lat =>
      cases hlon : rt.stod (x.attribute "lon") with
      | none =>
        have : LoadData.node rt (some (tbl0, m0)) x = none := by
          simp [LoadData.node, hlat, hlon]
        rw [this, node_fold_none] at h
        cases h
      | some lon =>
        have hstep : LoadData.node rt (some (tbl0, m0)) x
            = some ((x.attribute "id", m0.m_Nodes.length) :: tbl0,
                { m0 with m_Nodes := m0.m_Nodes ++ [⟨lon, lat⟩] }) := by
          simp [LoadData.node, hlat, hlon]
        rw [hstep] at h
        have := ih _ _ _ _ h (by
          intro k v hkv
          simp only [List.length_append, List.length_singleton]
          rw [List.lookup_cons] at hkv
          split at hkv
          · simp only [Option.some.injEq] at hkv
            omega
          · have := ht k v hkv
            omega)
        exact this

theorem relation_fold_below {reallocates : Nat → Bool} {K : Type} (tbl : List (String × Nat)) :
    ∀ (rels : List XmlNode) (m2 m' : Model K),
      rels.foldl
        (fun acc relation =>
          match acc with
          | .error e => .error e
          | .ok m =>
            match LoadData.relationChildren reallocates tbl relation.children [] [] m with
            | none => .error "BuildRings"
            | some m3 => .ok m3)
        (Except.ok m2 : Except String (Model K)) = .ok m' →
      m'.m_Nodes = m2.m_Nodes
        ∧ (WaysBelow m2.m_Nodes.length m2.m_Ways → WaysBelow m2.m_Nodes.length m'.m_Ways) := by
  intro rels
  induction rels with
  | nil =>
    intro m2 m' h
    simp only [List.foldl_nil, Except.ok.injEq] at h
    subst h
    exact ⟨rfl, fun h => h⟩
  | cons r rs ih =>
    intro m2 m' h
    rw [List.foldl_cons] at h
    simp only at h
    cases hr : LoadData.relationChildren reallocates tbl r.children [] [] m2 with
    | none =>
      rw [hr] at h
      simp only at h
      exfalso
      clear ih hr
      induction rs with
      | nil => simp at h
      | cons a as iha => rw [List.foldl_cons] at h; exact iha h
    | some m3 =>
      rw [hr] at h
      simp only at h
      obtain ⟨h1, h2⟩ := LoadData.relationChildren_below tbl _ _ _ _ _ hr
      obtain ⟨h3, h4⟩ := ih _ _ h
      rw [h1] at h3 h4
      exact ⟨h3, fun hb => h4 (h2 hb)⟩

theorem LoadData_below {K : Type} [LinearOrderedField K] (rt : Runtime K) (doc : XmlNode)
    (m : Model K) (h : LoadData rt doc = .ok m) : WaysBelow m.m_Nodes.length m.m_Ways := by
  unfold LoadData at h
  split at h
  · cases h
  · split at h
    · rename_i minlat maxlat minlon maxlon _ _ _ _
      simp only at h
      split at h
      · cases h
      · rename_i tbl m1 hnodes
        obtain ⟨htbl, hways1⟩ := node_loop_below rt _ _ _ _ _ hnodes
          (by intro k v hkv; simp at hkv)
        have hw1 : WaysBelow m1.m_Nodes.length m1.m_Ways := by
          rw [hways1]
          intro way hway
          simp [Model.empty] at hway
        obtain ⟨hn2, hw2⟩ := way_loop_below tbl (doc.select_nodes "way") [] m1 htbl hw1
        obtain ⟨hn3, hw3⟩ := relation_fold_below _ _ _ _ h
        rw [hn2] at hw3
        rw [hn3, hn2]
        exact hw3 hw2
    · cases h

theorem Model_new_below {K : Type} [LinearOrderedField K] (rt : Runtime K) (doc : XmlNode)
    (m : Model K) (h : Model.new rt doc = .ok m) : WaysBelow m.m_Nodes.length m.m_Ways := by
  unfold Model.new at h
  split at h
  · cases h
  · rename_i m0 hload
    simp only [Except.ok.injEq] at h
    subst h
    have := LoadData_below rt doc m0 hload
    simpa [AdjustCoordinates] using this

theorem built_graph_fresh_wellFormed {K : Type} [LinearOrderedField K] (rt : Runtime K)
    (doc : XmlNode) (m : Model K) (h : Model.new rt doc = .ok m) :
    (RouteModel.ofModel m).Fresh ∧ (RouteModel.ofModel m).WellFormed
      ∧ (RouteModel.ofModel m).path = [] :=
  ⟨(ofModel_fresh m).1, ofModel_wellFormed m (Model_new_below rt doc m h), (ofModel_fresh m).2.1⟩

theorem node_loop_table {K : Type} (rt : Runtime K) :
    ∀ (nodes : List XmlNode) (tbl0 : List (String × Nat)) (m0 : Model K)
      (tbl : List (String × Nat)) (m1 : Model K),
      nodes.foldl (LoadData.node rt) (some (tbl0, m0)) = some (tbl, m1) →
      tbl = (nodes.foldl
        (fun (acc : List (String × Nat) × Nat) node =>
          ((node.attribute "id", acc.2) :: acc.1, acc.2 + 1))
        (tbl0, m0.m_Nodes.length)).1 := by
  intro nodes
  induction nodes with
  | nil =>
    intro tbl0 m0 tbl m1 h
    simp only [List.foldl_nil, Option.some.injEq, Prod.mk.injEq] at h
    exact h.1.symm
  | cons x xs ih =>
    intro tbl0 m0 tbl m1 h
    rw [List.foldl_cons] at h
    cases hlat : rt.stod (x.attribute "lat") with
    | none =>
      have : LoadData.node rt (some (tbl0, m0)) x = none := by
        simp [LoadData.node, hlat]
      rw [this, node_fold_none] at h
      cases h
    | some lat =>
      cases hlon : rt.stod (x.attribute "lon") with
      | none =>
        have : LoadData.node rt (some (tbl0, m0)) x = none := by
          simp [LoadData.node, hlat, hlon]
        rw [this, node_fold_none] at h
        cases h
      | some lon =>
        have hstep : LoadData.node rt (some (tbl0, m0)) x
            = some ((x.attribute "id", m0.m_Nodes.length) :: tbl0,
                { m0 with m_Nodes := m0.m_Nodes ++ [⟨lon, lat⟩] }) := by
          simp [LoadData.node, hlat, hlon]
        rw [hstep] at h
        have := ih _ _ _ _ h
        rw [this, List.foldl_cons]
        simp

theorem way_loop_ways {K : Type} (tbl : List (String × Nat)) (elems : List XmlNode)
    (ids : List (String × Nat)) (m : Model K) :
    (elems.foldl (LoadData.way tbl) (ids, m)).2.m_Ways
      = m.m_Ways ++ elems.map (fun e => ⟨knownPointRefs tbl e.children⟩) := by
  induction elems generalizing ids m with
  | nil => simp
  | cons e es ih =>
    rw [List.foldl_cons]
    have := ih (LoadData.way tbl (ids, m) e).1 (LoadData.way tbl (ids, m) e).2
    rw [this, way_ways]
    simp

theorem BuildRings.loop_prefix {reallocates : Nat → Bool} (ways : List Model.Way) :
    ∀ (fuel : Nat) (m_Ways : List Model.Way) (closed : List Nat) (opn : List Int)
      (mw : List Model.Way) (cl : List Nat),
      BuildRings.loop reallocates ways fuel m_Ways closed opn = some (mw, cl) →
      ∃ more, mw = m_Ways ++ more := by
  intro fuel
  induction fuel with
  | zero => intro _ _ _ _ _ h; simp [BuildRings.loop] at h
  | succ f ih =>
    intro m_Ways closed opn mw cl h
    unfold BuildRings.loop at h
    by_cases he : opn.isEmpty = true
    · simp only [he, if_true, Option.some.injEq, Prod.mk.injEq] at h
      exact ⟨[], by simp [h.1]⟩
    · simp only [he] at h
      by_cases hd : BuildRings.dangling reallocates ways.length m_Ways.length = true
      · rw [if_pos hd] at h
        cases h
      rw [if_neg hd] at h
      cases ht : Track opn ways with
      | none => rw [ht] at h; simp at h
      | some x =>
        obtain ⟨nodes, ow⟩ := x
        rw [ht] at h
        simp only at h
        by_cases hn : nodes.isEmpty = true
        · simp only [hn, if_true, Bool.false_eq_true, if_false, Option.some.injEq,
            Prod.mk.injEq] at h
          exact ⟨[], by simp [h.1]⟩
        · simp only [hn, Bool.false_eq_true, if_false] at h
          obtain ⟨more, hm⟩ := ih _ _ _ _ _ h
          exact ⟨[⟨nodes⟩] ++ more, by rw [hm]; simp⟩

theorem BuildRings_prefix {reallocates : Nat → Bool}
    (m_Ways : List Model.Way) (mp : Model.Multipolygon)
    (mw : List Model.Way) (mp' : Model.Multipolygon)
    (h : BuildRings reallocates m_Ways mp = some (mw, mp')) : ∃ more, mw = m_Ways ++ more := by
  have hproc : ∀ (l : List Model.Way) (nums : List Nat) (l' : List Model.Way) (cl : List Nat),
      BuildRings.process reallocates l nums = some (l', cl) → ∃ more, l' = l ++ more := by
    intro l nums l' cl hp
    unfold BuildRings.process at hp
    simp only at hp
    cases hs : BuildRings.split l nums [] [] with
    | none => rw [hs] at hp; simp at hp
    | some x =>
      obtain ⟨closed, opn⟩ := x
      rw [hs] at hp
      exact BuildRings.loop_prefix l _ _ _ _ _ _ hp
  unfold BuildRings at h
  cases h1 : BuildRings.process reallocates m_Ways mp.outer with
  | none => rw [h1] at h; simp at h
  | some x =>
    obtain ⟨mw1, outer⟩ := x
    rw [h1] at h
    simp only at h
    cases h2 : BuildRings.process reallocates mw1 mp.inner with
    | none => rw [h2] at h; simp at h
    | some y =>
      obtain ⟨mw2, inner⟩ := y
      rw [h2] at h
      simp only [Option.some.injEq, Prod.mk.injEq] at h
      obtain ⟨rfl, -⟩ := h
      obtain ⟨more1, hm1⟩ := hproc _ _ _ _ h1
      obtain ⟨more2, hm2⟩ := hproc _ _ _ _ h2
      exact ⟨more1 ++ more2, by rw [hm2, hm1]; simp⟩

theorem LoadData.relationChildren_prefix {reallocates : Nat → Bool}
    {K : Type} (tbl : List (String × Nat)) :
    ∀ (children : List XmlNode) (outer inner : List Nat) (m m' : Model K),
      LoadData.relationChildren reallocates tbl children outer inner m = some m' →
      ∃ more, m'.m_Ways = m.m_Ways ++ more := by
  intro children
  induction children with
  | nil =>
    intro outer inner m m' h
    simp only [LoadData.relationChildren, Option.some.injEq] at h
    subst h
    exact ⟨[], by simp⟩
  | cons c cs ih =>
    intro outer inner m m' h
    unfold LoadData.relationChildren at h
    simp only at h
    split at h
    · split at h
      · split at h
        · exact ih _ _ _ _ h
        · split at h
          · exact ih _ _ _ _ h
          · exact ih _ _ _ _ h
      · exact ih _ _ _ _ h
    · split at h
      · split at h
        · simp only [Option.some.injEq] at h
          subst h
          exact ⟨[], by simp⟩
        · split at h
          · split at h
            · cases h
            · rename_i mw mp hB
              simp only [Option.some.injEq] at h
              subst h
              exact BuildRings_prefix _ _ _ _ hB
          · split at h
            · split at h
              · split at h
                · cases h
                · rename_i mw mp hB
                  simp only [Option.some.injEq] at h
                  subst h
                  exact BuildRings_prefix _ _ _ _ hB
              · simp only [Option.some.injEq] at h
                subst h
                exact ⟨[], by simp⟩
            · exact ih _ _ _ _ h
      · exact ih _ _ _ _ h

theorem relation_fold_prefix {reallocates : Nat → Bool} {K : Type} (tbl : List (String × Nat)) :
    ∀ (rels : List XmlNode) (m2 m' : Model K),
      rels.foldl
        (fun acc relation =>
          match acc with
          | .error e => .error e
          | .ok m =>
            match LoadData.relationChildren reallocates tbl relation.children [] [] m with
            | none => .error "BuildRings"
            | some m3 => .ok m3)
        (Except.ok m2 : Except String (Model K)) = .ok m' →
      ∃ more, m'.m_Ways = m2.m_Ways ++ more := by
  intro rels
  induction rels with
  | nil =>
    intro m2 m' h
    simp only [List.foldl_nil, Except.ok.injEq] at h
    subst h
    exact ⟨[], by simp⟩
  | cons r rs ih =>
    intro m2 m' h
    rw [List.foldl_cons] at h
    simp only at h
    cases hr : LoadData.relationChildren reallocates tbl r.children [] [] m2 with
    | none =>
      rw [hr] at h
      simp only at h
      exfalso
      clear ih hr
      induction rs with
      | nil => simp at h
      | cons a as iha => rw [List.foldl_cons] at h; exact iha h
    | some m3 =>
      rw [hr] at h
      simp only at h
      obtain ⟨more1, h1⟩ := LoadData.relationChildren_prefix tbl _ _ _ _ _ hr
      obtain ⟨more2, h2⟩ := ih _ _ h
      exact ⟨more1 ++ more2, by rw [h2, h1]; simp⟩

theorem LoadData_segments {K : Type} [LinearOrderedField K] (rt : Runtime K) (doc : XmlNode)
    (m : Model K) (h : LoadData rt doc = .ok m) :
    ∃ more, m.m_Ways
      = (doc.select_nodes "way").map
          (fun e => ⟨knownPointRefs (identifierTable (doc.select_nodes "node")) e.children⟩)
        ++ more := by
  unfold LoadData at h
  split at h
  · cases h
  · split at h
    · simp only at h
      split at h
      · cases h
      · rename_i tbl m1 hnodes
        have htbl := node_loop_table rt _ _ _ _ _ hnodes
        have hways1 := (node_loop_below rt _ _ _ _ _ hnodes (by intro k v hkv; simp at hkv)).2
        obtain ⟨more, hm⟩ := relation_fold_prefix _ _ _ _ h
        refine ⟨more, ?_⟩
        rw [hm, way_loop_ways, hways1]
        have : tbl = identifierTable (doc.select_nodes "node") := by
          rw [htbl]
          rfl
        rw [this]
        simp [Model.empty]
    · cases h

theorem outerMembers_cons (tbl : List (String × Nat)) (c : XmlNode) (l : List XmlNode) :
    outerMembers tbl (c :: l) = outerMembers tbl [c] ++ outerMembers tbl l := by
  unfold outerMembers
  rw [show c :: l = [c] ++ l from rfl, List.filter_append, List.filterMap_append]

theorem innerMembers_cons (tbl : List (String × Nat)) (c : XmlNode) (l : List XmlNode) :
    innerMembers tbl (c :: l) = innerMembers tbl [c] ++ innerMembers tbl l := by
  unfold innerMembers
  rw [show c :: l = [c] ++ l from rfl, List.filter_append, List.filterMap_append]

theorem LoadData.relationChildren_step {reallocates : Nat → Bool}
    {K : Type} (tbl : List (String × Nat))
    (c : XmlNode) (rest : List XmlNode) (outer inner : List Nat) (m : Model K)
    (hc : endsRelation c = false) :
    LoadData.relationChildren reallocates tbl (c :: rest) outer inner m
      = LoadData.relationChildren reallocates tbl rest (outer ++ outerMembers tbl [c])
          (inner ++ innerMembers tbl [c]) m := by
  conv_lhs => unfold LoadData.relationChildren
  simp only
  by_cases hname : c.name = "member"
  · simp only [hname, if_true]
    by_cases htype : c.attribute "type" = "way"
    · simp only [htype, if_true]
      cases hlook : tbl.lookup (c.attribute "ref") with
      | none =>
        have hm1 : outerMembers tbl [c] = [] := by
          simp only [outerMembers, List.filter_cons, List.filter_nil]
          split <;> simp [hlook]
        have hm2 : innerMembers tbl [c] = [] := by
          simp only [innerMembers, List.filter_cons, List.filter_nil]
          split <;> simp [hlook]
        rw [hm1, hm2, List.append_nil, List.append_nil]
      | some way_num =>
        by_cases hrole : c.attribute "role" = "outer"
        · have hm1 : outerMembers tbl [c] = [way_num] := by
            simp [outerMembers, List.filter_cons, hname, htype, hrole, hlook]
          have hm2 : innerMembers tbl [c] = [] := by
            simp [innerMembers, List.filter_cons, hname, htype, hrole]
          simp only [hrole, if_true]
          rw [hm1, hm2, List.append_nil]
        · have hm1 : outerMembers tbl [c] = [] := by
            simp [outerMembers, List.filter_cons, hname, htype, hrole]
          have hm2 : innerMembers tbl [c] = [way_num] := by
            simp [innerMembers, List.filter_cons, hname, htype, hrole, hlook]
          simp only [hrole, if_false]
          rw [hm1, hm2, List.append_nil]
    · have hm1 : outerMembers tbl [c] = [] := by
        simp [outerMembers, List.filter_cons, hname, htype]
      have hm2 : innerMembers tbl [c] = [] := by
        simp [innerMembers, List.filter_cons, hname, htype]
      simp only [htype, if_false]
      rw [hm1, hm2, List.append_nil, List.append_nil]
  · have hm1 : outerMembers tbl [c] = [] := by
      simp [outerMembers, hname, List.filter_cons]
    have hm2 : innerMembers tbl [c] = [] := by
      simp [innerMembers, hname, List.filter_cons]
    rw [hm1, hm2, List.append_nil, List.append_nil]
    simp only [hname, if_false]
    by_cases htag : c.name = "tag"
    · simp only [htag, if_true]
      simp only [endsRelation, htag, true_and, decide_eq_false_iff_not, not_or, not_and] at hc
      obtain ⟨h1, h2, h3⟩ := hc
      simp only [h1, h3, if_false]
      rw [if_neg (fun h => h2 h.1 h.2)]
    · simp only [htag, if_false]

theorem LoadData.relationChildren_members {reallocates : Nat → Bool}
    {K : Type} (tbl : List (String × Nat)) :
    ∀ (pre rest : List XmlNode) (outer inner : List Nat) (m : Model K),
      (∀ c ∈ pre, endsRelation c = false) →
      LoadData.relationChildren reallocates tbl (pre ++ rest) outer inner m
        = LoadData.relationChildren reallocates tbl rest (outer ++ outerMembers tbl pre)
            (inner ++ innerMembers tbl pre) m := by
  intro pre
  induction pre with
  | nil => intro rest outer inner m _; simp [outerMembers, innerMembers]
  | cons c pre ih =>
    intro rest outer inner m hpre
    have hc := hpre c (List.mem_cons_self _ _)
    have hpre' : ∀ c ∈ pre, endsRelation c = false :=
      fun d hd => hpre d (List.mem_cons_of_mem _ hd)
    rw [List.cons_append, LoadData.relationChildren_step tbl c _ outer inner m hc,
      ih rest _ _ m hpre', outerMembers_cons tbl c pre, innerMembers_cons tbl c pre,
      List.append_assoc, List.append_assoc]

theorem members_before_tag (tbl : List (String × Nat)) (pre post : List XmlNode)
    (tag : XmlNode) (hname : tag.name = "tag") (hpost : ∀ c ∈ post, c.name ≠ "member") :
    outerMembers tbl (pre ++ tag :: post) = outerMembers tbl pre
    ∧ innerMembers tbl (pre ++ tag :: post) = innerMembers tbl pre := by
  have h1 : ∀ c ∈ tag :: post, c.name ≠ "member" := by
    intro c hc
    rcases List.mem_cons.mp hc with rfl | hc
    · rw [hname]; decide
    · exact hpost c hc
  have h2 : (tag :: post).filter (fun c => decide (c.name = "member"
      ∧ c.attribute "type" = "way" ∧ c.attribute "role" = "outer")) = [] := by
    rw [List.filter_eq_nil_iff]
    intro c hc
    simp [h1 c hc]
  have h3 : (tag :: post).filter (fun c => decide (c.name = "member"
      ∧ c.attribute "type" = "way" ∧ c.attribute "role" ≠ "outer")) = [] := by
    rw [List.filter_eq_nil_iff]
    intro c hc
    simp [h1 c hc]
  constructor
  · unfold outerMembers
    rw [List.filter_append, h2, List.append_nil]
  · unfold innerMembers
    rw [List.filter_append, h3, List.append_nil]

theorem split_at_ending (children : List XmlNode) :
    (∀ c ∈ children, endsRelation c = false)
    ∨ ∃ pre tag post, children = pre ++ tag :: post
        ∧ (∀ c ∈ pre, endsRelation c = false) ∧ endsRelation tag = true := by
  induction children with
  | nil => left; intro c hc; cases hc
  | cons c rest ih =>
    by_cases hc : endsRelation c = true
    · right
      exact ⟨[], c, rest, rfl, (fun d hd => by cases hd), hc⟩
    · have hc' : endsRelation c = false := by simpa using hc
      rcases ih with h | ⟨pre, tag, post, h1, h2, h3⟩
      · left
        intro d hd
        rcases List.mem_cons.mp hd with rfl | hd
        · exact hc'
        · exact h d hd
      · right
        refine ⟨c :: pre, tag, post, by rw [h1]; rfl, ?_, h3⟩
        intro d hd
        rcases List.mem_cons.mp hd with rfl | hd
        · exact hc'
        · exact h2 d hd

theorem LoadData.relationChildren_at_tag {reallocates : Nat → Bool}
    {K : Type} (tbl : List (String × Nat))
    (tag : XmlNode) (post : List XmlNode) (outer inner : List Nat) (m : Model K)
    (hname : tag.name = "tag") :
    (tag.attribute "k" = "building" →
      LoadData.relationChildren reallocates tbl (tag :: post) outer inner m
        = some { m with m_Buildings := m.m_Buildings ++ [⟨outer, inner⟩] })
    ∧ (tag.attribute "k" = "natural" → tag.attribute "v" = "water" →
      LoadData.relationChildren reallocates tbl (tag :: post) outer inner m
        = (BuildRings reallocates m.m_Ways ⟨outer, inner⟩).map
            (fun r => { m with m_Ways := r.1, m_Waters := m.m_Waters ++ [r.2] }))
    ∧ (tag.attribute "k" = "landuse" →
        String2LanduseType (tag.attribute "v") ≠ Model.Landuse.Type.Invalid →
      LoadData.relationChildren reallocates tbl (tag :: post) outer inner m
        = (BuildRings reallocates m.m_Ways ⟨outer, inner⟩).map
            (fun r => { m with m_Ways := r.1, m_Landuses := m.m_Landuses
              ++ [⟨r.2, String2LanduseType (tag.attribute "v")⟩] }))
    ∧ (tag.attribute "k" = "landuse" →
        String2LanduseType (tag.attribute "v") = Model.Landuse.Type.Invalid →
      LoadData.relationChildren reallocates tbl (tag :: post) outer inner m = some m) := by
  have hnm : ¬ tag.name = "member" := by rw [hname]; decide
  refine ⟨?_, ?_, ?_, ?_⟩
  · intro hk
    unfold LoadData.relationChildren
    simp [hnm, hname, hk]
  · intro hk hv
    unfold LoadData.relationChildren
    simp only [hnm, hname, hk, hv, if_true, if_false, and_self]
    rw [if_neg (by decide)]
    cases BuildRings reallocates m.m_Ways ⟨outer, inner⟩ with
    | none => rfl
    | some r => rfl
  · intro hk hv
    unfold LoadData.relationChildren
    simp only [hnm, hname, hk, if_true, if_false]
    rw [if_neg (by decide), if_neg (by simp), if_pos hv]
    cases BuildRings reallocates m.m_Ways ⟨outer, inner⟩ with
    | none => rfl
    | some r => rfl
  · intro hk hv
    unfold LoadData.relationChildren
    simp only [hnm, hname, hk, if_true, if_false]
    simp [hv]

theorem wayChild_tag {K : Type} (tbl : List (String × Nat)) (way_num : Nat) (m : Model K)
    (child : XmlNode) (hname : child.name = "tag") :
    LoadData.wayChild tbl way_num m child
      = match firstCategory (child.attribute "k") (child.attribute "v") with
        | none => m
        | some c => addToCollection m way_num (child.attribute "v") c := by
  have hnd : ¬ child.name = "nd" := by rw [hname]; decide
  unfold LoadData.wayChild
  simp only [hnd, hname, if_true, if_false]
  generalize child.attribute "k" = k
  generalize child.attribute "v" = v
  unfold firstCategory
  by_cases h1 : k = "highway"
  · subst h1
    by_cases hv : String2RoadType v = Model.Road.Type.Invalid
    · simp [List.find?, WayCategory.matchesTag, hv]
    · simp [List.find?, WayCategory.matchesTag, hv, addToCollection]
  · by_cases h2 : k = "railway"
    · subst h2
      simp [List.find?, WayCategory.matchesTag, addToCollection]
    · by_cases h3 : k = "building"
      · subst h3
        simp [List.find?, WayCategory.matchesTag, addToCollection]
      · by_cases h4 : k = "leisure"
            ∨ (k = "natural" ∧ (v = "wood" ∨ v = "tree_row" ∨ v = "scrub" ∨ v = "grassland"))
            ∨ (k = "landcover" ∧ v = "grass")
        · simp only [h1, h2, h3, if_false, h4, if_true]
          simp [List.find?, WayCategory.matchesTag, addToCollection, h1, h2, h3, h4]
        · simp only [h1, h2, h3, if_false, h4]
          by_cases h5 : k = "natural" ∧ v = "water"
          · simp [List.find?, WayCategory.matchesTag, addToCollection, h1, h2, h3, h4, h5]
          · simp only [h5, if_false]
            by_cases h6 : k = "landuse"
            · subst h6
              by_cases hv : String2LanduseType v = Model.Landuse.Type.Invalid
              · simp [List.find?, WayCategory.matchesTag, hv]
              · simp [List.find?, WayCategory.matchesTag, addToCollection, hv]
            · simp [List.find?, WayCategory.matchesTag, h1, h2, h3, h4, h5, h6]

theorem wayChild_entryCount {K : Type} (tbl : List (String × Nat)) (way_num : Nat)
    (m : Model K) (child : XmlNode) :
    entryCount (LoadData.wayChild tbl way_num m child)
      = entryCount m + (if classifies child = true then 1 else 0) := by
  by_cases hname : child.name = "tag"
  · rw [wayChild_tag tbl way_num m child hname]
    unfold classifies
    cases hc : firstCategory (child.attribute "k") (child.attribute "v") with
    | none => simp
    | some c =>
      cases c <;> simp [hname, addToCollection, entryCount] <;> omega
  · have hcl : classifies child = false := by simp [classifies, hname]
    rw [hcl]
    unfold LoadData.wayChild
    by_cases hnd : child.name = "nd"
    · simp only [hnd, if_true]
      split <;> simp [entryCount]
    · simp [hnd, hname]

theorem wayChildren_entryCount {K : Type} (tbl : List (String × Nat)) (way_num : Nat)
    (children : List XmlNode) (m : Model K) :
    entryCount (children.foldl (LoadData.wayChild tbl way_num) m)
      = entryCount m + (children.filter classifies).length := by
  induction children generalizing m with
  | nil => simp
  | cons c rest ih =>
    rw [List.foldl_cons, ih, wayChild_entryCount, List.filter_cons]
    split
    · simp only [List.length_cons]
      omega
    · simp

theorem roadTypeOrder_strictWeak :
    StrictWeakOrdering (fun (first second : Model.Road) =>
      decide (first.type.toInt < second.type.toInt)) := by
  refine ⟨fun a => by simp, fun a b c h1 h2 => ?_, fun a b c h1 h2 => ?_⟩
  · simp only [decide_eq_true_eq] at h1 h2 ⊢
    omega
  · simp only [decide_eq_false_iff_not] at h1 h2 ⊢
    omega

theorem distance_triangle {K : Type} [LinearOrderedField K] (rt : Runtime K)
    (hsqrt : ∀ x : K, 0 ≤ x → 0 ≤ rt.sqrt x ∧ rt.sqrt x * rt.sqrt x = x)
    (a b c : RouteModel.Node K) :
    a.distance rt c ≤ a.distance rt b + b.distance rt c := by
  unfold RouteModel.Node.distance
  obtain ⟨hA, hA2⟩ := hsqrt ((a.x - b.x) ^ 2 + (a.y - b.y) ^ 2) (by positivity)
  obtain ⟨hB, hB2⟩ := hsqrt ((b.x - c.x) ^ 2 + (b.y - c.y) ^ 2) (by positivity)
  obtain ⟨hC, hC2⟩ := hsqrt ((a.x - c.x) ^ 2 + (a.y - c.y) ^ 2) (by positivity)
  generalize rt.sqrt ((a.x - b.x) ^ 2 + (a.y - b.y) ^ 2) = A at hA hA2
  generalize rt.sqrt ((b.x - c.x) ^ 2 + (b.y - c.y) ^ 2) = B at hB hB2
  generalize rt.sqrt ((a.x - c.x) ^ 2 + (a.y - c.y) ^ 2) = C at hC hC2
  by_contra hlt
  rw [not_le] at hlt
  have h1 : (A + B) * (A + B) < C * C := mul_self_lt_mul_self (add_nonneg hA hB) hlt
  have h2 : A * B < (a.x - b.x) * (b.x - c.x) + (a.y - b.y) * (b.y - c.y) := by
    have e1 : (A + B) * (A + B) = A * A + 2 * (A * B) + B * B := by ring
    have e2 : (a.x - c.x) ^ 2 + (a.y - c.y) ^ 2
        = ((a.x - b.x) ^ 2 + (a.y - b.y) ^ 2)
          + 2 * ((a.x - b.x) * (b.x - c.x) + (a.y - b.y) * (b.y - c.y))
          + ((b.x - c.x) ^ 2 + (b.y - c.y) ^ 2) := by ring
    rw [e1, hC2, e2, hA2, hB2] at h1
    linarith
  have h3 : (A * B) * (A * B)
      < ((a.x - b.x) * (b.x - c.x) + (a.y - b.y) * (b.y - c.y))
        * ((a.x - b.x) * (b.x - c.x) + (a.y - b.y) * (b.y - c.y)) :=
    mul_self_lt_mul_self (mul_nonneg hA hB) h2
  have h4 : (A * B) * (A * B)
      = ((a.x - b.x) ^ 2 + (a.y - b.y) ^ 2) * ((b.x - c.x) ^ 2 + (b.y - c.y) ^ 2) := by
    rw [mul_mul_mul_comm, hA2, hB2]
  have h5 : ((a.x - b.x) * (b.x - c.x) + (a.y - b.y) * (b.y - c.y))
        * ((a.x - b.x) * (b.x - c.x) + (a.y - b.y) * (b.y - c.y))
      ≤ ((a.x - b.x) ^ 2 + (a.y - b.y) ^ 2) * ((b.x - c.x) ^ 2 + (b.y - c.y) ^ 2) := by
    have h6 := sq_nonneg ((a.x - b.x) * (b.y - c.y) - (a.y - b.y) * (b.x - c.x))
    have e3 : ((a.x - b.x) ^ 2 + (a.y - b.y) ^ 2) * ((b.x - c.x) ^ 2 + (b.y - c.y) ^ 2)
        - ((a.x - b.x) * (b.x - c.x) + (a.y - b.y) * (b.y - c.y))
          * ((a.x - b.x) * (b.x - c.x) + (a.y - b.y) * (b.y - c.y))
        = ((a.x - b.x) * (b.y - c.y) - (a.y - b.y) * (b.x - c.x)) ^ 2 := by ring
    linarith
  rw [h4] at h3
  exact absurd h3 (not_lt.mpr h5)

theorem distance_self {K : Type} [LinearOrderedField K] (rt : Runtime K)
    (hsqrt : ∀ x : K, 0 ≤ x → 0 ≤ rt.sqrt x ∧ rt.sqrt x * rt.sqrt x = x)
    (a : RouteModel.Node K) : a.distance rt a = 0 := by
  unfold RouteModel.Node.distance
  obtain ⟨-, h⟩ := hsqrt ((a.x - a.x) ^ 2 + (a.y - a.y) ^ 2) (by positivity)
  have h0 : (a.x - a.x) ^ 2 + (a.y - a.y) ^ 2 = 0 := by ring
  rw [h0] at h ⊢
  exact mul_self_eq_zero.mp h

theorem distance_le_pathLength_cons {K : Type} [LinearOrderedField K] (rt : Runtime K)
    (hsqrt : ∀ x : K, 0 ≤ x → 0 ≤ rt.sqrt x ∧ rt.sqrt x * rt.sqrt x = x) :
    ∀ (rest : List (RouteModel.Node K)) (p0 pk : RouteModel.Node K),
      (p0 :: rest).getLast? = some pk → p0.distance rt pk ≤ pathLength rt (p0 :: rest) := by
  intro rest
  induction rest with
  | nil =>
    intro p0 pk h
    simp only [List.getLast?_singleton, Option.some.injEq] at h
    subst h
    rw [distance_self rt hsqrt]
    simp [pathLength]
  | cons b rest ih =>
    intro p0 pk h
    have hb : (b :: rest).getLast? = some pk := by
      rw [List.getLast?_cons_cons] at h
      exact h
    have h1 := ih b pk hb
    have h2 := distance_triangle rt hsqrt p0 b pk
    simp only [pathLength]
    linarith

theorem set_true_set_false (used : List Bool) (i : Nat) (h : used.getD i false = false) :
    (used.set i true).set i false = used := by
  rw [List.set_set]
  apply List.ext_getElem?
  intro j
  rw [List.getElem?_set]
  by_cases hij : i = j
  · subst hij
    rw [if_pos rfl]
    by_cases hi : i < used.length
    · rw [if_pos hi]
      rw [List.getD_eq_getElem?_getD, List.getElem?_eq_getElem hi] at h
      rw [List.getElem?_eq_getElem hi]
      simp only [Option.getD_some] at h
      rw [h]
    · rw [if_neg hi, List.getElem?_eq_none (not_lt.mp hi)]
  · rw [if_neg hij]

theorem chainNodes_cons (open_ways : List Int) (ways : List Model.Way) (s : Nat × Bool)
    (rest : List (Nat × Bool)) :
    chainNodes open_ways ways (s :: rest)
      = orientedNodes open_ways ways s ++ chainNodes open_ways ways rest := by
  simp [chainNodes]

theorem chainNodes_nil (open_ways : List Int) (ways : List Model.Way) :
    chainNodes open_ways ways [] = [] := rfl

theorem memberNodes_eq {open_ways : List Int} {ways : List Model.Way} {i : Nat}
    {way : Model.Way} (h : wayAt ways (open_ways.getD i 0) = some way) :
    memberNodes open_ways ways i = way.nodes := by
  unfold memberNodes
  rw [h]

theorem closedNodes_swap (nodes seg seg' X : List Nat) (hne : nodes ≠ [])
    (hlen : seg.length = seg'.length) (hlast : seg.getLast? = seg'.getLast?) :
    ClosedNodes (nodes ++ seg ++ X) ↔ ClosedNodes (nodes ++ seg' ++ X) := by
  unfold ClosedNodes
  have h1 : (nodes ++ seg ++ X).length = (nodes ++ seg' ++ X).length := by
    simp [hlen]
  have h2 : (nodes ++ seg ++ X).head? = (nodes ++ seg' ++ X).head? := by
    cases nodes with
    | nil => exact absurd rfl hne
    | cons a l => rfl
  have h3 : (nodes ++ seg ++ X).getLast? = (nodes ++ seg' ++ X).getLast? := by
    simp only [List.getLast?_append, hlast]
  rw [h1, h2, h3]

theorem orientedNodes_eq {open_ways : List Int} {ways : List Model.Way} {i : Nat}
    {way : Model.Way} (h : wayAt ways (open_ways.getD i 0) = some way) (o : Bool) :
    orientedNodes open_ways ways (i, o) = if o = true then way.nodes else way.nodes.reverse := by
  unfold orientedNodes
  simp only [memberNodes_eq h]

theorem TrackRec.extendLoop_chain (rec : List Bool → List Nat → Option TrackState)
    (open_ways : List Int) (ways : List Model.Way) (tail f : Nat)
    (hv : ValidOpen open_ways ways) (hrec : RecChain rec open_ways ways f) :
    ∀ (is : List Nat), (∀ i ∈ is, i < open_ways.length) → ∀ (used : List Bool) (nodes : List Nat),
      used.length = open_ways.length → used.count false < f + 1 → nodes ≠ [] →
      nodes.getLast? = some tail →
      ∃ b u n, TrackRec.extendLoop rec open_ways ways tail is used nodes = some (b, u, n)
        ∧ (b = true → ∃ steps, Extends open_ways ways used (some tail) steps
            ∧ n = nodes ++ chainNodes open_ways ways steps ∧ u = markSteps used steps
            ∧ ClosedNodes n)
        ∧ (b = false → u = used ∧ n = nodes
            ∧ ∀ s rest, s.1 ∈ is → Extends open_ways ways used (some tail) (s :: rest) →
                ¬ ClosedNodes (nodes ++ chainNodes open_ways ways (s :: rest))) := by
  intro is
  induction is with
  | nil =>
    intro _ used nodes _ _ _ _
    refine ⟨false, used, nodes, rfl, by simp, fun _ => ⟨rfl, rfl, ?_⟩⟩
    intro s rest hs
    cases hs
  | cons i rest ih =>
    intro his used nodes hlen hcount hne htail
    have hi : i < open_ways.length := his i (List.mem_cons_self _ _)
    have hrest : ∀ j ∈ rest, j < open_ways.length := fun j hj => his j (List.mem_cons_of_mem _ hj)
    obtain ⟨b, u, n, hr, ht, hf⟩ := ih hrest used nodes hlen hcount hne htail
    unfold TrackRec.extendLoop
    by_cases hu : used.getD i false = false
    · simp only [hu, if_true]
      obtain ⟨way, hway, hwne⟩ := hv.at hi
      simp only [hway]
      obtain ⟨wh, hwh⟩ : ∃ a, way.nodes.head? = some a := by
        cases hn : way.nodes with
        | nil => exact absurd hn hwne
        | cons a l => exact ⟨a, rfl⟩
      obtain ⟨wt, hwt⟩ : ∃ a, way.nodes.getLast? = some a :=
        ⟨_, List.getLast?_eq_getLast _ hwne⟩
      simp only [hwh, hwt]
      by_cases hmatch : wh = tail ∨ wt = tail
      · simp only [hmatch, if_true]
        have hc1 : (used.set i true).count false < f := by
          have := count_false_set_true used i (hlen ▸ hi) hu
          omega
        have hseg : (if wh = tail then nodes ++ way.nodes else nodes ++ way.nodes.reverse)
            = nodes ++ orientedNodes open_ways ways (i, decide (wh = tail)) := by
          rw [orientedNodes_eq hway]
          by_cases hwh' : wh = tail <;> simp [hwh']
        rw [hseg]
        have hsegne : orientedNodes open_ways ways (i, decide (wh = tail)) ≠ [] := by
          rw [orientedNodes_eq hway]
          split <;> simpa using hwne
        have hseghead : (orientedNodes open_ways ways (i, decide (wh = tail))).head?
            = some tail := by
          rw [orientedNodes_eq hway]
          by_cases hwh' : wh = tail
          · simp [hwh', hwh]
          · have hwt' : wt = tail := hmatch.resolve_left hwh'
            simp [hwh', hwt, hwt']
        have hn1last : (nodes ++ orientedNodes open_ways ways (i, decide (wh = tail))).getLast?
            = (orientedNodes open_ways ways (i, decide (wh = tail))).getLast? := by
          rw [List.getLast?_append]
          obtain ⟨a, ha⟩ : ∃ a, (orientedNodes open_ways ways
              (i, decide (wh = tail))).getLast? = some a :=
            ⟨_, List.getLast?_eq_getLast _ hsegne⟩
          rw [ha]
          rfl
        obtain ⟨b2, u2, n2, hr2, ht2, hf2⟩ := hrec (used.set i true)
          (nodes ++ orientedNodes open_ways ways (i, decide (wh = tail)))
          (by simpa using hlen) hc1 (by simp [hne])
        rw [hr2]
        cases b2 with
        | true =>
          obtain ⟨steps, hE, hn2, hu2, hcl⟩ := ht2 rfl
          refine ⟨true, u2, n2, rfl, fun _ => ?_, by simp⟩
          refine ⟨(i, decide (wh = tail)) :: steps, ?_, ?_, hu2, hcl⟩
          · rw [hn1last] at hE
            exact ⟨hi, hu, (fun t ht' => by rw [hseghead, ← ht']), hE⟩
          · rw [hn2, chainNodes_cons, List.append_assoc]
        | false =>
          obtain ⟨hu2, hn2, hno⟩ := hf2 rfl
          simp only
          rw [hu2, hn2, set_true_set_false used i hu, resize_append, hr]
          refine ⟨b, u, n, rfl, ht, fun hb => ?_⟩
          obtain ⟨h1, h2, h3⟩ := hf hb
          refine ⟨h1, h2, ?_⟩
          intro s rest' hs hE
          rcases List.mem_cons.mp hs with hsi | hs
          · obtain ⟨j, o'⟩ := s
            simp only at hsi
            subst hsi
            obtain ⟨-, -, hhead, hext⟩ := hE
            have hhead' := hhead tail rfl
            have hkey : (orientedNodes open_ways ways (j, o')).getLast?
                  = (orientedNodes open_ways ways (j, decide (wh = tail))).getLast?
                ∧ (orientedNodes open_ways ways (j, o')).length
                  = (orientedNodes open_ways ways (j, decide (wh = tail))).length := by
              rw [orientedNodes_eq hway] at hhead' ⊢
              rw [orientedNodes_eq hway]
              cases o' with
              | true =>
                simp only [if_true, hwh, Option.some.injEq] at hhead'
                simp [hhead']
              | false =>
                simp only [Bool.false_eq_true, if_false, List.head?_reverse, hwt,
                  Option.some.injEq] at hhead'
                by_cases hwh' : wh = tail
                · simp [hwh', hwh, hwt, hhead']
                · simp [hwh']
            have hext' : Extends open_ways ways (used.set j true)
                (nodes ++ orientedNodes open_ways ways (j, decide (wh = tail))).getLast?
                rest' := by
              rw [hn1last, ← hkey.1]
              exact hext
            have hnc := hno rest' hext'
            rw [chainNodes_cons, ← List.append_assoc,
              closedNodes_swap nodes _ _ _ hne hkey.2 hkey.1]
            exact hnc
          · exact h3 s rest' hs hE
      · simp only [hmatch, if_false]
        rw [hr]
        refine ⟨b, u, n, rfl, ht, fun hb => ?_⟩
        obtain ⟨h1, h2, h3⟩ := hf hb
        refine ⟨h1, h2, ?_⟩
        intro s rest' hs hE
        rcases List.mem_cons.mp hs with hsi | hs
        · exfalso
          obtain ⟨j, o'⟩ := s
          simp only at hsi
          subst hsi
          obtain ⟨-, -, hhead, -⟩ := hE
          have hhead' := hhead tail rfl
          rw [orientedNodes_eq hway] at hhead'
          apply hmatch
          cases o' with
          | true =>
            simp only [if_true, hwh, Option.some.injEq] at hhead'
            exact Or.inl hhead'
          | false =>
            simp only [Bool.false_eq_true, if_false, List.head?_reverse, hwt,
              Option.some.injEq] at hhead'
            exact Or.inr hhead'
        · exact h3 s rest' hs hE
    · simp only [hu, if_false]
      rw [hr]
      refine ⟨b, u, n, rfl, ht, fun hb => ?_⟩
      obtain ⟨h1, h2, h3⟩ := hf hb
      refine ⟨h1, h2, ?_⟩
      intro s rest' hs hE
      rcases List.mem_cons.mp hs with hsi | hs
      · exfalso
        obtain ⟨-, hunused, -, -⟩ := hE
        rw [hsi] at hunused
        exact hu hunused
      · exact h3 s rest' hs hE

theorem TrackRec.startLoop_chain (rec : List Bool → List Nat → Option TrackState)
    (open_ways : List Int) (ways : List Model.Way) (f : Nat)
    (hv : ValidOpen open_ways ways) (hrec : RecChain rec open_ways ways f) :
    ∀ (is : List Nat), (∀ i ∈ is, i < open_ways.length) → ∀ (used : List Bool),
      used.length = open_ways.length → used.count false < f + 1 →
      ∃ b u n, TrackRec.startLoop rec open_ways ways is used [] = some (b, u, n)
        ∧ (b = true → ∃ steps, Extends open_ways ways used none steps
            ∧ n = chainNodes open_ways ways steps ∧ u = markSteps used steps
            ∧ ClosedNodes n)
        ∧ (b = false → u = used ∧ n = []
            ∧ ∀ i ∈ is, ∀ rest, Extends open_ways ways used none ((i, true) :: rest) →
                ¬ ClosedNodes (chainNodes open_ways ways ((i, true) :: rest))) := by
  intro is
  induction is with
  | nil =>
    intro _ used _ _
    refine ⟨false, used, [], rfl, by simp, fun _ => ⟨rfl, rfl, ?_⟩⟩
    intro i hi
    cases hi
  | cons i rest ih =>
    intro his used hlen hcount
    have hi : i < open_ways.length := his i (List.mem_cons_self _ _)
    have hrest : ∀ j ∈ rest, j < open_ways.length := fun j hj => his j (List.mem_cons_of_mem _ hj)
    obtain ⟨b, u, n, hr, ht, hf⟩ := ih hrest used hlen hcount
    unfold TrackRec.startLoop
    by_cases hu : used.getD i false = false
    · simp only [hu, if_true]
      obtain ⟨way, hway, hwne⟩ := hv.at hi
      simp only [hway]
      have hc1 : (used.set i true).count false < f := by
        have := count_false_set_true used i (hlen ▸ hi) hu
        omega
      have hseg : orientedNodes open_ways ways (i, true) = way.nodes := by
        rw [orientedNodes_eq hway]
        rfl
      obtain ⟨b2, u2, n2, hr2, ht2, hf2⟩ := hrec (used.set i true) way.nodes
        (by simpa using hlen) hc1 hwne
      rw [hr2]
      cases b2 with
      | true =>
        obtain ⟨steps, hE, hn2, hu2, hcl⟩ := ht2 rfl
        refine ⟨true, u2, n2, rfl, fun _ => ?_, by simp⟩
        refine ⟨(i, true) :: steps, ?_, ?_, hu2, hcl⟩
        · rw [← hseg] at hE
          exact ⟨hi, hu, (fun t ht' => by cases ht'), hE⟩
        · rw [hn2, chainNodes_cons, hseg]
      | false =>
        obtain ⟨hu2, hn2, hno⟩ := hf2 rfl
        simp only
        rw [hu2, set_true_set_false used i hu, hr]
        refine ⟨b, u, n, rfl, ht, fun hb => ?_⟩
        obtain ⟨h1, h2, h3⟩ := hf hb
        refine ⟨h1, h2, ?_⟩
        intro j hj rest' hE
        rcases List.mem_cons.mp hj with hji | hj
        · subst hji
          obtain ⟨-, -, -, hext⟩ := hE
          rw [hseg] at hext
          have := hno rest' hext
          rw [chainNodes_cons, hseg]
          exact this
        · exact h3 j hj rest' hE
    · simp only [hu, if_false]
      rw [hr]
      refine ⟨b, u, n, rfl, ht, fun hb => ?_⟩
      obtain ⟨h1, h2, h3⟩ := hf hb
      refine ⟨h1, h2, ?_⟩
      intro j hj rest' hE
      rcases List.mem_cons.mp hj with hji | hj
      · exfalso
        obtain ⟨-, hunused, -, -⟩ := hE
        simp only at hunused
        rw [hji] at hunused
        exact hu hunused
      · exact h3 j hj rest' hE

theorem TrackRec_chain (open_ways : List Int) (ways : List Model.Way)
    (hv : ValidOpen open_ways ways) :
    ∀ fuel, RecChain (fun u n => TrackRec open_ways ways fuel u n) open_ways ways fuel := by
  intro fuel
  induction fuel with
  | zero => intro used nodes _ h; omega
  | succ f ih =>
    intro used nodes hlen hcount hne
    have hrange : ∀ i ∈ List.range open_ways.length, i < open_ways.length :=
      fun i hi => List.mem_range.mp hi
    obtain ⟨head, hhead⟩ : ∃ a, nodes.head? = some a := by
      cases hn : nodes with
      | nil => exact absurd hn hne
      | cons a l => exact ⟨a, rfl⟩
    obtain ⟨tail, htail⟩ : ∃ a, nodes.getLast? = some a :=
      ⟨_, List.getLast?_eq_getLast _ hne⟩
    simp only
    unfold TrackRec
    simp only [hhead, htail]
    by_cases hc : head = tail ∧ nodes.length > 1
    · rw [if_pos hc]
      have hcl : ClosedNodes nodes := ⟨hc.2, by rw [hhead, htail, hc.1]⟩
      refine ⟨true, used, nodes, rfl, fun _ => ⟨[], trivial, ?_, rfl, hcl⟩, by simp⟩
      rw [chainNodes_nil, List.append_nil]
    · rw [if_neg hc]
      have hncl : ¬ ClosedNodes nodes := by
        intro hcl
        apply hc
        refine ⟨?_, hcl.1⟩
        have := hcl.2
        rw [hhead, htail] at this
        exact Option.some.inj this
      obtain ⟨b, u, n, hr, ht, hf⟩ := TrackRec.extendLoop_chain _ open_ways ways tail f hv ih _
        hrange used nodes hlen hcount hne htail
      refine ⟨b, u, n, hr, ?_, fun hb => ?_⟩
      · intro hb
        exact ht hb
      · obtain ⟨h1, h2, h3⟩ := hf hb
        refine ⟨h1, h2, ?_⟩
        intro steps hE
        cases steps with
        | nil =>
          rw [chainNodes_nil, List.append_nil]
          exact hncl
        | cons s rest =>
          exact h3 s rest (List.mem_range.mpr hE.1) hE

theorem orientedNodes_ne_nil {open_ways : List Int} {ways : List Model.Way}
    (hv : ValidOpen open_ways ways) {s : Nat × Bool} (hs : s.1 < open_ways.length) :
    orientedNodes open_ways ways s ≠ [] := by
  obtain ⟨way, hway, hne⟩ := hv.at hs
  obtain ⟨i, o⟩ := s
  rw [orientedNodes_eq hway]
  split <;> simpa using hne

theorem Extends.isChain {open_ways : List Int} {ways : List Model.Way}
    (hv : ValidOpen open_ways ways) :
    ∀ (steps : List (Nat × Bool)) (used : List Bool) (tail : Option Nat),
      used.length = open_ways.length → Extends open_ways ways used tail steps →
      (steps.map Prod.fst).Nodup
      ∧ (∀ s ∈ steps, s.1 < open_ways.length ∧ used.getD s.1 false = false)
      ∧ List.Chain' (fun a b => a.getLast? = b.head?)
          (steps.map (orientedNodes open_ways ways))
      ∧ (∀ t, tail = some t → ∀ s, steps.head? = some s →
          (orientedNodes open_ways ways s).head? = some t) := by
  intro steps
  induction steps with
  | nil =>
    intro used tail _ _
    refine ⟨by simp, by simp, by simp, ?_⟩
    intro t _ s hs
    cases hs
  | cons s rest ih =>
    intro used tail hlen hE
    obtain ⟨hlt, hunused, hhead, hext⟩ := hE
    obtain ⟨hnd, hall, hch, hlink⟩ := ih _ _ (by simpa using hlen) hext
    have hne := orientedNodes_ne_nil hv hlt
    obtain ⟨x, hx⟩ : ∃ a, (orientedNodes open_ways ways s).getLast? = some a :=
      ⟨_, List.getLast?_eq_getLast _ hne⟩
    refine ⟨?_, ?_, ?_, ?_⟩
    · rw [List.map_cons, List.nodup_cons]
      refine ⟨?_, hnd⟩
      intro hmem
      obtain ⟨r, hr, hrs⟩ := List.mem_map.mp hmem
      have hflag := (hall r hr).2
      rw [hrs, getD_set_bool, if_pos ⟨rfl, hlen ▸ hlt⟩] at hflag
      exact Bool.noConfusion hflag
    · intro r hr
      rcases List.mem_cons.mp hr with rfl | hr
      · exact ⟨hlt, hunused⟩
      · refine ⟨(hall r hr).1, ?_⟩
        have := (hall r hr).2
        rw [getD_set_bool] at this
        split at this
        · cases this
        · exact this
    · rw [List.map_cons, List.chain'_cons']
      refine ⟨?_, hch⟩
      intro y hy
      cases rest with
      | nil => cases hy
      | cons r rest' =>
        simp only [List.map_cons, List.head?_cons, Option.mem_def, Option.some.injEq] at hy
        subst hy
        rw [hx]
        exact (hlink x hx r rfl).symm
    · intro t ht r hr
      simp only [List.head?_cons, Option.some.injEq] at hr
      subst hr
      exact hhead t ht

theorem IsChain.extends {open_ways : List Int} {ways : List Model.Way} :
    ∀ (steps : List (Nat × Bool)) (used : List Bool) (tail : Option Nat),
      (steps.map Prod.fst).Nodup →
      (∀ s ∈ steps, s.1 < open_ways.length ∧ used.getD s.1 false = false) →
      List.Chain' (fun a b => a.getLast? = b.head?)
          (steps.map (orientedNodes open_ways ways)) →
      (∀ t, tail = some t → ∀ s, steps.head? = some s →
          (orientedNodes open_ways ways s).head? = some t) →
      Extends open_ways ways used tail steps := by
  intro steps
  induction steps with
  | nil => intro _ _ _ _ _ _; trivial
  | cons s rest ih =>
    intro used tail hnd hall hch hlink
    rw [List.map_cons, List.nodup_cons] at hnd
    rw [List.map_cons, List.chain'_cons'] at hch
    refine ⟨(hall s (List.mem_cons_self _ _)).1, (hall s (List.mem_cons_self _ _)).2,
      fun t ht => hlink t ht s rfl, ?_⟩
    apply ih _ _ hnd.2
    · intro r hr
      have hr' := hall r (List.mem_cons_of_mem _ hr)
      refine ⟨hr'.1, ?_⟩
      have hne : s.1 ≠ r.1 := by
        intro h
        apply hnd.1
        rw [h]
        exact List.mem_map_of_mem _ hr
      rw [getD_set_bool, if_neg (fun hc => hne hc.1)]
      exact hr'.2
    · exact hch.2
    · intro t ht r hr
      have := hch.1 (orientedNodes open_ways ways r) (by
        cases rest with
        | nil => cases hr
        | cons r' rest' =>
          simp only [List.head?_cons, Option.some.injEq] at hr
          subst hr
          simp)
      rw [← this, ht]

theorem markSteps_getD (steps : List (Nat × Bool)) :
    ∀ (used : List Bool) (j : Nat),
      (markSteps used steps).length = used.length
      ∧ ((markSteps used steps).getD j false = true
          ↔ used.getD j false = true ∨ (j ∈ steps.map Prod.fst ∧ j < used.length)) := by
  induction steps with
  | nil => intro used j; simp [markSteps]
  | cons s rest ih =>
    intro used j
    have h := ih (used.set s.1 true) j
    have hm : markSteps used (s :: rest) = markSteps (used.set s.1 true) rest := rfl
    rw [hm]
    refine ⟨by simpa using h.1, ?_⟩
    rw [h.2, getD_set_bool]
    simp only [List.length_set, List.map_cons, List.mem_cons]
    by_cases hsj : s.1 = j
    · subst hsj
      by_cases hlt : s.1 < used.length
      · simp [hlt]
      · simp [hlt]
    · have hjs : ¬ j = s.1 := fun h => hsj h.symm
      simp [hsj, hjs]

theorem Track_chain (open_ways : List Int) (ways : List Model.Way)
    (hv : ValidOpen open_ways ways) :
    ∃ nodes ow, Track open_ways ways = some (nodes, ow)
      ∧ ((∃ steps, Extends open_ways ways (List.replicate open_ways.length false) none steps
            ∧ nodes = chainNodes open_ways ways steps
            ∧ ow = Track.mark (markSteps (List.replicate open_ways.length false) steps)
                open_ways
            ∧ ClosedNodes nodes)
        ∨ (nodes = [] ∧ ow = open_ways
            ∧ ∀ i < open_ways.length, ∀ rest,
              Extends open_ways ways (List.replicate open_ways.length false) none
                ((i, true) :: rest) →
              ¬ ClosedNodes (chainNodes open_ways ways ((i, true) :: rest)))) := by
  unfold Track
  simp only
  have hrange : ∀ i ∈ List.range open_ways.length, i < open_ways.length :=
    fun i hi => List.mem_range.mp hi
  obtain ⟨b, u, n, hr, ht, hf⟩ := TrackRec.startLoop_chain _ open_ways ways open_ways.length hv
    (TrackRec_chain open_ways ways hv open_ways.length) _ hrange
    (List.replicate open_ways.length false) (by simp) (by
      have := List.count_le_length false (List.replicate open_ways.length false)
      simp only [List.length_replicate] at this
      omega)
  have hunf : TrackRec open_ways ways (open_ways.length + 1)
      (List.replicate open_ways.length false) [] = some (b, u, n) := by
    unfold TrackRec
    simpa using hr
  rw [hunf]
  cases b with
  | true =>
    obtain ⟨steps, hE, hn, hu, hcl⟩ := ht rfl
    exact ⟨n, _, rfl, Or.inl ⟨steps, hE, hn, by rw [hu], hcl⟩⟩
  | false =>
    obtain ⟨-, hn, hno⟩ := hf rfl
    exact ⟨n, _, rfl, Or.inr ⟨hn, rfl, fun i hi rest => hno i (List.mem_range.mpr hi) rest⟩⟩

theorem flatten_head_of_ne_nil (L : List (List Nat)) (h : ∀ r ∈ L, r ≠ []) :
    L.flatten.head? = L.head?.bind List.head? := by
  cases L with
  | nil => rfl
  | cons r L' =>
    have hr := h r (List.mem_cons_self _ _)
    cases r with
    | nil => exact absurd rfl hr
    | cons a l => rfl

theorem flatten_getLast_of_ne_nil (L : List (List Nat)) (h : ∀ r ∈ L, r ≠ []) :
    L.flatten.getLast? = L.getLast?.bind List.getLast? := by
  rcases List.eq_nil_or_concat L with rfl | ⟨init, l, rfl⟩
  · rfl
  · have hl : l ≠ [] := h l (by simp)
    obtain ⟨x, hx⟩ : ∃ a, l.getLast? = some a := ⟨_, List.getLast?_eq_getLast _ hl⟩
    simp [List.getLast?_append, hx]

theorem closedNodes_reverse (l : List Nat) : ClosedNodes l.reverse ↔ ClosedNodes l := by
  unfold ClosedNodes
  simp only [List.length_reverse, List.head?_reverse, List.getLast?_reverse]
  exact ⟨fun h => ⟨h.1, h.2.symm⟩, fun h => ⟨h.1, h.2.symm⟩⟩

theorem chain_reverse_segments (R : List (List Nat))
    (hch : List.Chain' (fun a b : List Nat => a.getLast? = b.head?) R) :
    List.Chain' (fun a b : List Nat => a.getLast? = b.head?) (R.map List.reverse).reverse := by
  rw [List.chain'_reverse, List.chain'_map]
  refine hch.imp ?_
  intro a b hab
  simp only [flip, List.getLast?_reverse, List.head?_reverse]
  exact hab.symm

theorem chain_rotate (w : List Nat) (R : List (List Nat)) (hw : w ≠ [])
    (hR : ∀ r ∈ R, r ≠ [])
    (hch : List.Chain' (fun a b : List Nat => a.getLast? = b.head?) (w.reverse :: R))
    (hcl : ClosedNodes (w.reverse :: R).flatten) :
    List.Chain' (fun a b : List Nat => a.getLast? = b.head?) (w :: (R.map List.reverse).reverse)
    ∧ ClosedNodes (w :: (R.map List.reverse).reverse).flatten := by
  rw [List.chain'_cons'] at hch
  obtain ⟨hlink, hchR⟩ := hch
  have hall0 : ∀ r ∈ w.reverse :: R, r ≠ [] := by
    intro r hr
    rcases List.mem_cons.mp hr with rfl | hr
    · simpa using hw
    · exact hR r hr
  have hall1 : ∀ r ∈ w :: (R.map List.reverse).reverse, r ≠ [] := by
    intro r hr
    rcases List.mem_cons.mp hr with rfl | hr
    · exact hw
    · rw [List.mem_reverse, List.mem_map] at hr
      obtain ⟨a, ha, rfl⟩ := hr
      simpa using hR a ha
  have hhead0 := flatten_head_of_ne_nil _ hall0
  have hlast0 := flatten_getLast_of_ne_nil _ hall0
  have hhead1 := flatten_head_of_ne_nil _ hall1
  have hlast1 := flatten_getLast_of_ne_nil _ hall1
  simp only [List.head?_cons, Option.some_bind, List.head?_reverse] at hhead0 hhead1
  have hlen : (w :: (R.map List.reverse).reverse).flatten.length
      = (w.reverse :: R).flatten.length := by
    simp only [List.flatten_cons, List.length_append, List.length_reverse]
    rw [← List.reverse_flatten, List.length_reverse]
  rcases List.eq_nil_or_concat R with rfl | ⟨init, l, hconcat⟩
  · refine ⟨by simp, ?_⟩
    simp only [List.map_nil, List.reverse_nil, List.flatten_cons, List.flatten_nil,
      List.append_nil] at hcl ⊢
    exact (closedNodes_reverse w).mp hcl
  · rw [List.concat_eq_append] at hconcat
    subst hconcat
    have hl : l ≠ [] := hR l (by simp)
    have hR' : (List.map List.reverse (init ++ [l])).reverse
        = l.reverse :: (List.map List.reverse init).reverse := by simp
    constructor
    · rw [List.chain'_cons']
      refine ⟨?_, chain_reverse_segments _ hchR⟩
      intro y hy
      rw [hR'] at hy
      simp only [List.head?_cons, Option.mem_def, Option.some.injEq] at hy
      subst hy
      rw [List.head?_reverse]
      have h1 := hcl.2
      rw [hhead0, hlast0, ← List.cons_append, List.getLast?_concat] at h1
      exact h1
    · refine ⟨by rw [hlen]; exact hcl.1, ?_⟩
      rw [hhead1, hlast1]
      cases init with
      | nil =>
        simp only [List.nil_append, List.map_cons, List.map_nil, List.reverse_cons,
          List.reverse_nil, List.getLast?_cons_cons, List.getLast?_singleton,
          Option.some_bind, List.getLast?_reverse]
        have := hlink l (by simp)
        rw [List.getLast?_reverse] at this
        exact this
      | cons f init' =>
        have hlast : (w :: (List.map List.reverse (f :: init' ++ [l])).reverse).getLast?
            = some f.reverse := by
          simp only [List.map_append, List.map_cons, List.map_nil, List.reverse_append,
            List.reverse_cons, List.reverse_nil, List.nil_append, List.singleton_append,
            List.cons_append]
          rw [← List.cons_append, ← List.cons_append, List.getLast?_concat]
        rw [hlast]
        simp only [Option.some_bind, List.getLast?_reverse]
        have := hlink f (by simp)
        rw [List.getLast?_reverse] at this
        exact this

theorem orientedNodes_flip (open_ways : List Int) (ways : List Model.Way) (s : Nat × Bool) :
    orientedNodes open_ways ways (s.1, !s.2) = (orientedNodes open_ways ways s).reverse := by
  obtain ⟨i, o⟩ := s
  cases o <;> simp [orientedNodes]

theorem IsChain.forward_start {open_ways : List Int} {ways : List Model.Way}
    (hv : ValidOpen open_ways ways) (steps : List (Nat × Bool))
    (hch : IsChain open_ways ways steps)
    (hcl : ClosedNodes (chainNodes open_ways ways steps)) :
    ∃ i rest, IsChain open_ways ways ((i, true) :: rest)
      ∧ ClosedNodes (chainNodes open_ways ways ((i, true) :: rest)) := by
  cases steps with
  | nil =>
    exfalso
    have := hcl.1
    simp [chainNodes] at this
  | cons s rest =>
    obtain ⟨i, o⟩ := s
    cases o with
    | true => exact ⟨i, rest, hch, hcl⟩
    | false =>
      obtain ⟨hnd, hlt, hchain⟩ := hch
      have hrev : (rest.reverse.map (fun s : Nat × Bool => (s.1, !s.2))).map
            (orientedNodes open_ways ways)
          = ((rest.map (orientedNodes open_ways ways)).map List.reverse).reverse := by
        rw [List.map_reverse, List.map_reverse, List.map_map, List.map_map]
        congr 1
        apply List.map_congr_left
        intro s _
        exact orientedNodes_flip open_ways ways s
      have hw : orientedNodes open_ways ways (i, false)
          = (orientedNodes open_ways ways (i, true)).reverse :=
        orientedNodes_flip open_ways ways (i, true)
      have hwne : orientedNodes open_ways ways (i, true) ≠ [] :=
        orientedNodes_ne_nil hv (hlt (i, false) (List.mem_cons_self _ _))
      have hRne : ∀ r ∈ rest.map (orientedNodes open_ways ways), r ≠ [] := by
        intro r hr
        obtain ⟨s, hs, rfl⟩ := List.mem_map.mp hr
        exact orientedNodes_ne_nil hv (hlt s (List.mem_cons_of_mem _ hs))
      rw [List.map_cons, hw] at hchain
      have hcl' : ClosedNodes ((orientedNodes open_ways ways (i, true)).reverse
          :: rest.map (orientedNodes open_ways ways)).flatten := by
        unfold chainNodes at hcl
        rw [List.map_cons, hw] at hcl
        exact hcl
      obtain ⟨h1, h2⟩ := chain_rotate _ _ hwne hRne hchain hcl'
      refine ⟨i, rest.reverse.map (fun s : Nat × Bool => (s.1, !s.2)), ⟨?_, ?_, ?_⟩, ?_⟩
      · rw [List.map_cons, List.nodup_cons] at hnd ⊢
        have hpos : (rest.reverse.map (fun s : Nat × Bool => (s.1, !s.2))).map Prod.fst
            = (rest.map Prod.fst).reverse := by
          rw [List.map_map, List.map_reverse]
          rfl
        rw [hpos]
        exact ⟨fun h => hnd.1 (List.mem_reverse.mp h), List.nodup_reverse.mpr hnd.2⟩
      · intro s hs
        rcases List.mem_cons.mp hs with rfl | hs
        · exact hlt (i, false) (List.mem_cons_self _ _)
        · obtain ⟨r, hr, rfl⟩ := List.mem_map.mp hs
          exact hlt r (List.mem_cons_of_mem _ (List.mem_reverse.mp hr))
      · rw [List.map_cons, hrev]
        exact h1
      · unfold chainNodes
        rw [List.map_cons, hrev]
        exact h2

theorem IsChain.extends_fresh {open_ways : List Int} {ways : List Model.Way}
    (steps : List (Nat × Bool)) (hch : IsChain open_ways ways steps) :
    Extends open_ways ways (List.replicate open_ways.length false) none steps := by
  obtain ⟨hnd, hlt, hchain⟩ := hch
  apply IsChain.extends steps _ _ hnd _ hchain
  · intro t ht
    cases ht
  · intro s hs
    refine ⟨hlt s hs, ?_⟩
    rw [List.getD_eq_getElem?_getD]
    cases h : (List.replicate open_ways.length false)[s.1]? with
    | none => rfl
    | some b =>
      have := List.mem_replicate.mp (List.mem_iff_getElem?.mpr ⟨s.1, h⟩)
      rw [this.2]
      rfl

theorem Extends.isChain_fresh {open_ways : List Int} {ways : List Model.Way}
    (hv : ValidOpen open_ways ways) (steps : List (Nat × Bool))
    (hE : Extends open_ways ways (List.replicate open_ways.length false) none steps) :
    IsChain open_ways ways steps := by
  obtain ⟨h1, h2, h3, -⟩ := Extends.isChain hv steps _ _ (by simp) hE
  exact ⟨h1, fun s hs => (h2 s hs).1, h3⟩

theorem replicate_false_getD (n j : Nat) : (List.replicate n false).getD j false = false := by
  rw [List.getD_eq_getElem?_getD]
  cases h : (List.replicate n false)[j]? with
  | none => rfl
  | some b =>
    have := List.mem_replicate.mp (List.mem_iff_getElem?.mpr ⟨j, h⟩)
    rw [this.2]
    rfl

theorem Track.mark_chain (open_ways : List Int) (steps : List (Nat × Bool))
    (hlt : ∀ s ∈ steps, s.1 < open_ways.length) (j : Nat) :
    (Track.mark (markSteps (List.replicate open_ways.length false) steps) open_ways)[j]?
      = if j ∈ steps.map Prod.fst then some (-1) else open_ways[j]? := by
  rw [(Track.mark_spec _ _).2 j]
  have h := (markSteps_getD steps (List.replicate open_ways.length false) j).2
  rw [replicate_false_getD] at h
  simp only [Bool.false_eq_true, false_or, List.length_replicate] at h
  by_cases hj : j ∈ steps.map Prod.fst
  · have hjlt : j < open_ways.length := by
      obtain ⟨s, hs, rfl⟩ := List.mem_map.mp hj
      exact hlt s hs
    rw [if_pos hj, if_pos ⟨h.mpr ⟨hj, hjlt⟩, hjlt⟩]
  · rw [if_neg hj, if_neg]
    intro hc
    exact hj (h.mp hc.1).1

theorem ValidOpen.nonneg {open_ways : List Int} {ways : List Model.Way}
    (hv : ValidOpen open_ways ways) {w : Int} (hw : w ∈ open_ways) : 0 ≤ w := by
  obtain ⟨way, hway, -⟩ := hv w hw
  unfold wayAt at hway
  by_contra hneg
  rw [if_neg hneg] at hway
  cases hway

theorem Track.mark_filter_chain (open_ways : List Int) (ways : List Model.Way)
    (hv : ValidOpen open_ways ways) (steps : List (Nat × Bool))
    (hlt : ∀ s ∈ steps, s.1 < open_ways.length) :
    (Track.mark (markSteps (List.replicate open_ways.length false) steps) open_ways).filter
        (fun v => ¬ v < 0)
      = ((List.range open_ways.length).filter (fun j => j ∉ steps.map Prod.fst)).map
          (fun j => open_ways.getD j 0) := by
  have hmap : Track.mark (markSteps (List.replicate open_ways.length false) steps) open_ways
      = (List.range open_ways.length).map
          (fun j => if j ∈ steps.map Prod.fst then (-1 : Int) else open_ways.getD j 0) := by
    apply List.ext_getElem?
    intro j
    rw [Track.mark_chain open_ways steps hlt j, List.getElem?_map]
    by_cases hj : j < open_ways.length
    · rw [List.getElem?_range hj]
      simp only [Option.map_some']
      by_cases hm : j ∈ steps.map Prod.fst
      · rw [if_pos hm, if_pos hm]
      · rw [if_neg hm, if_neg hm, List.getD_eq_getElem?_getD, List.getElem?_eq_getElem hj]
        rfl
    · have hm : j ∉ steps.map Prod.fst := by
        intro hm
        obtain ⟨s, hs, rfl⟩ := List.mem_map.mp hm
        exact hj (hlt s hs)
      rw [if_neg hm, List.getElem?_eq_none (not_lt.mp hj), List.getElem?_eq_none (by simpa using hj)]
      rfl
  rw [hmap, List.filter_map]
  have hfilter : (List.range open_ways.length).filter
        ((fun v : Int => decide (¬ v < 0))
          ∘ (fun j => if j ∈ steps.map Prod.fst then (-1 : Int) else open_ways.getD j 0))
      = (List.range open_ways.length).filter (fun j => j ∉ steps.map Prod.fst) := by
    apply List.filter_congr
    intro j hj
    have hjlt := List.mem_range.mp hj
    simp only [Function.comp]
    by_cases hm : j ∈ steps.map Prod.fst
    · simp [hm]
    · have hge : 0 ≤ open_ways.getD j 0 := by
        apply hv.nonneg
        rw [List.getD_eq_getElem?_getD, List.getElem?_eq_getElem hjlt]
        exact List.getElem_mem _
      rw [List.getD_eq_getElem?_getD] at hge
      simp [hm, hge]
  rw [hfilter]
  apply List.map_congr_left
  intro j hj
  have := (List.mem_filter.mp hj).2
  simp only [decide_eq_true_eq] at this
  rw [if_neg this]

theorem chainNodes_length (open_ways : List Int) (ways : List Model.Way)
    (steps : List (Nat × Bool)) :
    (chainNodes open_ways ways steps).length
      = (steps.map (fun s => (memberNodes open_ways ways s.1).length)).sum := by
  induction steps with
  | nil => rfl
  | cons s rest ih =>
    rw [chainNodes_cons, List.length_append, ih, List.map_cons, List.sum_cons]
    congr 1
    unfold orientedNodes
    split <;> simp

theorem chain_same_emptiness :
    ∀ (L : List (List Nat)) (a : List Nat),
      List.Chain' (fun a b : List Nat => a.getLast? = b.head?) (a :: L) →
      ∀ r ∈ L, (r = [] ↔ a = []) := by
  intro L
  induction L with
  | nil => intro a _ r hr; cases hr
  | cons b L' ih =>
    intro a hch r hr
    rw [List.chain'_cons] at hch
    have hab : b = [] ↔ a = [] := by
      rw [← List.head?_eq_none_iff, ← hch.1, List.getLast?_eq_none_iff]
    rcases List.mem_cons.mp hr with rfl | hr
    · exact hab
    · exact (ih b hch.2 r hr).trans hab

theorem chain_no_empty_segment (L : List (List Nat))
    (hch : List.Chain' (fun a b : List Nat => a.getLast? = b.head?) L)
    (r : List Nat) (hr : r ∈ L) (hne : r ≠ []) : ∀ e ∈ L, e ≠ [] := by
  cases L with
  | nil => cases hr
  | cons a L' =>
    have h := chain_same_emptiness L' a hch
    have ha : a ≠ [] := by
      rcases List.mem_cons.mp hr with rfl | hr
      · exact hne
      · exact fun ha => hne ((h r hr).mpr ha)
    intro e he
    rcases List.mem_cons.mp he with rfl | he
    · exact ha
    · exact fun hee => ha ((h e he).mp hee)

theorem BuildRings.split_lists (ways : List Model.Way) :
    ∀ (l closed : List Nat) (opn : List Int) (closed' : List Nat) (opn' : List Int),
      BuildRings.split ways l closed opn = some (closed', opn') →
      closed' = closed ++ l.filter (closedAt ways)
      ∧ opn' = opn ++ (l.filter (fun w => !closedAt ways w)).map (fun w => (w : Int))
      ∧ ∀ w ∈ l, w < ways.length := by
  intro l
  induction l with
  | nil =>
    intro closed opn closed' opn' h
    unfold BuildRings.split at h
    simp only [Option.some.injEq, Prod.mk.injEq] at h
    refine ⟨by simp [h.1], by simp [h.2], fun w hw => by cases hw⟩
  | cons w rest ih =>
    intro closed opn closed' opn' h
    unfold BuildRings.split at h
    cases hw : ways[w]? with
    | none => rw [hw] at h; cases h
    | some way =>
      rw [hw] at h
      simp only at h
      have hlt : w < ways.length := by
        by_contra hge
        rw [List.getElem?_eq_none (not_lt.mp hge)] at hw
        cases hw
      have hca : closedAt ways w = is_closed way := by
        unfold closedAt
        rw [hw]
      by_cases hcl : is_closed way = true
      · rw [if_pos hcl] at h
        obtain ⟨h1, h2, h3⟩ := ih _ _ _ _ h
        refine ⟨?_, ?_, ?_⟩
        · rw [h1, List.filter_cons, hca, hcl]
          simp
        · rw [h2, List.filter_cons, hca, hcl]
          simp
        · intro v hv
          rcases List.mem_cons.mp hv with rfl | hv
          · exact hlt
          · exact h3 v hv
      · rw [if_neg hcl] at h
        have hcl' : is_closed way = false := by simpa using hcl
        obtain ⟨h1, h2, h3⟩ := ih _ _ _ _ h
        refine ⟨?_, ?_, ?_⟩
        · rw [h1, List.filter_cons, hca, hcl']
          simp
        · rw [h2, List.filter_cons, hca, hcl']
          simp
        · intro v hv
          rcases List.mem_cons.mp hv with rfl | hv
          · exact hlt
          · exact h3 v hv

theorem BuildRings.loop_rounds {reallocates : Nat → Bool} (ways : List Model.Way) :
    ∀ (fuel : Nat) (m_Ways : List Model.Way) (closed : List Nat) (opn : List Int)
      (m_Ways' : List Model.Way) (closed' : List Nat),
      BuildRings.loop reallocates ways fuel m_Ways closed opn = some (m_Ways', closed') →
      ∃ rings : List (List Nat), m_Ways' = m_Ways ++ rings.map Model.Way.mk
        ∧ closed' = closed ++ List.range' m_Ways.length rings.length
        ∧ Rounds ways opn rings := by
  intro fuel
  induction fuel with
  | zero =>
    intro m_Ways closed opn m_Ways' closed' h
    unfold BuildRings.loop at h
    cases h
  | succ f ih =>
    intro m_Ways closed opn m_Ways' closed' h
    unfold BuildRings.loop at h
    by_cases he : opn.isEmpty = true
    · rw [if_pos he] at h
      simp only [Option.some.injEq, Prod.mk.injEq] at h
      have hopn : opn = [] := by simpa using he
      subst hopn
      exact ⟨[], by simp [h.1], by simp [h.2], Rounds.done⟩
    · rw [if_neg he] at h
      have hopn : opn ≠ [] := by simpa using he
      by_cases hd : BuildRings.dangling reallocates ways.length m_Ways.length = true
      · rw [if_pos hd] at h
        cases h
      rw [if_neg hd] at h
      cases hT : Track opn ways with
      | none => rw [hT] at h; cases h
      | some r =>
        obtain ⟨new_nodes, opn1⟩ := r
        rw [hT] at h
        simp only at h
        by_cases hn : new_nodes.isEmpty = true
        · rw [if_pos hn] at h
          simp only [Option.some.injEq, Prod.mk.injEq] at h
          have hnil : new_nodes = [] := by simpa using hn
          subst hnil
          exact ⟨[], by simp [h.1], by simp [h.2], Rounds.failed hopn hT⟩
        · rw [if_neg hn] at h
          have hne : new_nodes ≠ [] := by simpa using hn
          obtain ⟨rings, h1, h2, h3⟩ := ih _ _ _ _ _ h
          refine ⟨new_nodes :: rings, ?_, ?_, Rounds.found hopn hT hne h3⟩
          · rw [h1]
            simp
          · rw [h2]
            simp [List.range'_succ]

theorem argmin_option_fold {K : Type} [LinearOrder K] (V : Nat → Prop) [DecidablePred V]
    (d : Nat → K) :
    ∀ (l : List Nat) (acc : Option Nat),
      (l.foldl (fun acc x =>
          if V x then
            match acc with
            | none => some x
            | some c => if d x < d c then some x else some c
          else acc) acc = none ↔ acc = none ∧ ∀ c ∈ l, ¬ V c)
      ∧ ∀ b, l.foldl (fun acc x =>
          if V x then
            match acc with
            | none => some x
            | some c => if d x < d c then some x else some c
          else acc) acc = some b →
        (acc = some b ∧ ∀ c ∈ l, V c → d b ≤ d c)
        ∨ (∃ pre post, l = pre ++ b :: post ∧ V b ∧ (∀ a, acc = some a → d b < d a)
            ∧ (∀ c ∈ pre, V c → d b < d c) ∧ (∀ c ∈ post, V c → d b ≤ d c)) := by
  intro l
  induction l with
  | nil =>
    intro acc
    refine ⟨by simp, fun b hb => Or.inl ⟨hb, by simp⟩⟩
  | cons x l ih =>
    intro acc
    rw [List.foldl_cons]
    by_cases hV : V x
    · rw [if_pos hV]
      cases acc with
      | none =>
        simp only
        obtain ⟨h1, h2⟩ := ih (some x)
        constructor
        · rw [h1]
          constructor
          · intro h; cases h.1
          · intro h; exact absurd hV (h.2 x (List.mem_cons_self _ _))
        · intro b hb
          right
          rcases h2 b hb with ⟨hacc, hle⟩ | ⟨pre, post, hl, hVb, hlt, hpre, hpost⟩
          · simp only [Option.some.injEq] at hacc
            subst hacc
            exact ⟨[], l, rfl, hV, by simp, by simp, hle⟩
          · refine ⟨x :: pre, post, by rw [hl]; rfl, hVb, by simp, ?_, hpost⟩
            intro c hc hVc
            rcases List.mem_cons.mp hc with rfl | hc
            · exact hlt c rfl
            · exact hpre c hc hVc
      | some c0 =>
        simp only
        by_cases hlt0 : d x < d c0
        · rw [if_pos hlt0]
          obtain ⟨h1, h2⟩ := ih (some x)
          constructor
          · rw [h1]
            constructor
            · intro h; cases h.1
            · intro h; cases h.1
          · intro b hb
            right
            rcases h2 b hb with ⟨hacc, hle⟩ | ⟨pre, post, hl, hVb, hlt, hpre, hpost⟩
            · simp only [Option.some.injEq] at hacc
              subst hacc
              refine ⟨[], l, rfl, hV, ?_, by simp, hle⟩
              intro a ha
              simp only [Option.some.injEq] at ha
              subst ha
              exact hlt0
            · refine ⟨x :: pre, post, by rw [hl]; rfl, hVb, ?_, ?_, hpost⟩
              · intro a ha
                simp only [Option.some.injEq] at ha
                subst ha
                exact lt_trans (hlt x rfl) hlt0
              · intro c hc hVc
                rcases List.mem_cons.mp hc with rfl | hc
                · exact hlt c rfl
                · exact hpre c hc hVc
        · rw [if_neg hlt0]
          obtain ⟨h1, h2⟩ := ih (some c0)
          constructor
          · rw [h1]
            constructor
            · intro h; cases h.1
            · intro h; cases h.1
          · intro b hb
            rcases h2 b hb with ⟨hacc, hle⟩ | ⟨pre, post, hl, hVb, hlt, hpre, hpost⟩
            · left
              refine ⟨hacc, ?_⟩
              simp only [Option.some.injEq] at hacc
              subst hacc
              intro c hc hVc
              rcases List.mem_cons.mp hc with rfl | hc
              · exact not_lt.mp hlt0
              · exact hle c hc hVc
            · right
              refine ⟨x :: pre, post, by rw [hl]; rfl, hVb, hlt, ?_, hpost⟩
              intro c hc hVc
              rcases List.mem_cons.mp hc with rfl | hc
              · exact lt_of_lt_of_le (hlt c0 rfl) (not_lt.mp hlt0)
              · exact hpre c hc hVc
    · rw [if_neg hV]
      obtain ⟨h1, h2⟩ := ih acc
      constructor
      · rw [h1]
        constructor
        · intro h
          refine ⟨h.1, fun c hc => ?_⟩
          rcases List.mem_cons.mp hc with rfl | hc
          · exact hV
          · exact h.2 c hc
        · intro h
          exact ⟨h.1, fun c hc => h.2 c (List.mem_cons_of_mem _ hc)⟩
      · intro b hb
        rcases h2 b hb with ⟨hacc, hle⟩ | ⟨pre, post, hl, hVb, hlt, hpre, hpost⟩
        · left
          refine ⟨hacc, ?_⟩
          intro c hc hVc
          rcases List.mem_cons.mp hc with rfl | hc
          · exact absurd hVc hV
          · exact hle c hc hVc
        · right
          refine ⟨x :: pre, post, by rw [hl]; rfl, hVb, hlt, ?_, hpost⟩
          intro c hc hVc
          rcases List.mem_cons.mp hc with rfl | hc
          · exact absurd hVc hV
          · exact hpre c hc hVc

theorem FindNeighbor_argmin {K : Type} [LinearOrderedField K] (rt : Runtime K)
    (m : RouteModel K) (self : Nat) (node_indices : List Nat) :
    (FindNeighbor rt m self node_indices = none
      ↔ ∀ c ∈ node_indices, ¬ validNeighbor rt m self c)
    ∧ ∀ b, FindNeighbor rt m self node_indices = some b →
        validNeighbor rt m self b
        ∧ ∃ pre post, node_indices = pre ++ b :: post
          ∧ (∀ c ∈ pre, validNeighbor rt m self c →
              (m.node self).distance rt (m.node b) < (m.node self).distance rt (m.node c))
          ∧ (∀ c ∈ post, validNeighbor rt m self c →
              (m.node self).distance rt (m.node b)
                ≤ (m.node self).distance rt (m.node c)) := by
  obtain ⟨h1, h2⟩ := argmin_option_fold
    (fun c => (m.node self).distance rt (m.node c) ≠ 0 ∧ (m.node c).visited = false)
    (fun c => (m.node self).distance rt (m.node c)) node_indices none
  have hfold : FindNeighbor rt m self node_indices
      = node_indices.foldl (fun acc x =>
          if (m.node self).distance rt (m.node x) ≠ 0 ∧ (m.node x).visited = false then
            match acc with
            | none => some x
            | some c =>
              if (m.node self).distance rt (m.node x) < (m.node self).distance rt (m.node c)
              then some x else some c
          else acc) none := rfl
  unfold validNeighbor
  rw [hfold]
  constructor
  · rw [h1]
    simp
  · intro b hb
    rcases h2 b hb with ⟨hacc, -⟩ | ⟨pre, post, hl, hVb, -, hpre, hpost⟩
    · cases hacc
    · exact ⟨hVb, pre, post, hl, hpre, hpost⟩

theorem FindNeighbors_fold_exact {K : Type} [LinearOrderedField K] (rt : Runtime K)
    (m : RouteModel K) (self : Nat) (roads : List Nat) (found : List Nat) :
    roads.foldl
        (fun m road =>
          match FindNeighbor rt m self
            (m.toModel.wayNodes ((m.m_Roads.getD road ⟨0, .Invalid⟩).way)) with
          | some new_neighbor =>
            m.setNode self { m.node self with neighbors := (m.node self).neighbors ++ [new_neighbor] }
          | none => m)
        (withNeighbors m self found)
      = withNeighbors m self (found ++ roads.filterMap
          (fun road => FindNeighbor rt m self
            (m.toModel.wayNodes ((m.m_Roads.getD road ⟨0, .Invalid⟩).way)))) := by
  induction roads generalizing found with
  | nil => simp
  | cons r rs ih =>
    rw [List.foldl_cons]
    have hcongr : FindNeighbor rt (withNeighbors m self found) self
        ((withNeighbors m self found).toModel.wayNodes
          (((withNeighbors m self found).m_Roads.getD r ⟨0, .Invalid⟩).way))
        = FindNeighbor rt m self (m.toModel.wayNodes ((m.m_Roads.getD r ⟨0, .Invalid⟩).way)) := by
      rw [(withNeighbors_static m self found).1]
      apply FindNeighbor_congr
      intro i
      have := withNeighbors_node m self found i
      exact ⟨this.1, this.2.1, this.2.2.1⟩
    simp only [hcongr]
    cases hf : FindNeighbor rt m self (m.toModel.wayNodes ((m.m_Roads.getD r ⟨0, .Invalid⟩).way)) with
    | none =>
      simp only
      rw [ih found, List.filterMap_cons, hf]
    | some nb =>
      simp only
      rw [withNeighbors_append, ih (found ++ [nb]), List.filterMap_cons, hf]
      simp

theorem FindNeighbors_eq_found {K : Type} [LinearOrderedField K] (rt : Runtime K)
    (m : RouteModel K) (self : Nat) :
    FindNeighbors rt m self = withNeighbors m self (foundNeighbors rt m self) := by
  have h := FindNeighbors_fold_exact rt m self (m.roadsOf (m.node self).index) []
  rw [withNeighbors_nil, List.nil_append] at h
  unfold FindNeighbors foundNeighbors
  exact h

theorem openOrder_strictWeak {K : Type} [LinearOrderedField K] (p : RoutePlanner K) :
    StrictWeakOrdering (fun v1 v2 : Nat =>
      decide ((p.node v1).h_value + (p.node v1).g_value
        > (p.node v2).h_value + (p.node v2).g_value)) := by
  refine ⟨fun a => by simp, fun a b c h1 h2 => ?_, fun a b c h1 h2 => ?_⟩
  · simp only [gt_iff_lt, decide_eq_true_eq] at h1 h2 ⊢
    exact lt_trans h2 h1
  · simp only [gt_iff_lt, decide_eq_false_iff_not, not_lt] at h1 h2 ⊢
    exact le_trans h1 h2

theorem NextNode_least {K : Type} [LinearOrderedField K] (rt : Runtime K)
    (p : RoutePlanner K) (hne : p.open_list ≠ []) :
    ∃ cur rest, NextNode rt p = some (cur, { p with open_list := rest })
      ∧ (cur :: rest).Perm p.open_list
      ∧ ∀ o ∈ p.open_list, (p.node cur).g_value + (p.node cur).h_value
          ≤ (p.node o).g_value + (p.node o).h_value := by
  unfold NextNode
  simp only
  set sorted := rt.sort
    (fun v1 v2 => decide ((p.node v1).h_value + (p.node v1).g_value
        > (p.node v2).h_value + (p.node v2).g_value)) p.open_list with hsorted
  have hperm : sorted.Perm p.open_list := rt.sort_perm _ _
  have hpair := rt.sort_sorted
    (fun v1 v2 => decide ((p.node v1).h_value + (p.node v1).g_value
        > (p.node v2).h_value + (p.node v2).g_value)) p.open_list (openOrder_strictWeak p)
  rw [← hsorted] at hpair
  have hne' : sorted ≠ [] := by
    intro h
    rw [h] at hperm
    exact hne hperm.symm.eq_nil
  obtain ⟨rest, cur, hsplit⟩ : ∃ rest cur, sorted = rest ++ [cur] :=
    ⟨sorted.dropLast, sorted.getLast hne', (List.dropLast_append_getLast hne').symm⟩
  refine ⟨cur, rest, ?_, ?_, ?_⟩
  · rw [hsplit, List.getLast?_concat, List.dropLast_concat]
  · refine List.Perm.trans ?_ hperm
    rw [hsplit]
    exact (List.perm_append_singleton _ _).symm
  · intro o ho
    have ho' : o ∈ sorted := hperm.symm.subset ho
    rw [hsplit, List.mem_append] at ho'
    rcases ho' with hd | hl
    · rw [hsplit, List.pairwise_append] at hpair
      have := hpair.2.2 o hd cur (by simp)
      simp only [gt_iff_lt, decide_eq_false_iff_not, not_lt] at this
      rw [add_comm (p.node cur).g_value, add_comm (p.node o).g_value]
      exact this
    · simp only [List.mem_singleton] at hl
      rw [hl]

theorem visitedNode_congr {K : Type} [LinearOrderedField K] (rt : Runtime K) (cur Y : Nat)
    (p q : RoutePlanner K)
    (hY : q.node Y = p.node Y ∨ q.node Y = visitedNode rt cur p Y)
    (hcur : q.node cur = p.node cur)
    (hend : (q.node q.end_node).x = (p.node p.end_node).x
      ∧ (q.node q.end_node).y = (p.node p.end_node).y) :
    visitedNode rt cur q Y = visitedNode rt cur p Y := by
  unfold visitedNode
  rw [hcur]
  rcases hY with h | h
  · rw [h]
    simp only [RouteModel.Node.distance, hend.1, hend.2]
  · rw [h]
    simp only [visitedNode, RouteModel.Node.distance, hend.1, hend.2]

theorem visit_fold_node {K : Type} [LinearOrderedField K] (rt : Runtime K) (cur : Nat)
    (p : RoutePlanner K) :
    ∀ (L : List Nat) (q : RoutePlanner K) (done : List Nat), cur ∉ L → cur ∉ done →
      q.end_node = p.end_node → q.m_Model.SNodes.length = p.m_Model.SNodes.length →
      (∀ Y, q.node Y = if Y ∈ done ∧ Y < p.m_Model.SNodes.length then visitedNode rt cur p Y
        else p.node Y) →
      ∀ Y, (L.foldl (AddNeighbors.visit rt cur) q).node Y
        = if Y ∈ done ++ L ∧ Y < p.m_Model.SNodes.length then visitedNode rt cur p Y
          else p.node Y := by
  intro L
  induction L with
  | nil =>
    intro q done _ _ _ _ hq Y
    simpa using hq Y
  | cons a L' ih =>
    intro q done hL hdone hend hlen hq Y
    rw [List.foldl_cons]
    have hca : cur ≠ a := fun h => hL (h ▸ List.mem_cons_self _ _)
    have hs := visit_sameMap rt cur q a
    have hxy : ∀ Z, (q.node Z).x = (p.node Z).x ∧ (q.node Z).y = (p.node Z).y := by
      intro Z
      rw [hq Z]
      split
      · exact ⟨rfl, rfl⟩
      · exact ⟨rfl, rfl⟩
    have hva : visitedNode rt cur q a = visitedNode rt cur p a := by
      apply visitedNode_congr
      · rw [hq a]
        split
        · exact Or.inr rfl
        · exact Or.inl rfl
      · rw [hq cur, if_neg (fun h => hdone h.1)]
      · rw [hend]
        exact hxy p.end_node
    have hq1 : ∀ Z, (AddNeighbors.visit rt cur q a).node Z
        = if Z ∈ done ++ [a] ∧ Z < p.m_Model.SNodes.length then visitedNode rt cur p Z
          else p.node Z := by
      intro Z
      rw [visit_node, hva, hlen, hq Z]
      by_cases haZ : a = Z
      · subst haZ
        by_cases hlt : a < p.m_Model.SNodes.length
        · simp [hlt]
        · simp [hlt]
      · have hZa : ¬ Z = a := fun h => haZ h.symm
        simp [haZ, hZa]
    have := ih (AddNeighbors.visit rt cur q a) (done ++ [a])
      (fun h => hL (List.mem_cons_of_mem _ h))
      (by
        intro h
        rcases List.mem_append.mp h with h | h
        · exact hdone h
        · exact hca (List.mem_singleton.mp h))
      (hs.end_eq.trans hend) (hs.length_eq.trans hlen) hq1 Y
    rw [this]
    simp

theorem foundNeighbors_spec {K : Type} [LinearOrderedField K] (rt : Runtime K)
    (m : RouteModel K) (self : Nat) (b : Nat) (hb : b ∈ foundNeighbors rt m self) :
    (m.node b).visited = false ∧ (m.node self).distance rt (m.node b) ≠ 0
      ∧ m.Linked self b := by
  unfold foundNeighbors at hb
  obtain ⟨road, hroad, hf⟩ := List.mem_filterMap.mp hb
  obtain ⟨hmem, hvis, hd⟩ := FindNeighbor_some rt m self _ _ hf
  exact ⟨hvis, hd, road, hroad, hmem⟩

theorem AddNeighbors_nodes {K : Type} [LinearOrderedField K] (rt : Runtime K)
    (p : RoutePlanner K) (cur : Nat) (hcur : cur < p.m_Model.SNodes.length)
    (hwf : p.m_Model.WellFormed) (hnb : (p.node cur).neighbors = [])
    (hself : (p.node cur).distance rt (p.node cur) = 0) :
    (AddNeighbors rt p cur).open_list = p.open_list ++ foundNeighbors rt p.m_Model cur
    ∧ (∀ b ∈ foundNeighbors rt p.m_Model cur,
        b ≠ cur ∧ b < p.m_Model.SNodes.length
        ∧ (AddNeighbors rt p cur).node b = visitedNode rt cur p b)
    ∧ (AddNeighbors rt p cur).node cur
        = { p.node cur with neighbors := foundNeighbors rt p.m_Model cur }
    ∧ ∀ Y, Y ≠ cur → Y ∉ foundNeighbors rt p.m_Model cur →
        (AddNeighbors rt p cur).node Y = p.node Y := by
  set found := foundNeighbors rt p.m_Model cur with hfound
  have hF : FindNeighbors rt p.m_Model cur = withNeighbors p.m_Model cur found :=
    FindNeighbors_eq_found rt p.m_Model cur
  have hst := withNeighbors_static p.m_Model cur found
  set p1 : RoutePlanner K := { p with m_Model := FindNeighbors rt p.m_Model cur } with hp1
  have hp1m : p1.m_Model = withNeighbors p.m_Model cur found := hF
  have hp1node : ∀ i, p1.node i
      = if cur = i then { p.node cur with neighbors := found } else p.node i := by
    intro i
    unfold RoutePlanner.node
    rw [hp1m]
    unfold withNeighbors
    rw [RouteModel.node_setNode]
    have hnb' : (p.m_Model.node cur).neighbors = [] := hnb
    by_cases hi : cur = i
    · subst hi
      rw [if_pos ⟨rfl, hcur⟩, if_pos rfl, hnb']
      rfl
    · rw [if_neg (fun h => hi h.1), if_neg hi]
  have hp1len : p1.m_Model.SNodes.length = p.m_Model.SNodes.length := by
    rw [hp1m]; exact hst.2.2.2.1
  have hchildren : (p1.node cur).neighbors = found := by
    rw [hp1node, if_pos rfl]
  have hAdd : AddNeighbors rt p cur = found.foldl (AddNeighbors.visit rt cur) p1 := by
    unfold AddNeighbors
    simp only
    rw [← hp1, hchildren]
  have hnotcur : cur ∉ found := by
    intro h
    exact (foundNeighbors_spec rt p.m_Model cur cur h).2.1 hself
  have hrange : ∀ b ∈ found, b < p.m_Model.SNodes.length := by
    intro b hb
    obtain ⟨road, -, hmem⟩ := (foundNeighbors_spec rt p.m_Model cur b hb).2.2
    exact hwf _ b hmem
  have hfold := visit_fold_node rt cur p1 found p1 [] hnotcur (by simp) rfl rfl
    (fun Y => by simp)
  simp only [List.nil_append, hp1len] at hfold
  have hvis : ∀ b, b ≠ cur → visitedNode rt cur p1 b = visitedNode rt cur p b := by
    intro b hb
    have hcb : ¬ cur = b := fun h => hb h.symm
    unfold visitedNode
    rw [hp1node b, if_neg hcb, hp1node cur, if_pos rfl]
    have hend : (p1.node p1.end_node).x = (p.node p.end_node).x
        ∧ (p1.node p1.end_node).y = (p.node p.end_node).y := by
      have : p1.end_node = p.end_node := rfl
      rw [this, hp1node]
      split
      · rename_i h
        rw [← h]
        exact ⟨rfl, rfl⟩
      · exact ⟨rfl, rfl⟩
    simp only [RouteModel.Node.distance, hend.1, hend.2]
  refine ⟨?_, ?_, ?_, ?_⟩
  · rw [hAdd, (visit_fold_effect rt cur found p1).1]
  · intro b hb
    have hbc : b ≠ cur := fun h => hnotcur (h ▸ hb)
    refine ⟨hbc, hrange b hb, ?_⟩
    rw [hAdd, hfold b, if_pos ⟨hb, hrange b hb⟩, hvis b hbc]
  · rw [hAdd, hfold cur, if_neg (fun h => hnotcur h.1), hp1node, if_pos rfl]
  · intro Y hY hYf
    have hcY : ¬ cur = Y := fun h => hY h.symm
    rw [hAdd, hfold Y, if_neg (fun h => hYf h.1), hp1node, if_neg hcY]

theorem lookup_map_push (tbl : List (Nat × List Nat)) (k r j : Nat) :
    (tbl.map (fun e => if e.1 = k then (e.1, e.2 ++ [r]) else e)).lookup j
      = (tbl.lookup j).map (fun v => if j = k then v ++ [r] else v) := by
  induction tbl with
  | nil => rfl
  | cons e tbl ih =>
    obtain ⟨a, v⟩ := e
    rw [List.map_cons]
    by_cases hak : a = k
    · subst hak
      simp only [if_true]
      rw [List.lookup_cons, List.lookup_cons]
      by_cases hja : j = a
      · subst hja
        simp
      · have : (j == a) = false := by simpa using hja
        rw [this]
        exact ih
    · simp only [hak, if_false]
      rw [List.lookup_cons, List.lookup_cons]
      by_cases hja : j = a
      · subst hja
        simp [hak]
      · have : (j == a) = false := by simpa using hja
        rw [this]
        exact ih

theorem lookup_pushRoad (tbl : List (Nat × List Nat)) (k r j : Nat) :
    (pushRoad tbl k r).lookup j
      = if j = k then some ((tbl.lookup k).getD [] ++ [r]) else tbl.lookup j := by
  unfold pushRoad
  cases h : tbl.lookup k with
  | none =>
    simp only
    rw [List.lookup_append]
    by_cases hjk : j = k
    · subst hjk
      simp [h]
    · have : (j == k) = false := by simpa using hjk
      simp [hjk, List.lookup_cons, this]
  | some v =>
    simp only
    rw [lookup_map_push]
    by_cases hjk : j = k
    · subst hjk
      simp [h]
    · simp only [hjk, if_false]
      cases tbl.lookup j <;> rfl

theorem lookup_pushRoads (r : Nat) (nodes : List Nat) (tbl : List (Nat × List Nat)) (j : Nat) :
    ((nodes.foldl (fun t node_idx => pushRoad t node_idx r) tbl).lookup j).getD []
        = (tbl.lookup j).getD [] ++ List.replicate (nodes.count j) r
    ∧ ((nodes.foldl (fun t node_idx => pushRoad t node_idx r) tbl).lookup j = none
        ↔ tbl.lookup j = none ∧ j ∉ nodes) := by
  induction nodes generalizing tbl with
  | nil => simp
  | cons a nodes ih =>
    rw [List.foldl_cons]
    obtain ⟨h1, h2⟩ := ih (pushRoad tbl a r)
    rw [h1, h2, lookup_pushRoad]
    by_cases hja : j = a
    · subst hja
      simp [List.replicate_succ]
    · have haj : ¬ a = j := fun h => hja h.symm
      simp [hja, haj, List.count_cons]

theorem roads_fold_entry {K : Type} (m : Model K) (i : Nat) :
    ∀ (rs : List Nat) (tbl : List (Nat × List Nat)), (∀ r ∈ rs, r < m.m_Roads.length) →
      (((rs.foldl
          (fun tbl r =>
            match m.m_Roads.get? r with
            | none => tbl
            | some road =>
              if road.type ≠ Model.Road.Type.Footway then
                (m.wayNodes road.way).foldl (fun t node_idx => pushRoad t node_idx r) tbl
              else tbl)
          tbl).lookup i).getD []
        = (tbl.lookup i).getD [] ++ (rs.map (fun r =>
            if (m.m_Roads.getD r ⟨0, .Invalid⟩).type ≠ Model.Road.Type.Footway then
              List.replicate ((m.wayNodes (m.m_Roads.getD r ⟨0, .Invalid⟩).way).count i) r
            else [])).flatten)
      ∧ ((rs.foldl
          (fun tbl r =>
            match m.m_Roads.get? r with
            | none => tbl
            | some road =>
              if road.type ≠ Model.Road.Type.Footway then
                (m.wayNodes road.way).foldl (fun t node_idx => pushRoad t node_idx r) tbl
              else tbl)
          tbl).lookup i = none
        ↔ tbl.lookup i = none ∧ ∀ r ∈ rs,
            ¬ ((m.m_Roads.getD r ⟨0, .Invalid⟩).type ≠ Model.Road.Type.Footway
              ∧ i ∈ m.wayNodes (m.m_Roads.getD r ⟨0, .Invalid⟩).way)) := by
  intro rs
  induction rs with
  | nil => intro tbl _; simp
  | cons r rs ih =>
    intro tbl hrs
    have hr : r < m.m_Roads.length := hrs r (List.mem_cons_self _ _)
    have hget : m.m_Roads.get? r = some (m.m_Roads.getD r ⟨0, .Invalid⟩) := by
      rw [List.get?_eq_getElem?, List.getD_eq_getElem?_getD, List.getElem?_eq_getElem hr]
      rfl
    rw [List.foldl_cons, hget]
    simp only
    by_cases hfoot : (m.m_Roads.getD r ⟨0, .Invalid⟩).type ≠ Model.Road.Type.Footway
    · rw [if_pos hfoot]
      obtain ⟨h1, h2⟩ := ih
        ((m.wayNodes (m.m_Roads.getD r ⟨0, .Invalid⟩).way).foldl
          (fun t node_idx => pushRoad t node_idx r) tbl)
        (fun x hx => hrs x (List.mem_cons_of_mem _ hx))
      obtain ⟨h3, h4⟩ := lookup_pushRoads r (m.wayNodes (m.m_Roads.getD r ⟨0, .Invalid⟩).way)
        tbl i
      constructor
      · rw [h1, h3, List.map_cons, List.flatten_cons, if_pos hfoot, List.append_assoc]
      · rw [h2, h4]
        simp only [List.mem_cons, forall_eq_or_imp, not_and]
        constructor
        · rintro ⟨⟨ha, hb⟩, hc⟩
          exact ⟨ha, fun _ => hb, hc⟩
        · rintro ⟨ha, hb, hc⟩
          exact ⟨⟨ha, hb hfoot⟩, hc⟩
    · rw [if_neg hfoot]
      obtain ⟨h1, h2⟩ := ih tbl (fun x hx => hrs x (List.mem_cons_of_mem _ hx))
      constructor
      · rw [h1, List.map_cons, List.flatten_cons, if_neg hfoot, List.nil_append]
      · rw [h2]
        simp only [List.mem_cons, forall_eq_or_imp, not_and]
        constructor
        · rintro ⟨ha, hc⟩
          exact ⟨ha, fun h => absurd h hfoot, hc⟩
        · rintro ⟨ha, -, hc⟩
          exact ⟨ha, hc⟩

theorem ofModel_roadsOf {K : Type} [LinearOrderedField K] (m : Model K) (i : Nat) :
    (RouteModel.ofModel m).roadsOf i = roadEntry m i
    ∧ ((RouteModel.ofModel m).node_to_road.lookup i = none
        ↔ ∀ r, r < m.m_Roads.length →
            ¬ ((m.m_Roads.getD r ⟨0, .Invalid⟩).type ≠ Model.Road.Type.Footway
              ∧ i ∈ m.wayNodes (m.m_Roads.getD r ⟨0, .Invalid⟩).way)) := by
  obtain ⟨h1, h2⟩ := roads_fold_entry m i (List.range m.m_Roads.length) []
    (fun r hr => List.mem_range.mp hr)
  constructor
  · unfold RouteModel.roadsOf roadEntry
    simp only [List.lookup_nil, Option.getD_none, List.nil_append] at h1
    rw [← h1]
    rfl
  · simp only [List.lookup_nil, true_and, List.mem_range] at h2
    rw [← h2]
    rfl

theorem roadEntry_count {K : Type} (m : Model K) (i r : Nat) :
    (roadEntry m i).count r
      = if r < m.m_Roads.length
          ∧ (m.m_Roads.getD r ⟨0, .Invalid⟩).type ≠ Model.Road.Type.Footway
        then (m.wayNodes (m.m_Roads.getD r ⟨0, .Invalid⟩).way).count i else 0 := by
  unfold roadEntry
  generalize m.m_Roads.length = n
  induction n with
  | zero => simp
  | succ n ih =>
    rw [List.range_succ, List.map_append, List.flatten_append, List.count_append, ih]
    simp only [List.map_cons, List.map_nil, List.flatten_cons, List.flatten_nil,
      List.append_nil]
    by_cases hrn : r = n
    · subst hrn
      by_cases hfoot : (m.m_Roads.getD r ⟨0, .Invalid⟩).type ≠ Model.Road.Type.Footway
      · rw [if_neg (fun h => lt_irrefl _ h.1), if_pos hfoot, List.count_replicate_self,
          if_pos ⟨Nat.lt_succ_self _, hfoot⟩, Nat.zero_add]
      · rw [if_neg (fun h => lt_irrefl _ h.1), if_neg hfoot, if_neg (fun h => hfoot h.2)]
        rfl
    · have hnr : ¬ n = r := fun h => hrn h.symm
      have hcount : List.count r
          (if (m.m_Roads.getD n ⟨0, .Invalid⟩).type ≠ Model.Road.Type.Footway then
            List.replicate ((m.wayNodes (m.m_Roads.getD n ⟨0, .Invalid⟩).way).count i) n
          else []) = 0 := by
        split
        · rw [List.count_replicate]
          simp [hnr]
        · rfl
      rw [hcount, Nat.add_zero]
      by_cases hlt : r < n
      · have : r < n + 1 := by omega
        simp [hlt, this]
      · have : ¬ r < n + 1 := by omega
        simp [hlt, this]

theorem ofModel_node_initial {K : Type} [LinearOrderedField K] (m : Model K) (i : Nat) :
    ((RouteModel.ofModel m).node i).g_value = 0
    ∧ ((RouteModel.ofModel m).node i).h_value = FLT_MAX
    ∧ ((RouteModel.ofModel m).node i).parent = none
    ∧ ((RouteModel.ofModel m).node i).visited = false
    ∧ ((RouteModel.ofModel m).node i).neighbors = []
    ∧ (i < m.m_Nodes.length → ((RouteModel.ofModel m).node i).index = i) := by
  unfold RouteModel.node
  rw [List.getD_eq_getElem?_getD, ofModel_SNodes, List.getElem?_zipWith]
  cases h1 : (List.range m.m_Nodes.length)[i]? with
  | none =>
    refine ⟨rfl, rfl, rfl, rfl, rfl, fun hi => ?_⟩
    rw [List.getElem?_range hi] at h1
    cases h1
  | some a =>
    cases h2 : m.m_Nodes[i]? with
    | none => exact ⟨rfl, rfl, rfl, rfl, rfl, fun hi => by
        rw [List.getElem?_eq_getElem hi] at h2
        cases h2⟩
    | some b =>
      refine ⟨rfl, rfl, rfl, rfl, rfl, fun hi => ?_⟩
      rw [List.getElem?_range hi] at h1
      simp only [Option.some.injEq] at h1
      subst h1
      rfl

theorem String2RoadType_valid_iff (v : String) :
    String2RoadType v ≠ Model.Road.Type.Invalid ↔ v ∈ highwayValues := by
  constructor
  · intro h
    by_contra hn
    apply h
    simp only [highwayValues, List.mem_cons, List.mem_singleton, List.not_mem_nil, or_false,
      not_or] at hn
    obtain ⟨h1, h2, h3, h4, h5, h6, h7, h8, h9, h10, h11, h12, h13, h14⟩ := hn
    unfold String2RoadType
    rw [if_neg h1, if_neg h2, if_neg h3, if_neg h4, if_neg h5, if_neg h6, if_neg h7, if_neg h8,
      if_neg h9, if_neg h10, if_neg h11, if_neg h12, if_neg h13, if_neg h14]
  · intro h
    simp only [highwayValues, List.mem_cons, List.mem_singleton, List.not_mem_nil, or_false] at h
    rcases h with h | h | h | h | h | h | h | h | h | h | h | h | h | h
    all_goals (subst h; decide)

theorem wayChild_highway {K : Type} (tbl : List (String × Nat)) (way_num : Nat) (m : Model K)
    (child : XmlNode) (hname : child.name = "tag") (hk : child.attribute "k" = "highway") :
    LoadData.wayChild tbl way_num m child
      = if child.attribute "v" ∈ highwayValues then
          { m with m_Roads := m.m_Roads ++ [⟨way_num, String2RoadType (child.attribute "v")⟩] }
        else m := by
  unfold LoadData.wayChild
  simp only
  rw [if_neg (by rw [hname]; decide), if_pos hname, if_pos hk]
  by_cases hv : child.attribute "v" ∈ highwayValues
  · rw [if_pos ((String2RoadType_valid_iff _).mpr hv), if_pos hv]
  · rw [if_neg (fun h => hv ((String2RoadType_valid_iff _).mp h)), if_neg hv]

theorem wayChild_roads {K : Type} (tbl : List (String × Nat)) (way_num : Nat)
    (m : Model K) (child : XmlNode) :
    (LoadData.wayChild tbl way_num m child).m_Roads = m.m_Roads
    ∨ (child.name = "tag" ∧ child.attribute "k" = "highway"
        ∧ String2RoadType (child.attribute "v") ≠ Model.Road.Type.Invalid
        ∧ (LoadData.wayChild tbl way_num m child).m_Roads
            = m.m_Roads ++ [⟨way_num, String2RoadType (child.attribute "v")⟩]) := by
  unfold LoadData.wayChild
  simp only
  split
  · left; split <;> rfl
  · split
    · rename_i hname
      split
      · rename_i hk
        split
        · rename_i hv
          right
          exact ⟨hname, hk, hv, rfl⟩
        · left; rfl
      · left
        repeat' split
        all_goals rfl
    · left; rfl

theorem wayChild_roadsValid {K : Type} (tbl : List (String × Nat)) (way_num : Nat)
    (m : Model K) (child : XmlNode) (h : m.RoadsValid) :
    (LoadData.wayChild tbl way_num m child).RoadsValid := by
  unfold Model.RoadsValid at h ⊢
  rcases wayChild_roads tbl way_num m child with he | ⟨-, -, hv, he⟩
  · rw [he]; exact h
  · rw [he]
    intro r hr
    rcases List.mem_append.mp hr with hr | hr
    · exact h r hr
    · simp only [List.mem_singleton] at hr
      subst hr
      exact hv

theorem wayChildren_roadsValid {K : Type} (tbl : List (String × Nat)) (way_num : Nat) :
    ∀ (cs : List XmlNode) (m : Model K), m.RoadsValid →
      (cs.foldl (LoadData.wayChild tbl way_num) m).RoadsValid := by
  intro cs
  induction cs with
  | nil => intro m h; exact h
  | cons c cs ih =>
    intro m h
    rw [List.foldl_cons]
    exact ih _ (wayChild_roadsValid tbl way_num m c h)

theorem way_roadsValid {K : Type} (tbl : List (String × Nat))
    (acc : List (String × Nat) × Model K) (node : XmlNode) (h : acc.2.RoadsValid) :
    (LoadData.way tbl acc node).2.RoadsValid := by
  unfold LoadData.way
  simp only
  exact wayChildren_roadsValid tbl _ _ _ h

theorem way_loop_roadsValid {K : Type} (tbl : List (String × Nat)) :
    ∀ (elems : List XmlNode) (acc : List (String × Nat) × Model K), acc.2.RoadsValid →
      (elems.foldl (LoadData.way tbl) acc).2.RoadsValid := by
  intro elems
  induction elems with
  | nil => intro acc h; exact h
  | cons e es ih =>
    intro acc h
    rw [List.foldl_cons]
    exact ih _ (way_roadsValid tbl acc e h)

theorem node_loop_roads {K : Type} (rt : Runtime K) :
    ∀ (nodes : List XmlNode) (tbl0 : List (String × Nat)) (m0 : Model K)
      (tbl : List (String × Nat)) (m1 : Model K),
      nodes.foldl (LoadData.node rt) (some (tbl0, m0)) = some (tbl, m1) →
      m1.m_Roads = m0.m_Roads := by
  intro nodes
  induction nodes with
  | nil =>
    intro tbl0 m0 tbl m1 h
    simp only [List.foldl_nil, Option.some.injEq, Prod.mk.injEq] at h
    obtain ⟨rfl, rfl⟩ := h
    rfl
  | cons x xs ih =>
    intro tbl0 m0 tbl m1 h
    rw [List.foldl_cons] at h
    cases hlat : rt.stod (x.attribute "lat") with
    | none =>
      have : LoadData.node rt (some (tbl0, m0)) x = none := by
        simp [LoadData.node, hlat]
      rw [this, node_fold_none] at h
      cases h
    | some lat =>
      cases hlon : rt.stod (x.attribute "lon") with
      | none =>
        have : LoadData.node rt (some (tbl0, m0)) x = none := by
          simp [LoadData.node, hlat, hlon]
        rw [this, node_fold_none] at h
        cases h
      | some lon =>
        have hstep : LoadData.node rt (some (tbl0, m0)) x
            = some ((x.attribute "id", m0.m_Nodes.length) :: tbl0,
                { m0 with m_Nodes := m0.m_Nodes ++ [⟨lon, lat⟩] }) := by
          simp [LoadData.node, hlat, hlon]
        rw [hstep] at h
        have := ih _ _ _ _ h
        exact this

theorem LoadData.relationChildren_roads {reallocates : Nat → Bool}
    {K : Type} (tbl : List (String × Nat)) :
    ∀ (children : List XmlNode) (outer inner : List Nat) (m m' : Model K),
      LoadData.relationChildren reallocates tbl children outer inner m = some m' →
      m'.m_Roads = m.m_Roads := by
  intro children
  induction children with
  | nil =>
    intro outer inner m m' h
    simp only [LoadData.relationChildren, Option.some.injEq] at h
    subst h
    rfl
  | cons c cs ih =>
    intro outer inner m m' h
    unfold LoadData.relationChildren at h
    simp only at h
    split at h
    · split at h
      · split at h
        · exact ih _ _ _ _ h
        · split at h
          · exact ih _ _ _ _ h
          · exact ih _ _ _ _ h
      · exact ih _ _ _ _ h
    · split at h
      · split at h
        · simp only [Option.some.injEq] at h
          subst h
          rfl
        · split at h
          · split at h
            · cases h
            · simp only [Option.some.injEq] at h
              subst h
              rfl
          · split at h
            · split at h
              · split at h
                · cases h
                · simp only [Option.some.injEq] at h
                  subst h
                  rfl
              · simp only [Option.some.injEq] at h
                subst h
                rfl
            · exact ih _ _ _ _ h
      · exact ih _ _ _ _ h

theorem relation_fold_roads {reallocates : Nat → Bool} {K : Type} (tbl : List (String × Nat)) :
    ∀ (rels : List XmlNode) (m2 m' : Model K),
      rels.foldl
        (fun acc relation =>
          match acc with
          | .error e => .error e
          | .ok m =>
            match LoadData.relationChildren reallocates tbl relation.children [] [] m with
            | none => .error "BuildRings"
            | some m3 => .ok m3)
        (Except.ok m2 : Except String (Model K)) = .ok m' →
      m'.m_Roads = m2.m_Roads := by
  intro rels
  induction rels with
  | nil =>
    intro m2 m' h
    simp only [List.foldl_nil, Except.ok.injEq] at h
    subst h
    rfl
  | cons r rs ih =>
    intro m2 m' h
    rw [List.foldl_cons] at h
    simp only at h
    cases hr : LoadData.relationChildren reallocates tbl r.children [] [] m2 with
    | none =>
      rw [hr] at h
      simp only at h
      exfalso
      clear ih hr
      induction rs with
      | nil => simp at h
      | cons a as iha => rw [List.foldl_cons] at h; exact iha h
    | some m3 =>
      rw [hr] at h
      simp only at h
      rw [ih _ _ h, LoadData.relationChildren_roads tbl _ _ _ _ _ hr]

theorem LoadData_roadsValid {K : Type} [LinearOrderedField K] (rt : Runtime K) (doc : XmlNode)
    (m : Model K) (h : LoadData rt doc = .ok m) : m.RoadsValid := by
  unfold LoadData at h
  split at h
  · cases h
  · split at h
    · simp only at h
      split at h
      · cases h
      · rename_i tbl m1 hnodes
        have hr1 : m1.RoadsValid := by
          unfold Model.RoadsValid
          rw [node_loop_roads rt _ _ _ _ _ hnodes]
          intro r hr
          simp [Model.empty] at hr
        have hr2 := way_loop_roadsValid tbl (doc.select_nodes "way") ([], m1) hr1
        have hr3 := relation_fold_roads _ _ _ _ h
        unfold Model.RoadsValid
        rw [hr3]
        exact hr2
    · cases h

theorem Model_new_roadsValid {K : Type} [LinearOrderedField K] (rt : Runtime K)
    (doc : XmlNode) (m : Model K) (h : Model.new rt doc = .ok m) : m.RoadsValid := by
  unfold Model.new at h
  split at h
  · cases h
  · rename_i m0 hload
    simp only [Except.ok.injEq] at h
    subst h
    have h0 := LoadData_roadsValid rt doc m0 hload
    intro r hr
    have hperm := rt.sortRoads_perm
      (fun first second => decide (first.type.toInt < second.type.toInt))
      (AdjustCoordinates rt m0).m_Roads
    exact h0 r (by simpa [AdjustCoordinates] using hperm.mem_iff.mp hr)

theorem ofModel_mem_roadsOf {K : Type} [LinearOrderedField K] (m : Model K) (i r : Nat) :
    r ∈ (RouteModel.ofModel m).roadsOf i
      ↔ r < m.m_Roads.length
        ∧ (m.m_Roads.getD r ⟨0, .Invalid⟩).type ≠ Model.Road.Type.Footway
        ∧ i ∈ m.wayNodes (m.m_Roads.getD r ⟨0, .Invalid⟩).way := by
  rw [(ofModel_roadsOf m i).1, ← List.count_pos_iff, roadEntry_count]
  constructor
  · intro h
    split at h
    · rename_i hc
      exact ⟨hc.1, hc.2, List.count_pos_iff.mp h⟩
    · exact absurd h (lt_irrefl 0)
  · rintro ⟨ha, hb, hc⟩
    rw [if_pos ⟨ha, hb⟩]
    exact List.count_pos_iff.mpr hc

theorem LinkInv.links_step {K : Type} [LinearOrderedField K] (p : RoutePlanner K) (r : Nat → Nat)
    (hI : SearchInv p r) (hL : LinkInv p) (cur : Nat) (rest : List Nat)
    (p2 : RoutePlanner K) (F : List Nat)
    (hE : Expands { p with open_list := rest } cur p2 F) : LinkInv p2 := by
  have hstart2 : p2.start_node = p.start_node := hE.same.start_eq
  have hlen2 : p2.m_Model.SNodes.length = p.m_Model.SNodes.length := hE.same.length_eq
  have hreset2 : p2.m_Model.resetSearchState = p.m_Model.resetSearchState := hE.same.reset_eq
  have hvis2 : ∀ Y, (p2.node Y).visited = ((p.node Y).visited
      || decide (Y ∈ (p.node cur).neighbors ++ F ∧ Y < p.m_Model.SNodes.length)) :=
    hE.visited_eq
  have hpar2 : ∀ Y, (p2.node Y).parent
      = if Y ∈ (p.node cur).neighbors ++ F ∧ Y < p.m_Model.SNodes.length then some cur
        else (p.node Y).parent := hE.parent_eq
  have hnew : ∀ b ∈ F, (p.node b).visited = false ∧ p.m_Model.Linked cur b := hE.found_new
  constructor
  · rw [hstart2, hpar2, if_neg, hL.start_parent]
    rintro ⟨hmem, -⟩
    rcases List.mem_append.mp hmem with h | h
    · exact (hI.child_ok cur _ h).2.2.1 rfl
    · have := (hnew _ h).1
      rw [hI.start_visited] at this
      cases this
  · intro Y P hY hv hp
    rw [hlen2] at hY
    rw [Linked_congr hreset2]
    rw [hpar2] at hp
    by_cases hc : Y ∈ (p.node cur).neighbors ++ F ∧ Y < p.m_Model.SNodes.length
    · rw [if_pos hc] at hp
      simp only [Option.some.injEq] at hp
      subst hp
      rcases List.mem_append.mp hc.1 with h | h
      · obtain ⟨-, hvY, -, hpY, -, -⟩ := hI.child_ok cur Y h
        exact hL.link Y cur hY hvY hpY
      · exact (hnew Y h).2
    · rw [if_neg hc] at hp
      have hv' : (p.node Y).visited = true := by
        rw [hvis2] at hv
        have : decide (Y ∈ (p.node cur).neighbors ++ F ∧ Y < p.m_Model.SNodes.length)
            = false := by
          simp only [decide_eq_false_iff_not]
          exact hc
        rw [this, Bool.or_false] at hv
        exact hv
      exact hL.link Y P hY hv' hp

theorem AStarSearch.loop_links {K : Type} [LinearOrderedField K] (rt : Runtime K) :
    ∀ (fuel : Nat) (p : RoutePlanner K) (r : Nat → Nat) (pf : RoutePlanner K)
      (res : Option Nat),
      SearchInv p r → LinkInv p → AStarSearch.loop rt fuel p = some (pf, res) →
      LinkInv pf := by
  intro fuel
  induction fuel with
  | zero =>
    intro p r pf res _ _ h
    simp [AStarSearch.loop] at h
  | succ f ih =>
    intro p r pf res hI hL h
    by_cases hne : p.open_list.isEmpty = true
    · rw [AStarSearch.loop] at h
      simp only [hne, if_true, Option.some.injEq, Prod.mk.injEq] at h
      obtain ⟨rfl, rfl⟩ := h
      exact hL
    · have hne' : p.open_list.isEmpty = false := by simpa using hne
      obtain ⟨cur, rest, hN, hperm⟩ := NextNode_effect rt p hne'
      have hcur_mem : cur ∈ p.open_list := hperm.subset (by simp)
      obtain ⟨hcur_lt, -⟩ := hI.open_ok cur hcur_mem
      obtain ⟨hgoal, hnot⟩ := AStarSearch.loop_unfold rt f p cur rest hne' hN
      by_cases hg : atGoal { p with open_list := rest } cur
      · rw [hgoal hg] at h
        simp only [Option.some.injEq, Prod.mk.injEq] at h
        obtain ⟨rfl, rfl⟩ := h
        exact ⟨hL.start_parent, hL.link⟩
      · rw [hnot hg] at h
        obtain ⟨F, hE⟩ := AddNeighbors_effect rt { p with open_list := rest } cur hcur_lt
        obtain ⟨r', hI2, -⟩ := SearchInv.step p r hI cur rest hperm _ F hE
        exact ih _ r' pf res hI2 (LinkInv.links_step p r hI hL cur rest _ F hE) h

theorem LinkInv.links_init {K : Type} [LinearOrderedField K] (p : RoutePlanner K)
    (hfresh : p.m_Model.Fresh) (hwf : p.m_Model.WellFormed)
    (hstart : p.start_node < p.m_Model.SNodes.length) (hopen : p.open_list = [])
    (hpar : (p.node p.start_node).parent = none) : LinkInv (AStarSearch.init p) := by
  obtain ⟨-, hsame, -, hvis⟩ := SearchInv.init p hfresh hwf hstart hopen
  have hnode : ∀ Y, (AStarSearch.init p).node Y
      = if p.start_node = Y ∧ p.start_node < p.m_Model.SNodes.length
        then { p.node p.start_node with visited := true } else p.node Y := by
    intro Y
    exact RoutePlanner.node_setNode_planner p p.start_node Y _
  have hsp : ((AStarSearch.init p).node p.start_node).parent = none := by
    rw [hnode, if_pos ⟨rfl, hstart⟩]
    exact hpar
  constructor
  · rw [hsame.start_eq]
    exact hsp
  · intro Y P _ hv hp
    rw [hvis Y hv, hsp] at hp
    cases hp

theorem parent_chain_linked {K : Type} [LinearOrderedField K] (p : RoutePlanner K)
    (r : Nat → Nat) (hI : SearchInv p r) (hL : LinkInv p) :
    ∀ (l : List Nat), List.Chain' (fun a b => (p.node a).parent = some b) l →
      (∀ x, l.head? = some x → x < p.m_Model.SNodes.length ∧ (p.node x).visited = true) →
      (∀ x ∈ l, x < p.m_Model.SNodes.length)
      ∧ List.Chain' (fun a b => b < p.m_Model.SNodes.length ∧ p.m_Model.Linked b a) l := by
  intro l
  induction l with
  | nil => intro _ _; exact ⟨(fun x hx => by cases hx), List.chain'_nil⟩
  | cons a t ih =>
    intro hch hhead
    obtain ⟨ha, hva⟩ := hhead a rfl
    cases t with
    | nil =>
      refine ⟨fun x hx => ?_, List.chain'_singleton a⟩
      simp only [List.mem_singleton] at hx
      rw [hx]
      exact ha
    | cons b t =>
      rw [List.chain'_cons] at hch
      obtain ⟨hab, hrest⟩ := hch
      have hne : a ≠ p.start_node := by
        intro h
        rw [h, hL.start_parent] at hab
        cases hab
      obtain ⟨P, hP, hPlt, hPv⟩ := hI.parent_ok a ha hne hva
      rw [hab] at hP
      simp only [Option.some.injEq] at hP
      subst hP
      obtain ⟨hall, hchain⟩ := ih hrest (fun x hx => by
        simp only [List.head?_cons, Option.some.injEq] at hx
        subst hx
        exact ⟨hPlt, hPv⟩)
      refine ⟨fun x hx => ?_, ?_⟩
      · rcases List.mem_cons.mp hx with h | h
        · rw [h]; exact ha
        · exact hall x h
      · rw [List.chain'_cons]
        exact ⟨⟨hPlt, hL.link a b ha hva hab⟩, hchain⟩

theorem Linked_ofModel {K : Type} [LinearOrderedField K] (m : Model K) (mm : RouteModel K)
    (hreset : mm.resetSearchState = (RouteModel.ofModel m).resetSearchState)
    (a b : Nat) (ha : a < m.m_Nodes.length) (h : mm.Linked a b) :
    ∃ r, r < m.m_Roads.length
      ∧ (m.m_Roads.getD r ⟨0, .Invalid⟩).type ≠ Model.Road.Type.Footway
      ∧ a ∈ m.wayNodes (m.m_Roads.getD r ⟨0, .Invalid⟩).way
      ∧ b ∈ m.wayNodes (m.m_Roads.getD r ⟨0, .Invalid⟩).way := by
  rw [Linked_congr hreset] at h
  obtain ⟨road, hroad, hb⟩ := h
  rw [(ofModel_node_initial m a).2.2.2.2.2 ha, ofModel_mem_roadsOf] at hroad
  exact ⟨road, hroad.1, hroad.2.1, hroad.2.2, hb⟩

theorem index_ofModel {K : Type} [LinearOrderedField K] (m : Model K) (mm : RouteModel K)
    (hreset : mm.resetSearchState = (RouteModel.ofModel m).resetSearchState)
    (i : Nat) (hi : i < m.m_Nodes.length) : (mm.node i).index = i := by
  rw [((RouteModel.reset_static hreset).2.2.2 i).2.2]
  exact (ofModel_node_initial m i).2.2.2.2.2 hi

theorem AStarSearch.goal_links {K : Type} [LinearOrderedField K] (rt : Runtime K)
    (m : Model K) (p : RoutePlanner K) (hm : p.m_Model = RouteModel.ofModel m)
    (hwf : p.m_Model.WellFormed)
    (hstart : p.start_node < p.m_Model.SNodes.length) (hopen : p.open_list = [])
    (fuel : Nat) (p1 : RoutePlanner K) (goal : Nat)
    (hreach : AStarSearch.loop rt fuel (AStarSearch.init p) = some (p1, some goal)) :
    ∃ (fuel' : Nat) (p' : RoutePlanner K),
      AStarSearch rt fuel' p = some p'
      ∧ p'.m_Model.path ≠ []
      ∧ List.Chain'
          (fun a b => ∃ r, r < m.m_Roads.length
            ∧ (m.m_Roads.getD r ⟨0, .Invalid⟩).type ≠ Model.Road.Type.Footway
            ∧ a.index ∈ m.wayNodes (m.m_Roads.getD r ⟨0, .Invalid⟩).way
            ∧ b.index ∈ m.wayNodes (m.m_Roads.getD r ⟨0, .Invalid⟩).way)
          p'.m_Model.path
      ∧ ∀ n ∈ p'.m_Model.path, n.index < m.m_Nodes.length ∧ p'.node n.index = n := by
  have hfresh : p.m_Model.Fresh := by rw [hm]; exact (ofModel_fresh m).1
  have hlen0 : p.m_Model.SNodes.length = m.m_Nodes.length := by
    rw [hm]; exact (ofModel_fresh m).2.2.1
  have hpar : (p.node p.start_node).parent = none := by
    unfold RoutePlanner.node
    rw [hm]
    exact (ofModel_node_initial m _).2.2.1
  obtain ⟨hI0, hsame0, -, -⟩ := SearchInv.init p hfresh hwf hstart hopen
  have hL0 := LinkInv.links_init p hfresh hwf hstart hopen hpar
  obtain ⟨⟨r', hI1⟩, hsame1, -, hgoal, -⟩ :=
    AStarSearch.loop_inv rt fuel _ _ p1 (some goal) hI0 hreach
  have hL1 := AStarSearch.loop_links rt fuel _ _ p1 (some goal) hI0 hL0 hreach
  obtain ⟨hglt, hgvis, hgat⟩ := hgoal goal rfl
  obtain ⟨k, hk⟩ := hI1.chain_ok goal hglt hgvis
  have hsame : SameMap p p1 := hsame0.same_trans hsame1
  have hreset : p1.m_Model.resetSearchState = (RouteModel.ofModel m).resetSearchState := by
    rw [hsame.reset_eq, hm]
  have hlen1 : p1.m_Model.SNodes.length = m.m_Nodes.length := by
    rw [hsame.length_eq, hlen0]
  obtain ⟨ids, d', hloop, hhead, hchain⟩ :=
    ConstructFinalPath.loop_ids rt p1 hk (fuel + (k + 1)) (by omega) [] 0
  have hloop' := AStarSearch.loop_fuel_mono rt fuel _ _ hreach (k + 1)
  obtain ⟨hall, hlinks⟩ := parent_chain_linked p1 r' hI1 hL1 (ids ++ [p1.start_node]) hchain
    (fun x hx => by
      rw [hhead] at hx
      simp only [Option.some.injEq] at hx
      subst hx
      exact ⟨hglt, hgvis⟩)
  have hpath : ([] ++ ids.map p1.node ++ [p1.node p1.start_node]).reverse
      = ((ids ++ [p1.start_node]).reverse).map p1.node := by
    simp only [List.nil_append, List.map_reverse, List.map_append, List.map_cons, List.map_nil]
  refine ⟨fuel + (k + 1),
    { p1 with distance := d' * p1.m_Model.m_MetricScale,
              m_Model := { p1.m_Model with
                path := ([] ++ ids.map p1.node ++ [p1.node p1.start_node]).reverse } },
    ?_, ?_, ?_, ?_⟩
  · unfold AStarSearch
    rw [hloop']
    simp only [ConstructFinalPath, hloop]
  · simp
  · show List.Chain' _ ([] ++ ids.map p1.node ++ [p1.node p1.start_node]).reverse
    rw [hpath, List.chain'_map, List.chain'_reverse]
    refine hlinks.imp ?_
    intro a b ⟨hb, hlink⟩
    obtain ⟨r, h1, h2, h3, h4⟩ :=
      Linked_ofModel m p1.m_Model hreset b a (by rw [← hlen1]; exact hb) hlink
    have ha : a < m.m_Nodes.length := by
      have hw := hwf (m.m_Roads.getD r ⟨0, .Invalid⟩).way a
      rw [hm] at hw
      rw [← (ofModel_fresh m).2.2.1]
      exact hw h4
    refine ⟨r, h1, h2, ?_, ?_⟩
    · show (p1.m_Model.node b).index ∈ _
      rw [index_ofModel m p1.m_Model hreset b (by rw [← hlen1]; exact hb)]
      exact h3
    · show (p1.m_Model.node a).index ∈ _
      rw [index_ofModel m p1.m_Model hreset a ha]
      exact h4
  · intro n hn
    have hn' : n ∈ ((ids ++ [p1.start_node]).reverse).map p1.node := by
      rw [← hpath]; exact hn
    rw [List.mem_map] at hn'
    obtain ⟨x, hx, rfl⟩ := hn'
    have hxlt : x < m.m_Nodes.length := by
      rw [← hlen1]
      exact hall x (List.mem_reverse.mp hx)
    have hidx : (p1.node x).index = x := index_ofModel m p1.m_Model hreset x hxlt
    rw [hidx]
    exact ⟨hxlt, rfl⟩

/-- Ring closure on the executions of `BuildRings` that have a defined result:
for member lists `outer` and `inner` whose entries are valid segment indices
with at least one point each, whenever `BuildRings` returns, every segment index
in the resulting lists refers to a segment that has more than one point and
whose first point index equals its last; and `BuildRings` does return when no
`emplace_back` can reallocate the table while open members are left. -/
theorem BuildRings_lists_closed {reallocates : Nat → Bool} (m_Ways : List Model.Way)
    (mp : Model.Multipolygon)
    (houter : ∀ w ∈ mp.outer, ∃ way, m_Ways[w]? = some way ∧ way.nodes ≠ [])
    (hinner : ∀ w ∈ mp.inner, ∃ way, m_Ways[w]? = some way ∧ way.nodes ≠ []) :
    (∀ m_Ways' mp', BuildRings reallocates m_Ways mp = some (m_Ways', mp') →
      ∀ w ∈ mp'.outer ++ mp'.inner, ∃ way, m_Ways'[w]? = some way
          ∧ 1 < way.nodes.length ∧ way.nodes.head? = way.nodes.getLast?)
    ∧ ((∀ n, m_Ways.length ≤ n → n + 1 < m_Ways.length + mp.outer.length + mp.inner.length →
          reallocates n = false) →
        ∃ m_Ways' mp', BuildRings reallocates m_Ways mp = some (m_Ways', mp')) := by
  have hinner' : ∀ mw1 more1, mw1 = m_Ways ++ more1 →
      ∀ w ∈ mp.inner, ∃ way, mw1[w]? = some way ∧ way.nodes ≠ [] := by
    intro mw1 more1 hm1 w hw
    obtain ⟨way, hway, hne⟩ := hinner w hw
    refine ⟨way, ?_, hne⟩
    have hlt : w < m_Ways.length := by
      by_contra hge
      rw [List.getElem?_eq_none (not_lt.mp hge)] at hway
      cases hway
    rw [hm1, List.getElem?_append_left hlt]
    exact hway
  constructor
  · intro m_Ways' mp' h
    unfold BuildRings at h
    cases h1 : BuildRings.process reallocates m_Ways mp.outer with
    | none => rw [h1] at h; cases h
    | some r1 =>
      obtain ⟨mw1, outer⟩ := r1
      rw [h1] at h
      simp only at h
      cases h2 : BuildRings.process reallocates mw1 mp.inner with
      | none => rw [h2] at h; cases h
      | some r2 =>
        obtain ⟨mw2, inner⟩ := r2
        rw [h2] at h
        simp only [Option.some.injEq, Prod.mk.injEq] at h
        obtain ⟨hA, hB⟩ := h
        subst hA hB
        have hproc : ∀ (l : List Model.Way) (nums : List Nat) (l' : List Model.Way)
            (cl : List Nat),
            BuildRings.process reallocates l nums = some (l', cl) → ∃ more, l' = l ++ more := by
          intro l nums l' cl hp
          unfold BuildRings.process at hp
          simp only at hp
          cases hs : BuildRings.split l nums [] [] with
          | none => rw [hs] at hp; simp at hp
          | some x =>
            obtain ⟨closed, opn⟩ := x
            rw [hs] at hp
            exact BuildRings.loop_prefix l _ _ _ _ _ _ hp
        obtain ⟨more1, hm1⟩ := hproc _ _ _ _ h1
        obtain ⟨more2, hm2⟩ := hproc _ _ _ _ h2
        have hc1 := BuildRings.process_closed m_Ways mp.outer houter mw1 outer h1
        have hc2 := BuildRings.process_closed mw1 mp.inner (hinner' mw1 more1 hm1) mw2 inner h2
        intro w hw
        rcases List.mem_append.mp hw with h | h
        · have := (hc1 w h).append more2
          rw [← hm2] at this
          exact this
        · exact hc2 w h
  · intro hno
    unfold BuildRings
    obtain ⟨mw1, outer, h1, ⟨more1, hm1⟩, hb1, -⟩ :=
      @BuildRings.process_spec reallocates m_Ways mp.outer houter
        (fun n ha hb => hno n ha (by omega))
    rw [h1]
    obtain ⟨mw2, inner, h2, -, -, -⟩ :=
      @BuildRings.process_spec reallocates mw1 mp.inner (hinner' mw1 more1 hm1)
        (fun n ha hb => hno n (by
          have : m_Ways.length ≤ mw1.length := by rw [hm1]; simp
          omega) (by omega))
    simp only [h2]
    exact ⟨mw2, _, rfl⟩

/-- The loop over the line elements is a total function (it cannot abort), and
it appends to the segment table, for every line element in document order,
the segment whose point list is exactly the indices of the `nd` children with a
known identifier, in document order; whenever `LoadData` succeeds these segments
are the first entries of the segment table of the model, with the identifier
table of the point elements; an `nd` child with an unknown identifier removes
exactly its own entry. -/
theorem way_loop_segments {K : Type} [LinearOrderedField K] (tbl : List (String × Nat))
    (elems : List XmlNode) (ids : List (String × Nat)) (m : Model K) :
    (elems.foldl (LoadData.way tbl) (ids, m)).2.m_Ways
        = m.m_Ways ++ elems.map (fun e => ⟨knownPointRefs tbl e.children⟩)
    ∧ (∀ (rt : Runtime K) (doc : XmlNode) (m' : Model K), LoadData rt doc = .ok m' →
        ∃ more, m'.m_Ways
          = (doc.select_nodes "way").map
              (fun e => ⟨knownPointRefs (identifierTable (doc.select_nodes "node")) e.children⟩)
            ++ more)
    ∧ ∀ (pre post : List XmlNode) (bad : XmlNode), bad.name = "nd" →
        tbl.lookup (bad.attribute "ref") = none →
        knownPointRefs tbl (pre ++ bad :: post) = knownPointRefs tbl (pre ++ post) := by
  refine ⟨way_loop_ways tbl elems ids m, fun rt doc m' h => LoadData_segments rt doc m' h, ?_⟩
  intro pre post bad hname hlook
  unfold knownPointRefs
  simp [List.filter_append, List.filter_cons, hname, hlook]

/-- Example of `way_loop_segments`: `sampleDoc` loads, and its line element with the point
references "a", "zz", "b", of which "zz" is unknown, gives the segment 0, 1. -/
theorem way_loop_segments_witness :
    (∃ m' : Model ℚ, LoadData qRuntime sampleDoc = .ok m' ∧ ∃ more, m'.m_Ways
        = (sampleDoc.select_nodes "way").map
            (fun e => ⟨knownPointRefs (identifierTable (sampleDoc.select_nodes "node"))
              e.children⟩)
          ++ more)
    ∧ (XmlNode.mk "nd" [("ref", "zz")] []).name = "nd"
    ∧ List.lookup ((XmlNode.mk "nd" [("ref", "zz")] []).attribute "ref")
        (identifierTable (sampleDoc.select_nodes "node")) = none
    ∧ knownPointRefs (identifierTable (sampleDoc.select_nodes "node"))
        ([XmlNode.mk "nd" [("ref", "a")] []] ++ XmlNode.mk "nd" [("ref", "zz")] []
          :: [XmlNode.mk "nd" [("ref", "b")] []])
      = knownPointRefs (identifierTable (sampleDoc.select_nodes "node"))
        ([XmlNode.mk "nd" [("ref", "a")] []] ++ [XmlNode.mk "nd" [("ref", "b")] []]) := by
  have hall := way_loop_segments (K := ℚ) (identifierTable (sampleDoc.select_nodes "node"))
    [] [] Model.empty
  have hok : ((LoadData qRuntime sampleDoc).toOption.map (fun m' => m'.m_Ways))
      = some [⟨[0, 1]⟩] := by decide!
  refine ⟨?_, by decide, by decide, hall.2.2 _ _ _ (by decide) (by decide)⟩
  cases hl : LoadData qRuntime sampleDoc with
  | error e => rw [hl] at hok; cases hok
  | ok m' => exact ⟨m', rfl, hall.2.1 qRuntime sampleDoc m' hl⟩

/-- The result of `process` (the body of `BuildRings` for one member list) on
the executions with a defined result: whenever it returns, the list it produces is the already-closed members of the input in
their original order, followed by one new segment index per ring found, in the
order found; the new segments are appended to the table in that order; the
rings are those of the successive `Track` searches up to the first search that
fails or the exhaustion of the open list, so rings found before a failing
search are kept; and no open member of the input is in the result.  On member
lists whose entries refer to segments with at least one point each `process`
does return when no `emplace_back` can reallocate the table while open members
are left, and `BuildRings` is `process` on the outer list followed by `process`
on the inner list. -/
theorem BuildRings_process_closed_then_rings {reallocates : Nat → Bool}
    (m_Ways : List Model.Way) (ways_nums : List Nat) :
    (∀ m_Ways' result, BuildRings.process reallocates m_Ways ways_nums = some (m_Ways', result) →
      ∃ rings : List (List Nat), m_Ways' = m_Ways ++ rings.map Model.Way.mk
        ∧ result = ways_nums.filter (closedAt m_Ways)
            ++ List.range' m_Ways.length rings.length
        ∧ Rounds m_Ways
            ((ways_nums.filter (fun w => !closedAt m_Ways w)).map (fun w => (w : Int))) rings
        ∧ ∀ w ∈ ways_nums, closedAt m_Ways w = false → w ∉ result)
    ∧ ((∀ w ∈ ways_nums, ∃ way, m_Ways[w]? = some way ∧ way.nodes ≠ []) →
      (∀ n, m_Ways.length ≤ n → n + 1 < m_Ways.length + ways_nums.length →
        reallocates n = false) →
      ∃ m_Ways' result, BuildRings.process reallocates m_Ways ways_nums = some (m_Ways', result))
    ∧ ∀ mp m_Ways2 mp', BuildRings reallocates m_Ways mp = some (m_Ways2, mp') →
        ∃ m_Ways1, BuildRings.process reallocates m_Ways mp.outer = some (m_Ways1, mp'.outer)
          ∧ BuildRings.process reallocates m_Ways1 mp.inner = some (m_Ways2, mp'.inner) := by
  refine ⟨?_, ?_, ?_⟩
  · intro m_Ways' result h
    unfold BuildRings.process at h
    simp only at h
    cases hs : BuildRings.split m_Ways ways_nums [] [] with
    | none => rw [hs] at h; cases h
    | some r =>
      obtain ⟨closed, opn⟩ := r
      rw [hs] at h
      simp only at h
      obtain ⟨hc, ho, hlt⟩ := BuildRings.split_lists m_Ways ways_nums [] [] closed opn hs
      obtain ⟨rings, h1, h2, h3⟩ := BuildRings.loop_rounds m_Ways _ _ _ _ _ _ h
      simp only [List.nil_append] at hc ho
      subst hc ho
      refine ⟨rings, h1, h2, h3, ?_⟩
      intro w hw hopen hmem
      rw [h2] at hmem
      rcases List.mem_append.mp hmem with hm | hm
      · have := (List.mem_filter.mp hm).2
        rw [hopen] at this
        cases this
      · have := (List.mem_range'_1.mp hm).1
        have := hlt w hw
        omega
  · intro hvalid hno
    obtain ⟨m_Ways', closed, h, -, -, -⟩ :=
      @BuildRings.process_spec reallocates m_Ways ways_nums hvalid hno
    exact ⟨m_Ways', closed, h⟩
  · intro mp m_Ways2 mp' h
    unfold BuildRings at h
    cases h1 : BuildRings.process reallocates m_Ways mp.outer with
    | none => rw [h1] at h; cases h
    | some r1 =>
      obtain ⟨m_Ways1, outer⟩ := r1
      rw [h1] at h
      simp only at h
      cases h2 : BuildRings.process reallocates m_Ways1 mp.inner with
      | none => rw [h2] at h; cases h
      | some r2 =>
        obtain ⟨mw2, inner⟩ := r2
        rw [h2] at h
        simp only [Option.some.injEq, Prod.mk.injEq] at h
        obtain ⟨hA, hB⟩ := h
        subst hA hB
        exact ⟨m_Ways1, rfl, h2⟩

theorem filterMap_sources {α β : Type} (f : α → Option β) :
    ∀ (l : List α), ∃ l' : List α, l'.Sublist l
      ∧ List.Forall₂ (fun b a => f a = some b) (l.filterMap f) l' := by
  intro l
  induction l with
  | nil => exact ⟨[], List.Sublist.slnil, List.Forall₂.nil⟩
  | cons a t ih =>
    obtain ⟨l', hsub, hall⟩ := ih
    cases hfa : f a with
    | none =>
      refine ⟨l', hsub.cons a, ?_⟩
      rw [List.filterMap_cons_none hfa]
      exact hall
    | some b =>
      refine ⟨a :: l', hsub.cons₂ a, ?_⟩
      rw [List.filterMap_cons_some hfa]
      exact List.Forall₂.cons hfa hall

/-! ## Claims -/

/-- C1 (code evaluated at a failing input): `straightRoad` is in fresh search
state and the query from `(1/4, 0)` to `(1, 0)` snaps to nodes 1 and 2;
`AStarSearch` stores the path 1, 0, 2 and reports the distance 1250, although
1, 2 is a route of the road graph of length 750. -/
theorem straightRoad_search_not_shortest :
    straightRoad.Fresh
    ∧ (runQuery qRuntime 10 straightRoad 25 0 100 0).map
        (fun p => (p.start_node, p.end_node, p.m_Model.path.map (fun n => n.index), p.GetDistance))
      = some (1, 2, [1, 0, 2], 1250)
    ∧ isRoadRoute straightRoad [1, 2] = true
    ∧ straightRoad.m_MetricScale * pathLength qRuntime ([1, 2].map straightRoad.node) = 750 := by
  refine ⟨?_, by decide!⟩
  unfold RouteModel.Fresh
  decide!

/-- C2 (code evaluated at a failing input): the members 0, 1, 2, 3 of
`twoRingsWays` are valid segments with two points each.  The table holds eight
segments and is full (a vector that doubles its capacity), so the `emplace_back`
of the first ring, found by the first `Track`, moves the table, and the pointer
`ways` taken before the loop dangles while the members 2 and 3 are still open:
the second `Track` reads through it, and `process` and `BuildRings` have no
defined result.  Were the table not moved, the result would be the two closed
rings 8 and 9. -/
theorem BuildRings_second_search_reads_dangling_table :
    [0, 1, 2, 3].map (fun w => (twoRingsWays[w]?).map (fun way => way.nodes.length))
        = [some 2, some 2, some 2, some 2]
    ∧ twoRingsWays.length = 8
    ∧ doublingReallocates 8 = true
    ∧ BuildRings.split twoRingsWays [0, 1, 2, 3] [] [] = some ([], [0, 1, 2, 3])
    ∧ Track [0, 1, 2, 3] twoRingsWays = some ([1, 2, 2, 1], [-1, -1, 2, 3])
    ∧ BuildRings.dangling doublingReallocates 8 8 = false
    ∧ BuildRings.dangling doublingReallocates 8 9 = true
    ∧ BuildRings.loop doublingReallocates twoRingsWays 4 (twoRingsWays ++ [⟨[1, 2, 2, 1]⟩])
        [8] [2, 3] = none
    ∧ BuildRings.process doublingReallocates twoRingsWays [0, 1, 2, 3] = none
    ∧ BuildRings doublingReallocates twoRingsWays ⟨[0, 1, 2, 3], []⟩ = none
    ∧ BuildRings (fun _ => false) twoRingsWays ⟨[0, 1, 2, 3], []⟩
        = some (twoRingsWays ++ [⟨[1, 2, 2, 1]⟩, ⟨[3, 4, 4, 3]⟩], ⟨[8, 9], []⟩) := by
  refine ⟨by decide, by decide, by decide, by decide, by decide, by decide, by decide,
    by decide, by decide, by decide, by decide⟩

/-- C3: on a map in fresh search state (with at least one node and all point
indices of ways in range, as for every graph built from a loaded model, see
`built_graph_fresh_wellFormed`), whenever the loop of `AStarSearch` selects a
node `goal` with the coordinates of the end node, `AStarSearch` returns (with
enough fuel) and the stored path is the list of the nodes `ids`, which is
non-empty, starts at the start node, ends at `goal`, and in which the
predecessor (`parent`) of every later node is the node just before it. -/
theorem AStarSearch_stores_start_to_goal_path {K : Type} [LinearOrderedField K]
    (rt : Runtime K) (model : RouteModel K) (start_x start_y end_x end_y : K)
    (hfresh : model.Fresh) (hwf : model.WellFormed) (hne : model.SNodes ≠ [])
    (fuel : Nat) (p1 : RoutePlanner K) (goal : Nat)
    (hreach : AStarSearch.loop rt fuel
        (AStarSearch.init (RoutePlanner.new rt model start_x start_y end_x end_y))
      = some (p1, some goal)) :
    ∃ (fuel' : Nat) (p' : RoutePlanner K) (ids : List Nat),
      AStarSearch rt fuel' (RoutePlanner.new rt model start_x start_y end_x end_y) = some p'
      ∧ p'.m_Model.path ≠ []
      ∧ p'.m_Model.path = ids.map p'.node
      ∧ ids.head? = some (RoutePlanner.new rt model start_x start_y end_x end_y).start_node
      ∧ ids.getLast? = some goal
      ∧ atGoal p' goal
      ∧ List.Chain' (fun a b => (p'.node b).parent = some a) ids := by
  obtain ⟨fuel', p', ids, h1, h2, h3, h4, h5, h6⟩ :=
    AStarSearch.goal_path rt (RoutePlanner.new rt model start_x start_y end_x end_y)
      hfresh hwf (FindClosestNode_lt rt model _ _ hwf hne) rfl fuel p1 goal hreach
  refine ⟨fuel', p', ids, h1, ?_, h2, h3, h4, h5, h6⟩
  rw [h2]
  cases ids with
  | nil => cases h3
  | cons a l => simp

/-- Witness for C3: on `straightRoad` the query from `(1/4, 0)` to `(1, 0)`
reaches node 2. -/
theorem AStarSearch_stores_start_to_goal_path_witness :
    ∃ (fuel' : Nat) (p' : RoutePlanner ℚ) (ids : List Nat),
      AStarSearch qRuntime fuel' (RoutePlanner.new qRuntime straightRoad 25 0 100 0) = some p'
      ∧ p'.m_Model.path ≠ []
      ∧ p'.m_Model.path = ids.map p'.node
      ∧ ids.head? = some (RoutePlanner.new qRuntime straightRoad 25 0 100 0).start_node
      ∧ ids.getLast? = some 2
      ∧ atGoal p' 2
      ∧ List.Chain' (fun a b => (p'.node b).parent = some a) ids := by
  have hfresh : straightRoad.Fresh := by unfold RouteModel.Fresh; decide!
  have hwf : straightRoad.WellFormed := WellFormed_of_ways _ (by decide!)
  have hne : straightRoad.SNodes ≠ [] := by decide!
  have hres : (AStarSearch.loop qRuntime 10
      (AStarSearch.init (RoutePlanner.new qRuntime straightRoad 25 0 100 0))).map Prod.snd
      = some (some 2) := by decide!
  cases hl : AStarSearch.loop qRuntime 10
      (AStarSearch.init (RoutePlanner.new qRuntime straightRoad 25 0 100 0)) with
  | none => rw [hl] at hres; cases hres
  | some x =>
    obtain ⟨p1, res⟩ := x
    rw [hl] at hres
    simp only [Option.map_some', Option.some.injEq] at hres
    subst hres
    exact AStarSearch_stores_start_to_goal_path qRuntime straightRoad 25 0 100 0
      hfresh hwf hne 10 p1 2 hl

/-- C4: for every node whose predecessor chain reaches the start node (in `k`
steps), `ConstructFinalPath` returns, and the distance read by `GetDistance`
is the metric scale times the sum of the distances between consecutive nodes of
the returned path.  `K` is any linearly ordered field, in particular `ℝ`. -/
theorem ConstructFinalPath_distance_eq_scaled_pathLength {K : Type} [LinearOrderedField K]
    (rt : Runtime K) (p : RoutePlanner K) (current_node k fuel : Nat)
    (h : ReachesStart p current_node k) (hfuel : k < fuel) :
    ∃ path p', ConstructFinalPath rt fuel p current_node = some (path, p')
      ∧ p'.GetDistance = p.m_Model.m_MetricScale * pathLength rt path := by
  obtain ⟨chain, hloop, -, -⟩ := ConstructFinalPath.loop_chain rt p h fuel hfuel [] 0
  unfold ConstructFinalPath
  rw [hloop]
  refine ⟨_, _, rfl, ?_⟩
  simp only [RoutePlanner.GetDistance, List.nil_append, zero_add, pathLength_reverse]
  ring

/-- Witness for C4: on `straightRoadSearched` the chain from node 2 reaches the
start node 1 in two steps. -/
theorem ConstructFinalPath_distance_eq_scaled_pathLength_witness :
    ∃ path p', ConstructFinalPath qRuntime 3 straightRoadSearched 2 = some (path, p')
      ∧ p'.GetDistance
          = straightRoadSearched.m_Model.m_MetricScale * pathLength qRuntime path := by
  have hs : straightRoadSearched.start_node = 1 := by decide!
  have h1 : ReachesStart straightRoadSearched 1 0 := hs ▸ ReachesStart.start
  have h0 : ReachesStart straightRoadSearched 0 1 :=
    ReachesStart.step (by decide!) (by decide!) h1
  have h2 : ReachesStart straightRoadSearched 2 2 :=
    ReachesStart.step (by decide!) (by decide!) h0
  exact ConstructFinalPath_distance_eq_scaled_pathLength qRuntime straightRoadSearched 2 2 3
    h2 (by decide)

/-- C5: on a map in fresh search state with an empty stored path (with at least
one node and all point indices of ways in range, as for every graph built from a
loaded model, see `built_graph_fresh_wellFormed`), if no node that neighbor
discovery can reach from the start node (`Linked` steps) has the coordinates of
the end node, then `AStarSearch` returns, its loop ends with an empty open list,
the stored path is still empty, and every node that is marked visited at the end
has been selected and expanded. -/
theorem AStarSearch_no_path_exhausts {K : Type} [LinearOrderedField K]
    (rt : Runtime K) (model : RouteModel K) (start_x start_y end_x end_y : K)
    (hfresh : model.Fresh) (hwf : model.WellFormed) (hne : model.SNodes ≠ [])
    (hpath : model.path = [])
    (hno : ∀ X, Relation.ReflTransGen model.Linked
        (RoutePlanner.new rt model start_x start_y end_x end_y).start_node X →
      ¬ atGoal (RoutePlanner.new rt model start_x start_y end_x end_y) X) :
    ∃ (fuel : Nat) (pf : RoutePlanner K),
      AStarSearch rt fuel (RoutePlanner.new rt model start_x start_y end_x end_y) = some pf
      ∧ AStarSearch.loop rt fuel
          (AStarSearch.init (RoutePlanner.new rt model start_x start_y end_x end_y))
        = some (pf, none)
      ∧ pf.open_list = []
      ∧ pf.m_Model.path = []
      ∧ ∀ X, (pf.node X).visited = true →
          X ∈ AStarSearch.expanded rt fuel
            (AStarSearch.init (RoutePlanner.new rt model start_x start_y end_x end_y)) := by
  set p := RoutePlanner.new rt model start_x start_y end_x end_y with hp
  have hstart : p.start_node < p.m_Model.SNodes.length :=
    FindClosestNode_lt rt model _ _ hwf hne
  obtain ⟨hI0, hsame0, hopen0, hvis0⟩ := SearchInv.init p hfresh hwf hstart rfl
  obtain ⟨fuel, pf, res, hloop⟩ := AStarSearch.loop_terminates rt _ _ _ hI0 (le_refl _)
  obtain ⟨⟨r', hI1⟩, hsame1, hopen, hgoal, htrace⟩ :=
    AStarSearch.loop_inv rt fuel _ _ pf res hI0 hloop
  have hsame := hsame0.same_trans hsame1
  have hres : res = none := by
    cases res with
    | none => rfl
    | some g =>
      exfalso
      obtain ⟨hglt, hgvis, hgat⟩ := hgoal g rfl
      have hreach := hI1.reach_ok g hglt hgvis
      rw [Linked_eq hsame.reset_eq, hsame.start_eq] at hreach
      apply hno g hreach
      obtain ⟨-, -, -, hst⟩ := RouteModel.reset_static hsame.reset_eq
      unfold atGoal at hgat ⊢
      have h1 := hst g
      have h2 := hst pf.end_node
      rw [hsame.end_eq] at h2 hgat
      exact ⟨h1.1.symm.trans (hgat.1.trans h2.1), h1.2.1.symm.trans (hgat.2.trans h2.2.1)⟩
  subst hres
  refine ⟨fuel, pf, ?_, hloop, hopen rfl, ?_, ?_⟩
  · unfold AStarSearch
    rw [hloop]
  · rw [hsame.path_eq]
    exact hpath
  · intro X hX
    rcases htrace rfl X hX with h | ⟨h1, h2⟩
    · exact h
    · exfalso
      apply h2
      rw [hopen0, hvis0 X h1]
      simp

/-- Witness for C5: on `twoIslands` the query from `(0, 0)` to `(1, 0)` starts
on the first road and ends on the second. -/
theorem AStarSearch_no_path_exhausts_witness :
    ∃ (fuel : Nat) (pf : RoutePlanner ℚ),
      AStarSearch qRuntime fuel (RoutePlanner.new qRuntime twoIslands 0 0 100 0) = some pf
      ∧ AStarSearch.loop qRuntime fuel
          (AStarSearch.init (RoutePlanner.new qRuntime twoIslands 0 0 100 0))
        = some (pf, none)
      ∧ pf.open_list = []
      ∧ pf.m_Model.path = []
      ∧ ∀ X, (pf.node X).visited = true →
          X ∈ AStarSearch.expanded qRuntime fuel
            (AStarSearch.init (RoutePlanner.new qRuntime twoIslands 0 0 100 0)) := by
  have hfresh : twoIslands.Fresh := by unfold RouteModel.Fresh; decide!
  have hwf : twoIslands.WellFormed := WellFormed_of_ways _ (by decide!)
  have hne : twoIslands.SNodes ≠ [] := by decide!
  have hs : (RoutePlanner.new qRuntime twoIslands 0 0 100 0).start_node = 0 := by decide!
  have hstep : ∀ a b, (a = 0 ∨ a = 1) → twoIslands.Linked a b → (b = 0 ∨ b = 1) := by
    intro a b ha hab
    obtain ⟨road, hroad, hb⟩ := hab
    have hr0 : twoIslands.roadsOf (twoIslands.node 0).index = [0] := by decide!
    have hr1 : twoIslands.roadsOf (twoIslands.node 1).index = [0] := by decide!
    have hw : twoIslands.toModel.wayNodes ((twoIslands.m_Roads.getD 0 ⟨0, .Invalid⟩).way)
        = [0, 1] := by decide!
    have hroad0 : road = 0 := by
      rcases ha with rfl | rfl
      · rw [hr0] at hroad; simpa using hroad
      · rw [hr1] at hroad; simpa using hroad
    subst hroad0
    rw [hw] at hb
    simpa using hb
  have hno : ∀ X, Relation.ReflTransGen twoIslands.Linked
      (RoutePlanner.new qRuntime twoIslands 0 0 100 0).start_node X →
      ¬ atGoal (RoutePlanner.new qRuntime twoIslands 0 0 100 0) X := by
    intro X hX
    rw [hs] at hX
    have hX01 : X = 0 ∨ X = 1 := by
      induction hX with
      | refl => exact Or.inl rfl
      | tail _ hab ih => exact hstep _ _ ih hab
    rcases hX01 with rfl | rfl
    · unfold atGoal; decide!
    · unfold atGoal; decide!
  exact AStarSearch_no_path_exhausts qRuntime twoIslands 0 0 100 0 hfresh hwf hne
    (by decide!) hno

/-- C6: when the start and the goal of a query snap to the same routing node,
`AStarSearch` (with any fuel of at least 1) stores a path that consists of
exactly that node, and `GetDistance` returns 0. -/
theorem same_node_query_single_node_zero_distance {K : Type} [LinearOrderedField K]
    (rt : Runtime K) (model : RouteModel K) (start_x start_y end_x end_y : K)
    (h : (RoutePlanner.new rt model start_x start_y end_x end_y).start_node
      = (RoutePlanner.new rt model start_x start_y end_x end_y).end_node) (fuel : Nat) :
    ∃ p : RoutePlanner K,
      AStarSearch rt (fuel + 1) (RoutePlanner.new rt model start_x start_y end_x end_y) = some p
      ∧ p.m_Model.path
          = [p.node (RoutePlanner.new rt model start_x start_y end_x end_y).start_node]
      ∧ p.GetDistance = 0 := by
  set p0 := RoutePlanner.new rt model start_x start_y end_x end_y with hp0
  have hopen : (AStarSearch.init p0).open_list = [p0.start_node] := by
    simp [AStarSearch.init, RoutePlanner.setNode, hp0, RoutePlanner.new]
  have hstart : (AStarSearch.init p0).start_node = p0.start_node := rfl
  have hend : (AStarSearch.init p0).end_node = p0.start_node := h.symm ▸ rfl
  have hloop : AStarSearch.loop rt (fuel + 1) (AStarSearch.init p0)
      = some ({ AStarSearch.init p0 with open_list := [] }, some p0.start_node) := by
    unfold AStarSearch.loop
    rw [NextNode_singleton rt _ _ hopen]
    simp [hopen, hend]
  unfold AStarSearch
  rw [hloop]
  simp only [ConstructFinalPath, ConstructFinalPath.loop, hstart, ne_eq, not_true_eq_false,
    if_false]
  refine ⟨_, rfl, ?_, ?_⟩
  · simp [RoutePlanner.node, hstart, RouteModel.node]
  · simp [RoutePlanner.GetDistance]

/-- Witness for C6: on `straightRoad` both ends of the query snap to node 1. -/
theorem same_node_query_single_node_zero_distance_witness :
    (RoutePlanner.new qRuntime straightRoad 25 0 25 0).start_node
        = (RoutePlanner.new qRuntime straightRoad 25 0 25 0).end_node
    ∧ ∃ p : RoutePlanner ℚ,
      AStarSearch qRuntime (0 + 1) (RoutePlanner.new qRuntime straightRoad 25 0 25 0) = some p
      ∧ p.m_Model.path = [p.node (RoutePlanner.new qRuntime straightRoad 25 0 25 0).start_node]
      ∧ p.GetDistance = 0 :=
  ⟨by decide!,
    same_node_query_single_node_zero_distance qRuntime straightRoad 25 0 25 0 (by decide!) 0⟩

/-- C7 (counterexample): `farRoad` has a road that is not a footway and
references the points 1 and 2, yet for the query point `(0, 0)`
`FindClosestNode` returns node 0, which no road references. -/
theorem FindClosestNode_far_road_counterexample :
    roadCandidates farRoad = [1, 2] ∧ FindClosestNode qRuntime farRoad 0 0 = 0
      ∧ FindClosestNode qRuntime farRoad 0 0 ∉ roadCandidates farRoad := by
  decide!

/-- C7 (amended): when some point referenced by a road that is not a footway
lies closer than `FLT_MAX` to `(x, y)`, `FindClosestNode` returns a scanned
point whose distance to `(x, y)` is minimal over all scanned points, and it is
the first such point in scan order: every point scanned before it is strictly
farther away. -/
theorem FindClosestNode_first_closest {K : Type} [LinearOrderedField K] (rt : Runtime K)
    (m : RouteModel K) (x y : K)
    (h : ∃ c ∈ roadCandidates m, queryDistance rt m x y c < FLT_MAX) :
    ∃ pre post, roadCandidates m = pre ++ FindClosestNode rt m x y :: post
      ∧ (∀ c ∈ pre, queryDistance rt m x y (FindClosestNode rt m x y) < queryDistance rt m x y c)
      ∧ (∀ c ∈ post, queryDistance rt m x y (FindClosestNode rt m x y) ≤ queryDistance rt m x y c) := by
  obtain ⟨pre, post, r, hr, hl, -, hpre, hpost⟩ :=
    (argmin_fold (queryDistance rt m x y) (roadCandidates m) ((FLT_MAX : K), 0)).2 h
  have hres : FindClosestNode rt m x y = r := by
    rw [FindClosestNode_eq_fold, hr]
  rw [hres]
  exact ⟨pre, post, hl, hpre, hpost⟩

/-- Witness for C7 (amended): on `straightRoad` node 1 is at distance 0 from
`(1/4, 0)`. -/
theorem FindClosestNode_first_closest_witness :
    ∃ pre post, roadCandidates straightRoad
        = pre ++ FindClosestNode qRuntime straightRoad (1 / 4) 0 :: post
      ∧ (∀ c ∈ pre, queryDistance qRuntime straightRoad (1 / 4) 0
            (FindClosestNode qRuntime straightRoad (1 / 4) 0)
          < queryDistance qRuntime straightRoad (1 / 4) 0 c)
      ∧ (∀ c ∈ post, queryDistance qRuntime straightRoad (1 / 4) 0
            (FindClosestNode qRuntime straightRoad (1 / 4) 0)
          ≤ queryDistance qRuntime straightRoad (1 / 4) 0 c) :=
  FindClosestNode_first_closest qRuntime straightRoad (1 / 4) 0
    ⟨1, by decide!, by decide!⟩

/-- C8 (counterexample): on `straightRoad` the query from `(1, 0)` to `(0, 0)`
gives the path 2, 1, 0 and the distance 1000 on the fresh graph, but run after
the query from `(1/4, 0)` to `(1, 0)` on the same graph it leaves the old path
1, 0, 2 stored and reports the distance 0. -/
theorem second_query_differs_from_fresh :
    (runQuery qRuntime 10 straightRoad 100 0 0 0).map
        (fun p => (p.m_Model.path.map (fun n => n.index), p.GetDistance))
      = some ([2, 1, 0], 1000)
    ∧ ((runQuery qRuntime 10 straightRoad 25 0 100 0).bind
        (fun p1 => runQuery qRuntime 10 p1.m_Model 100 0 0 0)).map
        (fun p => (p.m_Model.path.map (fun n => n.index), p.GetDistance))
      = some ([1, 0, 2], 0)
    ∧ ((runQuery qRuntime 10 straightRoad 25 0 100 0).bind
        (fun p1 => runQuery qRuntime 10 p1.m_Model 100 0 0 0)).map
        (fun p => (p.m_Model.path.map (fun n => n.index), p.GetDistance))
      ≠ (runQuery qRuntime 10 straightRoad 100 0 0 0).map
        (fun p => (p.m_Model.path.map (fun n => n.index), p.GetDistance)) := by
  decide!

/-- C8 (amended): `AStarSearch` leaves everything outside the per-node search
state and the stored path unchanged and resets nothing, so running the query
`q2` on the graph on which `q1` has been searched gives the result of running
`q2` on the freshly reset graph provided the search state and the stored path
are reset between the two queries. -/
theorem second_query_after_reset_eq_fresh {K : Type} [LinearOrderedField K]
    (rt : Runtime K) (model : RouteModel K) (fuel1 fuel2 : Nat)
    (start_x1 start_y1 end_x1 end_y1 start_x2 start_y2 end_x2 end_y2 : K)
    (p1 : RoutePlanner K)
    (h : runQuery rt fuel1 model start_x1 start_y1 end_x1 end_y1 = some p1) :
    runQuery rt fuel2 p1.m_Model.resetSearchState start_x2 start_y2 end_x2 end_y2
      = runQuery rt fuel2 model.resetSearchState start_x2 start_y2 end_x2 end_y2 := by
  have := AStarSearch_reset_eq rt fuel1 _ p1 h
  rw [this]
  rfl

/-- Witness for C8 (amended): the two queries of the counterexample on
`straightRoad`. -/
theorem second_query_after_reset_eq_fresh_witness :
    ∃ p1, runQuery qRuntime 10 straightRoad 25 0 100 0 = some p1
      ∧ runQuery qRuntime 10 p1.m_Model.resetSearchState 100 0 0 0
        = runQuery qRuntime 10 straightRoad.resetSearchState 100 0 0 0 := by
  have hsome : (runQuery qRuntime 10 straightRoad 25 0 100 0).isSome = true := by decide!
  cases h : runQuery qRuntime 10 straightRoad 25 0 100 0 with
  | none => rw [h] at hsome; cases hsome
  | some p1 =>
    exact ⟨p1, rfl, second_query_after_reset_eq_fresh qRuntime straightRoad 10 10
      25 0 100 0 100 0 0 0 p1 h⟩

/-- C9: for bounds with positive projected width `dx` and height `dy`,
`AdjustCoordinates` sets the metric scale to `min dx dy`, maps a point at
`(minlat, minlon)` to `(0, 0)` and a point at `(maxlat, maxlon)` to
`(dx / min dx dy, dy / min dx dy)`, which is `(1, dy / dx)` when `dx ≤ dy` and
`(dx / dy, 1)` when `dy ≤ dx`.  `K` is any linearly ordered field, in particular
`ℝ`. -/
theorem AdjustCoordinates_corners {K : Type} [LinearOrderedField K] (rt : Runtime K)
    (m : Model K) (i j : Nat)
    (hdx : 0 < projectedWidth m) (hdy : 0 < projectedHeight rt m)
    (hi : m.m_Nodes[i]? = some ⟨m.m_MinLon, m.m_MinLat⟩)
    (hj : m.m_Nodes[j]? = some ⟨m.m_MaxLon, m.m_MaxLat⟩) :
    (AdjustCoordinates rt m).m_MetricScale = min (projectedWidth m) (projectedHeight rt m)
    ∧ (AdjustCoordinates rt m).m_Nodes[i]? = some ⟨0, 0⟩
    ∧ (AdjustCoordinates rt m).m_Nodes[j]?
        = some ⟨projectedWidth m / min (projectedWidth m) (projectedHeight rt m),
                projectedHeight rt m / min (projectedWidth m) (projectedHeight rt m)⟩
    ∧ (projectedWidth m ≤ projectedHeight rt m →
        (AdjustCoordinates rt m).m_Nodes[j]?
          = some ⟨1, projectedHeight rt m / projectedWidth m⟩)
    ∧ (projectedHeight rt m ≤ projectedWidth m →
        (AdjustCoordinates rt m).m_Nodes[j]?
          = some ⟨projectedWidth m / projectedHeight rt m, 1⟩) := by
  have hj' : (AdjustCoordinates rt m).m_Nodes[j]?
        = some ⟨projectedWidth m / min (projectedWidth m) (projectedHeight rt m),
                projectedHeight rt m / min (projectedWidth m) (projectedHeight rt m)⟩ := by
    rw [AdjustCoordinates_nodes, List.getElem?_map, hj]
    rfl
  refine ⟨rfl, ?_, hj', ?_, ?_⟩
  · rw [AdjustCoordinates_nodes, List.getElem?_map, hi]
    simp
  · intro hle
    rw [hj', min_eq_left hle, div_self (ne_of_gt hdx)]
  · intro hle
    rw [hj', min_eq_right hle, div_self (ne_of_gt hdy)]

/-- Witness for C9: the unit square with a point on each corner. -/
theorem AdjustCoordinates_corners_witness :
    (AdjustCoordinates qRuntime unitSquare).m_MetricScale
        = min (projectedWidth unitSquare) (projectedHeight qRuntime unitSquare)
    ∧ (AdjustCoordinates qRuntime unitSquare).m_Nodes[0]? = some ⟨0, 0⟩
    ∧ (AdjustCoordinates qRuntime unitSquare).m_Nodes[1]?
        = some ⟨projectedWidth unitSquare
                  / min (projectedWidth unitSquare) (projectedHeight qRuntime unitSquare),
                projectedHeight qRuntime unitSquare
                  / min (projectedWidth unitSquare) (projectedHeight qRuntime unitSquare)⟩
    ∧ (projectedWidth unitSquare ≤ projectedHeight qRuntime unitSquare →
        (AdjustCoordinates qRuntime unitSquare).m_Nodes[1]?
          = some ⟨1, projectedHeight qRuntime unitSquare / projectedWidth unitSquare⟩)
    ∧ (projectedHeight qRuntime unitSquare ≤ projectedWidth unitSquare →
        (AdjustCoordinates qRuntime unitSquare).m_Nodes[1]?
          = some ⟨projectedWidth unitSquare / projectedHeight qRuntime unitSquare, 1⟩) :=
  AdjustCoordinates_corners qRuntime unitSquare 0 1 (by decide!) (by decide!) (by decide!)
    (by decide!)

/-- C10 (code evaluated at a failing input): in `emptyMemberDoc` the line element
"w" has the single point reference "c", which is unknown.  The loop over the
line elements skips it and builds the segments `[0, 1]` and `[]`, the indices of
the known references, as the claim says; but the empty segment is a member of
the water relation, and ring assembly then reads the first point of it:
`LoadData` and the constructor have no defined result (reported as the error
"BuildRings").  The same document with the known reference "b" in place of "c"
(`knownMemberDoc`) loads, with the segments `[0, 1]` and `[1]`. -/
theorem unknown_reference_aborts_construction :
    (emptyMemberDoc.select_nodes "way").map
        (fun e => knownPointRefs (identifierTable (emptyMemberDoc.select_nodes "node"))
          e.children) = [[0, 1], []]
    ∧ ((emptyMemberDoc.select_nodes "way").foldl
        (LoadData.way (identifierTable (emptyMemberDoc.select_nodes "node")))
        ([], (Model.empty : Model ℚ))).2.m_Ways = [⟨[0, 1]⟩, ⟨[]⟩]
    ∧ (match LoadData qRuntime emptyMemberDoc with
        | .error e => some e
        | .ok _ => none) = some "BuildRings"
    ∧ (match Model.new qRuntime emptyMemberDoc with
        | .error e => some e
        | .ok _ => none) = some "BuildRings"
    ∧ (LoadData qRuntime knownMemberDoc).toOption.map (fun m => (m.m_Ways, m.m_Waters))
        = some ([⟨[0, 1]⟩, ⟨[1]⟩], [⟨[], []⟩]) := by
  refine ⟨by decide, by decide!, by decide!, by decide!, by decide!⟩

/-- C11 (counterexample): in `tagFirstDoc` the relation has the known way member
"w" with the role "outer", but its `building` tag stands before the member, and
the building that `LoadData` creates has an empty outer list. -/
theorem tagFirstDoc_member_after_tag_dropped :
    ((LoadData qRuntime tagFirstDoc).toOption.map (fun m => m.m_Buildings))
      = some [⟨[], []⟩]
    ∧ outerMembers [("w", 0)]
        [ .mk "tag" [("k", "building"), ("v", "yes")] [],
          .mk "member" [("type", "way"), ("ref", "w"), ("role", "outer")] [] ] = [0]
    ∧ ((LoadData qRuntime tagLastDoc).toOption.map (fun m => m.m_Buildings))
      = some [⟨[0], [0]⟩] := by
  decide!

/-- C11 (amended): when `tag` is the first child of a relation that is a
`building`, `natural=water` or `landuse` tag, the lists committed to the Area
Feature (for water and landuse: handed to `BuildRings`) are the known way
members standing before `tag`, in document order, those with the role "outer"
in the outer list and all others in the inner list; the children after `tag`
are not read, and a `landuse` tag with an unrecognized value creates nothing.
When no member stands after `tag`, these are all known way members of the
relation. -/
theorem relation_lists_members_before_tag {K : Type} (reallocates : Nat → Bool)
    (way_id_to_num : List (String × Nat))
    (pre post : List XmlNode) (tag : XmlNode) (m : Model K)
    (hpre : ∀ c ∈ pre, endsRelation c = false) (hname : tag.name = "tag") :
    (tag.attribute "k" = "building" →
      LoadData.relationChildren reallocates way_id_to_num (pre ++ tag :: post) [] [] m
        = some { m with m_Buildings := m.m_Buildings
            ++ [⟨outerMembers way_id_to_num pre, innerMembers way_id_to_num pre⟩] })
    ∧ (tag.attribute "k" = "natural" → tag.attribute "v" = "water" →
      LoadData.relationChildren reallocates way_id_to_num (pre ++ tag :: post) [] [] m
        = (BuildRings reallocates m.m_Ways
              ⟨outerMembers way_id_to_num pre, innerMembers way_id_to_num pre⟩).map
            (fun r => { m with m_Ways := r.1, m_Waters := m.m_Waters ++ [r.2] }))
    ∧ (tag.attribute "k" = "landuse" →
        String2LanduseType (tag.attribute "v") ≠ Model.Landuse.Type.Invalid →
      LoadData.relationChildren reallocates way_id_to_num (pre ++ tag :: post) [] [] m
        = (BuildRings reallocates m.m_Ways
              ⟨outerMembers way_id_to_num pre, innerMembers way_id_to_num pre⟩).map
            (fun r => { m with m_Ways := r.1, m_Landuses := m.m_Landuses
              ++ [⟨r.2, String2LanduseType (tag.attribute "v")⟩] }))
    ∧ (tag.attribute "k" = "landuse" →
        String2LanduseType (tag.attribute "v") = Model.Landuse.Type.Invalid →
      LoadData.relationChildren reallocates way_id_to_num (pre ++ tag :: post) [] [] m
        = some m)
    ∧ ((∀ c ∈ post, c.name ≠ "member") →
      outerMembers way_id_to_num (pre ++ tag :: post) = outerMembers way_id_to_num pre
      ∧ innerMembers way_id_to_num (pre ++ tag :: post) = innerMembers way_id_to_num pre) := by
  have hstep := @LoadData.relationChildren_members reallocates K way_id_to_num pre
      (tag :: post) [] [] m hpre
  simp only [List.nil_append] at hstep
  obtain ⟨h1, h2, h3, h4⟩ := @LoadData.relationChildren_at_tag reallocates K way_id_to_num tag post
    (outerMembers way_id_to_num pre) (innerMembers way_id_to_num pre) m hname
  refine ⟨fun hk => ?_, fun hk hv => ?_, fun hk hv => ?_, fun hk hv => ?_,
    members_before_tag way_id_to_num pre post tag hname⟩
  · rw [hstep, h1 hk]
  · rw [hstep, h2 hk hv]
  · rw [hstep, h3 hk hv]
  · rw [hstep, h4 hk hv]

/-- Witness for C11 (amended): the children of the relation of `tagLastDoc`, two
members followed by the `building` tag. -/
theorem relation_lists_members_before_tag_witness :
    LoadData.relationChildren doublingReallocates [("w", 0)]
        ([ XmlNode.mk "member" [("type", "way"), ("ref", "w"), ("role", "outer")] [],
           XmlNode.mk "member" [("type", "way"), ("ref", "w"), ("role", "inner")] [] ]
          ++ XmlNode.mk "tag" [("k", "building"), ("v", "yes")] [] :: []) [] []
        (Model.empty : Model ℚ)
      = some { (Model.empty : Model ℚ) with m_Buildings := (Model.empty : Model ℚ).m_Buildings
          ++ [⟨outerMembers [("w", 0)]
                [ XmlNode.mk "member" [("type", "way"), ("ref", "w"), ("role", "outer")] [],
                  XmlNode.mk "member" [("type", "way"), ("ref", "w"), ("role", "inner")] [] ],
              innerMembers [("w", 0)]
                [ XmlNode.mk "member" [("type", "way"), ("ref", "w"), ("role", "outer")] [],
                  XmlNode.mk "member" [("type", "way"), ("ref", "w"), ("role", "inner")] [] ]⟩] } :=
  (relation_lists_members_before_tag doublingReallocates [("w", 0)] _ [] _ (Model.empty : Model ℚ)
    (by decide) (by decide)).1 (by decide)

/-- C12 (counterexample): the line element of `twoTagsDoc` has the tags
`highway=residential` and `building=yes`; `LoadData` adds it to the roads and to
the buildings. -/
theorem twoTagsDoc_way_in_two_collections :
    ((LoadData qRuntime twoTagsDoc).toOption.map (fun m => (m.m_Roads, m.m_Buildings)))
      = some ([⟨0, .Residential⟩], [⟨[0], []⟩]) := by
  decide!

/-- C12 (amended): each `tag` child of a line element adds the element to at
most one collection, the one of the first category in the checked order
(highway, railway, building, leisure, water, landuse) that this tag matches, and
to none when it matches no category; every other child adds it to none.  Over
the whole line element the collections gain one entry for every `tag` child
that matches a category, so an element with several such tags is added several
times. -/
theorem way_tag_adds_first_category {K : Type} (node_id_to_num : List (String × Nat))
    (way_num : Nat) (m : Model K) (child : XmlNode) :
    (child.name = "tag" →
      LoadData.wayChild node_id_to_num way_num m child
        = match firstCategory (child.attribute "k") (child.attribute "v") with
          | none => m
          | some c => addToCollection m way_num (child.attribute "v") c)
    ∧ entryCount (LoadData.wayChild node_id_to_num way_num m child)
        = entryCount m + (if classifies child = true then 1 else 0)
    ∧ ∀ (acc : List (String × Nat) × Model K) (node : XmlNode),
        entryCount (LoadData.way node_id_to_num acc node).2
          = entryCount acc.2 + (node.children.filter classifies).length := by
  refine ⟨wayChild_tag node_id_to_num way_num m child,
    wayChild_entryCount node_id_to_num way_num m child, fun acc node => ?_⟩
  unfold LoadData.way
  simp only
  rw [wayChildren_entryCount]
  rfl

/-- Witness for C12 (amended): the tag `highway=residential` on line element 0
of an empty model. -/
theorem way_tag_adds_first_category_witness :
    LoadData.wayChild [] 0 (Model.empty : Model ℚ)
        (.mk "tag" [("k", "highway"), ("v", "residential")] [])
      = match firstCategory
            ((XmlNode.mk "tag" [("k", "highway"), ("v", "residential")] []).attribute "k")
            ((XmlNode.mk "tag" [("k", "highway"), ("v", "residential")] []).attribute "v") with
        | none => (Model.empty : Model ℚ)
        | some c => addToCollection (Model.empty : Model ℚ) 0
            ((XmlNode.mk "tag" [("k", "highway"), ("v", "residential")] []).attribute "v") c :=
  (way_tag_adds_first_category [] 0 (Model.empty : Model ℚ)
    (.mk "tag" [("k", "highway"), ("v", "residential")] [])).1 (by decide)

/-- C13: whenever `LoadData` succeeds with the model `m`, the constructor
`Model::Model` succeeds, and its road collection is a permutation of the roads
of `m` (those created while parsing) in which the classification, as the
integer `std::sort` compares, never decreases; the integers of Unclassified,
Service, Residential, Tertiary, Secondary, Primary, Trunk, Motorway, Footway
increase in this order. -/
theorem Model_new_roads_sorted_perm {K : Type} [LinearOrderedField K] (rt : Runtime K)
    (doc : XmlNode) (m : Model K) (h : LoadData rt doc = .ok m) :
    ∃ m', Model.new rt doc = .ok m'
      ∧ m'.m_Roads.Perm m.m_Roads
      ∧ m'.m_Roads.Pairwise (fun a b => a.type.toInt ≤ b.type.toInt)
      ∧ ([Model.Road.Type.Unclassified, .Service, .Residential, .Tertiary, .Secondary,
            .Primary, .Trunk, .Motorway, .Footway].map Model.Road.Type.toInt).Pairwise
          (fun a b => a < b) := by
  unfold Model.new
  rw [h]
  refine ⟨_, rfl, rt.sortRoads_perm _ _, ?_, by decide⟩
  have hs := rt.sortRoads_sorted
    (fun first second => decide (first.type.toInt < second.type.toInt))
    (AdjustCoordinates rt m).m_Roads roadTypeOrder_strictWeak
  refine hs.imp ?_
  intro a b hab
  simp only [decide_eq_false_iff_not, not_lt] at hab
  exact hab

/-- Witness for C13: `twoRoadsDoc`, whose footway is parsed before its
residential road. -/
theorem Model_new_roads_sorted_perm_witness :
    ∃ m : Model ℚ, LoadData qRuntime twoRoadsDoc = .ok m
      ∧ ∃ m', Model.new qRuntime twoRoadsDoc = .ok m'
        ∧ m'.m_Roads.Perm m.m_Roads
        ∧ m'.m_Roads.Pairwise (fun a b => a.type.toInt ≤ b.type.toInt)
        ∧ ([Model.Road.Type.Unclassified, .Service, .Residential, .Tertiary, .Secondary,
              .Primary, .Trunk, .Motorway, .Footway].map Model.Road.Type.toInt).Pairwise
            (fun a b => a < b) := by
  have hok : ((LoadData qRuntime twoRoadsDoc).toOption.map (fun m => m.m_Roads))
      = some [⟨0, .Footway⟩, ⟨1, .Residential⟩] := by decide!
  cases hl : LoadData qRuntime twoRoadsDoc with
  | error e => rw [hl] at hok; cases hok
  | ok m => exact ⟨m, rfl, Model_new_roads_sorted_perm qRuntime twoRoadsDoc m hl⟩

/-- C14: when the first `building`, `natural=water` or `landuse` tag child of a
relation is a `building` tag, the loop over the children returns, the new
building has exactly the member lists collected up to that tag, and the segment
table is the one before the relation.  For any relation whose children leave
a different segment table, the first such tag is `natural=water` or a `landuse`
tag with a recognized value: only these reach `BuildRings`. -/
theorem building_relation_keeps_lists {K : Type} (reallocates : Nat → Bool)
    (way_id_to_num : List (String × Nat))
    (pre post : List XmlNode) (tag : XmlNode) (m : Model K)
    (hpre : ∀ c ∈ pre, endsRelation c = false) (hname : tag.name = "tag")
    (hk : tag.attribute "k" = "building") :
    (∃ m', LoadData.relationChildren reallocates way_id_to_num (pre ++ tag :: post) [] [] m
        = some m'
      ∧ m'.m_Buildings = m.m_Buildings
          ++ [⟨outerMembers way_id_to_num pre, innerMembers way_id_to_num pre⟩]
      ∧ m'.m_Ways = m.m_Ways ∧ m'.m_Waters = m.m_Waters ∧ m'.m_Landuses = m.m_Landuses)
    ∧ ∀ (children : List XmlNode) (m' : Model K),
        LoadData.relationChildren reallocates way_id_to_num children [] [] m = some m' →
        m'.m_Ways ≠ m.m_Ways →
        ∃ pre' tag' post', children = pre' ++ tag' :: post'
          ∧ (∀ c ∈ pre', endsRelation c = false) ∧ tag'.name = "tag"
          ∧ ((tag'.attribute "k" = "natural" ∧ tag'.attribute "v" = "water")
            ∨ (tag'.attribute "k" = "landuse"
              ∧ String2LanduseType (tag'.attribute "v") ≠ Model.Landuse.Type.Invalid)) := by
  constructor
  · have hstep := @LoadData.relationChildren_members reallocates K way_id_to_num pre
      (tag :: post) [] [] m hpre
    simp only [List.nil_append] at hstep
    rw [hstep, (@LoadData.relationChildren_at_tag reallocates K way_id_to_num tag post _ _ m hname).1 hk]
    exact ⟨_, rfl, rfl, rfl, rfl, rfl⟩
  · intro children m' hres hways
    rcases split_at_ending children with hall | ⟨pre', tag', post', hch, hpre', hend⟩
    · exfalso
      have := @LoadData.relationChildren_members reallocates K way_id_to_num children
        [] [] [] m hall
      rw [List.append_nil] at this
      rw [this] at hres
      unfold LoadData.relationChildren at hres
      simp only [Option.some.injEq] at hres
      exact hways (by rw [← hres])
    · have hname' : tag'.name = "tag" := by
        simp only [endsRelation, decide_eq_true_eq] at hend
        exact hend.1
      refine ⟨pre', tag', post', hch, hpre', hname', ?_⟩
      have hstep := @LoadData.relationChildren_members reallocates K way_id_to_num pre'
        (tag' :: post') [] [] m hpre'
      simp only [List.nil_append] at hstep
      rw [hch, hstep] at hres
      obtain ⟨h1, -, -, h4⟩ := @LoadData.relationChildren_at_tag reallocates K way_id_to_num tag' post'
        (outerMembers way_id_to_num pre') (innerMembers way_id_to_num pre') m hname'
      simp only [endsRelation, decide_eq_true_eq] at hend
      rcases hend.2 with hb | hw | hl
      · exfalso
        rw [h1 hb] at hres
        simp only [Option.some.injEq] at hres
        exact hways (by rw [← hres])
      · exact Or.inl hw
      · by_cases hv : String2LanduseType (tag'.attribute "v") = Model.Landuse.Type.Invalid
        · exfalso
          rw [h4 hl hv] at hres
          simp only [Option.some.injEq] at hres
          exact hways (by rw [← hres])
        · exact Or.inr ⟨hl, hv⟩

/-- Witness for C14: the children of the relation of `tagLastDoc`. -/
theorem building_relation_keeps_lists_witness :
    ∃ m', LoadData.relationChildren doublingReallocates [("w", 0)]
        ([ XmlNode.mk "member" [("type", "way"), ("ref", "w"), ("role", "outer")] [],
           XmlNode.mk "member" [("type", "way"), ("ref", "w"), ("role", "inner")] [] ]
          ++ XmlNode.mk "tag" [("k", "building"), ("v", "yes")] [] :: []) [] []
        (Model.empty : Model ℚ) = some m'
      ∧ m'.m_Buildings = (Model.empty : Model ℚ).m_Buildings
          ++ [⟨outerMembers [("w", 0)]
                [ XmlNode.mk "member" [("type", "way"), ("ref", "w"), ("role", "outer")] [],
                  XmlNode.mk "member" [("type", "way"), ("ref", "w"), ("role", "inner")] [] ],
              innerMembers [("w", 0)]
                [ XmlNode.mk "member" [("type", "way"), ("ref", "w"), ("role", "outer")] [],
                  XmlNode.mk "member" [("type", "way"), ("ref", "w"), ("role", "inner")] [] ]⟩]
      ∧ m'.m_Ways = (Model.empty : Model ℚ).m_Ways
      ∧ m'.m_Waters = (Model.empty : Model ℚ).m_Waters
      ∧ m'.m_Landuses = (Model.empty : Model ℚ).m_Landuses :=
  (building_relation_keeps_lists doublingReallocates [("w", 0)] _ [] _ (Model.empty : Model ℚ)
    (by decide) (by decide) (by decide)).1

/-- C15: for every document without a top-level `bounds` element, `LoadData`
throws "Map bounds are not defined in the XML file.", so does the constructor
`Model::Model`, and no model is produced. -/
theorem Model_new_no_bounds_error {K : Type} [LinearOrderedField K] (rt : Runtime K)
    (doc : XmlNode) (h : doc.select_nodes "bounds" = []) :
    LoadData rt doc = .error "Map bounds are not defined in the XML file."
    ∧ Model.new rt doc = .error "Map bounds are not defined in the XML file."
    ∧ ∀ m, Model.new rt doc ≠ .ok m := by
  have h1 : LoadData rt doc = .error "Map bounds are not defined in the XML file." := by
    unfold LoadData
    rw [h]
  have h2 : Model.new rt doc = .error "Map bounds are not defined in the XML file." := by
    unfold Model.new
    rw [h1]
  refine ⟨h1, h2, fun m hm => ?_⟩
  rw [h2] at hm
  cases hm

/-- Witness for C15: `noBoundsDoc` has an `osm` element with a point but no
bounds. -/
theorem Model_new_no_bounds_error_witness :
    LoadData qRuntime noBoundsDoc = .error "Map bounds are not defined in the XML file."
    ∧ Model.new qRuntime noBoundsDoc = .error "Map bounds are not defined in the XML file."
    ∧ ∀ m, Model.new qRuntime noBoundsDoc ≠ .ok m :=
  Model_new_no_bounds_error qRuntime noBoundsDoc (by rfl)

/-- C16: when `sqrt` is the exact square root (as over the real numbers), for
every sequence of routing nodes from `p0` to `pk` the distance from `p0` to
`pk` is at most the sum of the distances between consecutive nodes; so
`CalculateHValue n` is at most the cost of any sequence of nodes that leads
from `n` to the end node, in particular of any path of graph steps. -/
theorem distance_le_pathLength {K : Type} [LinearOrderedField K] (rt : Runtime K)
    (hsqrt : ∀ x : K, 0 ≤ x → 0 ≤ rt.sqrt x ∧ rt.sqrt x * rt.sqrt x = x) :
    (∀ (nodes : List (RouteModel.Node K)) (p0 pk : RouteModel.Node K),
      nodes.head? = some p0 → nodes.getLast? = some pk →
      p0.distance rt pk ≤ pathLength rt nodes)
    ∧ ∀ (p : RoutePlanner K) (n : Nat) (ids : List Nat),
      ids.head? = some n → ids.getLast? = some p.end_node →
      CalculateHValue rt p n ≤ pathLength rt (ids.map p.node) := by
  have hmain : ∀ (nodes : List (RouteModel.Node K)) (p0 pk : RouteModel.Node K),
      nodes.head? = some p0 → nodes.getLast? = some pk →
      p0.distance rt pk ≤ pathLength rt nodes := by
    intro nodes p0 pk hh hl
    cases nodes with
    | nil => cases hh
    | cons a rest =>
      simp only [List.head?_cons, Option.some.injEq] at hh
      subst hh
      exact distance_le_pathLength_cons rt hsqrt rest a pk hl
  refine ⟨hmain, fun p n ids hh hl => ?_⟩
  unfold CalculateHValue
  apply hmain
  · rw [List.head?_map, hh]
    rfl
  · rw [List.getLast?_map, hl]
    rfl

/-- Witness for C16: over `ℝ`, with `Real.sqrt` as the square root. -/
theorem distance_le_pathLength_witness :
    ∃ rt : Runtime ℝ, (∀ x : ℝ, 0 ≤ x → 0 ≤ rt.sqrt x ∧ rt.sqrt x * rt.sqrt x = x)
      ∧ (∀ (nodes : List (RouteModel.Node ℝ)) (p0 pk : RouteModel.Node ℝ),
        nodes.head? = some p0 → nodes.getLast? = some pk →
        p0.distance rt pk ≤ pathLength rt nodes)
      ∧ ∀ (p : RoutePlanner ℝ) (n : Nat) (ids : List Nat),
        ids.head? = some n → ids.getLast? = some p.end_node →
        CalculateHValue rt p n ≤ pathLength rt (ids.map p.node) := by
  have hs : ∀ x : ℝ, 0 ≤ x → 0 ≤ Real.sqrt x ∧ Real.sqrt x * Real.sqrt x = x :=
    fun x hx => ⟨Real.sqrt_nonneg x, Real.mul_self_sqrt hx⟩
  exact ⟨{ sqrt := Real.sqrt, log := id, tan := id, stod := (fun _ => none)
           reallocates := (fun _ => true)
           sort := insertionSort, sort_perm := insertionSort_perm
           sort_sorted := insertionSort_sorted
           sortRoads := insertionSort, sortRoads_perm := insertionSort_perm
           sortRoads_sorted := insertionSort_sorted }, hs,
    distance_le_pathLength _ hs⟩

/-- C17 (counterexample): the bounds of `unitSquare` have positive projected
width and height, its point 1 lies on the maximum corner, and after
`AdjustCoordinates` that point is at `(2, 1)`, so the larger of its coordinates
is 2. -/
theorem unitSquare_larger_side_two :
    0 < projectedWidth unitSquare ∧ 0 < projectedHeight qRuntime unitSquare
    ∧ unitSquare.m_Nodes[1]? = some ⟨unitSquare.m_MaxLon, unitSquare.m_MaxLat⟩
    ∧ (AdjustCoordinates qRuntime unitSquare).m_Nodes[1]? = some ⟨2, 1⟩
    ∧ max (2 : ℚ) 1 ≠ 1 := by
  decide!

/-- C17 (amended): for bounds with positive projected width `dx` and height
`dy`, after `AdjustCoordinates` the smaller of the normalized width and height
spans exactly one unit: the point on the maximum corner has `min x y = 1`; the
larger of its coordinates is `max dx dy / min dx dy`, at least 1, and equal to 1
only when `dx = dy`. -/
theorem AdjustCoordinates_smaller_side_unit {K : Type} [LinearOrderedField K] (rt : Runtime K)
    (m : Model K) (j : Nat)
    (hdx : 0 < projectedWidth m) (hdy : 0 < projectedHeight rt m)
    (hj : m.m_Nodes[j]? = some ⟨m.m_MaxLon, m.m_MaxLat⟩) :
    ∃ node, (AdjustCoordinates rt m).m_Nodes[j]? = some node
      ∧ min node.x node.y = 1
      ∧ max node.x node.y
          = max (projectedWidth m) (projectedHeight rt m)
            / min (projectedWidth m) (projectedHeight rt m)
      ∧ 1 ≤ max node.x node.y
      ∧ (max node.x node.y = 1 ↔ projectedWidth m = projectedHeight rt m) := by
  have hnode : (AdjustCoordinates rt m).m_Nodes[j]?
      = some ⟨projectedWidth m / min (projectedWidth m) (projectedHeight rt m),
              projectedHeight rt m / min (projectedWidth m) (projectedHeight rt m)⟩ := by
    rw [AdjustCoordinates_nodes, List.getElem?_map, hj]
    rfl
  refine ⟨_, hnode, ?_⟩
  simp only
  generalize projectedWidth m = dx at hdx
  generalize projectedHeight rt m = dy at hdy
  rcases le_total dx dy with hle | hle
  · have hxx : dx / dx = 1 := div_self (ne_of_gt hdx)
    have hge : 1 ≤ dy / dx := by rw [le_div_iff₀ hdx]; simpa using hle
    rw [min_eq_left hle, max_eq_right hle, hxx, min_eq_left hge, max_eq_right hge]
    refine ⟨rfl, rfl, hge, ?_⟩
    rw [div_eq_one_iff_eq (ne_of_gt hdx)]
    exact eq_comm
  · have hyy : dy / dy = 1 := div_self (ne_of_gt hdy)
    have hge : 1 ≤ dx / dy := by rw [le_div_iff₀ hdy]; simpa using hle
    rw [min_eq_right hle, max_eq_left hle, hyy, min_eq_right hge, max_eq_left hge]
    refine ⟨rfl, rfl, hge, ?_⟩
    rw [div_eq_one_iff_eq (ne_of_gt hdy)]

/-- Witness for C17 (amended): the maximum corner of `unitSquare`. -/
theorem AdjustCoordinates_smaller_side_unit_witness :
    ∃ node, (AdjustCoordinates qRuntime unitSquare).m_Nodes[1]? = some node
      ∧ min node.x node.y = 1
      ∧ max node.x node.y
          = max (projectedWidth unitSquare) (projectedHeight qRuntime unitSquare)
            / min (projectedWidth unitSquare) (projectedHeight qRuntime unitSquare)
      ∧ 1 ≤ max node.x node.y
      ∧ (max node.x node.y = 1
          ↔ projectedWidth unitSquare = projectedHeight qRuntime unitSquare) :=
  AdjustCoordinates_smaller_side_unit qRuntime unitSquare 1 (by decide!) (by decide!)
    (by decide!)

/-- C18: for every list of open members that refer to segments with at least
one point each, `Track` returns, and the node list it returns is non-empty if
and only if there is a chain (pairwise distinct members, each forward or
reversed, chained tail-to-head) whose concatenation has more than one point and
its first point equal to its last; so the search fails only when there is no
closing chain, whatever its starting segment. -/
theorem Track_nonempty_iff_closing_chain (open_ways : List Int) (ways : List Model.Way)
    (hv : ValidOpen open_ways ways) :
    ∃ nodes ow, Track open_ways ways = some (nodes, ow)
      ∧ (nodes ≠ [] ↔ ∃ steps, IsChain open_ways ways steps
          ∧ ClosedNodes (chainNodes open_ways ways steps)) := by
  obtain ⟨nodes, ow, hT, h⟩ := Track_chain open_ways ways hv
  refine ⟨nodes, ow, hT, ?_⟩
  rcases h with ⟨steps, hE, hn, -, hcl⟩ | ⟨hn, -, hno⟩
  · constructor
    · intro _
      exact ⟨steps, hE.isChain_fresh hv steps, hn ▸ hcl⟩
    · intro _ hnil
      have := hcl.1
      rw [hnil] at this
      simp at this
  · constructor
    · intro hne
      exact absurd hn hne
    · rintro ⟨steps, hch, hcl⟩
      exfalso
      obtain ⟨i, rest, hch', hcl'⟩ := hch.forward_start hv steps hcl
      exact hno i (hch'.2.1 (i, true) (List.mem_cons_self _ _)) rest
        (hch'.extends_fresh _) hcl'

/-- Witness for C18: the three open segments 0, 1, 2 of `sampleWays`. -/
theorem Track_nonempty_iff_closing_chain_witness :
    ∃ nodes ow, Track [0, 1, 2] sampleWays = some (nodes, ow)
      ∧ (nodes ≠ [] ↔ ∃ steps, IsChain [0, 1, 2] sampleWays steps
          ∧ ClosedNodes (chainNodes [0, 1, 2] sampleWays steps)) :=
  Track_nonempty_iff_closing_chain [0, 1, 2] sampleWays (by
    intro w hw
    simp only [List.mem_cons, List.mem_singleton, List.not_mem_nil, or_false] at hw
    rcases hw with rfl | rfl | rfl <;> exact ⟨_, rfl, by decide⟩)

/-- C19 (counterexample): on the open members 0, 1, 2 of `emptyStartWays`
`Track` succeeds with the ring 1, 2, 2, 1 and marks all three members used,
although member 0 has no point; no chain consists of exactly the marked
members. -/
theorem Track_marks_member_without_points :
    Track [0, 1, 2] emptyStartWays = some ([1, 2, 2, 1], [-1, -1, -1])
    ∧ memberNodes [0, 1, 2] emptyStartWays 0 = []
    ∧ ¬ ∃ steps, IsChain [0, 1, 2] emptyStartWays steps
        ∧ ∀ j, j ∈ steps.map Prod.fst ↔ ([-1, -1, -1] : List Int)[j]? = some (-1) := by
  refine ⟨by decide, by decide, ?_⟩
  rintro ⟨steps, hch, hmarked⟩
  obtain ⟨s0, hs0, hp0⟩ := List.mem_map.mp ((hmarked 0).mpr (by decide))
  obtain ⟨s1, hs1, hp1⟩ := List.mem_map.mp ((hmarked 1).mpr (by decide))
  have hseg1 : orientedNodes [0, 1, 2] emptyStartWays s1 ≠ [] := by
    obtain ⟨i, o⟩ := s1
    simp only at hp1
    subst hp1
    cases o <;> decide
  have hseg0 : orientedNodes [0, 1, 2] emptyStartWays s0 = [] := by
    obtain ⟨i, o⟩ := s0
    simp only at hp0
    subst hp0
    cases o <;> decide
  exact chain_no_empty_segment _ hch.2.2 _ (List.mem_map_of_mem _ hs1) hseg1 _
    (List.mem_map_of_mem _ hs0) hseg0

/-- C19 (amended): on open members that refer to segments with at least one
point each, whenever `Track` succeeds the returned node list is the
concatenation, in chain order, of the point lists of the members of a chain
(pairwise distinct members, each forward or reversed, every member after the
first beginning at the point at which the member before it ends); exactly the
positions of that chain are overwritten with `-1`, the length of the ring is the
sum of the lengths of its members, and the entries that stay for the next
search are exactly the members outside the chain. -/
theorem Track_ring_is_marked_chain (open_ways : List Int) (ways : List Model.Way)
    (hv : ValidOpen open_ways ways) :
    ∃ nodes ow, Track open_ways ways = some (nodes, ow)
      ∧ (nodes ≠ [] → ∃ steps, IsChain open_ways ways steps
          ∧ nodes = chainNodes open_ways ways steps
          ∧ (∀ j, ow[j]? = if j ∈ steps.map Prod.fst then some (-1) else open_ways[j]?)
          ∧ nodes.length = (steps.map (fun s => (memberNodes open_ways ways s.1).length)).sum
          ∧ ow.filter (fun v => ¬ v < 0)
              = ((List.range open_ways.length).filter (fun j => j ∉ steps.map Prod.fst)).map
                  (fun j => open_ways.getD j 0)) := by
  obtain ⟨nodes, ow, hT, h⟩ := Track_chain open_ways ways hv
  refine ⟨nodes, ow, hT, fun hne => ?_⟩
  rcases h with ⟨steps, hE, hn, how, -⟩ | ⟨hn, -, -⟩
  · have hch := hE.isChain_fresh hv steps
    refine ⟨steps, hch, hn, ?_, ?_, ?_⟩
    · intro j
      rw [how]
      exact Track.mark_chain open_ways steps hch.2.1 j
    · rw [hn]
      exact chainNodes_length open_ways ways steps
    · rw [how]
      exact Track.mark_filter_chain open_ways ways hv steps hch.2.1
  · exact absurd hn hne

/-- Witness for C19 (amended): the three open segments 0, 1, 2 of
`sampleWays`, on which `Track` succeeds with the ring 1, 2, 3, 3, 4, 5, 5, 1. -/
theorem Track_ring_is_marked_chain_witness :
    Track [0, 1, 2] sampleWays = some ([1, 2, 3, 3, 4, 5, 5, 1], [-1, -1, -1])
    ∧ ∃ nodes ow, Track [0, 1, 2] sampleWays = some (nodes, ow)
      ∧ (nodes ≠ [] → ∃ steps, IsChain [0, 1, 2] sampleWays steps
          ∧ nodes = chainNodes [0, 1, 2] sampleWays steps
          ∧ (∀ j, ow[j]? = if j ∈ steps.map Prod.fst then some (-1)
              else ([0, 1, 2] : List Int)[j]?)
          ∧ nodes.length
              = (steps.map (fun s => (memberNodes [0, 1, 2] sampleWays s.1).length)).sum
          ∧ ow.filter (fun v => ¬ v < 0)
              = ((List.range ([0, 1, 2] : List Int).length).filter
                  (fun j => j ∉ steps.map Prod.fst)).map
                  (fun j => ([0, 1, 2] : List Int).getD j 0)) :=
  ⟨by decide, Track_ring_is_marked_chain [0, 1, 2] sampleWays (by
    intro w hw
    simp only [List.mem_cons, List.mem_singleton, List.not_mem_nil, or_false] at hw
    rcases hw with rfl | rfl | rfl <;> exact ⟨_, rfl, by decide⟩)⟩

/-- C20 (code evaluated at a failing input): `twoRingsDoc` has eight line
elements and a water relation with the outer members 0, 1, 2, 3, which chain
into the two rings 0, 1, 1, 0 and 2, 3, 3, 2.  With a table of eight segments
that is full, appending the first ring moves the table, the search for the
second ring reads through the dangling pointer, and `BuildRings` and `LoadData`
have no defined result (reported as the error "BuildRings").  Were the table
not moved, the outer list of the water would be 8, 9, one new segment per
closing chain, as the claim says. -/
theorem twoRingsDoc_second_ring_search_undefined :
    ((twoRingsDoc.select_nodes "way").foldl
        (LoadData.way (identifierTable (twoRingsDoc.select_nodes "node")))
        ([], (Model.empty : Model ℚ))).2.m_Ways
      = [⟨[0, 1]⟩, ⟨[1, 0]⟩, ⟨[2, 3]⟩, ⟨[3, 2]⟩, ⟨[0, 2]⟩, ⟨[1, 3]⟩, ⟨[0, 3]⟩, ⟨[1, 2]⟩]
    ∧ (twoRingsDoc.select_nodes "relation").map
        (fun r => outerMembers [("w7", 7), ("w6", 6), ("w5", 5), ("w4", 4), ("w3", 3),
          ("w2", 2), ("w1", 1), ("w0", 0)] r.children) = [[0, 1, 2, 3]]
    ∧ qRuntime.reallocates 8 = true
    ∧ BuildRings.process qRuntime.reallocates
        [⟨[0, 1]⟩, ⟨[1, 0]⟩, ⟨[2, 3]⟩, ⟨[3, 2]⟩, ⟨[0, 2]⟩, ⟨[1, 3]⟩, ⟨[0, 3]⟩, ⟨[1, 2]⟩]
        [0, 1, 2, 3] = none
    ∧ (match LoadData qRuntime twoRingsDoc with
        | .error e => some e
        | .ok _ => none) = some "BuildRings"
    ∧ (BuildRings.process (fun _ => false)
        [⟨[0, 1]⟩, ⟨[1, 0]⟩, ⟨[2, 3]⟩, ⟨[3, 2]⟩, ⟨[0, 2]⟩, ⟨[1, 3]⟩, ⟨[0, 3]⟩, ⟨[1, 2]⟩]
        [0, 1, 2, 3]).map Prod.snd = some [8, 9]
    ∧ (LoadData { qRuntime with reallocates := fun _ => false } twoRingsDoc).toOption.map
        (fun m => m.m_Waters) = some [⟨[8, 9], []⟩] := by
  refine ⟨by decide!, by decide, by decide, by decide, by decide!, by decide, by decide!⟩

/-- C21 (counterexample): `roundabout` has one road, the closed loop, which is
entered twice in the index entry of node 0; `FindNeighbors` on node 0 adds node
1 once for each entry, two neighbors for the one road. -/
theorem roundabout_road_adds_neighbor_twice :
    roundabout.m_Roads.length = 1
    ∧ roundabout.roadsOf (roundabout.node 0).index = [0, 0]
    ∧ FindNeighbor qRuntime roundabout 0
        (roundabout.toModel.wayNodes (roundabout.m_Roads.getD 0 ⟨0, .Invalid⟩).way) = some 1
    ∧ ((FindNeighbors qRuntime roundabout 0).node 0).neighbors = [1, 1] := by
  decide!

/-- C21 (amended): `FindNeighbor` returns null exactly when no candidate has
non-zero distance to the node and is unvisited; otherwise it returns such a
candidate whose distance is at most that of every other such candidate and
strictly below that of every such candidate standing earlier in the list.
`FindNeighbors` appends to the neighbor list, for every element of the index
entry in order, the one candidate `FindNeighbor` returns on the segment of that
road, if any: at most one neighbor per element of the entry, so for every road
at most as many neighbors as the entry lists it, and at most one per road when
the entry lists no road twice. -/
theorem FindNeighbor_closest_unvisited {K : Type} [LinearOrderedField K] (rt : Runtime K)
    (m : RouteModel K) (self : Nat) (node_indices : List Nat) :
    (FindNeighbor rt m self node_indices = none
      ↔ ∀ c ∈ node_indices, ¬ validNeighbor rt m self c)
    ∧ (∀ b, FindNeighbor rt m self node_indices = some b →
        validNeighbor rt m self b
        ∧ ∃ pre post, node_indices = pre ++ b :: post
          ∧ (∀ c ∈ pre, validNeighbor rt m self c →
              (m.node self).distance rt (m.node b) < (m.node self).distance rt (m.node c))
          ∧ (∀ c ∈ post, validNeighbor rt m self c →
              (m.node self).distance rt (m.node b)
                ≤ (m.node self).distance rt (m.node c)))
    ∧ FindNeighbors rt m self = withNeighbors m self (foundNeighbors rt m self)
    ∧ foundNeighbors rt m self
        = (m.roadsOf (m.node self).index).filterMap
            (fun road => FindNeighbor rt m self
              (m.toModel.wayNodes ((m.m_Roads.getD road ⟨0, .Invalid⟩).way)))
    ∧ (foundNeighbors rt m self).length ≤ (m.roadsOf (m.node self).index).length
    ∧ ∃ roads : List Nat, roads.Sublist (m.roadsOf (m.node self).index)
        ∧ List.Forall₂
            (fun b road => FindNeighbor rt m self
              (m.toModel.wayNodes ((m.m_Roads.getD road ⟨0, .Invalid⟩).way)) = some b)
            (foundNeighbors rt m self) roads
        ∧ (∀ r, roads.count r ≤ (m.roadsOf (m.node self).index).count r)
        ∧ ((m.roadsOf (m.node self).index).Nodup → roads.Nodup) := by
  refine ⟨(FindNeighbor_argmin rt m self node_indices).1,
    (FindNeighbor_argmin rt m self node_indices).2, FindNeighbors_eq_found rt m self, rfl,
    ?_, ?_⟩
  · unfold foundNeighbors
    exact List.length_filterMap_le _ _
  · obtain ⟨roads, hsub, hall⟩ := filterMap_sources
      (fun road => FindNeighbor rt m self
        (m.toModel.wayNodes ((m.m_Roads.getD road ⟨0, .Invalid⟩).way)))
      (m.roadsOf (m.node self).index)
    exact ⟨roads, hsub, hall, fun r => hsub.count_le r, fun hnd => hnd.sublist hsub⟩

/-- Witness for C21 (amended): on `straightRoad` the node 1 at `(1/4, 0)` finds
node 0 among the candidates 0, 1, 2; on `roundabout` the index entry of node 0
lists the one road twice, and `FindNeighbors` adds the neighbors 1, 1, one for
each element of the entry. -/
theorem FindNeighbor_closest_unvisited_witness :
    FindNeighbor qRuntime straightRoad 1 [0, 1, 2] = some 0
    ∧ (validNeighbor qRuntime straightRoad 1 0
      ∧ ∃ pre post, [0, 1, 2] = pre ++ 0 :: post
        ∧ (∀ c ∈ pre, validNeighbor qRuntime straightRoad 1 c →
            (straightRoad.node 1).distance qRuntime (straightRoad.node 0)
              < (straightRoad.node 1).distance qRuntime (straightRoad.node c))
        ∧ (∀ c ∈ post, validNeighbor qRuntime straightRoad 1 c →
            (straightRoad.node 1).distance qRuntime (straightRoad.node 0)
              ≤ (straightRoad.node 1).distance qRuntime (straightRoad.node c)))
    ∧ roundabout.roadsOf (roundabout.node 0).index = [0, 0]
    ∧ foundNeighbors qRuntime roundabout 0 = [1, 1]
    ∧ ∃ roads : List Nat, roads.Sublist (roundabout.roadsOf (roundabout.node 0).index)
        ∧ List.Forall₂
            (fun b road => FindNeighbor qRuntime roundabout 0
              (roundabout.toModel.wayNodes ((roundabout.m_Roads.getD road ⟨0, .Invalid⟩).way))
                = some b)
            (foundNeighbors qRuntime roundabout 0) roads
        ∧ (∀ r, roads.count r ≤ (roundabout.roadsOf (roundabout.node 0).index).count r)
        ∧ ((roundabout.roadsOf (roundabout.node 0).index).Nodup → roads.Nodup) :=
  ⟨by decide!,
    (FindNeighbor_closest_unvisited qRuntime straightRoad 1 [0, 1, 2]).2.1 0 (by decide!),
    by decide!, by decide!,
    (FindNeighbor_closest_unvisited qRuntime roundabout 0 []).2.2.2.2.2⟩

/-- C22: for every non-empty open list `NextNode` returns an element `cur`
whose `g + h` is at most the `g + h` of every element of the list, and the open
list it leaves, together with `cur`, is a permutation of the previous open list:
the previous elements minus one occurrence of `cur`; nothing else of the planner
changes. -/
theorem NextNode_returns_least_f {K : Type} [LinearOrderedField K] (rt : Runtime K)
    (p : RoutePlanner K) (hne : p.open_list ≠ []) :
    ∃ cur rest, NextNode rt p = some (cur, { p with open_list := rest })
      ∧ cur ∈ p.open_list
      ∧ (∀ o ∈ p.open_list, (p.node cur).g_value + (p.node cur).h_value
          ≤ (p.node o).g_value + (p.node o).h_value)
      ∧ (cur :: rest).Perm p.open_list
      ∧ rest.Perm (p.open_list.erase cur) := by
  obtain ⟨cur, rest, h1, h2, h3⟩ := NextNode_least rt p hne
  have hmem : cur ∈ p.open_list := h2.subset (List.mem_cons_self _ _)
  refine ⟨cur, rest, h1, hmem, h3, h2, ?_⟩
  have := h2.trans (List.perm_cons_erase hmem)
  exact (List.perm_cons cur).mp this

/-- Witness for C22: `roundaboutAfterTwo`, the planner after two rounds of the
search from node 0 to node 3 on `roundabout`.  Its open list is 1, 2 with
`g + h` 18 for node 1 and 26 for node 2; `NextNode` returns node 1 and leaves
the open list 2. -/
theorem NextNode_returns_least_f_witness :
    roundaboutAfterTwo.open_list = [1, 2]
    ∧ (roundaboutAfterTwo.node 1).g_value + (roundaboutAfterTwo.node 1).h_value = 18
    ∧ (roundaboutAfterTwo.node 2).g_value + (roundaboutAfterTwo.node 2).h_value = 26
    ∧ (NextNode qRuntime roundaboutAfterTwo).map (fun r => (r.1, r.2.open_list))
        = some (1, [2])
    ∧ ∃ cur rest, NextNode qRuntime roundaboutAfterTwo
        = some (cur, { roundaboutAfterTwo with open_list := rest })
      ∧ cur ∈ roundaboutAfterTwo.open_list
      ∧ (∀ o ∈ roundaboutAfterTwo.open_list,
          (roundaboutAfterTwo.node cur).g_value + (roundaboutAfterTwo.node cur).h_value
            ≤ (roundaboutAfterTwo.node o).g_value + (roundaboutAfterTwo.node o).h_value)
      ∧ (cur :: rest).Perm roundaboutAfterTwo.open_list
      ∧ rest.Perm (roundaboutAfterTwo.open_list.erase cur) :=
  ⟨by decide!, by decide!, by decide!, by decide!,
    NextNode_returns_least_f qRuntime roundaboutAfterTwo (by decide!)⟩

/-- C23: for a current node `cur` of a well-formed map whose neighbor list is
empty on entry (and whose distance to itself is 0), `AddNeighbors` appends to
the open list exactly the neighbors found by `FindNeighbors`, in order; each of
them was unvisited before the call and afterwards has `parent = cur`,
`g = cur.g + distance(cur, neighbor)`, `h = distance(neighbor, end_node)` and
`visited = true`, with everything else of it unchanged; the current node itself
changes only in that its neighbor list now holds the found neighbors; every
other node is unchanged, and so are the start node, the end node, the distance
and the stored path of the planner. -/
theorem AddNeighbors_sets_found_neighbors {K : Type} [LinearOrderedField K] (rt : Runtime K)
    (p : RoutePlanner K) (cur : Nat) (hcur : cur < p.m_Model.SNodes.length)
    (hwf : p.m_Model.WellFormed) (hnb : (p.node cur).neighbors = [])
    (hself : (p.node cur).distance rt (p.node cur) = 0) :
    FindNeighbors rt p.m_Model cur
      = withNeighbors p.m_Model cur (foundNeighbors rt p.m_Model cur)
    ∧ (AddNeighbors rt p cur).open_list = p.open_list ++ foundNeighbors rt p.m_Model cur
    ∧ (∀ b ∈ foundNeighbors rt p.m_Model cur,
        (p.node b).visited = false ∧ b ≠ cur
        ∧ (AddNeighbors rt p cur).node b
          = { p.node b with
              parent := some cur
              g_value := (p.node cur).g_value + (p.node cur).distance rt (p.node b)
              h_value := (p.node b).distance rt (p.node p.end_node)
              visited := true })
    ∧ (AddNeighbors rt p cur).node cur
        = { p.node cur with neighbors := foundNeighbors rt p.m_Model cur }
    ∧ (∀ Y, Y ≠ cur → Y ∉ foundNeighbors rt p.m_Model cur →
        (AddNeighbors rt p cur).node Y = p.node Y)
    ∧ SameMap p (AddNeighbors rt p cur) := by
  obtain ⟨h1, h2, h3, h4⟩ := AddNeighbors_nodes rt p cur hcur hwf hnb hself
  obtain ⟨found, hE⟩ := AddNeighbors_effect rt p cur hcur
  refine ⟨FindNeighbors_eq_found rt p.m_Model cur, h1, ?_, h3, h4, hE.same⟩
  intro b hb
  obtain ⟨hbc, -, hnode⟩ := h2 b hb
  refine ⟨(foundNeighbors_spec rt p.m_Model cur b hb).1, hbc, ?_⟩
  rw [hnode]
  unfold visitedNode
  rw [distance_comm rt (p.node b) (p.node cur)]

/-- Witness for C23: node 1 of `straightRoad` in the planner for the query from
`(1/4, 0)` to `(1, 0)`. -/
theorem AddNeighbors_sets_found_neighbors_witness :
    foundNeighbors qRuntime straightRoad 1 = [0]
    ∧ (AddNeighbors qRuntime (RoutePlanner.new qRuntime straightRoad 25 0 100 0) 1).open_list
        = (RoutePlanner.new qRuntime straightRoad 25 0 100 0).open_list
          ++ foundNeighbors qRuntime (RoutePlanner.new qRuntime straightRoad 25 0 100 0).m_Model 1
    ∧ ∀ b ∈ foundNeighbors qRuntime (RoutePlanner.new qRuntime straightRoad 25 0 100 0).m_Model 1,
        ((RoutePlanner.new qRuntime straightRoad 25 0 100 0).node b).visited = false ∧ b ≠ 1
        ∧ (AddNeighbors qRuntime (RoutePlanner.new qRuntime straightRoad 25 0 100 0) 1).node b
          = { (RoutePlanner.new qRuntime straightRoad 25 0 100 0).node b with
              parent := some 1
              g_value := ((RoutePlanner.new qRuntime straightRoad 25 0 100 0).node 1).g_value
                + ((RoutePlanner.new qRuntime straightRoad 25 0 100 0).node 1).distance qRuntime
                    ((RoutePlanner.new qRuntime straightRoad 25 0 100 0).node b)
              h_value := ((RoutePlanner.new qRuntime straightRoad 25 0 100 0).node b).distance
                qRuntime ((RoutePlanner.new qRuntime straightRoad 25 0 100 0).node
                  (RoutePlanner.new qRuntime straightRoad 25 0 100 0).end_node)
              visited := true } := by
  have h := AddNeighbors_sets_found_neighbors qRuntime
    (RoutePlanner.new qRuntime straightRoad 25 0 100 0) 1 (by decide!)
    (WellFormed_of_ways _ (by decide!)) (by decide!) (by decide!)
  exact ⟨by decide!, h.2.1, h.2.2.1⟩

/-- C24 (code evaluated at failing inputs): `doubledSegment` is in fresh search
state and node 0 lies on two roads whose closest unvisited point is node 1; in
the search from node 0 to node 3 the expansion of node 0 finds node 1 once for
each road and pushes it twice, and node 1 is then selected and expanded twice.
The same happens on `roundabout`, where the closed loop is entered twice in the
index entry of node 0. -/
theorem node_pushed_and_expanded_twice :
    doubledSegment.Fresh
    ∧ doubledSegment.roadsOf 0 = [0, 1]
    ∧ (RoutePlanner.new qRuntime doubledSegment 600 0 1200 0).start_node = 0
    ∧ (RoutePlanner.new qRuntime doubledSegment 600 0 1200 0).end_node = 3
    ∧ (AddNeighbors qRuntime
        { AStarSearch.init (RoutePlanner.new qRuntime doubledSegment 600 0 1200 0) with
          open_list := [] } 0).open_list = [1, 1]
    ∧ AStarSearch.expanded qRuntime 10
        (AStarSearch.init (RoutePlanner.new qRuntime doubledSegment 600 0 1200 0)) = [0, 1, 1]
    ∧ (runQuery qRuntime 10 doubledSegment 600 0 1200 0).map
        (fun p => (p.m_Model.path.map (fun n => n.index), p.GetDistance))
      = some ([0, 1, 3], 18)
    ∧ roundabout.Fresh
    ∧ roundabout.roadsOf 0 = [0, 0]
    ∧ (RoutePlanner.new qRuntime roundabout 600 0 1200 0).start_node = 0
    ∧ (RoutePlanner.new qRuntime roundabout 600 0 1200 0).end_node = 3
    ∧ (AddNeighbors qRuntime
        { AStarSearch.init (RoutePlanner.new qRuntime roundabout 600 0 1200 0) with
          open_list := [] } 0).open_list = [1, 1]
    ∧ AStarSearch.expanded qRuntime 10
        (AStarSearch.init (RoutePlanner.new qRuntime roundabout 600 0 1200 0)) = [0, 1, 1]
    ∧ (runQuery qRuntime 10 roundabout 600 0 1200 0).map
        (fun p => (p.m_Model.path.map (fun n => n.index), p.GetDistance))
      = some ([0, 1, 3], 18) := by
  refine ⟨?_, by decide!, by decide!, by decide!, by decide!, by decide!, by decide!,
    ?_, by decide!, by decide!, by decide!, by decide!, by decide!, by decide!⟩
  · unfold RouteModel.Fresh
    decide!
  · unfold RouteModel.Fresh
    decide!

/-- C25 (counterexample): on `straightRoad`, after the initialization of the
search from node 1 to node 2 the heuristic value stored in the start node is
still `FLT_MAX`, while its distance to the end node is 3/4. -/
theorem init_start_heuristic_not_distance :
    (RoutePlanner.new qRuntime straightRoad 25 0 100 0).start_node = 1
    ∧ ((AStarSearch.init (RoutePlanner.new qRuntime straightRoad 25 0 100 0)).node 1).h_value
        = FLT_MAX
    ∧ CalculateHValue qRuntime
        (AStarSearch.init (RoutePlanner.new qRuntime straightRoad 25 0 100 0)) 1 = 3 / 4
    ∧ ((AStarSearch.init (RoutePlanner.new qRuntime straightRoad 25 0 100 0)).node 1).h_value
        ≠ CalculateHValue qRuntime
          (AStarSearch.init (RoutePlanner.new qRuntime straightRoad 25 0 100 0)) 1 := by
  decide!

/-- C25 (amended): on a freshly built graph with at least one node and all
point indices of ways in range, after the initialization step of `AStarSearch`
the start node is marked visited, is the only element of the open list, has
`g = 0` and no predecessor, and its heuristic value is still the initial
`FLT_MAX`: the initialization changes nothing but the visited flag of the start
node and the open list. -/
theorem init_start_visited_only {K : Type} [LinearOrderedField K] (rt : Runtime K)
    (m : Model K) (start_x start_y end_x end_y : K)
    (hwf : (RouteModel.ofModel m).WellFormed) (hne : m.m_Nodes ≠ []) :
    ((AStarSearch.init (RoutePlanner.new rt (RouteModel.ofModel m) start_x start_y end_x
        end_y)).node
      (RoutePlanner.new rt (RouteModel.ofModel m) start_x start_y end_x end_y).start_node)
        = { (RouteModel.ofModel m).node (RoutePlanner.new rt (RouteModel.ofModel m) start_x
            start_y end_x end_y).start_node with visited := true }
    ∧ (AStarSearch.init (RoutePlanner.new rt (RouteModel.ofModel m) start_x start_y end_x
        end_y)).open_list
        = [(RoutePlanner.new rt (RouteModel.ofModel m) start_x start_y end_x end_y).start_node]
    ∧ ((AStarSearch.init (RoutePlanner.new rt (RouteModel.ofModel m) start_x start_y end_x
        end_y)).node
      (RoutePlanner.new rt (RouteModel.ofModel m) start_x start_y end_x end_y).start_node).visited
        = true
    ∧ ((AStarSearch.init (RoutePlanner.new rt (RouteModel.ofModel m) start_x start_y end_x
        end_y)).node
      (RoutePlanner.new rt (RouteModel.ofModel m) start_x start_y end_x end_y).start_node).g_value
        = 0
    ∧ ((AStarSearch.init (RoutePlanner.new rt (RouteModel.ofModel m) start_x start_y end_x
        end_y)).node
      (RoutePlanner.new rt (RouteModel.ofModel m) start_x start_y end_x end_y).start_node).h_value
        = FLT_MAX
    ∧ ∀ Y, Y ≠ (RoutePlanner.new rt (RouteModel.ofModel m) start_x start_y end_x
          end_y).start_node →
        (AStarSearch.init (RoutePlanner.new rt (RouteModel.ofModel m) start_x start_y end_x
          end_y)).node Y = (RouteModel.ofModel m).node Y := by
  set p := RoutePlanner.new rt (RouteModel.ofModel m) start_x start_y end_x end_y with hp
  have hlen := (ofModel_fresh m).2.2.1
  have hne' : (RouteModel.ofModel m).SNodes ≠ [] := by
    intro h
    rw [h] at hlen
    exact hne (List.length_eq_zero.mp hlen.symm)
  have hstart : p.start_node < p.m_Model.SNodes.length :=
    FindClosestNode_lt rt (RouteModel.ofModel m) _ _ hwf hne'
  have hnode : ∀ Y, (AStarSearch.init p).node Y
      = if p.start_node = Y ∧ p.start_node < p.m_Model.SNodes.length
        then { p.node p.start_node with visited := true } else p.node Y := by
    intro Y
    exact RoutePlanner.node_setNode_planner p p.start_node Y _
  have hinit := ofModel_node_initial m p.start_node
  have hs : (AStarSearch.init p).node p.start_node
      = { (RouteModel.ofModel m).node p.start_node with visited := true } := by
    rw [hnode, if_pos ⟨rfl, hstart⟩]
    rfl
  refine ⟨hs, ?_, ?_, ?_, ?_, ?_⟩
  · simp [AStarSearch.init, RoutePlanner.setNode, hp, RoutePlanner.new]
  · rw [hs]
  · rw [hs]
    exact hinit.1
  · rw [hs]
    exact hinit.2.1
  · intro Y hY
    rw [hnode, if_neg (fun h => hY h.1.symm)]
    rfl

/-- Witness for C25 (amended): the model of `straightRoad` and the query from
`(1/4, 0)` to `(1, 0)`. -/
theorem init_start_visited_only_witness :
    ((AStarSearch.init (RoutePlanner.new qRuntime straightRoad 25 0 100 0)).node
        (RoutePlanner.new qRuntime straightRoad 25 0 100 0).start_node).visited = true
    ∧ ((AStarSearch.init (RoutePlanner.new qRuntime straightRoad 25 0 100 0)).node
        (RoutePlanner.new qRuntime straightRoad 25 0 100 0).start_node).g_value = 0
    ∧ ((AStarSearch.init (RoutePlanner.new qRuntime straightRoad 25 0 100 0)).node
        (RoutePlanner.new qRuntime straightRoad 25 0 100 0).start_node).h_value = FLT_MAX := by
  have h := init_start_visited_only qRuntime straightRoad.toModel 25 0 100 0
    (WellFormed_of_ways _ (by decide!)) (by decide!)
  exact ⟨h.2.2.1, h.2.2.2.1, h.2.2.2.2.1⟩

/-- C26: in the graph built from a model, for every point index `i` and every
road position `r` of the model, `r` is in the node-to-road index entry of `i`
if and only if the road is not a footway and `i` occurs in its way; every member
of an entry is a road position of the model; and `i` has no entry exactly when
no road that is not a footway references it. -/
theorem node_to_road_entry_iff {K : Type} [LinearOrderedField K] (m : Model K) (i : Nat) :
    (∀ r, r < m.m_Roads.length →
      (r ∈ (RouteModel.ofModel m).roadsOf i
        ↔ (m.m_Roads.getD r ⟨0, .Invalid⟩).type ≠ Model.Road.Type.Footway
          ∧ i ∈ m.wayNodes (m.m_Roads.getD r ⟨0, .Invalid⟩).way))
    ∧ (∀ r ∈ (RouteModel.ofModel m).roadsOf i, r < m.m_Roads.length)
    ∧ ((RouteModel.ofModel m).node_to_road.lookup i = none
        ↔ ∀ r, r < m.m_Roads.length →
            ¬ ((m.m_Roads.getD r ⟨0, .Invalid⟩).type ≠ Model.Road.Type.Footway
              ∧ i ∈ m.wayNodes (m.m_Roads.getD r ⟨0, .Invalid⟩).way)) := by
  obtain ⟨h1, h2⟩ := ofModel_roadsOf m i
  have hmem : ∀ r, r ∈ (RouteModel.ofModel m).roadsOf i
      ↔ r < m.m_Roads.length
        ∧ (m.m_Roads.getD r ⟨0, .Invalid⟩).type ≠ Model.Road.Type.Footway
        ∧ i ∈ m.wayNodes (m.m_Roads.getD r ⟨0, .Invalid⟩).way := by
    intro r
    rw [h1, ← List.count_pos_iff, roadEntry_count]
    constructor
    · intro h
      split at h
      · rename_i hc
        exact ⟨hc.1, hc.2, List.count_pos_iff.mp h⟩
      · exact absurd h (lt_irrefl 0)
    · rintro ⟨ha, hb, hc⟩
      rw [if_pos ⟨ha, hb⟩]
      exact List.count_pos_iff.mpr hc
  refine ⟨fun r hr => ?_, fun r hr => ((hmem r).mp hr).1, h2⟩
  rw [hmem r]
  exact ⟨fun h => h.2, fun h => ⟨hr, h⟩⟩

/-- Witness for C26: road 0 of `roundabout` and its point 2. -/
theorem node_to_road_entry_iff_witness :
    (0 ∈ roundabout.roadsOf 2
      ↔ (roundabout.m_Roads.getD 0 ⟨0, .Invalid⟩).type ≠ Model.Road.Type.Footway
        ∧ 2 ∈ roundabout.toModel.wayNodes (roundabout.m_Roads.getD 0 ⟨0, .Invalid⟩).way)
    ∧ roundabout.roadsOf 2 = [0] :=
  ⟨(node_to_road_entry_iff roundabout.toModel 2).1 0 (by decide), by decide!⟩

/-- C27 (counterexample): the way of road 0 of `roundabout` references point 0
as its first and as its last point, and the index entry of point 0 holds road 0
twice. -/
theorem roundabout_entry_holds_road_twice :
    roundabout.toModel.wayNodes (roundabout.m_Roads.getD 0 ⟨0, .Invalid⟩).way = [0, 1, 2, 3, 0]
    ∧ roundabout.roadsOf 0 = [0, 0]
    ∧ ¬ (roundabout.roadsOf 0).Nodup := by
  decide!

/-- C27 (amended): in the graph built from a model, the index entry of a point
holds every road that is not a footway once for every occurrence of the point
in the way of the road (so twice for the point at which a closed loop starts and
ends) and holds no other road; an entry is free of repetitions exactly when no
such road references the point more than once. -/
theorem node_to_road_entry_count {K : Type} [LinearOrderedField K] (m : Model K) (i : Nat) :
    (∀ r, ((RouteModel.ofModel m).roadsOf i).count r
      = if r < m.m_Roads.length
          ∧ (m.m_Roads.getD r ⟨0, .Invalid⟩).type ≠ Model.Road.Type.Footway
        then (m.wayNodes (m.m_Roads.getD r ⟨0, .Invalid⟩).way).count i else 0)
    ∧ (((RouteModel.ofModel m).roadsOf i).Nodup
        ↔ ∀ r, r < m.m_Roads.length →
            (m.m_Roads.getD r ⟨0, .Invalid⟩).type ≠ Model.Road.Type.Footway →
            (m.wayNodes (m.m_Roads.getD r ⟨0, .Invalid⟩).way).count i ≤ 1) := by
  have hcount : ∀ r, ((RouteModel.ofModel m).roadsOf i).count r
      = if r < m.m_Roads.length
          ∧ (m.m_Roads.getD r ⟨0, .Invalid⟩).type ≠ Model.Road.Type.Footway
        then (m.wayNodes (m.m_Roads.getD r ⟨0, .Invalid⟩).way).count i else 0 := by
    intro r
    rw [(ofModel_roadsOf m i).1]
    exact roadEntry_count m i r
  refine ⟨hcount, ?_⟩
  rw [List.nodup_iff_count_le_one]
  constructor
  · intro h r hr hfoot
    have := h r
    rw [hcount, if_pos ⟨hr, hfoot⟩] at this
    exact this
  · intro h r
    rw [hcount]
    split
    · rename_i hc
      exact h r hc.1 hc.2
    · exact Nat.zero_le 1

/-- Witness for C27 (amended): point 0 of `roundabout` occurs twice in the way
of road 0. -/
theorem node_to_road_entry_count_witness :
    (roundabout.roadsOf 0).count 0
      = if 0 < roundabout.m_Roads.length
          ∧ (roundabout.m_Roads.getD 0 ⟨0, .Invalid⟩).type ≠ Model.Road.Type.Footway
        then (roundabout.toModel.wayNodes (roundabout.m_Roads.getD 0 ⟨0, .Invalid⟩).way).count 0
        else 0 :=
  (node_to_road_entry_count roundabout.toModel 0).1 0

/-- C28: on the graph built from a model `m` (it is in fresh search state; with
at least one node and all point indices of ways in range, as for every loaded
model), whenever the loop of `AStarSearch` selects a node with the coordinates
of the end node, `AStarSearch` returns (with enough fuel) and stores a non-empty
path in which every two consecutive nodes are both referenced by the way of one
road of `m` whose type is not Footway; every node of the path is the node of
the graph at its own index. -/
theorem path_steps_share_non_footway_road {K : Type} [LinearOrderedField K] (rt : Runtime K)
    (m : Model K) (start_x start_y end_x end_y : K)
    (hwf : (RouteModel.ofModel m).WellFormed) (hne : m.m_Nodes ≠ [])
    (fuel : Nat) (p1 : RoutePlanner K) (goal : Nat)
    (hreach : AStarSearch.loop rt fuel
        (AStarSearch.init (RoutePlanner.new rt (RouteModel.ofModel m) start_x start_y end_x
          end_y))
      = some (p1, some goal)) :
    (RouteModel.ofModel m).Fresh
    ∧ ∃ (fuel' : Nat) (p' : RoutePlanner K),
      AStarSearch rt fuel' (RoutePlanner.new rt (RouteModel.ofModel m) start_x start_y end_x
        end_y) = some p'
      ∧ p'.m_Model.path ≠ []
      ∧ List.Chain'
          (fun a b => ∃ r, r < m.m_Roads.length
            ∧ (m.m_Roads.getD r ⟨0, .Invalid⟩).type ≠ Model.Road.Type.Footway
            ∧ a.index ∈ m.wayNodes (m.m_Roads.getD r ⟨0, .Invalid⟩).way
            ∧ b.index ∈ m.wayNodes (m.m_Roads.getD r ⟨0, .Invalid⟩).way)
          p'.m_Model.path
      ∧ ∀ n ∈ p'.m_Model.path, n.index < m.m_Nodes.length ∧ p'.node n.index = n := by
  have hlen := (ofModel_fresh m).2.2.1
  have hne' : (RouteModel.ofModel m).SNodes ≠ [] := by
    intro h
    rw [h] at hlen
    exact hne (List.length_eq_zero.mp hlen.symm)
  exact ⟨(ofModel_fresh m).1,
    AStarSearch.goal_links rt m
      (RoutePlanner.new rt (RouteModel.ofModel m) start_x start_y end_x end_y) rfl hwf
      (FindClosestNode_lt rt (RouteModel.ofModel m) _ _ hwf hne') rfl fuel p1 goal hreach⟩

/-- Witness for C28: on `footpathShortcut` the search from point 0 to point 2
stores the path over point 1 along the residential road, not the footway. -/
theorem path_steps_share_non_footway_road_witness :
    (runQuery qRuntime 10 footpathShortcut 0 0 600 0).map
        (fun p => p.m_Model.path.map (fun n => n.index)) = some [0, 1, 2]
    ∧ footpathShortcut.Fresh
    ∧ ∃ (fuel' : Nat) (p' : RoutePlanner ℚ),
      AStarSearch qRuntime fuel' (RoutePlanner.new qRuntime footpathShortcut 0 0 600 0)
        = some p'
      ∧ p'.m_Model.path ≠ []
      ∧ List.Chain'
          (fun a b => ∃ r, r < footpathShortcut.m_Roads.length
            ∧ (footpathShortcut.m_Roads.getD r ⟨0, .Invalid⟩).type ≠ Model.Road.Type.Footway
            ∧ a.index ∈ footpathShortcut.toModel.wayNodes
                (footpathShortcut.m_Roads.getD r ⟨0, .Invalid⟩).way
            ∧ b.index ∈ footpathShortcut.toModel.wayNodes
                (footpathShortcut.m_Roads.getD r ⟨0, .Invalid⟩).way)
          p'.m_Model.path
      ∧ ∀ n ∈ p'.m_Model.path,
          n.index < footpathShortcut.m_Nodes.length ∧ p'.node n.index = n := by
  have hwf : footpathShortcut.WellFormed := WellFormed_of_ways _ (by decide!)
  have hres : (AStarSearch.loop qRuntime 10
      (AStarSearch.init (RoutePlanner.new qRuntime footpathShortcut 0 0 600 0))).map Prod.snd
      = some (some 2) := by decide!
  refine ⟨by decide!, ?_⟩
  cases hl : AStarSearch.loop qRuntime 10
      (AStarSearch.init (RoutePlanner.new qRuntime footpathShortcut 0 0 600 0)) with
  | none => rw [hl] at hres; cases hres
  | some x =>
    obtain ⟨p1, res⟩ := x
    rw [hl] at hres
    simp only [Option.map_some', Option.some.injEq] at hres
    subst hres
    exact path_steps_share_non_footway_road qRuntime footpathShortcut.toModel 0 0 600 0
      hwf (by decide!) 10 p1 2 hl

/-- C29: `String2RoadType` gives a type other than Invalid exactly for the
values motorway, trunk, primary, secondary, tertiary, residential,
living_street, service, unclassified, footway, bridleway, steps, path,
pedestrian, with living_street classified Residential and bridleway, steps,
path, pedestrian classified Footway; a `tag` child of a line element with the
key `highway` and the value `v` appends one road of that type for the line
element if `v` is one of these values and leaves the model unchanged otherwise;
every step of the loop over the children keeps the road collection free of the
type Invalid, and so no road of a model that `LoadData` or the constructor
`Model::Model` returns has the type Invalid. -/
theorem highway_tag_road_iff_listed {K : Type} [LinearOrderedField K] (rt : Runtime K) :
    (∀ v, String2RoadType v ≠ Model.Road.Type.Invalid
      ↔ v ∈ ["motorway", "trunk", "primary", "secondary", "tertiary", "residential",
          "living_street", "service", "unclassified", "footway", "bridleway", "steps", "path",
          "pedestrian"])
    ∧ (["motorway", "trunk", "primary", "secondary", "tertiary", "residential",
          "living_street", "service", "unclassified", "footway", "bridleway", "steps", "path",
          "pedestrian"].map String2RoadType
        = [.Motorway, .Trunk, .Primary, .Secondary, .Tertiary, .Residential,
          .Residential, .Service, .Unclassified, .Footway, .Footway, .Footway, .Footway,
          .Footway])
    ∧ (∀ (tbl : List (String × Nat)) (way_num : Nat) (m : Model K) (child : XmlNode),
        child.name = "tag" → child.attribute "k" = "highway" →
        LoadData.wayChild tbl way_num m child
          = if child.attribute "v" ∈ ["motorway", "trunk", "primary", "secondary", "tertiary",
                "residential", "living_street", "service", "unclassified", "footway",
                "bridleway", "steps", "path", "pedestrian"] then
              { m with
                m_Roads := m.m_Roads ++ [⟨way_num, String2RoadType (child.attribute "v")⟩] }
            else m)
    ∧ (∀ (tbl : List (String × Nat)) (way_num : Nat) (m : Model K) (child : XmlNode),
        m.RoadsValid → (LoadData.wayChild tbl way_num m child).RoadsValid)
    ∧ (∀ (doc : XmlNode) (m : Model K), LoadData rt doc = .ok m →
        ∀ r ∈ m.m_Roads, r.type ≠ Model.Road.Type.Invalid)
    ∧ (∀ (doc : XmlNode) (m : Model K), Model.new rt doc = .ok m →
        ∀ r ∈ m.m_Roads, r.type ≠ Model.Road.Type.Invalid) :=
  ⟨String2RoadType_valid_iff, by decide,
    fun tbl way_num m child hname hk => wayChild_highway tbl way_num m child hname hk,
    fun tbl way_num m child h => wayChild_roadsValid tbl way_num m child h,
    fun doc m h => LoadData_roadsValid rt doc m h,
    fun doc m h => Model_new_roadsValid rt doc m h⟩

/-- Witness for C29: a `living_street` tag on line element 0 of the empty model,
and the model built from `twoRoadsDoc`. -/
theorem highway_tag_road_iff_listed_witness :
    LoadData.wayChild [] 0 (Model.empty : Model ℚ)
        (.mk "tag" [("k", "highway"), ("v", "living_street")] [])
      = { (Model.empty : Model ℚ) with m_Roads := [⟨0, .Residential⟩] }
    ∧ ∃ m : Model ℚ, Model.new qRuntime twoRoadsDoc = .ok m
        ∧ m.m_Roads = [⟨1, .Residential⟩, ⟨0, .Footway⟩]
        ∧ ∀ r ∈ m.m_Roads, r.type ≠ Model.Road.Type.Invalid := by
  refine ⟨?_, ?_⟩
  · rw [(highway_tag_road_iff_listed qRuntime).2.2.1 [] 0 Model.empty
      (.mk "tag" [("k", "highway"), ("v", "living_street")] []) (by decide) (by decide)]
    rw [if_pos (by decide)]
    rfl
  · have hok : ((Model.new qRuntime twoRoadsDoc).toOption.map (fun m => m.m_Roads))
        = some [⟨1, .Residential⟩, ⟨0, .Footway⟩] := by decide!
    cases hl : Model.new qRuntime twoRoadsDoc with
    | error e => rw [hl] at hok; cases hok
    | ok m =>
      rw [hl] at hok
      simp only [Except.toOption, Option.map_some', Option.some.injEq] at hok
      exact ⟨m, rfl, hok, (highway_tag_road_iff_listed qRuntime).2.2.2.2.2 twoRoadsDoc m hl⟩

/-- C30: on every map in fresh search state (no node visited, all neighbor
lists empty; all point indices of ways in range, as for every loaded model), for
every start node of the map and every end node, the loop of `AStarSearch` stops
after finitely many selections of a node (fewer than `fuel`); when it stops at a
selected goal node, following `parent` from that node arrives at the start node
after finitely many steps `k`; and `AStarSearch` as a whole returns. -/
theorem AStarSearch_terminates_and_chain_reaches_start {K : Type} [LinearOrderedField K]
    (rt : Runtime K) (p : RoutePlanner K) (hfresh : p.m_Model.Fresh)
    (hwf : p.m_Model.WellFormed) (hstart : p.start_node < p.m_Model.SNodes.length)
    (hopen : p.open_list = []) :
    ∃ (fuel : Nat) (pf : RoutePlanner K) (res : Option Nat),
      AStarSearch.loop rt fuel (AStarSearch.init p) = some (pf, res)
      ∧ (AStarSearch.expanded rt fuel (AStarSearch.init p)).length < fuel
      ∧ (∀ g, res = some g → ∃ k, ReachesStart pf g k
          ∧ ∃ path, ConstructFinalPath rt (k + 1) pf g = some path)
      ∧ ∃ (fuel' : Nat) (p' : RoutePlanner K), AStarSearch rt fuel' p = some p' := by
  obtain ⟨hI0, -, -, -⟩ := SearchInv.init p hfresh hwf hstart hopen
  obtain ⟨fuel, pf, res, hloop⟩ :=
    AStarSearch.loop_terminates rt _ (AStarSearch.init p) _ hI0 (le_refl _)
  have hlen : ∀ (f : Nat) (q : RoutePlanner K) (x : RoutePlanner K × Option Nat),
      AStarSearch.loop rt f q = some x → (AStarSearch.expanded rt f q).length < f := by
    intro f
    induction f with
    | zero => intro q x h; simp [AStarSearch.loop] at h
    | succ f ih =>
      intro q x h
      rw [AStarSearch.loop] at h
      rw [AStarSearch.expanded]
      by_cases hne : q.open_list.isEmpty = true
      · simp [hne]
      · simp only [hne] at h ⊢
        cases hN : NextNode rt q with
        | none => rw [hN] at h; simp at h
        | some c =>
          obtain ⟨cur, q1⟩ := c
          rw [hN] at h
          simp only at h ⊢
          by_cases hg : (q1.node cur).x = (q1.node q1.end_node).x
              ∧ (q1.node cur).y = (q1.node q1.end_node).y
          · rw [if_pos hg]
            simp
          · rw [if_neg hg] at h ⊢
            have := ih _ x h
            simp only [Bool.false_eq_true, if_false, List.length_cons]
            omega
  obtain ⟨⟨r', hI1⟩, -, -, hgoal, -⟩ :=
    AStarSearch.loop_inv rt fuel _ _ pf res hI0 hloop
  refine ⟨fuel, pf, res, hloop, hlen _ _ _ hloop, ?_, ?_⟩
  · intro g hg
    obtain ⟨hglt, hgvis, -⟩ := hgoal g hg
    obtain ⟨k, hk⟩ := hI1.chain_ok g hglt hgvis
    obtain ⟨ids, d', hl, -, -⟩ :=
      ConstructFinalPath.loop_ids rt pf hk (k + 1) (Nat.lt_succ_self k) [] 0
    refine ⟨k, hk, ?_⟩
    unfold ConstructFinalPath
    rw [hl]
    exact ⟨_, rfl⟩
  · cases res with
    | none =>
      refine ⟨fuel, pf, ?_⟩
      unfold AStarSearch
      rw [hloop]
    | some g =>
      obtain ⟨fuel', p', -, h, -⟩ :=
        AStarSearch.goal_path rt p hfresh hwf hstart hopen fuel pf g hloop
      exact ⟨fuel', p', h⟩

/-- Witness for C30: the search from node 1 to node 2 of `straightRoad`. -/
theorem AStarSearch_terminates_and_chain_reaches_start_witness :
    ∃ (fuel : Nat) (pf : RoutePlanner ℚ) (res : Option Nat),
      AStarSearch.loop qRuntime fuel
          (AStarSearch.init (RoutePlanner.new qRuntime straightRoad 25 0 100 0))
        = some (pf, res)
      ∧ (AStarSearch.expanded qRuntime fuel
          (AStarSearch.init (RoutePlanner.new qRuntime straightRoad 25 0 100 0))).length < fuel
      ∧ (∀ g, res = some g → ∃ k, ReachesStart pf g k
          ∧ ∃ path, ConstructFinalPath qRuntime (k + 1) pf g = some path)
      ∧ ∃ (fuel' : Nat) (p' : RoutePlanner ℚ),
          AStarSearch qRuntime fuel' (RoutePlanner.new qRuntime straightRoad 25 0 100 0)
            = some p' :=
  AStarSearch_terminates_and_chain_reaches_start qRuntime
    (RoutePlanner.new qRuntime straightRoad 25 0 100 0)
    (by unfold RouteModel.Fresh; decide!) (WellFormed_of_ways _ (by decide!)) (by decide!) rfl

/-- C31 (code evaluated at a failing input): the line elements of
`emptyMemberDoc` are loaded as the segments 0 = `[0, 1]` and 1 = `[]`, and its
water relation has the outer members 0 and 1, both open (`is_closed` tests the
size before it reads the ends).  `Track` starts with member 0, whose two points
do not close a ring; the loop of `TrackRec` that looks for a continuation then
reads `front()` of the unused member 1, which has no point, before any further
call: the loop has no defined result whatever the recursive call does, and so
`TrackRec`, `Track`, `BuildRings` and `LoadData` have none, with any fuel. -/
theorem TrackRec_reads_front_of_empty_member :
    ((emptyMemberDoc.select_nodes "way").foldl (LoadData.way [("b", 1), ("a", 0)])
        ([], (Model.empty : Model ℚ))).2.m_Ways = [⟨[0, 1]⟩, ⟨[]⟩]
    ∧ (emptyMemberDoc.select_nodes "relation").map
        (fun r => outerMembers [("w", 1), ("v", 0)] r.children) = [[0, 1]]
    ∧ is_closed ⟨[]⟩ = false
    ∧ BuildRings.split [⟨[0, 1]⟩, ⟨[]⟩] [0, 1] [] [] = some ([], [0, 1])
    ∧ wayAt [⟨[0, 1]⟩, ⟨[]⟩] 1 = some ⟨[]⟩
    ∧ (∀ rec, TrackRec.extendLoop rec [0, 1] [⟨[0, 1]⟩, ⟨[]⟩] 1 [0, 1] [true, false] [0, 1]
        = none)
    ∧ (∀ fuel, TrackRec [0, 1] [⟨[0, 1]⟩, ⟨[]⟩] fuel [false, false] [] = none)
    ∧ Track [0, 1] [⟨[0, 1]⟩, ⟨[]⟩] = none
    ∧ (∀ reallocates, BuildRings reallocates [⟨[0, 1]⟩, ⟨[]⟩] ⟨[0, 1], []⟩ = none)
    ∧ (match LoadData qRuntime emptyMemberDoc with
        | .error e => some e
        | .ok _ => none) = some "BuildRings" := by
  refine ⟨by decide!, by decide!, by decide, by decide, by decide, fun rec => rfl, ?_,
    by decide, fun reallocates => rfl, by decide!⟩
  intro fuel
  cases fuel with
  | zero => rfl
  | succ f =>
    cases f with
    | zero => rfl
    | succ f => rfl

end RoutePlannerAStar
